import Mathlib

set_option maxRecDepth 100000

namespace calcprime

/-! ## Machine words

`std::uint64_t` values are natural numbers below `2 ^ 64`; the operations that can leave that
range in the source are written with an explicit reduction. -/

/-- Wrapping 64-bit addition. -/
def add64 (a b : Nat) : Nat := (a + b) % 2 ^ 64

/-- Wrapping 64-bit subtraction. -/
def sub64 (a b : Nat) : Nat := (a + (2 ^ 64 - b % 2 ^ 64)) % 2 ^ 64

/-- Wrapping 64-bit multiplication. -/
def mul64 (a b : Nat) : Nat := (a * b) % 2 ^ 64

/-- Wrapping 64-bit left shift. -/
def shl64 (a k : Nat) : Nat := (a <<< k) % 2 ^ 64

/-- Floor of the square root by binary digit search: `sqrtBits k n r` tries the bits
`k-1, ..., 0` on top of `r`. -/
def sqrtBits : Nat → Nat → Nat → Nat
  | 0, _, r => r
  | k + 1, n, r => sqrtBits k n (if (r + 2 ^ k) * (r + 2 ^ k) ≤ n then r + 2 ^ k else r)

/-- The value of `static_cast<std::uint64_t>(std::sqrt(static_cast<long double>(n)))`: the
64-bit argument is exact in the 64-bit mantissa, the square root is correctly rounded and
never reaches the next integer, so the cast yields the floor of the square root. -/
def floor_sqrt (n : Nat) : Nat := sqrtBits 33 n 0

/-! ## popcnt.cpp -/

/-- Population of the low `n` bits of `x`: what the hardware popcount instruction returns
for `n = 64`. -/
def popBits : Nat → Nat → Nat
  | 0, _ => 0
  | n + 1, x => x % 2 + popBits n (x / 2)

/-- The portable branch of `popcount_u64` (mask, shift, multiply). -/
def popcount_swar (x : Nat) : Nat :=
  let x1 := sub64 x ((x >>> 1) &&& 0x5555555555555555)
  let x2 := add64 (x1 &&& 0x3333333333333333) ((x1 >>> 2) &&& 0x3333333333333333)
  let x3 := (add64 x2 (x2 >>> 4)) &&& 0x0F0F0F0F0F0F0F0F
  (mul64 x3 0x0101010101010101) >>> 56

/-- `popcount_u64`: `builtin` selects the compiler intrinsic branch (`__popcnt64`,
`__builtin_popcountll`), otherwise the portable branch is taken. -/
def popcount_u64 (builtin : Bool) (x : Nat) : Nat :=
  if builtin then popBits 64 x else popcount_swar x

/-- The three bodies of `count_zero_bits` chosen by the preprocessor. -/
inductive SimdPath where
  | scalar
  | avx2
  | avx512
  deriving DecidableEq, Repr

/-- The nibble table `nibble_popcnt` of the AVX2 branch. -/
def nibble_popcnt : List Nat := [0, 1, 1, 2, 1, 2, 2, 3, 1, 2, 2, 3, 2, 3, 3, 4]

/-- One byte of the AVX2 branch: table lookups of the low and of the high nibble, added. -/
def avx2_byte (b : Nat) : Nat :=
  nibble_popcnt.getD (b &&& 0x0F) 0 + nibble_popcnt.getD ((b >>> 4) &&& 0x0F) 0

/-- One 64-bit lane of the AVX2 branch: `_mm256_sad_epu8` against zero adds the eight byte
counts of the lane. -/
def avx2_lane (w : Nat) : Nat :=
  ((List.range 8).map (fun k => avx2_byte ((w >>> (8 * k)) % 256))).sum

/-- Scalar loop `for(; i < full_words; ++i) total += 64 - popcount_u64(bits[i])`. -/
def zero_loop (builtin : Bool) (bits : List Nat) (full_words : Nat) :
    Nat → Nat → Nat → Nat
  | 0, _, total => total
  | fuel + 1, i, total =>
    if i < full_words then
      zero_loop builtin bits full_words fuel (i + 1)
        (add64 total (sub64 64 (popcount_u64 builtin (bits.getD i 0))))
    else total

/-- Scalar loop `for(; i < full_words; ++i) ones += popcount_u64(bits[i])`. -/
def ones_loop (builtin : Bool) (bits : List Nat) (full_words : Nat) :
    Nat → Nat → Nat → Nat
  | 0, _, ones => ones
  | fuel + 1, i, ones =>
    if i < full_words then
      ones_loop builtin bits full_words fuel (i + 1)
        (add64 ones (popcount_u64 builtin (bits.getD i 0)))
    else ones

/-- AVX-512 block loop: eight lanes per step, each lane counted by `_mm512_popcnt_epi64`;
returns the index reached and the running total. -/
def avx512_loop (bits : List Nat) (full_words : Nat) : Nat → Nat → Nat → Nat × Nat
  | 0, i, total => (i, total)
  | fuel + 1, i, total =>
    if i + 8 ≤ full_words then
      avx512_loop bits full_words fuel (i + 8)
        ((List.range 8).foldl
          (fun t j => add64 t (sub64 64 (popBits 64 (bits.getD (i + j) 0)))) total)
    else (i, total)

/-- AVX2 block loop: four lanes per step; returns the index reached and the ones so far. -/
def avx2_loop (bits : List Nat) (full_words : Nat) : Nat → Nat → Nat → Nat × Nat
  | 0, i, ones => (i, ones)
  | fuel + 1, i, ones =>
    if i + 4 ≤ full_words then
      avx2_loop bits full_words fuel (i + 4)
        (add64 ones
          (add64 (add64 (add64 (avx2_lane (bits.getD i 0)) (avx2_lane (bits.getD (i + 1) 0)))
            (avx2_lane (bits.getD (i + 2) 0))) (avx2_lane (bits.getD (i + 3) 0))))
    else (i, ones)

/-- The count over the full words of `count_zero_bits`, in the body the preprocessor
selects. -/
def count_full_words (path : SimdPath) (builtin : Bool) (bits : List Nat) (full_words : Nat) :
    Nat :=
  match path with
  | SimdPath.avx512 =>
    let r := avx512_loop bits full_words full_words 0 0
    zero_loop builtin bits full_words full_words r.1 r.2
  | SimdPath.avx2 =>
    let r := avx2_loop bits full_words full_words 0 0
    let ones := ones_loop builtin bits full_words full_words r.1 r.2
    add64 0 (sub64 (mul64 full_words 64) ones)
  | SimdPath.scalar => zero_loop builtin bits full_words full_words 0 0

/-- `count_zero_bits(bits, bit_count)`; a read past the end of `bits` yields `0`. -/
def count_zero_bits (path : SimdPath) (builtin : Bool) (bits : List Nat) (bit_count : Nat) :
    Nat :=
  let full_words := bit_count / 64
  let rem_bits := bit_count % 64
  let total := count_full_words path builtin bits full_words
  if rem_bits ≠ 0 then
    let mask := if rem_bits = 64 then 2 ^ 64 - 1 else sub64 (shl64 1 rem_bits) 1
    add64 total (sub64 rem_bits (popcount_u64 builtin (bits.getD full_words 0 &&& mask)))
  else total

/-! ## base_sieve.cpp -/

/-- The store `is_composite[j] = true`. The `std::vector<bool>` is kept as the natural
number whose binary digits are its bits. A bit at or past `size` reads `false` here; in the
source such a read is out of bounds, and `sieve_loop_checked` is the loop with the read
checked against `size`. -/
def vb_set (v j : Nat) : Nat := v ||| 2 ^ j

/-- The load `is_composite[i]`. -/
def vb_get (v i : Nat) : Bool := v.testBit i

/-- Inner loop `for(j = start; j < size; j += p) is_composite[j] = true`. -/
def mark_multiples (p size : Nat) : Nat → Nat → Nat → Nat
  | 0, _, v => v
  | fuel + 1, j, v =>
    if j < size then mark_multiples p size fuel (add64 j p) (vb_set v j) else v

/-- Outer loop `for(i = 1; i <= bound; ++i)` of `simple_sieve`; the read `is_composite[i]`
is not checked against `size` here (see `sieve_loop_checked`). -/
def sieve_loop (size bound : Nat) : Nat → Nat → Nat → Nat
  | 0, _, v => v
  | fuel + 1, i, v =>
    if i ≤ bound then
      sieve_loop size bound fuel (i + 1)
        (if !(vb_get v i) then
          mark_multiples (2 * i + 1) size size (mul64 (2 * i + 1) (2 * i + 1) / 2) v
        else v)
    else v

/-- Final loop `for(i = 1; i < size && 2*i+1 <= limit; ++i)`: the values pushed from index
`i` on, each cast to `std::uint32_t`. -/
def collect_primes (limit size v : Nat) : Nat → Nat → List Nat
  | 0, _ => []
  | fuel + 1, i =>
    if i < size ∧ 2 * i + 1 ≤ limit then
      if !(vb_get v i) then (2 * i + 1) % 2 ^ 32 :: collect_primes limit size v fuel (i + 1)
      else collect_primes limit size v fuel (i + 1)
    else []

/-- `simple_sieve(limit)`. -/
def simple_sieve (limit : Nat) : List Nat :=
  if limit < 2 then []
  else
    let root := floor_sqrt limit
    let max := Nat.max limit (root + 1)
    let size := add64 max 1 / 2
    let bound := (floor_sqrt max + 1) / 2
    let marked := sieve_loop size bound bound 1 0
    2 :: collect_primes limit size marked size 1

/-! ## prime_count.cpp: Meissel-Lehmer count -/

/-- The predicate `square_le` of `integer_sqrt`. -/
def square_le (n v : Nat) : Bool := if v = 0 then true else decide (v ≤ n / v)

/-- The predicate `cube_le` of `integer_cuberoot`. -/
def cube_le (n v : Nat) : Bool :=
  if v = 0 then true else if v > n / v then false else decide (v ≤ (n / v) / v)

/-- The predicate `fourth_le` of `integer_fourth_root`. -/
def fourth_le (n v : Nat) : Bool :=
  if v = 0 then true
  else if v > n / v then false
  else if v > (n / v) / v then false
  else decide (v ≤ ((n / v) / v) / v)

/-- Loop `while(le(root+1)) ++root;`. -/
def root_up (le : Nat → Bool) : Nat → Nat → Nat
  | 0, root => root
  | fuel + 1, root => if le (add64 root 1) then root_up le fuel (add64 root 1) else root

/-- Loop `while(!le(root)) --root;`. -/
def root_down (le : Nat → Bool) : Nat → Nat → Nat
  | 0, root => root
  | fuel + 1, root => if !(le root) then root_down le fuel (sub64 root 1) else root

/-- Floor of the cube root by binary digit search, the value of the cast of `std::cbrt`. -/
def cbrtBits : Nat → Nat → Nat → Nat
  | 0, _, r => r
  | k + 1, n, r =>
    cbrtBits k n (if (r + 2 ^ k) * (r + 2 ^ k) * (r + 2 ^ k) ≤ n then r + 2 ^ k else r)

/-- `integer_sqrt(n)`: floating point estimate, then the two correcting loops. -/
def integer_sqrt (n : Nat) : Nat :=
  root_down (square_le n) 4 (root_up (square_le n) 4 (floor_sqrt n))

/-- `integer_cuberoot(n)`. -/
def integer_cuberoot (n : Nat) : Nat :=
  root_down (cube_le n) 4 (root_up (cube_le n) 4 (cbrtBits 22 n 0))

/-- `integer_fourth_root(n)`. -/
def integer_fourth_root (n : Nat) : Nat :=
  if n = 0 then 0
  else root_down (fourth_le n) 4 (root_up (fourth_le n) 4 (integer_sqrt (integer_sqrt n)))

/-- `std::upper_bound(primes.begin(), primes.end(), x) - primes.begin()` on a sorted vector:
the length of the leading run of elements that are `<= x`. -/
def upper_bound (primes : List Nat) (x : Nat) : Nat :=
  (primes.takeWhile (fun p => decide (p ≤ x))).length

/-- The table of `small_pi` and `count_small_range`. -/
def small_primes_table : List Nat := [2, 3, 5, 7, 11, 13, 17, 19, 23, 29, 31, 37]

/-- `MeisselCalculator::small_pi(n)`, with the cast of `n` to 32 bits. -/
def small_pi (n : Nat) : Nat := upper_bound small_primes_table (n % 2 ^ 32)

/-- `MeisselCalculator::phi(x, s)`; the memo table only stores values this function
computes, so it is left out. `fuel` bounds the recursion depth (`s + 2` is enough). -/
def phi_fuel (primes : List Nat) : Nat → Nat → Nat → Nat
  | 0, _, _ => 0
  | fuel + 1, x, s =>
    if s = 0 then x
    else if s = 1 then (add64 x 1) >>> 1
    else if s > primes.length then phi_fuel primes fuel x primes.length
    else sub64 (phi_fuel primes fuel x (s - 1))
      (phi_fuel primes fuel (x / primes.getD (s - 1) 0) (s - 1))

/-- `MeisselCalculator::phi(x, s)`. -/
def phi (primes : List Nat) (x s : Nat) : Nat := phi_fuel primes (s + 2) x s

/-- Inner loop `for(j = i; j <= limit; ++j)` of `compute_range`; `rec` is `pi`. -/
def inner_sum (primes : List Nat) (rec : Nat → Nat) (w limit : Nat) :
    Nat → Nat → Nat → Nat
  | 0, _, subtotal => subtotal
  | fuel + 1, j, subtotal =>
    if j ≤ limit then
      if sub64 j 1 ≥ primes.length then subtotal
      else
        inner_sum primes rec w limit fuel (j + 1)
          (add64 subtotal (sub64 (rec (w / primes.getD (j - 1) 0)) (sub64 j 1)))
    else subtotal

/-- The lambda `compute_range(start, end)`; `rec` is `pi`. -/
def compute_range (primes : List Nat) (rec : Nat → Nat) (n c end_ : Nat) :
    Nat → Nat → Nat → Nat
  | 0, _, subtotal => subtotal
  | fuel + 1, i, subtotal =>
    if i < end_ then
      if sub64 i 1 ≥ primes.length then subtotal
      else
        let p := primes.getD (i - 1) 0
        let w := n / p
        let subtotal1 := add64 subtotal (rec w)
        let subtotal2 :=
          if i ≤ c then
            let limit := rec (integer_sqrt w)
            inner_sum primes rec w limit (limit + 1 - i) i subtotal1
          else subtotal1
        compute_range primes rec n c end_ fuel (i + 1) subtotal2
    else subtotal

/-- `MeisselCalculator::pi(n, 1)`. The result cache only stores values this function
computes, so it is left out; `fuel` bounds the depth of the recursion, whose arguments at
least halve (65 is enough for every 64-bit `n`). -/
def pi_fuel (primes : List Nat) : Nat → Nat → Nat
  | 0, _ => 0
  | fuel + 1, n =>
    if n < 2 then 0
    else if primes.isEmpty then small_pi n
    else if n ≤ primes.getLastD 0 then upper_bound primes (n % 2 ^ 32)
    else
      let rec_ := pi_fuel primes fuel
      let a := rec_ (integer_fourth_root n)
      let b := rec_ (integer_sqrt n)
      let c := rec_ (integer_cuberoot n)
      let result := phi primes n a
      let result1 :=
        if b + a ≥ 2 then add64 result (mul64 (b + a - 2) (add64 (sub64 b a) 1) / 2)
        else result
      let effective_b := Nat.min b primes.length
      let iteration_count := if effective_b > a then effective_b - a else 0
      if iteration_count > 0 then
        sub64 result1
          (compute_range primes rec_ n c (effective_b + 1) iteration_count (a + 1) 0)
      else result1

/-- `MeisselCalculator::pi(n, 1)`. -/
def pi (primes : List Nat) (n : Nat) : Nat := pi_fuel primes 65 n

/-- `count_small_range(from, to)`. -/
def count_small_range (from_ to_ : Nat) : Nat :=
  let count_up_to := fun bound : Nat => if bound < 2 then 0 else small_pi bound
  let upper := if to_ = 0 then 0 else count_up_to (to_ - 1)
  let lower := if from_ = 0 then 0 else count_up_to (from_ - 1)
  if upper ≥ lower then upper - lower else 0

/-- `meissel_count(from, to, primes, 1)`. -/
def meissel_count (from_ to_ : Nat) (primes : List Nat) : Nat :=
  if to_ ≤ from_ then 0
  else if primes.isEmpty then count_small_range from_ to_
  else
    let upper := pi primes (to_ - 1)
    let lower := if from_ = 0 then 0 else pi primes (from_ - 1)
    if upper ≥ lower then upper - lower else 0

/-- `calcprime_meissel_count(from, to, 1)`: the sieving primes are those up to
`floor(sqrt(to)) + 1`. -/
def calcprime_meissel_count (from_ to_ : Nat) : Nat :=
  let sqrt_limit := if to_ > 1 then floor_sqrt to_ + 1 else 0
  meissel_count from_ to_ (simple_sieve sqrt_limit)

/-! ## prime_count.cpp: Miller-Rabin -/

/-- `mul_mod(a, b, mod)`: the doubling loop in 64-bit wrapping arithmetic. -/
def mul_mod_loop (m : Nat) : Nat → Nat → Nat → Nat → Nat
  | 0, _, _, result => result
  | fuel + 1, a, b, result =>
    if b > 0 then
      mul_mod_loop m fuel (shl64 a 1 % m) (b >>> 1)
        (if b &&& 1 ≠ 0 then add64 result a % m else result)
    else result

/-- `mul_mod(a, b, mod)`. -/
def mul_mod (a b m : Nat) : Nat := mul_mod_loop m 64 a b 0

/-- The loop of `mod_pow`. -/
def mod_pow_loop (m : Nat) : Nat → Nat → Nat → Nat → Nat
  | 0, _, _, result => result
  | fuel + 1, b, exp, result =>
    if exp > 0 then
      mod_pow_loop m fuel (mul_mod b b m) (exp >>> 1)
        (if exp &&& 1 ≠ 0 then mul_mod result b m else result)
    else result

/-- `mod_pow(base, exp, mod)`. -/
def mod_pow (base exp m : Nat) : Nat := mod_pow_loop m 64 (base % m) exp (1 % m)

/-- The squaring loop `for(i = 1; i < r; ++i)` of `check_composite`: `true` when the
loop runs out without meeting `n - 1`. -/
def check_loop (n : Nat) : Nat → Nat → Bool
  | 0, _ => true
  | k + 1, x =>
    let x1 := mul_mod x x n
    if x1 = n - 1 then false else check_loop n k x1

/-- `check_composite(n, a, d, r)`. -/
def check_composite (n a d r : Nat) : Bool :=
  let x := mod_pow a d n
  if x = 1 ∨ x = n - 1 then false else check_loop n (r - 1) x

/-- The loop `while((d & 1) == 0) { d >>= 1; ++r; }`, returning `(d, r)`. -/
def split_twos : Nat → Nat → Nat → Nat × Nat
  | 0, d, r => (d, r)
  | fuel + 1, d, r => if d &&& 1 = 0 then split_twos fuel (d >>> 1) (r + 1) else (d, r)

/-- The trial loop over the twelve small primes: `some true` when `n` is one of them,
`some false` when one of them divides `n`, `none` when the loop falls through. -/
def small_trial (n : Nat) : List Nat → Option Bool
  | [] => none
  | p :: ps => if n = p then some true else if n % p = 0 then some false else small_trial n ps

/-- The witness loop over `bases`. -/
def witness_loop (n d r : Nat) : List Nat → Bool
  | [] => true
  | a :: as =>
    if a % n = 0 then witness_loop n d r as
    else if check_composite n a d r then false
    else witness_loop n d r as

/-- `miller_rabin_is_prime(n)`. -/
def miller_rabin_is_prime (n : Nat) : Bool :=
  if n < 2 then false
  else
    match small_trial n small_primes_table with
    | some b => b
    | none =>
      let dr := split_twos 64 (n - 1) 0
      witness_loop n dr.1 dr.2 small_primes_table

/-! ## Bit buffers

A sieve buffer is the list of its 64-bit words. Writes are total: a store to a word past
the end of the buffer is dropped, a load past the end reads `0`. -/

/-- The store `bits[w] |= mask`. -/
def or_word : List Nat → Nat → Nat → List Nat
  | [], _, _ => []
  | x :: xs, 0, mask => (x ||| mask) :: xs
  | x :: xs, w + 1, mask => x :: or_word xs w mask

/-- The store `bits[w] &= mask`. -/
def and_word : List Nat → Nat → Nat → List Nat
  | [], _, _ => []
  | x :: xs, 0, mask => (x &&& mask) :: xs
  | x :: xs, w + 1, mask => x :: and_word xs w mask

/-- The store `bits[idx / 64] |= 1ULL << (idx % 64)`. -/
def set_bit (bits : List Nat) (idx : Nat) : List Nat :=
  or_word bits (idx / 64) (shl64 1 (idx % 64))

/-- Bit `idx` of the buffer. -/
def get_bit (bits : List Nat) (idx : Nat) : Bool :=
  (bits.getD (idx / 64) 0).testBit (idx % 64)

/-- `words_for_bits(bits)`. -/
def words_for_bits (bits : Nat) : Nat := add64 bits 63 / 64

/-! ## wheel.cpp -/

/-- `WheelType`. -/
inductive WheelType where
  | Mod30
  | Mod210
  | Mod1155
  deriving DecidableEq, Repr

/-- `SmallPrimePattern`. -/
structure SmallPrimePattern where
  prime : Nat
  phase_count : Nat
  word_stride : Nat
  masks : List Nat
  next_phase : List Nat
  start_phase : List Nat
  deriving DecidableEq, Repr

/-- `Wheel`. -/
structure Wheel where
  type : WheelType
  modulus : Nat
  allowed : List Nat
  residues : List Nat
  steps : List Nat
  small_patterns : List SmallPrimePattern
  deriving DecidableEq, Repr

/-- The loop `while(twice >= prime) twice -= prime;`. -/
def reduce_twice (prime : Nat) : Nat → Nat → Nat
  | 0, twice => twice
  | fuel + 1, twice => if twice ≥ prime then reduce_twice prime fuel (twice - prime) else twice

/-- The entry `start_phase[bit]` computed by `build_small_pattern`. -/
def start_phase_entry (prime bit : Nat) : Nat :=
  let twice := reduce_twice prime 128 ((bit <<< 1) % 2 ^ 32)
  let phase := prime - twice
  (if phase = prime then 0 else phase) % 256

/-- The loop `while(offset < 64) { mask |= 1ULL << offset; offset += prime; }`. -/
def mask_loop (prime : Nat) : Nat → Nat → Nat → Nat
  | 0, _, mask => mask
  | fuel + 1, offset, mask =>
    if offset < 64 then mask_loop prime fuel (offset + prime) (mask ||| shl64 1 offset)
    else mask

/-- The entry `masks[residue]` computed by `build_small_pattern`. -/
def mask_entry (prime residue : Nat) : Nat :=
  let inv2 := (prime + 1) / 2
  let offset := ((prime - residue) % prime * inv2 % prime) % 2 ^ 32
  mask_loop prime 64 offset 0

/-- `build_small_pattern(prime)`. -/
def build_small_pattern (prime : Nat) : SmallPrimePattern :=
  let word_stride := 128 % prime
  { prime := prime
    phase_count := prime
    word_stride := word_stride
    masks := (List.range prime).map (mask_entry prime)
    next_phase := (List.range prime).map (fun residue => (residue + word_stride) % prime)
    start_phase := (List.range 64).map (start_phase_entry prime) }

/-- The table `kSmallPrimes`. -/
def kSmallPrimes : List Nat := [3, 5, 7, 11, 13, 17, 19, 23, 29, 31, 37, 41, 43, 47]

/-- The small-prime limit of a wheel (the `switch` of `build_wheel`, repeated by the
runner). -/
def small_limit_of (type : WheelType) : Nat :=
  match type with
  | WheelType.Mod30 => 29
  | WheelType.Mod210 => 47
  | WheelType.Mod1155 => 47

/-- The step table of `build_wheel`. -/
def wheel_steps (modulus : Nat) (residues : List Nat) : List Nat :=
  (List.range residues.length).map (fun i =>
    let a := residues.getD i 0
    let b := residues.getD ((i + 1) % residues.length) 0
    let step := (b + modulus - a) % modulus
    (if step = 0 then modulus else step) % 2 ^ 16)

/-- `build_wheel(modulus, type)`. -/
def build_wheel (modulus : Nat) (type : WheelType) : Wheel :=
  let residues :=
    ((List.range modulus).filter (fun r => Nat.gcd r modulus = 1)).map (fun r => r % 2 ^ 16)
  { type := type
    modulus := modulus
    allowed := (List.range modulus).map (fun r => if Nat.gcd r modulus = 1 then 1 else 0)
    residues := residues
    steps := wheel_steps modulus residues
    small_patterns :=
      (kSmallPrimes.takeWhile (fun p => decide (p ≤ small_limit_of type))).map
        build_small_pattern }

/-- `get_wheel(type)`. -/
def get_wheel (type : WheelType) : Wheel :=
  match type with
  | WheelType.Mod30 => build_wheel 30 WheelType.Mod30
  | WheelType.Mod210 => build_wheel 210 WheelType.Mod210
  | WheelType.Mod1155 => build_wheel 1155 WheelType.Mod1155

/-- The loop of `Wheel::apply_presieve`. -/
def presieve_loop (w : Wheel) (bit_count : Nat) : Nat → Nat → Nat → List Nat → List Nat
  | 0, _, _, bits => bits
  | fuel + 1, idx, rem, bits =>
    if idx < bit_count then
      presieve_loop w bit_count fuel (idx + 1)
        (if rem + 2 ≥ w.modulus then rem + 2 - w.modulus else rem + 2)
        (if w.allowed.getD rem 0 = 0 then set_bit bits idx else bits)
    else bits

/-- `Wheel::apply_presieve(start_value, bit_count, bits)`. -/
def apply_presieve (w : Wheel) (start_value bit_count : Nat) (bits : List Nat) : List Nat :=
  if w.allowed.isEmpty then bits
  else presieve_loop w bit_count bit_count 0 (start_value % w.modulus) bits

/-! ## segmenter.cpp -/

/-- `SegmentConfig`. -/
structure SegmentConfig where
  segment_bytes : Nat
  tile_bytes : Nat
  segment_bits : Nat
  tile_bits : Nat
  segment_span : Nat
  tile_span : Nat
  deriving DecidableEq, Repr

/-- `align_to(value, alignment)` on `std::size_t`. -/
def align_to (value alignment : Nat) : Nat :=
  if alignment = 0 then value
  else
    let remainder := value % alignment
    if remainder = 0 then value
    else
      let add := alignment - remainder
      if value > 2 ^ 64 - 1 - add then 2 ^ 64 - 1 - (2 ^ 64 - 1) % alignment
      else value + add

/-- The part of `choose_segment_config` after the segment size has been chosen: `chosen`
is `requested_segment_bytes` when that is non-zero, and otherwise the size the floating
point heuristic arrives at (before the final alignment); `cap_limit_bytes` is the cap of
the heuristic, `0` on the requested path; `l1` is the L1 data cache size in use. -/
def finish_segment_config (chosen cap_limit_bytes requested_tile_bytes l1 : Nat) :
    SegmentConfig :=
  let segment_bytes0 := align_to chosen 128
  let segment_bytes1 :=
    if cap_limit_bytes ≠ 0 then
      let cap_aligned0 := if cap_limit_bytes = 0 then 0 else cap_limit_bytes - cap_limit_bytes % 128
      let cap_aligned := if cap_aligned0 = 0 ∧ cap_limit_bytes ≠ 0 then cap_limit_bytes else cap_aligned0
      if cap_aligned ≠ 0 ∧ segment_bytes0 > cap_aligned then cap_aligned else segment_bytes0
    else segment_bytes0
  let segment_bytes := if segment_bytes1 < 8 * 1024 then 8 * 1024 else segment_bytes1
  let tile_bytes0 :=
    if requested_tile_bytes = 0 then align_to (Nat.max l1 (8 * 1024)) 128
    else align_to requested_tile_bytes 128
  let tile_bytes := Nat.min tile_bytes0 segment_bytes
  { segment_bytes := segment_bytes
    tile_bytes := tile_bytes
    segment_bits := mul64 segment_bytes 8
    tile_bits := mul64 tile_bytes 8
    segment_span := mul64 (mul64 segment_bytes 8) 2
    tile_span := mul64 (mul64 tile_bytes 8) 2 }

/-- `choose_segment_config` on the integer path, where both sizes are requested. -/
def choose_segment_config_requested (requested_segment_bytes requested_tile_bytes : Nat) :
    SegmentConfig :=
  finish_segment_config (align_to requested_segment_bytes 128) 0 requested_tile_bytes 0

/-- `SieveRange`. -/
structure SieveRange where
  begin_ : Nat
  end_ : Nat
  deriving DecidableEq, Repr

/-- `SegmentWorkQueue::next` for the ticket `idx` drawn from the atomic counter:
`some (segment_id, segment_low, segment_high)` when it returns `true`. -/
def queue_next (range : SieveRange) (config : SegmentConfig) (idx : Nat) :
    Option (Nat × Nat × Nat) :=
  let length := if range.end_ > range.begin_ then range.end_ - range.begin_ else 0
  let span := config.segment_span
  let offset := mul64 idx span
  if span ≠ 0 ∧ offset / span ≠ idx then none
  else if offset ≥ length then none
  else
    let segment_low := add64 range.begin_ offset
    let remaining := length - offset
    let span_length := if span > remaining then remaining else span
    let segment_high := add64 (add64 range.begin_ offset) span_length
    if segment_low < segment_high then some (idx, segment_low, segment_high) else none

/-! ## bucket.cpp -/

/-- `LargePrimeState`. -/
structure LargePrimeState where
  prime : Nat
  next_value : Nat
  stride : Nat
  deriving DecidableEq, Repr

/-- `BucketEntry`; the back pointer `owner` is the index of the owning state in the
worker's `large_states` (`none` for a null pointer). -/
structure BucketEntry where
  prime : Nat
  next_index : Nat
  offset : Nat
  value : Nat
  owner : Option Nat
  deriving DecidableEq, Repr

/-- `BucketRing`. -/
structure BucketRing where
  base_segment : Nat
  mask : Nat
  buckets : List (List BucketEntry)
  deriving DecidableEq, Repr

/-- Appends `entry` to slot `slot` (`buckets_[slot].push_back(entry)`). -/
def slot_push : List (List BucketEntry) → Nat → BucketEntry → List (List BucketEntry)
  | [], _, _ => []
  | b :: bs, 0, e => (b ++ [e]) :: bs
  | b :: bs, slot + 1, e => b :: slot_push bs slot e

/-- Replaces slot `slot` by `b`. -/
def slot_set : List (List BucketEntry) → Nat → List BucketEntry → List (List BucketEntry)
  | [], _, _ => []
  | _ :: bs, 0, b => b :: bs
  | x :: bs, slot + 1, b => x :: slot_set bs slot b

/-- `BucketRing::reset(start_segment)`. -/
def BucketRing.reset (start_segment : Nat) : BucketRing :=
  { base_segment := start_segment, mask := 0, buckets := [] }

/-- The loop `while(pow2 < new_size) pow2 <<= 1;` of `rehash`. -/
def pow2_loop (new_size : Nat) : Nat → Nat → Nat
  | 0, pow2 => pow2
  | fuel + 1, pow2 => if pow2 < new_size then pow2_loop new_size fuel (shl64 pow2 1) else pow2

/-- `BucketRing::rehash(new_size)`. -/
def BucketRing.rehash (ring : BucketRing) (new_size : Nat) : BucketRing :=
  let size := if new_size &&& (sub64 new_size 1) ≠ 0 then pow2_loop new_size 64 1 else new_size
  let new_mask := sub64 size 1
  let new_buckets :=
    ring.buckets.foldl
      (fun acc bucket => bucket.foldl (fun acc2 e => slot_push acc2 (e.next_index &&& new_mask) e) acc)
      (List.replicate size [])
  { base_segment := ring.base_segment, mask := new_mask, buckets := new_buckets }

/-- The loop `while((segment - base_segment_) > mask_) rehash(buckets_.size() * 2);`. -/
def grow_loop (segment : Nat) : Nat → BucketRing → BucketRing
  | 0, ring => ring
  | fuel + 1, ring =>
    if sub64 segment ring.base_segment > ring.mask then
      grow_loop segment fuel (ring.rehash (mul64 ring.buckets.length 2))
    else ring

/-- `BucketRing::ensure_capacity(segment)`. -/
def BucketRing.ensure_capacity (ring : BucketRing) (segment : Nat) : BucketRing :=
  if segment < ring.base_segment then ring
  else if ring.buckets.isEmpty then
    { ring with buckets := List.replicate 1024 [], mask := 1023 }
  else grow_loop segment 64 ring

/-- `BucketRing::push(segment, entry)`. -/
def BucketRing.push (ring : BucketRing) (segment : Nat) (entry : BucketEntry) : BucketRing :=
  let r1 := ring.ensure_capacity segment
  let r2 :=
    if r1.buckets.isEmpty then { r1 with buckets := List.replicate 1024 [], mask := 1023 }
    else r1
  { r2 with buckets := slot_push r2.buckets (segment &&& r2.mask) entry }

/-- `BucketRing::take(segment)`: the ring afterwards and the hits. `std::partition` leaves
the order inside both halves open; here both keep the stored order. -/
def BucketRing.take (ring : BucketRing) (segment : Nat) : BucketRing × List BucketEntry :=
  let r1 := ring.ensure_capacity segment
  if r1.buckets.isEmpty then (r1, [])
  else
    let bucket := r1.buckets.getD (segment &&& r1.mask) []
    let kept := bucket.filter (fun e => decide (e.next_index ≠ segment))
    let hits := bucket.filter (fun e => decide (e.next_index = segment))
    let r2 : BucketRing := { r1 with buckets := slot_set r1.buckets (segment &&& r1.mask) kept }
    let r3 : BucketRing :=
      if segment ≥ r2.base_segment then { r2 with base_segment := add64 segment 1 } else r2
    (r3, hits)

/-! ## marker.cpp -/

/-- `TileView`; `word_ptr` is kept as the index `word_base` of its first word in the
segment buffer. -/
structure TileView where
  start_value : Nat
  bit_offset : Nat
  bit_count : Nat
  word_base : Nat
  word_count : Nat
  deriving DecidableEq, Repr

/-- `PrimeMarker::ThreadState`. -/
structure ThreadState where
  bucket : BucketRing
  small_positions : List Nat
  large_states : List LargePrimeState
  medium_positions : List Nat
  deriving DecidableEq, Repr

/-- The data members of `PrimeMarker`. -/
structure PrimeMarker where
  wheel : Wheel
  config : SegmentConfig
  range_begin : Nat
  range_end : Nat
  small_primes : List Nat
  small_initial : List Nat
  small_prime_patterns : List (Option SmallPrimePattern)
  medium_primes : List Nat
  medium_initial : List Nat
  large_primes_template : List LargePrimeState
  deriving DecidableEq, Repr

/-- `find_small_pattern(wheel, prime)`. -/
def find_small_pattern (wheel : Wheel) (prime : Nat) : Option SmallPrimePattern :=
  wheel.small_patterns.find? (fun pattern => decide (pattern.prime = prime))

/-- `PrimeMarker::first_hit(prime, start)`. -/
def first_hit (prime start : Nat) : Nat :=
  let begin0 := mul64 prime prime
  let begin1 := if begin0 < start then start else begin0
  let remainder := begin1 % prime
  let begin2 := if remainder ≠ 0 then add64 begin1 (prime - remainder) else begin1
  if begin2 &&& 1 = 0 then add64 begin2 prime else begin2

/-- The constructor loop of `PrimeMarker` over the sieving primes. -/
def classify_primes (wheel : Wheel) (config : SegmentConfig) (range_begin : Nat)
    (small_prime_limit : Nat) : List Nat → PrimeMarker → PrimeMarker
  | [], m => m
  | prime :: rest, m =>
    let large_threshold := config.segment_span / 2
    if prime < 2 then classify_primes wheel config range_begin small_prime_limit rest m
    else if prime = 2 then classify_primes wheel config range_begin small_prime_limit rest m
    else if prime ≤ small_prime_limit then
      classify_primes wheel config range_begin small_prime_limit rest
        { m with
          small_primes := m.small_primes ++ [prime]
          small_initial := m.small_initial ++ [first_hit prime range_begin]
          small_prime_patterns := m.small_prime_patterns ++ [find_small_pattern wheel prime] }
    else if prime ≤ large_threshold then
      classify_primes wheel config range_begin small_prime_limit rest
        { m with
          medium_primes := m.medium_primes ++ [prime]
          medium_initial := m.medium_initial ++ [first_hit prime range_begin] }
    else
      classify_primes wheel config range_begin small_prime_limit rest
        { m with
          large_primes_template := m.large_primes_template ++
            [{ prime := prime, stride := mul64 prime 2,
               next_value := first_hit prime range_begin }] }

/-- `PrimeMarker::PrimeMarker(wheel, config, range_begin, range_end, primes,
small_prime_limit)`. -/
def PrimeMarker.mk_marker (wheel : Wheel) (config : SegmentConfig) (range_begin range_end : Nat)
    (primes : List Nat) (small_prime_limit : Nat) : PrimeMarker :=
  classify_primes wheel config range_begin small_prime_limit primes
    { wheel := wheel, config := config, range_begin := range_begin, range_end := range_end
      small_primes := [], small_initial := [], small_prime_patterns := []
      medium_primes := [], medium_initial := [], large_primes_template := [] }

/-- The bucket entry pushed for a large prime whose next hit is `value`, together with its
segment: the common tail of `make_thread_state` and `apply_large_primes`. -/
def schedule_entry (m : PrimeMarker) (prime value : Nat) (owner : Option Nat) :
    Nat × BucketEntry :=
  let segment := sub64 value m.range_begin / m.config.segment_span
  let base0 := add64 m.range_begin (mul64 segment m.config.segment_span)
  let base := if base0 &&& 1 = 0 then add64 base0 1 else base0
  let offset := sub64 value base >>> 1
  (segment, { prime := prime, next_index := segment, offset := offset, value := value,
              owner := owner })

/-- The second loop of `make_thread_state` over the template, from index `i` on. -/
def thread_state_loop (m : PrimeMarker) (thread_index thread_count : Nat) :
    List LargePrimeState → Nat → ThreadState → ThreadState
  | [], _, state => state
  | lp :: rest, i, state =>
    if i % thread_count ≠ thread_index then
      thread_state_loop m thread_index thread_count rest (i + 1) state
    else
      let owner := state.large_states.length
      let state1 := { state with large_states := state.large_states ++ [lp] }
      if lp.next_value ≥ m.range_end then
        thread_state_loop m thread_index thread_count rest (i + 1) state1
      else
        let se := schedule_entry m lp.prime lp.next_value (some owner)
        thread_state_loop m thread_index thread_count rest (i + 1)
          { state1 with bucket := state1.bucket.push se.1 se.2 }

/-- `PrimeMarker::make_thread_state(thread_index, thread_count)`. -/
def make_thread_state (m : PrimeMarker) (thread_index thread_count : Nat) : ThreadState :=
  thread_state_loop m thread_index thread_count m.large_primes_template 0
    { bucket := BucketRing.reset 0
      small_positions := m.small_initial
      medium_positions := m.medium_initial
      large_states := [] }

/-- The cursor advance `if(pos < target) pos += ((target - pos + step - 1) / step) * step`. -/
def advance_to (pos target step : Nat) : Nat :=
  if pos < target then
    add64 pos (mul64 (sub64 (add64 (sub64 target pos) step) 1 / step) step)
  else pos

/-- The loop `for(++word_ptr; word_ptr < word_end; ++word_ptr)` of the pattern path: ORs
`masks[phase]` into the tile words `w, w+1, ...` and steps the phase. -/
def pattern_words (pattern : SmallPrimePattern) (tile : TileView) :
    Nat → Nat → Nat → List Nat → List Nat
  | 0, _, _, bits => bits
  | fuel + 1, w, phase, bits =>
    if w < tile.word_count then
      pattern_words pattern tile fuel (w + 1) (pattern.next_phase.getD phase 0)
        (or_word bits (tile.word_base + w) (pattern.masks.getD phase 0))
    else bits

/-- The scalar marking loop `while(pos < tile_end) { set bit; pos += step; }`, returning
the buffer and the cursor. -/
def scalar_marks (tile : TileView) (tile_end step : Nat) :
    Nat → Nat → List Nat → List Nat × Nat
  | 0, pos, bits => (bits, pos)
  | fuel + 1, pos, bits =>
    if pos < tile_end then
      let bit_index := sub64 pos tile.start_value >>> 1
      scalar_marks tile tile_end step fuel (add64 pos step)
        (or_word bits (tile.word_base + bit_index / 64) (shl64 1 (bit_index % 64)))
    else (bits, pos)

/-- The body of the loop of `apply_small_primes` for one small prime with cursor `pos0`:
the buffer and the new cursor. -/
def small_prime_step (tile : TileView) (prime : Nat) (pattern : Option SmallPrimePattern)
    (pos0 : Nat) (bits : List Nat) : List Nat × Nat :=
  let tile_end := add64 tile.start_value (mul64 tile.bit_count 2)
  let step := mul64 prime 2
  let pos := advance_to pos0 tile.start_value step
  if pos ≥ tile_end then (bits, pos)
  else
    match pattern with
    | some pat =>
      let bit_index := sub64 pos tile.start_value >>> 1
      let word_index := bit_index / 64
      let bits1 :=
        if word_index < tile.word_count then
          let bit_in_word := bit_index % 64
          let phase := pat.start_phase.getD bit_in_word 0
          let mask0 := pat.masks.getD phase 0
          let mask := if bit_in_word ≠ 0 then mask0 &&& shl64 (2 ^ 64 - 1) bit_in_word else mask0
          pattern_words pat tile tile.word_count (word_index + 1) (pat.next_phase.getD phase 0)
            (or_word bits (tile.word_base + word_index) mask)
        else bits
      let delta := sub64 tile_end pos
      let skip := sub64 (add64 delta step) 1 / step
      (bits1, add64 pos (mul64 skip step))
    | none => scalar_marks tile tile_end step (tile.bit_count + 1) pos bits

/-- The loop of `apply_small_primes` over the small primes. -/
def small_primes_loop (tile : TileView) :
    List Nat → List (Option SmallPrimePattern) → List Nat → List Nat → List Nat × List Nat
  | prime :: primes, pattern :: patterns, pos :: positions, bits =>
    let r := small_prime_step tile prime pattern pos bits
    let rest := small_primes_loop tile primes patterns positions r.1
    (rest.1, r.2 :: rest.2)
  | _, _, positions, bits => (bits, positions)

/-- `PrimeMarker::apply_small_primes(state, tile)`: the buffer and the small cursors. -/
def apply_small_primes (m : PrimeMarker) (small_positions : List Nat) (tile : TileView)
    (bits : List Nat) : List Nat × List Nat :=
  if tile.bit_count = 0 then (bits, small_positions)
  else small_primes_loop tile m.small_primes m.small_prime_patterns small_positions bits

/-- The body of the loop of `apply_medium_primes` for one medium prime. -/
def medium_prime_step (tile : TileView) (prime : Nat) (pos0 : Nat) (bits : List Nat) :
    List Nat × Nat :=
  let tile_end := add64 tile.start_value (mul64 tile.bit_count 2)
  let step := mul64 prime 2
  let pos := advance_to pos0 tile.start_value step
  scalar_marks tile tile_end step (tile.bit_count + 1) pos bits

/-- The loop of `apply_medium_primes` over the medium primes. -/
def medium_primes_loop (tile : TileView) :
    List Nat → List Nat → List Nat → List Nat × List Nat
  | prime :: primes, pos :: positions, bits =>
    let r := medium_prime_step tile prime pos bits
    let rest := medium_primes_loop tile primes positions r.1
    (rest.1, r.2 :: rest.2)
  | _, positions, bits => (bits, positions)

/-- `PrimeMarker::apply_medium_primes(state, tile, segment_index)`. -/
def apply_medium_primes (m : PrimeMarker) (medium_positions : List Nat) (tile : TileView)
    (bits : List Nat) : List Nat × List Nat :=
  if tile.bit_count = 0 then (bits, medium_positions)
  else medium_primes_loop tile m.medium_primes medium_positions bits

/-- Sets `next_value` of the large state at index `i`. -/
def set_next_value : List LargePrimeState → Nat → Nat → List LargePrimeState
  | [], _, _ => []
  | lp :: rest, 0, v => { lp with next_value := v } :: rest
  | lp :: rest, i + 1, v => lp :: set_next_value rest i v

/-- The loop of `apply_large_primes` over the hits taken from the bucket. -/
def large_hits_loop (m : PrimeMarker) (segment_low segment_high : Nat) :
    List BucketEntry → BucketRing → List LargePrimeState → List Nat →
      BucketRing × List LargePrimeState × List Nat
  | [], ring, large, bits => (ring, large, bits)
  | entry :: hits, ring, large, bits =>
    let bits1 :=
      if entry.value ≥ segment_low ∧ entry.value < segment_high then
        set_bit bits (sub64 entry.value segment_low >>> 1)
      else bits
    match entry.owner with
    | none => large_hits_loop m segment_low segment_high hits ring large bits1
    | some o =>
      let owner := large.getD o { prime := 0, next_value := 0, stride := 0 }
      let next := add64 entry.value owner.stride
      let large1 := set_next_value large o next
      if next ≥ m.range_end then
        large_hits_loop m segment_low segment_high hits ring large1 bits1
      else
        let se := schedule_entry m owner.prime next (some o)
        large_hits_loop m segment_low segment_high hits (ring.push se.1 se.2) large1 bits1

/-- `PrimeMarker::apply_large_primes(state, segment_id, segment_low, segment_high,
bitset)`. -/
def apply_large_primes (m : PrimeMarker) (state : ThreadState)
    (segment_id segment_low segment_high : Nat) (bits : List Nat) : ThreadState × List Nat :=
  let t := state.bucket.take segment_id
  let r := large_hits_loop m segment_low segment_high t.2 t.1 state.large_states bits
  ({ state with bucket := r.1, large_states := r.2.1 }, r.2.2)

/-- The tile loop `while(tile_low < segment_high)` of `sieve_segment`. -/
def tile_loop (m : PrimeMarker) (segment_high : Nat) :
    Nat → Nat → Nat → ThreadState → List Nat → ThreadState × List Nat
  | 0, _, _, state, bits => (state, bits)
  | fuel + 1, tile_low, bit_offset, state, bits =>
    if tile_low < segment_high then
      let tile_high := Nat.min segment_high (add64 tile_low m.config.tile_span)
      let tile_bits := sub64 tile_high tile_low >>> 1
      let tile_words := words_for_bits tile_bits
      let tile : TileView :=
        { start_value := tile_low, bit_offset := bit_offset, bit_count := tile_bits
          word_base := bit_offset / 64, word_count := tile_words }
      let s := apply_small_primes m state.small_positions tile bits
      let md := apply_medium_primes m state.medium_positions tile s.1
      let bits2 :=
        if tile_bits % 64 ≠ 0 ∧ tile_words > 0 then
          and_word md.1 (tile.word_base + (tile_words - 1)) (sub64 (shl64 1 (tile_bits % 64)) 1)
        else md.1
      tile_loop m segment_high fuel tile_high (add64 bit_offset tile_bits)
        { state with small_positions := s.2, medium_positions := md.2 } bits2
    else (state, bits)

/-- The closing cursor loops of `sieve_segment`: every cursor below `segment_end` moves to
its first hit at or after it. -/
def advance_cursors (segment_end : Nat) : List Nat → List Nat → List Nat
  | prime :: primes, pos :: positions =>
    advance_to pos segment_end (mul64 prime 2) :: advance_cursors segment_end primes positions
  | _, positions => positions

/-- `PrimeMarker::sieve_segment(state, segment_id, segment_low, segment_high, bitset)`:
the worker state afterwards and the buffer. -/
def sieve_segment (m : PrimeMarker) (state : ThreadState)
    (segment_id segment_low segment_high : Nat) : ThreadState × List Nat :=
  if segment_high ≤ segment_low then (state, [])
  else
    let bit_count := (segment_high - segment_low) >>> 1
    if bit_count = 0 then (state, [])
    else
      let word_count := words_for_bits bit_count
      let bits0 := List.replicate word_count 0
      let bits1 := apply_presieve m.wheel segment_low bit_count bits0
      let lg := apply_large_primes m state segment_id segment_low segment_high bits1
      let tl := tile_loop m segment_high
        ((segment_high - segment_low) / m.config.tile_span + 1) segment_low 0 lg.1 lg.2
      let st := tl.1
      ({ st with
          medium_positions := advance_cursors segment_high m.medium_primes st.medium_positions
          small_positions := advance_cursors segment_high m.small_primes st.small_positions },
        tl.2)

/-! ## api.cpp: the range runner -/

/-- The preprocessor choices that reach `count_zero_bits`. -/
structure Build where
  path : SimdPath
  builtin : Bool
  deriving DecidableEq, Repr

/-- `calcprime_status`. -/
inductive Status where
  | SUCCESS
  | INVALID_ARGUMENT
  | CANCELLED
  | IO_ERROR
  | INTERNAL_ERROR
  deriving DecidableEq, Repr

/-- `FailureKind`. -/
inductive FailureKind where
  | None
  | Writer
  | PrimeCallback
  | Progress
  deriving DecidableEq, Repr

/-- The fields of `calcprime_range_options` that steer the computation. The three sinks of
a prime delivery are the flags `collect_primes`, `write_to_file` and `has_prime_callback`
(`prime_callback != nullptr`); every sink is handed the same chunks, and the writer and the
callback are taken to accept them. The progress callback and the cancel token are absent.
`threads` is the effective worker count. -/
structure RangeOptions where
  from_ : Nat
  to_ : Nat
  threads : Nat
  wheel : WheelType
  nth_index : Nat
  collect_primes : Bool
  use_meissel : Bool
  write_to_file : Bool := false
  has_prime_callback : Bool := false
  deriving DecidableEq, Repr

/-- The flag `need_prime_delivery` of the runner. -/
def need_prime_delivery (opts : RangeOptions) : Bool :=
  opts.collect_primes || opts.write_to_file || opts.has_prime_callback

/-- The fields of `calcprime_range_run_result` and of its `stats` that the computation
sets. `prime_chunks` is the sequence of chunks handed to `deliver_chunk` and accepted. -/
structure RunResult where
  status : Status
  error_message : String
  total_count : Nat
  nth_found : Bool
  nth_value : Nat
  prime_chunks : List (List Nat)
  segments_total : Nat
  segments_processed : Nat
  completed : Bool
  cancelled : Bool
  deriving DecidableEq, Repr

/-- The inner loop `for(bit = 0; bit < 64 && produced < bit_count; ++bit, ++produced,
value += 2)` of the extraction: the values pushed, then `produced` and `value`. -/
def extract_bits (composite bit_count : Nat) : Nat → Nat → Nat → Nat → List Nat × Nat × Nat
  | 0, _, produced, value => ([], produced, value)
  | fuel + 1, bit, produced, value =>
    if bit < 64 ∧ produced < bit_count then
      let r := extract_bits composite bit_count fuel (bit + 1) (produced + 1) (add64 value 2)
      (if composite &&& shl64 1 bit ≠ 0 then r.1 else value :: r.1, r.2.1, r.2.2)
    else ([], produced, value)

/-- The outer loop `for(word = 0; word < bitset.size() && produced < bit_count; ++word)`. -/
def extract_words (bit_count : Nat) : List Nat → Nat → Nat → List Nat
  | [], _, _ => []
  | composite :: rest, produced, value =>
    if produced < bit_count then
      let r := extract_bits composite bit_count 64 0 produced value
      r.1 ++ extract_words bit_count rest r.2.1 r.2.2
    else []

/-- The prime extraction of the worker: the values of the zero bits among the first
`bit_count`, upward from `seg_low`. -/
def extract_primes (bits : List Nat) (bit_count seg_low : Nat) : List Nat :=
  extract_words bit_count bits 0 seg_low

/-- The odd range `[odd_begin, odd_end)` the runner sieves. -/
def odd_range (from_ to_ : Nat) : SieveRange :=
  let odd_begin0 := if from_ ≤ 3 then 3 else from_
  let odd_begin1 := if odd_begin0 &&& 1 = 0 then add64 odd_begin0 1 else odd_begin0
  let odd_begin := if odd_begin1 ≥ to_ then 3 else odd_begin1
  let odd_end0 := to_
  let odd_end1 := if odd_end0 &&& 1 = 0 then add64 odd_end0 1 else odd_end0
  let odd_end := if odd_end1 ≤ odd_begin then odd_begin else odd_end1
  { begin_ := odd_begin, end_ := odd_end }

/-- The `wheel_primes` of the runner. -/
def wheel_primes (type : WheelType) : List Nat :=
  match type with
  | WheelType.Mod30 => [3, 5]
  | WheelType.Mod210 => [3, 5, 7]
  | WheelType.Mod1155 => [3, 5, 7, 11]

/-- The `prefix_primes` of the runner. -/
def prefix_primes (from_ to_ : Nat) (type : WheelType) : List Nat :=
  (if from_ ≤ 2 ∧ to_ > 2 then [2] else []) ++
    (wheel_primes type).filter (fun p => decide (p ≥ from_ ∧ p < to_))

/-- A slot of `segment_results`. -/
structure SegmentResult where
  count : Nat
  primes : List Nat
  ready : Bool
  deriving DecidableEq, Repr

/-- Replaces the element at index `i`. -/
def set_at {α : Type} : List α → Nat → α → List α
  | [], _, _ => []
  | _ :: xs, 0, a => a :: xs
  | x :: xs, i + 1, a => x :: set_at xs i a

/-- What the workers share and leave behind. -/
structure WorkState where
  states : List ThreadState
  results : List SegmentResult
  cumulative : Nat
  nth_found : Bool
  nth_value : Nat
  stop : Bool
  processed : Nat
  deriving DecidableEq, Repr

/-- One pass of the worker loop body for the ticket `idx`, run by worker `t`; `none` when
`queue.next` returns false. -/
def worker_step (build : Build) (m : PrimeMarker) (range : SieveRange) (opts : RangeOptions)
    (threads : Nat) (t idx : Nat) (ws : WorkState) : Option WorkState :=
  match queue_next range m.config idx with
  | none => none
  | some (segment_id, seg_low, seg_high) =>
    let state := ws.states.getD t
      { bucket := BucketRing.reset 0, small_positions := [], large_states := [],
        medium_positions := [] }
    let sv := sieve_segment m state segment_id seg_low seg_high
    let bitset := sv.2
    let bit_count := sub64 seg_high seg_low >>> 1
    let local_count := count_zero_bits build.path build.builtin bitset bit_count
    let need_segment_storage := need_prime_delivery opts
    let need_primes_for_nth := decide (opts.nth_index ≠ 0)
    let need_primes := need_segment_storage || (need_primes_for_nth && decide (threads = 1))
    let primes0 :=
      if need_primes ∧ local_count > 0 then extract_primes bitset bit_count seg_low else []
    let nth :=
      if need_primes_for_nth ∧ threads = 1 ∧ ¬ ws.nth_found then
        let base := ws.cumulative
        let new_total := add64 base local_count
        if opts.nth_index > base ∧ opts.nth_index ≤ new_total then
          let primes1 :=
            if primes0.isEmpty ∧ local_count > 0 then extract_primes bitset bit_count seg_low
            else primes0
          let index := sub64 (sub64 opts.nth_index base) 1
          if index < primes1.length then (primes1, new_total, true, primes1.getD index 0, true)
          else (primes1, new_total, ws.nth_found, ws.nth_value, ws.stop)
        else (primes0, new_total, ws.nth_found, ws.nth_value, ws.stop)
      else (primes0, ws.cumulative, ws.nth_found, ws.nth_value, ws.stop)
    let old := ws.results.getD segment_id { count := 0, primes := [], ready := false }
    let slot : SegmentResult :=
      if need_segment_storage then { count := local_count, primes := nth.1, ready := true }
      else { old with count := local_count }
    some
      { states := set_at ws.states t sv.1
        results := if segment_id < ws.results.length then set_at ws.results segment_id slot
          else ws.results
        cumulative := nth.2.1
        nth_found := nth.2.2.1
        nth_value := nth.2.2.2.1
        stop := nth.2.2.2.2
        processed := ws.processed + 1 }

/-- The worker loops, replayed in ticket order: ticket `idx` is drawn by worker
`draw idx % threads`. Workers only share the result slots and the stop flag, so the order
in which the bodies of different workers run does not matter. -/
def worker_loop (build : Build) (m : PrimeMarker) (range : SieveRange) (opts : RangeOptions)
    (threads : Nat) (draw : Nat → Nat) : Nat → Nat → WorkState → WorkState
  | 0, _, ws => ws
  | fuel + 1, idx, ws =>
    if ws.stop then ws
    else
      match worker_step build m range opts threads (draw idx % threads) idx ws with
      | none => ws
      | some ws1 => worker_loop build m range opts threads draw fuel (idx + 1) ws1

/-- The delivery loop: the ready slots in index order up to the first one that is not
ready, empty chunks being skipped by `deliver_chunk`. -/
def deliver_segments : List SegmentResult → List (List Nat)
  | [] => []
  | seg :: rest =>
    if seg.ready then
      (if seg.primes.isEmpty then [] else [seg.primes]) ++ deliver_segments rest
    else []

/-- The status, message and `stats.cancelled` computed at the end of `calcprime_run_range`
from the latched failure, the three cancellation flags and the nth-prime outcome. The
message of a latched failure is the text of the stored exception, `failure_message`. -/
def final_status (failure_kind : FailureKind) (failure_message : String)
    (external_cancelled progress_cancelled callback_cancelled : Bool)
    (nth_index : Nat) (nth_found : Bool) : Status × String × Bool :=
  let cancelled := external_cancelled || progress_cancelled || callback_cancelled
  let st : Status × String :=
    if failure_kind ≠ FailureKind.None then
      (match failure_kind with
        | FailureKind.Writer => Status.IO_ERROR
        | FailureKind.PrimeCallback => Status.INTERNAL_ERROR
        | FailureKind.Progress => Status.INTERNAL_ERROR
        | FailureKind.None => Status.INTERNAL_ERROR, failure_message)
    else if cancelled then
      (Status.CANCELLED,
        if callback_cancelled then "prime callback requested cancellation"
        else if progress_cancelled then "progress callback requested cancellation"
        else "operation cancelled")
    else (Status.SUCCESS, "")
  let st2 : Status × String :=
    if nth_index ≠ 0 ∧ ¬ nth_found ∧ st.1 = Status.SUCCESS then
      (Status.INTERNAL_ERROR, "nth prime not found within range")
    else st
  (st2.1, st2.2, cancelled)

/-- The `num_segments` of the runner:
`length ? (length + config.segment_span - 1) / config.segment_span : 0`. -/
def num_segments (length segment_span : Nat) : Nat :=
  if length ≠ 0 then sub64 (add64 length segment_span) 1 / segment_span else 0

/-- The result object as initialised before validation. -/
def initial_result (status : Status) (message : String) : RunResult :=
  { status := status, error_message := message, total_count := 0, nth_found := false
    nth_value := 0, prime_chunks := [], segments_total := 0, segments_processed := 0
    completed := false, cancelled := false }

/-- `calcprime_run_range` for non-null options with a valid wheel and format, without
writer, callbacks or cancel token. `config` is the value `choose_segment_config` returned
for this run and `draw` tells which worker draws which ticket. The result is `none` when
the run does not return one: with `segment_span = 0` the division that computes
`num_segments` divides by zero. -/
def calcprime_run_range (build : Build) (config : SegmentConfig) (draw : Nat → Nat)
    (opts : RangeOptions) : Option RunResult :=
  if opts.to_ ≤ opts.from_ ∨ opts.to_ < 2 then
    some (initial_result Status.INVALID_ARGUMENT "invalid range")
  else
    let need_delivery := need_prime_delivery opts
    if opts.use_meissel ∧ (need_delivery ∨ opts.nth_index ≠ 0) then
      some (initial_result Status.INVALID_ARGUMENT "Meissel counting cannot emit primes")
    else
      let threads0 := if opts.nth_index ≠ 0 then 1 else opts.threads
      let threads := if threads0 = 0 then 1 else threads0
      if opts.use_meissel then
        let sqrt_limit := if opts.to_ > 1 then add64 (floor_sqrt opts.to_) 1 else 0
        let count := meissel_count opts.from_ opts.to_ (simple_sieve sqrt_limit)
        some { initial_result Status.SUCCESS "" with total_count := count, completed := true }
      else
        let range := odd_range opts.from_ opts.to_
        let length := if range.end_ > range.begin_ then range.end_ - range.begin_ else 0
        if length ≠ 0 ∧ config.segment_span = 0 then none
        else
        let num_segments := num_segments length config.segment_span
        let sqrt_limit := add64 (floor_sqrt opts.to_) 1
        let base_primes := simple_sieve sqrt_limit
        let small_limit := small_limit_of opts.wheel
        let m := PrimeMarker.mk_marker (get_wheel opts.wheel) config range.begin_ range.end_
          base_primes small_limit
        let pre := prefix_primes opts.from_ opts.to_ opts.wheel
        let prefix_count := pre.length
        let nth_in_prefix := decide (opts.nth_index ≠ 0 ∧ opts.nth_index ≤ prefix_count)
        let delivered_prefix := if pre.isEmpty ∨ ¬ need_delivery then [] else [pre]
        let ws0 : WorkState :=
          { states := (List.range threads).map (fun t => make_thread_state m t threads)
            results := List.replicate num_segments { count := 0, primes := [], ready := false }
            cumulative := prefix_count
            nth_found := nth_in_prefix
            nth_value := if nth_in_prefix then pre.getD (opts.nth_index - 1) 0 else 0
            stop := nth_in_prefix
            processed := 0 }
        let ws := worker_loop build m range opts threads draw (num_segments + 1) 0 ws0
        let delivered :=
          if need_delivery ∧ num_segments > 0 then deliver_segments ws.results else []
        let total := ws.results.foldl (fun acc seg => add64 acc seg.count) prefix_count
        let fs := final_status FailureKind.None "" false false false opts.nth_index ws.nth_found
        some
        { status := fs.1
          error_message := fs.2.1
          total_count := total
          nth_found := ws.nth_found
          nth_value := if ws.nth_found then ws.nth_value else 0
          prime_chunks := delivered_prefix ++ delivered
          segments_total := num_segments
          segments_processed := ws.processed
          completed := decide (ws.processed = num_segments) && !fs.2.2 &&
            (!ws.nth_found || decide (num_segments = 0))
          cancelled := fs.2.2 }

/-! ## Reference notions used by the statements -/

/-- Value of a little-endian byte list. -/
def bytesVal : List Nat → Nat
  | [] => 0
  | b :: bs => b + 256 * bytesVal bs

/-- First SWAR step on one byte. -/
def swar1 (b : Nat) : Nat := b - ((b / 2) &&& 0x55)

/-- Second SWAR step on one byte. -/
def swar2 (c : Nat) : Nat := (c &&& 0x33) + ((c / 4) &&& 0x33)

/-- Third SWAR step on one byte. -/
def swar3 (d : Nat) : Nat := d % 16 + d / 16

/-- Number of positions `i < n` of the buffer whose bit is `0`. -/
def zero_count (bits : List Nat) (n : Nat) : Nat :=
  (List.range n).countP (fun i => !get_bit bits i)

/-- Number of zero bits among the low `r` bits of a word. -/
def word_zeros (r w : Nat) : Nat := (List.range r).countP (fun b => !w.testBit b)

/-- Reference modular power by repeated squaring over exact naturals:
`acc * b ^ e` modulo `m`. -/
def ref_pow_mod (m : Nat) : Nat → Nat → Nat → Nat → Nat
  | 0, _, _, acc => acc % m
  | fuel + 1, b, e, acc =>
    if e = 0 then acc % m
    else ref_pow_mod m fuel (b * b % m) (e / 2) (if e % 2 = 1 then acc * b % m else acc)

/-- The bits set after the outer loop has handled the indices `1..k`. -/
def SieveMarked (k size x : Nat) : Prop :=
  x < size ∧ ∃ i, 1 ≤ i ∧ i ≤ k ∧ Nat.Prime (2 * i + 1) ∧
    (2 * i + 1) * (2 * i + 1) ≤ 2 * x + 1 ∧ (2 * i + 1) ∣ 2 * x + 1

/-- Every bit set in `a` is set in `b`, the buffers having the same length. -/
def BitsLe (a b : List Nat) : Prop :=
  a.length = b.length ∧ ∀ idx, get_bit a idx = true → get_bit b idx = true

/-- Every word of the buffer fits 64 bits. -/
def WordsOK (bits : List Nat) : Prop := ∀ w ∈ bits, w < 2 ^ 64

/-- The relations between the fields of a configuration on which the sieve relies: whole
64-bit words per tile, two values per bit, and spans small enough for the 64-bit sums. -/
def ConfigOK (c : SegmentConfig) : Prop :=
  0 < c.tile_bits ∧ c.tile_bits % 64 = 0 ∧ c.tile_span = 2 * c.tile_bits ∧
    c.tile_span < 2 ^ 62 ∧ 0 < c.segment_span ∧ c.segment_span % 2 = 0 ∧
    c.segment_span < 2 ^ 62

/-- The tile of `tb` bits that starts at bit `b` of the segment whose first value is
`low`. -/
def tile_view (low b tb : Nat) : TileView :=
  { start_value := low + 2 * b, bit_offset := b, bit_count := tb, word_base := b / 64,
    word_count := (tb + 63) / 64 }

/-- The buffer after the small and medium primes of one tile and the clearing of the bits
past the tile in its last word. -/
def tile_pass_bits (m : PrimeMarker) (low b tb : Nat) (st : ThreadState) (bits : List Nat) :
    List Nat :=
  let s := apply_small_primes m st.small_positions (tile_view low b tb) bits
  let md := apply_medium_primes m st.medium_positions (tile_view low b tb) s.1
  if tb % 64 ≠ 0 then and_word md.1 (b / 64 + tb / 64) (2 ^ (tb % 64) - 1) else md.1

/-- The worker state after the small and medium primes of one tile. -/
def tile_pass_state (m : PrimeMarker) (low b tb : Nat) (st : ThreadState) (bits : List Nat) :
    ThreadState :=
  let s := apply_small_primes m st.small_positions (tile_view low b tb) bits
  let md := apply_medium_primes m st.medium_positions (tile_view low b tb) s.1
  { st with small_positions := s.2, medium_positions := md.2 }

/-! ## Reference notions for the segmented sieve -/

/-- The largest prime of a wheel. -/
def wheel_pmax (type : WheelType) : Nat :=
  match type with
  | WheelType.Mod30 => 5
  | WheelType.Mod210 => 7
  | WheelType.Mod1155 => 11

/-- The value `f` is the first odd multiple of `p` that is at least `p * p` and at least
`s`. -/
def FirstHit (p s f : Nat) : Prop :=
  p ∣ f ∧ f % 2 = 1 ∧ p * p ≤ f ∧ s ≤ f ∧
    ∀ g, p ∣ g → g % 2 = 1 → p * p ≤ g → s ≤ g → f ≤ g

/-- What the sieve asks of a sieving prime: odd, at least 3, below `2 ^ 32`. -/
def SievePrime (p : Nat) : Prop := 3 ≤ p ∧ p % 2 = 1 ∧ p < 2 ^ 32

/-- The small and medium cursors of a worker all stand at the first hit from `x` on. -/
def CursorsAt (m : PrimeMarker) (st : ThreadState) (x : Nat) : Prop :=
  st.small_positions = m.small_primes.map (fun p => first_hit p x) ∧
    st.medium_positions = m.medium_primes.map (fun p => first_hit p x)

/-- The facts about a marker built for the wheel `ty` that the sieve relies on. -/
def MarkerOK (ty : WheelType) (m : PrimeMarker) : Prop :=
  m.wheel = get_wheel ty ∧ ConfigOK m.config ∧
    m.small_prime_patterns = m.small_primes.map (find_small_pattern (get_wheel ty)) ∧
    (∀ p ∈ m.small_primes, SievePrime p) ∧ (∀ p ∈ m.medium_primes, SievePrime p)

/-- Some small or medium prime of the marker strikes the value `v`: it divides `v` and its
square does not exceed `v`. -/
def StruckSM (m : PrimeMarker) (v : Nat) : Prop :=
  ∃ p ∈ m.small_primes ++ m.medium_primes, p * p ≤ v ∧ p ∣ v

/-- All entries held by the ring. -/
def BucketRing.entries (ring : BucketRing) : List BucketEntry := ring.buckets.flatten

/-- Every entry sits in the slot its segment index selects under `mask`. -/
def SlotsAt (mask : Nat) (bs : List (List BucketEntry)) : Prop :=
  ∀ i b, bs[i]? = some b → ∀ e ∈ b, e.next_index &&& mask = i

/-- The ring is empty, or its size is a power of two with `mask` one less; and every entry
sits in its slot. -/
def RingOK (ring : BucketRing) : Prop :=
  (ring.buckets = [] ∨ ∃ k, k ≤ 62 ∧ ring.buckets.length = 2 ^ k ∧ ring.mask = 2 ^ k - 1) ∧
    SlotsAt ring.mask ring.buckets

/-! ## writer.cpp -/

/-- `PrimeOutputFormat`. -/
inductive PrimeOutputFormat where
  | Text
  | Binary
  | ZstdDelta
  deriving DecidableEq, Repr

/-- The three preprocessor branches of `to_little_endian`, each with the byte order of the
hosts it is compiled for: `big_endian` is `__BYTE_ORDER__ == __ORDER_BIG_ENDIAN__`,
`msvc_windows` is `_MSC_VER && _WIN32` (every Windows host is little-endian), `other` is
the remaining branch on a little-endian host. -/
inductive ByteOrderBuild where
  | big_endian
  | msvc_windows
  | other
  deriving DecidableEq, Repr

/-- The eight bytes of a 64-bit word, least significant first. -/
def le_bytes (x : Nat) : List Nat := (List.range 8).map (fun i => x / 256 ^ i % 256)

/-- The value of a byte string read least significant byte first. -/
def le_value : List Nat → Nat
  | [] => 0
  | b :: bs => b + 256 * le_value bs

/-- The byte swaps `__builtin_bswap64` and `_byteswap_uint64`. -/
def bswap64 (x : Nat) : Nat := le_value (le_bytes x).reverse

/-- `to_little_endian(value)`. -/
def to_little_endian (build : ByteOrderBuild) (value : Nat) : Nat :=
  match build with
  | ByteOrderBuild.big_endian => bswap64 value
  | ByteOrderBuild.msvc_windows => bswap64 value
  | ByteOrderBuild.other => value

/-- The bytes `std::memcpy(dest, &encoded, sizeof(encoded))` copies: the object
representation of `encoded` on the host. -/
def object_bytes (build : ByteOrderBuild) (encoded : Nat) : List Nat :=
  match build with
  | ByteOrderBuild.big_endian => (le_bytes encoded).reverse
  | ByteOrderBuild.msvc_windows => le_bytes encoded
  | ByteOrderBuild.other => le_bytes encoded

/-- The characters `std::to_chars` produces for `value`, followed by the newline. -/
def text_bytes (value : Nat) : List Nat :=
  (Nat.toDigits 10 value).map Char.toNat ++ [10]

/-- The loop of `encode_deltas` from the previous value `previous` on: the bytes and the
previous value afterwards, `none` when it throws. -/
def encode_deltas_loop (build : ByteOrderBuild) : Nat → List Nat → Option (List Nat × Nat)
  | previous, [] => some ([], previous)
  | previous, value :: rest =>
    if value < previous then none
    else
      match encode_deltas_loop build value rest with
      | none => none
      | some (bytes, last) =>
        some (object_bytes build (to_little_endian build (sub64 value previous)) ++ bytes, last)

/-- `PrimeWriter::encode_deltas(primes)` with `previous_prime_ = previous`: the string
returned and `previous_prime_` afterwards, `none` when it throws. -/
def encode_deltas (build : ByteOrderBuild) (format : PrimeOutputFormat) (previous : Nat)
    (primes : List Nat) : Option (List Nat × Nat) :=
  if format ≠ PrimeOutputFormat.ZstdDelta then some ([], previous)
  else encode_deltas_loop build previous primes

/-- `PrimeWriter::encode_delta_value(value)` with `previous_prime_ = previous`. -/
def encode_delta_value (build : ByteOrderBuild) (format : PrimeOutputFormat) (previous : Nat)
    (value : Nat) : Option (List Nat × Nat) :=
  if format ≠ PrimeOutputFormat.ZstdDelta then some ([], previous)
  else if value < previous then none
  else some (object_bytes build (to_little_endian build (sub64 value previous)), value)

/-- `PrimeWriter::write_segment(primes)` with `previous_prime_ = previous`: the bytes it
enqueues and `previous_prime_` afterwards, `none` when the encoding throws. The queue is
taken to accept the chunk. -/
def write_segment (enabled : Bool) (build : ByteOrderBuild) (format : PrimeOutputFormat)
    (previous : Nat) (primes : List Nat) : Option (List Nat × Nat) :=
  if !enabled then some ([], previous)
  else if primes.isEmpty then some ([], previous)
  else
    match format with
    | PrimeOutputFormat.Text => some (primes.flatMap text_bytes, previous)
    | PrimeOutputFormat.Binary =>
      some (primes.flatMap (fun value => object_bytes build (to_little_endian build value)),
        previous)
    | PrimeOutputFormat.ZstdDelta => encode_deltas build format previous primes

/-- `PrimeWriter::write_value(value)` with `previous_prime_ = previous`. -/
def write_value (enabled : Bool) (build : ByteOrderBuild) (format : PrimeOutputFormat)
    (previous : Nat) (value : Nat) : Option (List Nat × Nat) :=
  if !enabled then some ([], previous)
  else
    match format with
    | PrimeOutputFormat.Text => some (text_bytes value, previous)
    | PrimeOutputFormat.Binary =>
      some (object_bytes build (to_little_endian build value), previous)
    | PrimeOutputFormat.ZstdDelta => encode_delta_value build format previous value

/-- A sequence of `write_segment` calls through one writer, starting from the previous
value `previous`: all bytes enqueued, in order, and the previous value at the end. -/
def write_segments (build : ByteOrderBuild) (format : PrimeOutputFormat) :
    Nat → List (List Nat) → Option (List Nat × Nat)
  | previous, [] => some ([], previous)
  | previous, chunk :: rest =>
    match write_segment true build format previous chunk with
    | none => none
    | some (bytes, p1) =>
      match write_segments build format p1 rest with
      | none => none
      | some (more, p2) => some (bytes ++ more, p2)

/-! ## Reference decoders -/

/-- Reads a byte string as consecutive 8-byte little-endian unsigned integers. -/
def read_le_words : List Nat → List Nat
  | b0 :: b1 :: b2 :: b3 :: b4 :: b5 :: b6 :: b7 :: rest =>
    le_value [b0, b1, b2, b3, b4, b5, b6, b7] :: read_le_words rest
  | _ => []

/-- Running sums of a list of deltas, starting from `start`. -/
def running_sums : Nat → List Nat → List Nat
  | _, [] => []
  | start, d :: ds => (start + d) :: running_sums (start + d) ds

/-! ## main.cpp: parse_u64

A `std::string` is the list of its characters. `parse_u64` calls `std::stoull` and
`std::stoll` of the standard library; they are modelled after the rules of `strtoull` and
`strtoll`: leading white space is skipped, a sign is optional, with base 0 the prefix `0x` or
`0X` before a hexadecimal digit selects base 16 and a leading `0` base 8, the longest run of
digits of the base is read, no digit read throws `std::invalid_argument`, and a value the
result type cannot hold throws `std::out_of_range`. -/

/-- `isspace` in the C locale. -/
def is_space (c : Char) : Bool :=
  decide (c.toNat = 32) || (decide (9 ≤ c.toNat) && decide (c.toNat ≤ 13))

/-- The value of a digit or letter as a digit, for bases up to 36. -/
def digit_value (c : Char) : Option Nat :=
  if 48 ≤ c.toNat ∧ c.toNat ≤ 57 then some (c.toNat - 48)
  else if 97 ≤ c.toNat ∧ c.toNat ≤ 122 then some (c.toNat - 87)
  else if 65 ≤ c.toNat ∧ c.toNat ≤ 90 then some (c.toNat - 55)
  else none

/-- Reads the longest run of digits of `base`: the value read and the number of digits. -/
def scan_digits (base : Nat) : List Char → Nat → Nat → Nat × Nat
  | [], acc, n => (acc, n)
  | c :: cs, acc, n =>
    match digit_value c with
    | some d => if d < base then scan_digits base cs (acc * base + d) (n + 1) else (acc, n)
    | none => (acc, n)

/-- What `strtoull` and `strtoll` read: the sign, the magnitude and the number of characters
consumed. -/
structure Scan where
  negative : Bool
  magnitude : Nat
  idx : Nat
  deriving DecidableEq, Repr

/-- Whether the text starts with `0x` or `0X` followed by a hexadecimal digit. -/
def has_hex_prefix (s : List Char) : Bool :=
  match s with
  | c0 :: c1 :: c2 :: _ =>
    decide (c0.toNat = 48) && (decide (c1.toNat = 120) || decide (c1.toNat = 88)) &&
      (match digit_value c2 with
        | some d => decide (d < 16)
        | none => false)
  | _ => false

/-- Whether the text starts with `0`. -/
def has_zero_prefix (s : List Char) : Bool :=
  match s with
  | c0 :: _ => decide (c0.toNat = 48)
  | [] => false

/-- The optional sign at the head of the text: whether it is `-`, and how many characters
it takes. -/
def scan_sign (s : List Char) : Bool × Nat :=
  match s with
  | c :: _ => if c.toNat = 45 then (true, 1) else if c.toNat = 43 then (false, 1) else (false, 0)
  | [] => (false, 0)

/-- The base in use and the length of the prefix that selects it. -/
def scan_base (base : Nat) (s : List Char) : Nat × Nat :=
  if (base = 0 ∨ base = 16) ∧ has_hex_prefix s then (16, 2)
  else if base = 0 then (if has_zero_prefix s then 8 else 10, 0)
  else (base, 0)

/-- The subject sequence of `strtoull(s, &end, base)`; `none` when no conversion can be
performed. -/
def scan_integer (s : List Char) (base : Nat) : Option Scan :=
  let n_ws := (s.takeWhile is_space).length
  let s1 := s.drop n_ws
  let sign := scan_sign s1
  let s2 := s1.drop sign.2
  let pre := scan_base base s2
  let r := scan_digits pre.1 (s2.drop pre.2) 0 0
  if r.2 = 0 then none
  else some { negative := sign.1, magnitude := r.1, idx := n_ws + sign.2 + pre.2 + r.2 }

/-- The outcome of `std::stoull` and `std::stoll`. -/
inductive Sto (α : Type) where
  | value (v : α) (idx : Nat)
  | invalid_argument
  | out_of_range
  deriving DecidableEq, Repr

/-- `std::stoull(s, &idx, base)`. -/
def stoull (s : List Char) (base : Nat) : Sto Nat :=
  match scan_integer s base with
  | none => Sto.invalid_argument
  | some sc =>
    if sc.magnitude ≥ 2 ^ 64 then Sto.out_of_range
    else Sto.value (if sc.negative then (2 ^ 64 - sc.magnitude) % 2 ^ 64 else sc.magnitude) sc.idx

/-- `std::stoll(s, &idx, base)`. -/
def stoll (s : List Char) (base : Nat) : Sto Int :=
  match scan_integer s base with
  | none => Sto.invalid_argument
  | some sc =>
    if sc.negative then
      if sc.magnitude > 2 ^ 63 then Sto.out_of_range
      else Sto.value (- (sc.magnitude : Int)) sc.idx
    else if sc.magnitude ≥ 2 ^ 63 then Sto.out_of_range
    else Sto.value (sc.magnitude : Int) sc.idx

/-- What `parse_u64` does: it returns a value or throws `std::invalid_argument` with the
message `invalid integer: ...` or `integer too large: ...`. -/
inductive Parsed where
  | value (v : Nat)
  | invalid_integer
  | integer_too_large
  deriving DecidableEq, Repr

/-- The loop `for(i = 0; i < exponent; ++i) { if(result > max / 10) throw; result *= 10; }`;
`none` when it throws. -/
def scale_loop : Nat → Nat → Option Nat
  | 0, result => some result
  | e + 1, result =>
    if result > (2 ^ 64 - 1) / 10 then none else scale_loop e (mul64 result 10)

/-- `value.find_first_of("eE")`. -/
def find_first_of_eE (value : List Char) : Option Nat :=
  value.findIdx? (fun c => decide (c.toNat = 101) || decide (c.toNat = 69))

/-- `parse_u64(value)`. -/
def parse_u64 (value : List Char) : Parsed :=
  if value.isEmpty then Parsed.invalid_integer
  else
    match find_first_of_eE value with
    | some exp_pos =>
      let mantissa_str := value.take exp_pos
      let exponent_str := value.drop (exp_pos + 1)
      if mantissa_str.isEmpty ∨ exponent_str.isEmpty then Parsed.invalid_integer
      else
        match stoull mantissa_str 0 with
        | Sto.value mantissa mantissa_idx =>
          if mantissa_idx ≠ mantissa_str.length then Parsed.invalid_integer
          else
            match stoll exponent_str 10 with
            | Sto.value exponent exponent_idx =>
              if exponent_idx ≠ exponent_str.length then Parsed.invalid_integer
              else if exponent < 0 then Parsed.invalid_integer
              else
                match scale_loop exponent.toNat mantissa with
                | some result => Parsed.value result
                | none => Parsed.integer_too_large
            | _ => Parsed.invalid_integer
        | _ => Parsed.invalid_integer
    | none =>
      match stoull value 0 with
      | Sto.value result idx =>
        if idx ≠ value.length then Parsed.invalid_integer else Parsed.value result
      | _ => Parsed.invalid_integer

/-! ### Reference notions for the parser -/

/-- The character of a decimal digit. -/
def digit_char (d : Nat) : Char := Char.ofNat (48 + d)

/-- The number a list of decimal digits denotes, most significant digit first. -/
def decimal_value (ds : List Nat) : Nat := ds.foldl (fun acc d => acc * 10 + d) 0

/-- A decimal numeral without superfluous leading zero: a non-empty list of digits below
ten that starts with `0` only when it is `[0]`. -/
def Numeral (ds : List Nat) : Prop :=
  ds ≠ [] ∧ (∀ d ∈ ds, d < 10) ∧ (ds.head? = some 0 → ds = [0])

/-! ### Reference notions for the large primes -/

/-- The facts about the large template of a marker that the sieve relies on: odd primes
below `2 ^ 32` whose double exceeds the segment span, with stride `2 * prime` and the first
hit from `range_begin` as next value. -/
def LargeOK (m : PrimeMarker) : Prop :=
  ∀ lp ∈ m.large_primes_template, SievePrime lp.prime ∧ lp.stride = 2 * lp.prime ∧
    m.config.segment_span < 2 * lp.prime ∧ lp.next_value = first_hit lp.prime m.range_begin

/-- Some large prime of the marker strikes the value `v`: it divides `v` and its square does
not exceed `v`. -/
def StruckL (m : PrimeMarker) (v : Nat) : Prop :=
  ∃ lp ∈ m.large_primes_template, lp.prime * lp.prime ≤ v ∧ lp.prime ∣ v

/-- The bucket entry of the large state `lp` stored at index `o`. -/
def entry_of (m : PrimeMarker) (o : Nat) (lp : LargePrimeState) : BucketEntry :=
  (schedule_entry m lp.prime lp.next_value (some o)).2

/-- The entries a worker with the large states `large` has in its ring: one for every state
whose next value lies below `range_end`. -/
def scheduled (m : PrimeMarker) (large : List LargePrimeState) : List BucketEntry :=
  (List.range large.length).filterMap (fun o =>
    match large[o]? with
    | some lp => if lp.next_value < m.range_end then some (entry_of m o lp) else none
    | none => none)

/-- What sieving segment `s` does to a large state: a state that is due in the segment
moves on by its stride. -/
def step_large (m : PrimeMarker) (s : Nat) (lp : LargePrimeState) : LargePrimeState :=
  if lp.next_value < m.range_end ∧ (entry_of m 0 lp).next_index = s then
    { lp with next_value := add64 lp.next_value lp.stride }
  else lp

/-- The large states of a worker that owns the whole template, every next value being the
first hit from `x` on. -/
def large_at (m : PrimeMarker) (x : Nat) : List LargePrimeState :=
  m.large_primes_template.map (fun lp => { lp with next_value := first_hit lp.prime x })

/-- The state of a worker that owns the whole template and stands at the value `x`: its
cursors and the next values of its large states are the first hits from `x` on, and its
ring holds one entry for every large state whose next value lies below `range_end`. -/
def WorkerAt (m : PrimeMarker) (st : ThreadState) (x : Nat) : Prop :=
  CursorsAt m st x ∧ RingOK st.bucket ∧
    List.Perm st.bucket.entries (scheduled m st.large_states) ∧
    st.large_states = large_at m x

/-- The state of the single worker `make_thread_state(0, 1)` before it sieves segment `k`,
having sieved the segments `0, ..., k - 1` of the queue in this order. -/
def sieve_in_order (m : PrimeMarker) : Nat → ThreadState
  | 0 => make_thread_state m 0 1
  | k + 1 =>
    match queue_next { begin_ := m.range_begin, end_ := m.range_end } m.config k with
    | some (id, lo, hi) => (sieve_segment m (sieve_in_order m k) id lo hi).1
    | none => sieve_in_order m k

/-! ## base_sieve.cpp with the bounds of `is_composite` checked -/

/-- The outer loop of `simple_sieve` with the read `is_composite[i]` checked against the
size of the vector: `none` when an index at or past `size` is read. The stores of the inner
loop and the reads of the final loop are guarded by `j < size` and `i < size` in the
source. -/
def sieve_loop_checked (size bound : Nat) : Nat → Nat → Nat → Option Nat
  | 0, _, v => some v
  | fuel + 1, i, v =>
    if i ≤ bound then
      if i < size then
        sieve_loop_checked size bound fuel (i + 1)
          (if !(vb_get v i) then
            mark_multiples (2 * i + 1) size size (mul64 (2 * i + 1) (2 * i + 1) / 2) v
          else v)
      else none
    else some v

/-- `simple_sieve(limit)` with the bounds checked: `none` when it reads `is_composite` out
of bounds. -/
def simple_sieve_checked (limit : Nat) : Option (List Nat) :=
  if limit < 2 then some []
  else
    let root := floor_sqrt limit
    let max := Nat.max limit (root + 1)
    let size := add64 max 1 / 2
    let bound := (floor_sqrt max + 1) / 2
    match sieve_loop_checked size bound bound 1 0 with
    | some marked => some (2 :: collect_primes limit size marked size 1)
    | none => none

/-! ## prime_count.cpp: `phi` with its memo table -/

/-- `phi_cache_.emplace(key, result)` on the memo table, a list of pairs of a key `(x, s)`
and its value: a key that is present keeps its value. -/
def cache_emplace (cache : List ((Nat × Nat) × Nat)) (key : Nat × Nat) (result : Nat) :
    List ((Nat × Nat) × Nat) :=
  if (cache.lookup key).isSome then cache else (key, result) :: cache

/-- `MeisselCalculator::phi(x, s)` with the memo table passed along: the value returned and
the table afterwards. `fuel` bounds the recursion depth (`s + 2` is enough). -/
def phi_memo_fuel (primes : List Nat) :
    Nat → List ((Nat × Nat) × Nat) → Nat → Nat → Nat × List ((Nat × Nat) × Nat)
  | 0, cache, _, _ => (0, cache)
  | fuel + 1, cache, x, s =>
    if s = 0 then (x, cache)
    else if s = 1 then ((add64 x 1) >>> 1, cache)
    else if s > primes.length then phi_memo_fuel primes fuel cache x primes.length
    else
      match cache.lookup (x, s) with
      | some v => (v, cache)
      | none =>
        let r1 := phi_memo_fuel primes fuel cache x (s - 1)
        let r2 := phi_memo_fuel primes fuel r1.2 (x / primes.getD (s - 1) 0) (s - 1)
        let result := sub64 r1.1 r2.1
        (result, cache_emplace r2.2 (x, s) result)

/-- `MeisselCalculator::phi(x, s)` on the memo table `cache`. -/
def phi_memo (primes : List Nat) (cache : List ((Nat × Nat) × Nat)) (x s : Nat) :
    Nat × List ((Nat × Nat) × Nat) :=
  phi_memo_fuel primes (s + 2) cache x s

/-- Every value of the memo table is the value `phi` computes for its key; so it is for the
empty table, and for every table that `phi` has filled. -/
def CacheOK (primes : List Nat) (cache : List ((Nat × Nat) × Nat)) : Prop :=
  ∀ key v, cache.lookup key = some v → v = phi primes key.1 key.2

/-- What the specification says `phi(x, s)` is: the number of integers in `[1, x]` that
none of the first `s` primes of the list divides. -/
def phi_reference (primes : List Nat) (x s : Nat) : Nat :=
  ((Finset.Icc 1 x).filter (fun n => ∀ p ∈ primes.take s, ¬ p ∣ n)).card

/-! ## Arithmetic of the wrapping operations -/

theorem add64_eq {a b : Nat} (h : a + b < 2 ^ 64) : add64 a b = a + b := by
  unfold add64; exact Nat.mod_eq_of_lt h

theorem sub64_eq {a b : Nat} (hb : b ≤ a) (ha : a < 2 ^ 64) : sub64 a b = a - b := by
  unfold sub64
  have hb' : b % 2 ^ 64 = b := Nat.mod_eq_of_lt (by omega)
  rw [hb']
  have : a + (2 ^ 64 - b) = (a - b) + 2 ^ 64 := by omega
  rw [this, Nat.add_mod_right]
  exact Nat.mod_eq_of_lt (by omega)

theorem mul64_eq {a b : Nat} (h : a * b < 2 ^ 64) : mul64 a b = a * b := by
  unfold mul64; exact Nat.mod_eq_of_lt h

theorem shl64_one {k : Nat} (h : k < 64) : shl64 1 k = 2 ^ k := by
  unfold shl64
  rw [Nat.shiftLeft_eq, one_mul]
  exact Nat.mod_eq_of_lt (Nat.pow_lt_pow_right (by norm_num) h)

/-! ## Population count -/

theorem and_low_high {a c : Nat} (b d : Nat) (ha : a < 256) (hc : c < 256) :
    (a + 256 * b) &&& (c + 256 * d) = (a &&& c) + 256 * (b &&& d) := by
  have hac : a &&& c < 2 ^ 8 := Nat.and_lt_two_pow a (by simpa using hc)
  apply Nat.eq_of_testBit_eq
  intro i
  have e1 : a + 256 * b = 2 ^ 8 * b + a := by norm_num; omega
  have e2 : c + 256 * d = 2 ^ 8 * d + c := by norm_num; omega
  have e3 : (a &&& c) + 256 * (b &&& d) = 2 ^ 8 * (b &&& d) + (a &&& c) := by norm_num; omega
  rw [e1, e2, e3, Nat.testBit_and,
    Nat.testBit_mul_pow_two_add b (by simpa using ha),
    Nat.testBit_mul_pow_two_add d (by simpa using hc),
    Nat.testBit_mul_pow_two_add (b &&& d) hac]
  by_cases h : i < 8 <;> simp [h]

theorem popBits_split (m : Nat) : ∀ (n x : Nat),
    popBits (n + m) x = popBits n (x % 2 ^ n) + popBits m (x / 2 ^ n) := by
  intro n
  induction n with
  | zero => intro x; simp [popBits]
  | succ k ih =>
    intro x
    have e : k + 1 + m = (k + m) + 1 := by omega
    rw [e]
    simp only [popBits]
    rw [ih (x / 2)]
    have h1 : x % 2 ^ (k + 1) % 2 = x % 2 := by
      rw [pow_succ']; exact Nat.mod_mul_right_mod x 2 (2 ^ k)
    have h2 : x % 2 ^ (k + 1) / 2 = x / 2 % 2 ^ k := by
      rw [pow_succ']; exact Nat.mod_mul_right_div_self x 2 (2 ^ k)
    have h3 : x / 2 / 2 ^ k = x / 2 ^ (k + 1) := by
      rw [Nat.div_div_eq_div_mul, pow_succ, mul_comm]
    rw [h1, h2, h3]; omega

theorem popBits_le : ∀ (n x : Nat), popBits n x ≤ n := by
  intro n
  induction n with
  | zero => intro x; simp [popBits]
  | succ k ih =>
    intro x
    simp only [popBits]
    have := ih (x / 2)
    omega

theorem popBits_mod (n : Nat) : ∀ x : Nat, popBits n (x % 2 ^ n) = popBits n x := by
  induction n with
  | zero => intro x; simp [popBits]
  | succ k ih =>
    intro x
    simp only [popBits]
    have h1 : x % 2 ^ (k + 1) % 2 = x % 2 := by
      rw [pow_succ']; exact Nat.mod_mul_right_mod x 2 (2 ^ k)
    have h2 : x % 2 ^ (k + 1) / 2 = x / 2 % 2 ^ k := by
      rw [pow_succ']; exact Nat.mod_mul_right_div_self x 2 (2 ^ k)
    rw [h1, h2, ih]

theorem bytesVal_and_mask (m : Nat) (hm : m < 256) : ∀ bs : List Nat, (∀ b ∈ bs, b < 256) →
    bytesVal bs &&& bytesVal (List.replicate bs.length m) = bytesVal (bs.map (fun b => b &&& m)) := by
  intro bs
  induction bs with
  | nil => intro _; simp [bytesVal]
  | cons b rest ih =>
    intro h
    have hb : b < 256 := h b (List.mem_cons_self _ _)
    have hr : ∀ c ∈ rest, c < 256 := fun c hc => h c (List.mem_cons_of_mem _ hc)
    simp only [List.length_cons, List.replicate_succ, List.map_cons, bytesVal]
    rw [and_low_high _ _ hb hm, ih hr]

theorem bytesVal_shr1_mask : ∀ bs : List Nat, (∀ b ∈ bs, b < 256) →
    (bytesVal bs / 2) &&& bytesVal (List.replicate bs.length 0x55) =
      bytesVal (bs.map (fun b => (b / 2) &&& 0x55)) := by
  intro bs
  induction bs with
  | nil => intro _; simp [bytesVal]
  | cons b rest ih =>
    intro h
    have hb : b < 256 := h b (List.mem_cons_self _ _)
    have hr : ∀ c ∈ rest, c < 256 := fun c hc => h c (List.mem_cons_of_mem _ hc)
    simp only [List.length_cons, List.replicate_succ, List.map_cons, bytesVal]
    have e : (b + 256 * bytesVal rest) / 2 =
        (b / 2 + 128 * (bytesVal rest % 2)) + 256 * (bytesVal rest / 2) := by omega
    have hlow : b / 2 + 128 * (bytesVal rest % 2) < 256 := by omega
    have key : ∀ b, b < 256 → ∀ t, t < 2 → (b / 2 + 128 * t) &&& 0x55 = (b / 2) &&& 0x55 := by
      decide
    rw [e, and_low_high _ _ hlow (by norm_num), ih hr,
      key b hb _ (Nat.mod_lt _ (by norm_num))]

theorem bytesVal_shr2_mask : ∀ bs : List Nat, (∀ b ∈ bs, b < 256) →
    (bytesVal bs / 4) &&& bytesVal (List.replicate bs.length 0x33) =
      bytesVal (bs.map (fun b => (b / 4) &&& 0x33)) := by
  intro bs
  induction bs with
  | nil => intro _; simp [bytesVal]
  | cons b rest ih =>
    intro h
    have hb : b < 256 := h b (List.mem_cons_self _ _)
    have hr : ∀ c ∈ rest, c < 256 := fun c hc => h c (List.mem_cons_of_mem _ hc)
    simp only [List.length_cons, List.replicate_succ, List.map_cons, bytesVal]
    have e : (b + 256 * bytesVal rest) / 4 =
        (b / 4 + 64 * (bytesVal rest % 4)) + 256 * (bytesVal rest / 4) := by omega
    have hlow : b / 4 + 64 * (bytesVal rest % 4) < 256 := by omega
    have key : ∀ b, b < 256 → ∀ t, t < 4 → (b / 4 + 64 * t) &&& 0x33 = (b / 4) &&& 0x33 := by
      decide
    rw [e, and_low_high _ _ hlow (by norm_num), ih hr,
      key b hb _ (Nat.mod_lt _ (by norm_num))]

theorem bytesVal_fold_nibbles : ∀ ds : List Nat, (∀ d ∈ ds, d % 16 ≤ 4 ∧ d / 16 ≤ 4) →
    (bytesVal ds + bytesVal ds / 16) &&& bytesVal (List.replicate ds.length 0x0F) =
      bytesVal (ds.map (fun d => d % 16 + d / 16)) := by
  intro ds
  induction ds with
  | nil => intro _; simp [bytesVal]
  | cons d rest ih =>
    intro h
    have hd := h d (List.mem_cons_self _ _)
    have hr : ∀ c ∈ rest, c % 16 ≤ 4 ∧ c / 16 ≤ 4 := fun c hc => h c (List.mem_cons_of_mem _ hc)
    have hR : bytesVal rest % 16 ≤ 4 := by
      cases rest with
      | nil => simp [bytesVal]
      | cons d2 r2 =>
        have := (hr d2 (List.mem_cons_self _ _)).1
        simp only [bytesVal]
        omega
    simp only [List.length_cons, List.replicate_succ, List.map_cons, bytesVal]
    have e : (d + 256 * bytesVal rest) + (d + 256 * bytesVal rest) / 16 =
        (d + d / 16 + 16 * (bytesVal rest % 16)) +
          256 * (bytesVal rest + bytesVal rest / 16) := by omega
    have hlow : d + d / 16 + 16 * (bytesVal rest % 16) < 256 := by omega
    have key : ∀ d, d < 256 → ∀ t, t < 5 → d % 16 ≤ 4 → d / 16 ≤ 4 →
        (d + d / 16 + 16 * t) &&& 0x0F = d % 16 + d / 16 := by
      decide
    rw [e, and_low_high _ _ hlow (by norm_num), ih hr,
      key d (by omega) _ (by omega) hd.1 hd.2]

theorem swar_byte_facts : ∀ b, b < 256 →
    (b / 2 &&& 0x55) ≤ b ∧
    ((b - (b / 2 &&& 0x55)) &&& 0x33) + ((b - (b / 2 &&& 0x55)) / 4 &&& 0x33) < 256 ∧
    (((b - (b / 2 &&& 0x55)) &&& 0x33) + ((b - (b / 2 &&& 0x55)) / 4 &&& 0x33)) % 16 ≤ 4 ∧
    (((b - (b / 2 &&& 0x55)) &&& 0x33) + ((b - (b / 2 &&& 0x55)) / 4 &&& 0x33)) / 16 ≤ 4 ∧
    (((b - (b / 2 &&& 0x55)) &&& 0x33) + ((b - (b / 2 &&& 0x55)) / 4 &&& 0x33)) % 16 +
      (((b - (b / 2 &&& 0x55)) &&& 0x33) + ((b - (b / 2 &&& 0x55)) / 4 &&& 0x33)) / 16 =
      popBits 8 b := by
  decide

theorem avx2_byte_eq : ∀ b, b < 256 → avx2_byte b = popBits 8 b := by
  decide

theorem bytesVal_map_add (f g : Nat → Nat) : ∀ bs : List Nat,
    bytesVal (bs.map f) + bytesVal (bs.map g) = bytesVal (bs.map (fun b => f b + g b)) := by
  intro bs
  induction bs with
  | nil => simp [bytesVal]
  | cons b rest ih =>
    simp only [List.map_cons, bytesVal]
    rw [← ih]; ring

theorem bytesVal_map_sub (f g : Nat → Nat) : ∀ bs : List Nat, (∀ b ∈ bs, g b ≤ f b) →
    bytesVal (bs.map g) ≤ bytesVal (bs.map f) ∧
    bytesVal (bs.map f) - bytesVal (bs.map g) = bytesVal (bs.map (fun b => f b - g b)) := by
  intro bs
  induction bs with
  | nil => intro _; simp [bytesVal]
  | cons b rest ih =>
    intro h
    have hb := h b (List.mem_cons_self _ _)
    have hr := ih (fun c hc => h c (List.mem_cons_of_mem _ hc))
    simp only [List.map_cons, bytesVal]
    constructor
    · omega
    · rw [← hr.2]; omega

theorem bytesVal_lt : ∀ bs : List Nat, (∀ b ∈ bs, b < 256) → bytesVal bs < 256 ^ bs.length := by
  intro bs
  induction bs with
  | nil => intro _; simp [bytesVal]
  | cons b rest ih =>
    intro h
    have hb := h b (List.mem_cons_self _ _)
    have hr := ih (fun c hc => h c (List.mem_cons_of_mem _ hc))
    simp only [bytesVal, List.length_cons, pow_succ]
    omega

theorem swar_byte : ∀ b, b < 256 →
    (b / 2 &&& 0x55) ≤ b ∧ swar1 b < 256 ∧ swar2 (swar1 b) < 256 ∧
    swar2 (swar1 b) % 16 ≤ 4 ∧ swar2 (swar1 b) / 16 ≤ 4 ∧
    swar3 (swar2 (swar1 b)) = popBits 8 b := by
  decide

theorem swar_step1 (bs : List Nat) (hb : ∀ b ∈ bs, b < 256) (hlt : bytesVal bs < 2 ^ 64) :
    sub64 (bytesVal bs) ((bytesVal bs >>> 1) &&& bytesVal (List.replicate bs.length 0x55)) =
      bytesVal (bs.map swar1) := by
  have s1 := bytesVal_map_sub (fun b => b) (fun b => (b / 2) &&& 0x55) bs
    (fun b hbm => (swar_byte b (hb b hbm)).1)
  rw [List.map_id'] at s1
  rw [Nat.shiftRight_eq_div_pow, pow_one, bytesVal_shr1_mask bs hb, sub64_eq s1.1 hlt, s1.2]
  rfl

theorem swar_step2 (cs : List Nat) (hc : ∀ c ∈ cs, c < 256)
    (hlt : bytesVal (cs.map swar2) < 2 ^ 64) :
    add64 (bytesVal cs &&& bytesVal (List.replicate cs.length 0x33))
        ((bytesVal cs >>> 2) &&& bytesVal (List.replicate cs.length 0x33)) =
      bytesVal (cs.map swar2) := by
  have e : bytesVal cs >>> 2 = bytesVal cs / 4 := by
    rw [Nat.shiftRight_eq_div_pow]
  have hsum := bytesVal_map_add (fun b => b &&& 0x33) (fun b => (b / 4) &&& 0x33) cs
  have hsw : (fun b => (b &&& 0x33) + ((b / 4) &&& 0x33)) = swar2 := rfl
  rw [hsw] at hsum
  rw [e, bytesVal_and_mask 0x33 (by norm_num) cs hc, bytesVal_shr2_mask cs hc,
    add64_eq (by rw [hsum]; exact hlt), hsum]

theorem swar_step3 (ds : List Nat) (hd : ∀ d ∈ ds, d % 16 ≤ 4 ∧ d / 16 ≤ 4)
    (hlt : bytesVal ds + bytesVal ds / 16 < 2 ^ 64) :
    (add64 (bytesVal ds) (bytesVal ds >>> 4)) &&& bytesVal (List.replicate ds.length 0x0F) =
      bytesVal (ds.map swar3) := by
  have e : bytesVal ds >>> 4 = bytesVal ds / 16 := by
    rw [Nat.shiftRight_eq_div_pow]
  rw [e, add64_eq hlt, bytesVal_fold_nibbles ds hd]
  rfl

theorem popBits64_bytes (b0 b1 b2 b3 b4 b5 b6 b7 : Nat)
    (h0 : b0 < 256) (h1 : b1 < 256) (h2 : b2 < 256) (h3 : b3 < 256)
    (h4 : b4 < 256) (h5 : b5 < 256) (h6 : b6 < 256) (h7 : b7 < 256) :
    popBits 64 (bytesVal [b0, b1, b2, b3, b4, b5, b6, b7]) =
      popBits 8 b0 + popBits 8 b1 + popBits 8 b2 + popBits 8 b3 + popBits 8 b4 +
        popBits 8 b5 + popBits 8 b6 + popBits 8 b7 := by
  have step : ∀ (n : Nat) (b r : Nat), b < 256 →
      popBits (8 + n) (b + 256 * r) = popBits 8 b + popBits n r := by
    intro n b r hb
    rw [popBits_split n 8 (b + 256 * r)]
    have e1 : (b + 256 * r) % 2 ^ 8 = b := by norm_num; omega
    have e2 : (b + 256 * r) / 2 ^ 8 = r := by norm_num; omega
    rw [e1, e2]
  simp only [bytesVal]
  rw [show (64 : Nat) = 8 + 56 from rfl, step 56 _ _ h0,
    show (56 : Nat) = 8 + 48 from rfl, step 48 _ _ h1,
    show (48 : Nat) = 8 + 40 from rfl, step 40 _ _ h2,
    show (40 : Nat) = 8 + 32 from rfl, step 32 _ _ h3,
    show (32 : Nat) = 8 + 24 from rfl, step 24 _ _ h4,
    show (24 : Nat) = 8 + 16 from rfl, step 16 _ _ h5,
    show (16 : Nat) = 8 + 8 from rfl, step 8 _ _ h6,
    show (8 : Nat) = 8 + 0 from rfl, step 0 _ _ h7]
  simp [popBits]
  omega

theorem swar_mul_top (e0 e1 e2 e3 e4 e5 e6 e7 : Nat)
    (g0 : e0 ≤ 8) (g1 : e1 ≤ 8) (g2 : e2 ≤ 8) (g3 : e3 ≤ 8)
    (g4 : e4 ≤ 8) (g5 : e5 ≤ 8) (g6 : e6 ≤ 8) (g7 : e7 ≤ 8) :
    ((e0 + 256 * (e1 + 256 * (e2 + 256 * (e3 + 256 * (e4 + 256 * (e5 +
      256 * (e6 + 256 * (e7 + 256 * 0)))))))) * 0x0101010101010101) % 2 ^ 64 / 2 ^ 56 =
      e0 + e1 + e2 + e3 + e4 + e5 + e6 + e7 := by
  have hprod : (e0 + 256 * (e1 + 256 * (e2 + 256 * (e3 + 256 * (e4 + 256 * (e5 +
      256 * (e6 + 256 * (e7 + 256 * 0)))))))) * 0x0101010101010101 =
      (e0 + 256 * (e0 + e1) + 65536 * (e0 + e1 + e2) + 16777216 * (e0 + e1 + e2 + e3) +
        4294967296 * (e0 + e1 + e2 + e3 + e4) +
        1099511627776 * (e0 + e1 + e2 + e3 + e4 + e5) +
        281474976710656 * (e0 + e1 + e2 + e3 + e4 + e5 + e6) +
        72057594037927936 * (e0 + e1 + e2 + e3 + e4 + e5 + e6 + e7)) +
      2 ^ 64 * (e1 + 257 * e2 + 65793 * e3 + 16843009 * e4 + 4311810305 * e5 +
        1103823438081 * e6 + 282578800148737 * e7) := by
    ring
  rw [hprod, Nat.add_mul_mod_self_left]
  have hL : e0 + 256 * (e0 + e1) + 65536 * (e0 + e1 + e2) +
      16777216 * (e0 + e1 + e2 + e3) + 4294967296 * (e0 + e1 + e2 + e3 + e4) +
      1099511627776 * (e0 + e1 + e2 + e3 + e4 + e5) +
      281474976710656 * (e0 + e1 + e2 + e3 + e4 + e5 + e6) < 72057594037927936 := by
    linarith
  have hP : e0 + e1 + e2 + e3 + e4 + e5 + e6 + e7 < 256 := by linarith
  generalize e0 + 256 * (e0 + e1) + 65536 * (e0 + e1 + e2) +
      16777216 * (e0 + e1 + e2 + e3) + 4294967296 * (e0 + e1 + e2 + e3 + e4) +
      1099511627776 * (e0 + e1 + e2 + e3 + e4 + e5) +
      281474976710656 * (e0 + e1 + e2 + e3 + e4 + e5 + e6) = L at hL ⊢
  generalize e0 + e1 + e2 + e3 + e4 + e5 + e6 + e7 = P at hP ⊢
  have h64 : (2 : Nat) ^ 64 = 18446744073709551616 := by norm_num
  have h56 : (2 : Nat) ^ 56 = 72057594037927936 := by norm_num
  rw [h64, h56]
  omega

/-- The portable popcount equals the bit population on every 64-bit word. -/
theorem popcount_swar_eq (x : Nat) (hx : x < 2 ^ 64) : popcount_swar x = popBits 64 x := by
  obtain ⟨b0, b1, b2, b3, b4, b5, b6, b7, h0, h1, h2, h3, h4, h5, h6, h7, rfl⟩ :
      ∃ b0 b1 b2 b3 b4 b5 b6 b7 : Nat, b0 < 256 ∧ b1 < 256 ∧ b2 < 256 ∧ b3 < 256 ∧
        b4 < 256 ∧ b5 < 256 ∧ b6 < 256 ∧ b7 < 256 ∧
        x = bytesVal [b0, b1, b2, b3, b4, b5, b6, b7] := by
    have hx' : x < 18446744073709551616 := by norm_num at hx; exact hx
    refine ⟨x % 256, x / 256 % 256, x / 65536 % 256, x / 16777216 % 256,
      x / 4294967296 % 256, x / 1099511627776 % 256, x / 281474976710656 % 256,
      x / 72057594037927936 % 256, ?_, ?_, ?_, ?_, ?_, ?_, ?_, ?_, ?_⟩
    · omega
    · omega
    · omega
    · omega
    · omega
    · omega
    · omega
    · omega
    · simp only [bytesVal]
      omega
  have hb : ∀ b ∈ [b0, b1, b2, b3, b4, b5, b6, b7], b < 256 := by
    intro b hbm
    simp only [List.mem_cons, List.mem_singleton, List.not_mem_nil, or_false] at hbm
    rcases hbm with rfl | rfl | rfl | rfl | rfl | rfl | rfl | rfl
    · exact h0
    · exact h1
    · exact h2
    · exact h3
    · exact h4
    · exact h5
    · exact h6
    · exact h7
  have f0 := swar_byte b0 h0
  have f1 := swar_byte b1 h1
  have f2 := swar_byte b2 h2
  have f3 := swar_byte b3 h3
  have f4 := swar_byte b4 h4
  have f5 := swar_byte b5 h5
  have f6 := swar_byte b6 h6
  have f7 := swar_byte b7 h7
  have hc : ∀ c ∈ [b0, b1, b2, b3, b4, b5, b6, b7].map swar1, c < 256 := by
    intro c hcm
    obtain ⟨b, hbm, rfl⟩ := List.mem_map.1 hcm
    exact (swar_byte b (hb b hbm)).2.1
  have hd : ∀ d ∈ ([b0, b1, b2, b3, b4, b5, b6, b7].map swar1).map swar2,
      d % 16 ≤ 4 ∧ d / 16 ≤ 4 := by
    intro d hdm
    obtain ⟨c, hcm, rfl⟩ := List.mem_map.1 hdm
    obtain ⟨b, hbm, rfl⟩ := List.mem_map.1 hcm
    have := swar_byte b (hb b hbm)
    exact ⟨this.2.2.2.1, this.2.2.2.2.1⟩
  have hlt0 : bytesVal [b0, b1, b2, b3, b4, b5, b6, b7] < 2 ^ 64 := hx
  have hlt2 : bytesVal (([b0, b1, b2, b3, b4, b5, b6, b7].map swar1).map swar2) < 2 ^ 63 := by
    simp only [List.map, bytesVal]
    norm_num
    omega
  have e1 := swar_step1 _ hb hlt0
  have e2 := swar_step2 _ hc (lt_trans hlt2 (by norm_num))
  have e3 := swar_step3 _ hd (by omega)
  have c55 : (0x5555555555555555 : Nat) = bytesVal (List.replicate 8 0x55) := by decide
  have c33 : (0x3333333333333333 : Nat) = bytesVal (List.replicate 8 0x33) := by decide
  have c0F : (0x0F0F0F0F0F0F0F0F : Nat) = bytesVal (List.replicate 8 0x0F) := by decide
  simp only [List.length_cons, List.length_nil, List.length_map] at e1 e2 e3
  unfold popcount_swar
  simp only []
  rw [c55, c33, c0F]
  norm_num only [] at e1 e2 e3 ⊢
  rw [e1, e2, e3, popBits64_bytes b0 b1 b2 b3 b4 b5 b6 b7 h0 h1 h2 h3 h4 h5 h6 h7]
  rw [← f0.2.2.2.2.2, ← f1.2.2.2.2.2, ← f2.2.2.2.2.2, ← f3.2.2.2.2.2, ← f4.2.2.2.2.2,
    ← f5.2.2.2.2.2, ← f6.2.2.2.2.2, ← f7.2.2.2.2.2]
  have g0 : swar3 (swar2 (swar1 b0)) ≤ 8 := by
    have := f0.2.2.2.1; have := f0.2.2.2.2.1; unfold swar3; omega
  have g1 : swar3 (swar2 (swar1 b1)) ≤ 8 := by
    have := f1.2.2.2.1; have := f1.2.2.2.2.1; unfold swar3; omega
  have g2 : swar3 (swar2 (swar1 b2)) ≤ 8 := by
    have := f2.2.2.2.1; have := f2.2.2.2.2.1; unfold swar3; omega
  have g3 : swar3 (swar2 (swar1 b3)) ≤ 8 := by
    have := f3.2.2.2.1; have := f3.2.2.2.2.1; unfold swar3; omega
  have g4 : swar3 (swar2 (swar1 b4)) ≤ 8 := by
    have := f4.2.2.2.1; have := f4.2.2.2.2.1; unfold swar3; omega
  have g5 : swar3 (swar2 (swar1 b5)) ≤ 8 := by
    have := f5.2.2.2.1; have := f5.2.2.2.2.1; unfold swar3; omega
  have g6 : swar3 (swar2 (swar1 b6)) ≤ 8 := by
    have := f6.2.2.2.1; have := f6.2.2.2.2.1; unfold swar3; omega
  have g7 : swar3 (swar2 (swar1 b7)) ≤ 8 := by
    have := f7.2.2.2.1; have := f7.2.2.2.2.1; unfold swar3; omega
  simp only [List.map, bytesVal]
  generalize swar3 (swar2 (swar1 b0)) = e0 at g0 ⊢
  generalize swar3 (swar2 (swar1 b1)) = e1' at g1 ⊢
  generalize swar3 (swar2 (swar1 b2)) = e2' at g2 ⊢
  generalize swar3 (swar2 (swar1 b3)) = e3' at g3 ⊢
  generalize swar3 (swar2 (swar1 b4)) = e4' at g4 ⊢
  generalize swar3 (swar2 (swar1 b5)) = e5' at g5 ⊢
  generalize swar3 (swar2 (swar1 b6)) = e6' at g6 ⊢
  generalize swar3 (swar2 (swar1 b7)) = e7' at g7 ⊢
  clear e1 e2 e3 hlt0 hlt2 hc hd hb hx f0 f1 f2 f3 f4 f5 f6 f7 c55 c33 c0F
  unfold mul64
  rw [Nat.shiftRight_eq_div_pow]
  exact swar_mul_top e0 e1' e2' e3' e4' e5' e6' e7' g0 g1 g2 g3 g4 g5 g6 g7

theorem popBits_zero : ∀ n : Nat, popBits n 0 = 0 := by
  intro n
  induction n with
  | zero => rfl
  | succ k ih => simp [popBits, ih]

theorem word_zeros_eq : ∀ (r w : Nat), word_zeros r w + popBits r w = r := by
  intro r
  induction r with
  | zero => intro w; simp [word_zeros, popBits]
  | succ k ih =>
    intro w
    have h := ih (w / 2)
    unfold word_zeros at h ⊢
    rw [List.range_succ_eq_map, List.countP_cons, List.countP_map]
    have hfun : ((fun b => !w.testBit b) ∘ Nat.succ) = (fun b => !(w / 2).testBit b) := by
      funext b
      simp [Function.comp, Nat.testBit_succ]
    rw [hfun]
    simp only [popBits, Nat.testBit_zero]
    rcases Nat.mod_two_eq_zero_or_one w with h0 | h1
    · simp [h0]; omega
    · simp [h1]; omega

theorem popBits_low (r : Nat) (hr : r ≤ 64) (w : Nat) :
    popBits 64 (w % 2 ^ r) = popBits r w := by
  have e : (64 : Nat) = r + (64 - r) := by omega
  rw [e, popBits_split (64 - r) r (w % 2 ^ r), Nat.mod_mod, popBits_mod,
    Nat.div_eq_of_lt (Nat.mod_lt _ (by positivity)), popBits_zero, add_zero]

theorem get_bit_word (bits : List Nat) (k b : Nat) (hb : b < 64) :
    get_bit bits (64 * k + b) = (bits.getD k 0).testBit b := by
  unfold get_bit
  have h1 : (64 * k + b) / 64 = k := by omega
  have h2 : (64 * k + b) % 64 = b := by omega
  rw [h1, h2]

theorem zero_count_add (bits : List Nat) (k r : Nat) (hr : r ≤ 64) :
    zero_count bits (64 * k + r) = zero_count bits (64 * k) + word_zeros r (bits.getD k 0) := by
  unfold zero_count word_zeros
  rw [List.range_add, List.countP_append, List.countP_map]
  congr 1
  apply List.countP_congr
  intro b hb
  have hb' : b < 64 := by
    have := List.mem_range.1 hb
    omega
  simp only [Function.comp, get_bit_word bits k b hb']

theorem zero_count_le (bits : List Nat) (n : Nat) : zero_count bits n ≤ n := by
  unfold zero_count
  have := List.countP_le_length (fun i => !get_bit bits i) (l := List.range n)
  simpa using this

theorem popcount_u64_eq (builtin : Bool) (w : Nat) (hw : w < 2 ^ 64) :
    popcount_u64 builtin w = popBits 64 w := by
  unfold popcount_u64
  cases builtin
  · simp [popcount_swar_eq w hw]
  · simp

theorem word_zeros_sub (w : Nat) : 64 - popBits 64 w = word_zeros 64 w := by
  have := word_zeros_eq 64 w
  omega

theorem sub64_pop (w : Nat) : sub64 64 (popBits 64 w) = word_zeros 64 w := by
  rw [sub64_eq (popBits_le 64 w) (by norm_num), word_zeros_sub]

theorem zero_count_succ_word (bits : List Nat) (i : Nat) :
    zero_count bits (64 * (i + 1)) = zero_count bits (64 * i) + word_zeros 64 (bits.getD i 0) := by
  have := zero_count_add bits i 64 (le_refl _)
  rw [← this]
  congr 1

theorem zero_loop_inv (builtin : Bool) (bits : List Nat) (hbits : ∀ i, bits.getD i 0 < 2 ^ 64)
    (fw : Nat) (hfw : 64 * fw < 2 ^ 64) : ∀ (fuel i total : Nat), i ≤ fw → fw - i ≤ fuel →
    total = zero_count bits (64 * i) →
    zero_loop builtin bits fw fuel i total = zero_count bits (64 * fw) := by
  intro fuel
  induction fuel with
  | zero =>
    intro i total hi hf ht
    have : i = fw := by omega
    subst this
    simp [zero_loop, ht]
  | succ k ih =>
    intro i total hi hf ht
    unfold zero_loop
    by_cases hlt : i < fw
    · rw [if_pos hlt]
      apply ih (i + 1) _ (by omega) (by omega)
      rw [popcount_u64_eq builtin _ (hbits i), sub64_pop, zero_count_succ_word, ht]
      apply add64_eq
      have h1 := zero_count_le bits (64 * (i + 1))
      rw [zero_count_succ_word] at h1
      omega
    · rw [if_neg hlt]
      have : i = fw := by omega
      subst this
      exact ht

theorem avx512_block (bits : List Nat) (i : Nat) : ∀ (n total : Nat),
    64 * (i + n) < 2 ^ 64 → total = zero_count bits (64 * i) →
    (List.range n).foldl
      (fun t j => add64 t (sub64 64 (popBits 64 (bits.getD (i + j) 0)))) total =
      zero_count bits (64 * (i + n)) := by
  intro n
  induction n with
  | zero => intro total _ ht; simpa using ht
  | succ k ih =>
    intro total hb ht
    rw [List.range_succ, List.foldl_append, ih total (by omega) ht]
    simp only [List.foldl_cons, List.foldl_nil]
    rw [sub64_pop, show i + (k + 1) = (i + k) + 1 from rfl, zero_count_succ_word]
    apply add64_eq
    have h1 := zero_count_le bits (64 * ((i + k) + 1))
    rw [zero_count_succ_word] at h1
    omega

theorem avx512_loop_inv (bits : List Nat) (fw : Nat) (hfw : 64 * fw < 2 ^ 64) :
    ∀ (fuel i total : Nat), i ≤ fw → total = zero_count bits (64 * i) →
    (avx512_loop bits fw fuel i total).1 ≤ fw ∧
      (avx512_loop bits fw fuel i total).2 =
        zero_count bits (64 * (avx512_loop bits fw fuel i total).1) := by
  intro fuel
  induction fuel with
  | zero => intro i total hi ht; exact ⟨hi, ht⟩
  | succ k ih =>
    intro i total hi ht
    unfold avx512_loop
    by_cases h8 : i + 8 ≤ fw
    · rw [if_pos h8]
      exact ih (i + 8) _ h8 (avx512_block bits i 8 total (by omega) ht)
    · rw [if_neg h8]
      exact ⟨hi, ht⟩

theorem avx2_lane_eq (w : Nat) (hw : w < 2 ^ 64) : avx2_lane w = popBits 64 w := by
  have hw' : w < 18446744073709551616 := by norm_num at hw; exact hw
  have hr : List.range 8 = [0, 1, 2, 3, 4, 5, 6, 7] := by decide
  have hwv : w = bytesVal [w % 256, w / 256 % 256, w / 65536 % 256, w / 16777216 % 256,
      w / 4294967296 % 256, w / 1099511627776 % 256, w / 281474976710656 % 256,
      w / 72057594037927936 % 256] := by
    simp only [bytesVal]
    omega
  unfold avx2_lane
  rw [hr]
  simp only [List.map, List.sum_cons, List.sum_nil, Nat.shiftRight_eq_div_pow]
  norm_num only []
  have hb : ∀ x : Nat, avx2_byte (x % 256) = popBits 8 (x % 256) :=
    fun x => avx2_byte_eq _ (Nat.mod_lt _ (by norm_num))
  conv_rhs => rw [hwv]
  rw [popBits64_bytes _ _ _ _ _ _ _ _ (Nat.mod_lt _ (by norm_num)) (Nat.mod_lt _ (by norm_num))
    (Nat.mod_lt _ (by norm_num)) (Nat.mod_lt _ (by norm_num)) (Nat.mod_lt _ (by norm_num))
    (Nat.mod_lt _ (by norm_num)) (Nat.mod_lt _ (by norm_num)) (Nat.mod_lt _ (by norm_num))]
  have h0 := hb w
  have h1 := hb (w / 256)
  have h2 := hb (w / 65536)
  have h3 := hb (w / 16777216)
  have h4 := hb (w / 4294967296)
  have h5 := hb (w / 1099511627776)
  have h6 := hb (w / 281474976710656)
  have h7 := hb (w / 72057594037927936)
  simp only [pow_zero, Nat.div_one, mul_zero, mul_one] at *
  norm_num only [] at *
  omega

theorem ones_step (bits : List Nat) (i ones p : Nat) (hfw : 64 * (i + 1) < 2 ^ 64)
    (hinv : ones + zero_count bits (64 * i) = 64 * i) (hp : p = popBits 64 (bits.getD i 0)) :
    add64 ones p + zero_count bits (64 * (i + 1)) = 64 * (i + 1) := by
  have h1 := word_zeros_eq 64 (bits.getD i 0)
  have h2 := zero_count_succ_word bits i
  rw [add64_eq (by omega)]
  omega

theorem ones_loop_inv (builtin : Bool) (bits : List Nat) (hbits : ∀ i, bits.getD i 0 < 2 ^ 64)
    (fw : Nat) (hfw : 64 * fw < 2 ^ 64) : ∀ (fuel i ones : Nat), i ≤ fw → fw - i ≤ fuel →
    ones + zero_count bits (64 * i) = 64 * i →
    ones_loop builtin bits fw fuel i ones + zero_count bits (64 * fw) = 64 * fw := by
  intro fuel
  induction fuel with
  | zero =>
    intro i ones hi hf ht
    have : i = fw := by omega
    subst this
    simpa [ones_loop] using ht
  | succ k ih =>
    intro i ones hi hf ht
    unfold ones_loop
    by_cases hlt : i < fw
    · rw [if_pos hlt]
      apply ih (i + 1) _ (by omega) (by omega)
      exact ones_step bits i ones _ (by omega) ht (popcount_u64_eq builtin _ (hbits i))
    · rw [if_neg hlt]
      have : i = fw := by omega
      subst this
      exact ht

theorem avx2_loop_inv (bits : List Nat) (hbits : ∀ i, bits.getD i 0 < 2 ^ 64)
    (fw : Nat) (hfw : 64 * fw < 2 ^ 64) :
    ∀ (fuel i ones : Nat), i ≤ fw → ones + zero_count bits (64 * i) = 64 * i →
    (avx2_loop bits fw fuel i ones).1 ≤ fw ∧
      (avx2_loop bits fw fuel i ones).2 +
        zero_count bits (64 * (avx2_loop bits fw fuel i ones).1) =
        64 * (avx2_loop bits fw fuel i ones).1 := by
  intro fuel
  induction fuel with
  | zero => intro i ones hi ht; exact ⟨hi, ht⟩
  | succ k ih =>
    intro i ones hi ht
    unfold avx2_loop
    by_cases h4 : i + 4 ≤ fw
    · rw [if_pos h4]
      apply ih (i + 4) _ h4
      rw [avx2_lane_eq _ (hbits i), avx2_lane_eq _ (hbits (i + 1)),
        avx2_lane_eq _ (hbits (i + 2)), avx2_lane_eq _ (hbits (i + 3))]
      have w0 := word_zeros_eq 64 (bits.getD i 0)
      have w1 := word_zeros_eq 64 (bits.getD (i + 1) 0)
      have w2 := word_zeros_eq 64 (bits.getD (i + 2) 0)
      have w3 := word_zeros_eq 64 (bits.getD (i + 3) 0)
      have z0 := zero_count_succ_word bits i
      have z1 := zero_count_succ_word bits (i + 1)
      have z2 := zero_count_succ_word bits (i + 2)
      have z3 := zero_count_succ_word bits (i + 3)
      have e : i + 3 + 1 = i + 4 := rfl
      have e1 : i + 1 + 1 = i + 2 := rfl
      have e2 : i + 2 + 1 = i + 3 := rfl
      rw [e] at z3
      rw [e1] at z1
      rw [e2] at z2
      have p0 := popBits_le 64 (bits.getD i 0)
      have p1 := popBits_le 64 (bits.getD (i + 1) 0)
      have p2 := popBits_le 64 (bits.getD (i + 2) 0)
      have p3 := popBits_le 64 (bits.getD (i + 3) 0)
      have a1 : add64 (popBits 64 (bits.getD i 0)) (popBits 64 (bits.getD (i + 1) 0)) =
          popBits 64 (bits.getD i 0) + popBits 64 (bits.getD (i + 1) 0) :=
        add64_eq (by omega)
      rw [a1]
      have a2 : add64 (popBits 64 (bits.getD i 0) + popBits 64 (bits.getD (i + 1) 0))
          (popBits 64 (bits.getD (i + 2) 0)) =
          popBits 64 (bits.getD i 0) + popBits 64 (bits.getD (i + 1) 0) +
            popBits 64 (bits.getD (i + 2) 0) :=
        add64_eq (by omega)
      rw [a2]
      have a3 : add64 (popBits 64 (bits.getD i 0) + popBits 64 (bits.getD (i + 1) 0) +
            popBits 64 (bits.getD (i + 2) 0)) (popBits 64 (bits.getD (i + 3) 0)) =
          popBits 64 (bits.getD i 0) + popBits 64 (bits.getD (i + 1) 0) +
            popBits 64 (bits.getD (i + 2) 0) + popBits 64 (bits.getD (i + 3) 0) :=
        add64_eq (by omega)
      rw [a3, add64_eq (by omega)]
      omega
    · rw [if_neg h4]
      exact ⟨hi, ht⟩

theorem getD_lt_of_forall (bits : List Nat) (h : ∀ w ∈ bits, w < 2 ^ 64) :
    ∀ i, bits.getD i 0 < 2 ^ 64 := by
  induction bits with
  | nil => intro i; simp
  | cons x xs ih =>
    intro i
    cases i with
    | zero => simpa using h x (List.mem_cons_self _ _)
    | succ j => simpa using ih (fun w hw => h w (List.mem_cons_of_mem _ hw)) j

/-- The zero count of `count_zero_bits` on every build. -/
theorem count_zero_bits_eq (path : SimdPath) (builtin : Bool) (bits : List Nat)
    (bit_count : Nat) (hwords : ∀ w ∈ bits, w < 2 ^ 64) (hsize : bit_count < 2 ^ 64) :
    count_zero_bits path builtin bits bit_count = zero_count bits bit_count := by
  have hbits : ∀ i, bits.getD i 0 < 2 ^ 64 := getD_lt_of_forall bits hwords
  have hfw : 64 * (bit_count / 64) < 2 ^ 64 := by omega
  have hsplit : bit_count = 64 * (bit_count / 64) + bit_count % 64 := by omega
  have htotal : count_full_words path builtin bits (bit_count / 64) =
      zero_count bits (64 * (bit_count / 64)) := by
    unfold count_full_words
    have hz0 : (0 : Nat) = zero_count bits (64 * 0) := by simp [zero_count]
    cases path with
    | scalar =>
      exact zero_loop_inv builtin bits hbits _ hfw _ 0 0 (Nat.zero_le _) (by omega) hz0
    | avx512 =>
      have h := avx512_loop_inv bits _ hfw (bit_count / 64) 0 0 (Nat.zero_le _) hz0
      exact zero_loop_inv builtin bits hbits _ hfw _ _ _ h.1 (by omega) h.2
    | avx2 =>
      have h := avx2_loop_inv bits hbits _ hfw (bit_count / 64) 0 0 (Nat.zero_le _)
        (by simp [zero_count])
      have h2 := ones_loop_inv builtin bits hbits _ hfw (bit_count / 64) _ _ h.1 (by omega) h.2
      simp only []
      rw [mul64_eq (by omega), sub64_eq (by omega) (by omega), add64_eq (by omega)]
      omega
  unfold count_zero_bits
  simp only []
  rw [htotal]
  by_cases hrem : bit_count % 64 = 0
  · simp only [hrem, ne_eq, not_true_eq_false, if_false]
    conv_rhs => rw [hsplit, hrem, add_zero]
  · have hr64 : bit_count % 64 < 64 := Nat.mod_lt _ (by norm_num)
    have hne : bit_count % 64 ≠ 64 := by omega
    simp only [ne_eq, hrem, not_false_eq_true, if_true, hne, if_false]
    have hmask : sub64 (shl64 1 (bit_count % 64)) 1 = 2 ^ (bit_count % 64) - 1 := by
      rw [shl64_one hr64]
      apply sub64_eq (Nat.one_le_two_pow)
      exact Nat.pow_lt_pow_right (by norm_num) hr64
    have hand : bits.getD (bit_count / 64) 0 &&& (2 ^ (bit_count % 64) - 1) =
        bits.getD (bit_count / 64) 0 % 2 ^ (bit_count % 64) :=
      Nat.and_pow_two_sub_one_eq_mod _ _
    have hlt : bits.getD (bit_count / 64) 0 % 2 ^ (bit_count % 64) < 2 ^ 64 :=
      lt_of_le_of_lt (Nat.mod_le _ _) (hbits _)
    rw [hmask, hand, popcount_u64_eq builtin _ hlt, popBits_low _ (le_of_lt hr64)]
    have hwz := word_zeros_eq (bit_count % 64) (bits.getD (bit_count / 64) 0)
    have hza := zero_count_add bits (bit_count / 64) (bit_count % 64) (le_of_lt hr64)
    rw [← hsplit] at hza
    have hle := zero_count_le bits bit_count
    rw [sub64_eq (by omega) (by omega), add64_eq (by omega)]
    omega

/-! ## base_sieve.cpp: correctness of `simple_sieve` -/

theorem sqrtBits_spec : ∀ (k n r : Nat), r * r ≤ n → n < (r + 2 ^ k) * (r + 2 ^ k) →
    sqrtBits k n r * sqrtBits k n r ≤ n ∧
      n < (sqrtBits k n r + 1) * (sqrtBits k n r + 1) := by
  intro k
  induction k with
  | zero =>
    intro n r h1 h2
    simpa [sqrtBits] using And.intro h1 h2
  | succ j ih =>
    intro n r h1 h2
    unfold sqrtBits
    by_cases h : (r + 2 ^ j) * (r + 2 ^ j) ≤ n
    · rw [if_pos h]
      apply ih _ _ h
      have e : r + 2 ^ j + 2 ^ j = r + 2 ^ (j + 1) := by rw [pow_succ]; omega
      rw [e]; exact h2
    · rw [if_neg h]
      exact ih _ _ h1 (by omega)

theorem floor_sqrt_eq (n : Nat) (hn : n < 2 ^ 64) : floor_sqrt n = Nat.sqrt n := by
  unfold floor_sqrt
  have h := sqrtBits_spec 33 n 0 (by simp) (by
    have : (2 : Nat) ^ 64 ≤ (0 + 2 ^ 33) * (0 + 2 ^ 33) := by norm_num
    omega)
  exact Nat.eq_sqrt.2 h

theorem testBit_vb_set (v j x : Nat) : (vb_set v j).testBit x = (v.testBit x || decide (j = x)) := by
  unfold vb_set
  rw [Nat.testBit_or, Nat.testBit_two_pow]

theorem mark_multiples_spec (p size : Nat) (hp : 0 < p) (hsz : size + p < 2 ^ 64) :
    ∀ (fuel j v : Nat), size ≤ j + fuel → ∀ x,
    (mark_multiples p size fuel j v).testBit x =
      (v.testBit x || decide (j ≤ x ∧ x < size ∧ p ∣ x - j)) := by
  intro fuel
  induction fuel with
  | zero =>
    intro j v hf x
    simp only [mark_multiples]
    have : ¬ (j ≤ x ∧ x < size ∧ p ∣ x - j) := by omega
    simp [this]
  | succ k ih =>
    intro j v hf x
    unfold mark_multiples
    by_cases hj : j < size
    · rw [if_pos hj, add64_eq (by omega), ih (j + p) _ (by omega) x, testBit_vb_set]
      rw [Bool.or_assoc]
      congr 1
      rw [Bool.eq_iff_iff]
      simp only [Bool.or_eq_true, decide_eq_true_eq]
      constructor
      · rintro (h | ⟨h1, h2, h3⟩)
        · subst h; exact ⟨le_refl _, hj, by simp⟩
        · refine ⟨by omega, h2, ?_⟩
          have e : x - j = (x - (j + p)) + p := by omega
          rw [e]; exact Dvd.dvd.add h3 (dvd_refl p)
      · rintro ⟨h1, h2, h3⟩
        by_cases hx : j = x
        · left; exact hx
        · right
          obtain ⟨c, hc⟩ := h3
          have hc0 : c ≠ 0 := by
            rintro rfl
            omega
          obtain ⟨d, rfl⟩ : ∃ d, c = d + 1 := ⟨c - 1, by omega⟩
          have hxj : x - j = p * d + p := by rw [hc]; ring
          refine ⟨by omega, h2, ⟨d, by omega⟩⟩
    · rw [if_neg hj]
      have : ¬ (j ≤ x ∧ x < size ∧ p ∣ x - j) := by omega
      simp [this]

theorem odd_multiple_iff (i x : Nat) :
    ((2 * i + 1) * (2 * i + 1) / 2 ≤ x ∧ (2 * i + 1) ∣ x - (2 * i + 1) * (2 * i + 1) / 2) ↔
      ((2 * i + 1) * (2 * i + 1) ≤ 2 * x + 1 ∧ (2 * i + 1) ∣ 2 * x + 1) := by
  have hsq : (2 * i + 1) * (2 * i + 1) = 2 * (2 * i * i + 2 * i) + 1 := by ring
  have hstart : (2 * i + 1) * (2 * i + 1) / 2 = 2 * i * i + 2 * i := by omega
  rw [hstart, hsq]
  constructor
  · rintro ⟨h1, c, hc⟩
    refine ⟨by omega, ⟨(2 * i + 1) + 2 * c, ?_⟩⟩
    have e : (2 * i + 1) * ((2 * i + 1) + 2 * c) =
        (2 * (2 * i * i + 2 * i) + 1) + 2 * ((2 * i + 1) * c) := by ring
    rw [e]
    omega
  · rintro ⟨h1, m, hm⟩
    have hmodd : m % 2 = 1 := by
      rcases Nat.even_or_odd m with he | ho
      · exfalso
        obtain ⟨t, ht⟩ := he
        have : (2 * i + 1) * m = 2 * ((2 * i + 1) * t) := by rw [ht]; ring
        omega
      · exact Nat.odd_iff.1 ho
    have hmp : 2 * i + 1 ≤ m := by
      by_contra hlt
      have hlt' : m + 1 ≤ 2 * i + 1 := by omega
      have : (2 * i + 1) * (m + 1) ≤ (2 * i + 1) * (2 * i + 1) :=
        Nat.mul_le_mul_left _ hlt'
      have e2 : (2 * i + 1) * (m + 1) = (2 * i + 1) * m + (2 * i + 1) := by ring
      omega
    obtain ⟨c, hc⟩ : ∃ c, m = (2 * i + 1) + 2 * c := ⟨(m - (2 * i + 1)) / 2, by omega⟩
    have e : (2 * i + 1) * m =
        (2 * (2 * i * i + 2 * i) + 1) + 2 * ((2 * i + 1) * c) := by rw [hc]; ring
    refine ⟨by omega, ⟨c, ?_⟩⟩
    omega

theorem odd_composite_factor (n : Nat) (hodd : n % 2 = 1) (h3 : 3 ≤ n) (hnp : ¬ Nat.Prime n) :
    ∃ i, 1 ≤ i ∧ Nat.Prime (2 * i + 1) ∧ (2 * i + 1) * (2 * i + 1) ≤ n ∧ (2 * i + 1) ∣ n := by
  have hq : Nat.Prime n.minFac := Nat.minFac_prime (by omega)
  have hdvd : n.minFac ∣ n := Nat.minFac_dvd n
  have hsq : n.minFac ^ 2 ≤ n := Nat.minFac_sq_le_self (by omega) hnp
  have hqodd : n.minFac % 2 = 1 := by
    rcases Nat.Prime.eq_two_or_odd hq with h2 | ho
    · exfalso
      rw [h2] at hdvd
      omega
    · exact ho
  have h2le := hq.two_le
  refine ⟨(n.minFac - 1) / 2, by omega, ?_⟩
  have e : 2 * ((n.minFac - 1) / 2) + 1 = n.minFac := by omega
  rw [e]
  exact ⟨hq, by rw [← sq]; exact hsq, hdvd⟩

theorem prime_not_marked (n p : Nat) (hn : Nat.Prime n) (hp : Nat.Prime p) (hsq : p * p ≤ n)
    (hd : p ∣ n) : False := by
  have h := (Nat.prime_dvd_prime_iff_eq hp hn).1 hd
  subst h
  have := hp.two_le
  nlinarith

theorem sieve_loop_spec (size bound : Nat) (hb : bound < size) (hsz : size ≤ 2 ^ 31) :
    ∀ (fuel i v : Nat), 1 ≤ i → i ≤ bound + 1 → bound + 1 ≤ i + fuel →
    (∀ x, v.testBit x = true ↔ SieveMarked (i - 1) size x) →
    ∀ x, (sieve_loop size bound fuel i v).testBit x = true ↔ SieveMarked bound size x := by
  intro fuel
  induction fuel with
  | zero =>
    intro i v hi hib hf hinv x
    have : i - 1 = bound := by omega
    simp only [sieve_loop]
    rw [hinv x, this]
  | succ k ih =>
    intro i v hi hib hf hinv x
    unfold sieve_loop
    by_cases hle : i ≤ bound
    · rw [if_pos hle]
      apply ih (i + 1) _ (by omega) (by omega) (by omega)
      intro y
      have hi1 : i + 1 - 1 = i := by omega
      rw [hi1]
      have hp32 : 2 * i + 1 < 2 ^ 32 := by omega
      have hpp : (2 * i + 1) * (2 * i + 1) < 2 ^ 64 := by
        have : (2 * i + 1) * (2 * i + 1) < 2 ^ 32 * 2 ^ 32 :=
          Nat.mul_lt_mul'' hp32 hp32
        have e : (2 : Nat) ^ 32 * 2 ^ 32 = 2 ^ 64 := by norm_num
        omega
      by_cases hbit : vb_get v i = true
      · -- already marked: `2 i + 1` is composite
        simp only [hbit, Bool.not_true, Bool.false_eq_true, if_false]
        rw [hinv y]
        have hm := (hinv i).1 hbit
        obtain ⟨_, j, hj1, hj2, hjp, hjsq, hjd⟩ := hm
        have hnp : ¬ Nat.Prime (2 * i + 1) := fun hpr => prime_not_marked _ _ hpr hjp hjsq hjd
        unfold SieveMarked
        constructor
        · rintro ⟨h1, a, ha1, ha2, ha3⟩
          exact ⟨h1, a, ha1, by omega, ha3⟩
        · rintro ⟨h1, a, ha1, ha2, ha3, ha4⟩
          have : a ≠ i := by
            rintro rfl
            exact hnp ha3
          exact ⟨h1, a, ha1, by omega, ha3, ha4⟩
      · -- unmarked: `2 i + 1` is prime and its multiples get marked
        have hbit' : vb_get v i = false := by simpa using hbit
        simp only [hbit', Bool.not_false, if_true]
        have hpr : Nat.Prime (2 * i + 1) := by
          by_contra hnp
          obtain ⟨a, ha1, ha2, ha3, ha4⟩ := odd_composite_factor (2 * i + 1) (by omega) (by omega) hnp
          have hai : a < i := by
            by_contra hge
            have hge' : i ≤ a := by omega
            have : (2 * a + 1) * 3 ≤ (2 * a + 1) * (2 * a + 1) :=
              Nat.mul_le_mul_left _ (by omega)
            omega
          have : v.testBit i = true := (hinv i).2 ⟨by omega, a, ha1, by omega, ha2, ha3, ha4⟩
          unfold vb_get at hbit'
          rw [this] at hbit'
          exact Bool.noConfusion hbit'
        rw [mul64_eq hpp, mark_multiples_spec _ _ (by omega) (by omega) size _ v (by omega) y]
        simp only [Bool.or_eq_true, decide_eq_true_eq]
        rw [hinv y]
        have hiff := odd_multiple_iff i y
        unfold SieveMarked
        constructor
        · rintro (⟨h1, a, ha1, ha2, ha3⟩ | ⟨h1, h2, h3⟩)
          · exact ⟨h1, a, ha1, by omega, ha3⟩
          · exact ⟨h2, i, hi, le_refl _, hpr, hiff.1 ⟨h1, h3⟩⟩
        · rintro ⟨h1, a, ha1, ha2, ha3, ha4⟩
          by_cases hai : a = i
          · subst hai
            right
            have := hiff.2 ha4
            exact ⟨this.1, h1, this.2⟩
          · left
            exact ⟨h1, a, ha1, by omega, ha3, ha4⟩
    · rw [if_neg hle]
      have : i - 1 = bound := by omega
      rw [hinv x, this]

theorem collect_primes_mem (limit size v : Nat) (hl : limit < 2 ^ 32) :
    ∀ (fuel i n : Nat), size ≤ i + fuel →
    (n ∈ collect_primes limit size v fuel i ↔
      ∃ j, i ≤ j ∧ j < size ∧ 2 * j + 1 ≤ limit ∧ vb_get v j = false ∧ n = 2 * j + 1) := by
  intro fuel
  induction fuel with
  | zero =>
    intro i n hf
    simp only [collect_primes, List.not_mem_nil, false_iff]
    rintro ⟨j, h1, h2, _⟩
    omega
  | succ k ih =>
    intro i n hf
    unfold collect_primes
    by_cases hc : i < size ∧ 2 * i + 1 ≤ limit
    · rw [if_pos hc]
      have hmod : (2 * i + 1) % 2 ^ 32 = 2 * i + 1 := Nat.mod_eq_of_lt (by omega)
      have hrec := ih (i + 1) n (by omega)
      by_cases hbit : vb_get v i = true
      · simp only [hbit, Bool.not_true, Bool.false_eq_true, if_false]
        rw [hrec]
        constructor
        · rintro ⟨j, h1, h2⟩
          exact ⟨j, by omega, h2⟩
        · rintro ⟨j, h1, h2, h3, h4, h5⟩
          have : j ≠ i := by
            rintro rfl
            rw [hbit] at h4
            exact Bool.noConfusion h4
          exact ⟨j, by omega, h2, h3, h4, h5⟩
      · have hbit' : vb_get v i = false := by simpa using hbit
        simp only [hbit', Bool.not_false, if_true, List.mem_cons]
        rw [hrec, hmod]
        constructor
        · rintro (h | ⟨j, h1, h2⟩)
          · exact ⟨i, le_refl _, hc.1, hc.2, hbit', h⟩
          · exact ⟨j, by omega, h2⟩
        · rintro ⟨j, h1, h2, h3, h4, h5⟩
          by_cases hji : j = i
          · subst hji; left; exact h5
          · right; exact ⟨j, by omega, h2, h3, h4, h5⟩
    · rw [if_neg hc]
      simp only [List.not_mem_nil, false_iff]
      rintro ⟨j, h1, h2, h3, _⟩
      apply hc
      constructor <;> omega

theorem collect_primes_sorted (limit size v : Nat) (hl : limit < 2 ^ 32) :
    ∀ (fuel i : Nat), List.Sorted (· < ·) (collect_primes limit size v fuel i) ∧
      ∀ n ∈ collect_primes limit size v fuel i, 2 * i + 1 ≤ n := by
  intro fuel
  induction fuel with
  | zero => intro i; simp [collect_primes]
  | succ k ih =>
    intro i
    unfold collect_primes
    have hrec := ih (i + 1)
    by_cases hc : i < size ∧ 2 * i + 1 ≤ limit
    · rw [if_pos hc]
      have hmod : (2 * i + 1) % 2 ^ 32 = 2 * i + 1 := Nat.mod_eq_of_lt (by omega)
      by_cases hbit : vb_get v i = true
      · simp only [hbit, Bool.not_true, Bool.false_eq_true, if_false]
        refine ⟨hrec.1, fun n hn => ?_⟩
        have := hrec.2 n hn
        omega
      · have hbit' : vb_get v i = false := by simpa using hbit
        simp only [hbit', Bool.not_false, if_true]
        rw [hmod]
        constructor
        · refine List.sorted_cons.2 ⟨fun n hn => ?_, hrec.1⟩
          have := hrec.2 n hn
          omega
        · intro n hn
          rcases List.mem_cons.1 hn with h | h
          · omega
          · have := hrec.2 n h
            omega
    · rw [if_neg hc]
      simp

theorem sqrt_add_two_le (n : Nat) (h3 : 3 ≤ n) : Nat.sqrt n + 2 ≤ n := by
  have h := Nat.sqrt_le n
  by_cases hs : Nat.sqrt n ≤ 1
  · omega
  · have : Nat.sqrt n * 2 ≤ Nat.sqrt n * Nat.sqrt n := Nat.mul_le_mul_left _ (by omega)
    omega

/-- Contents of `simple_sieve` for limits that fit 32 bits. -/
theorem simple_sieve_spec (limit : Nat) (hl : limit < 2 ^ 32) :
    (∀ p, p ∈ simple_sieve limit ↔ (Nat.Prime p ∧ p ≤ limit)) ∧
      List.Sorted (· < ·) (simple_sieve limit) := by
  by_cases h2 : limit < 2
  · have hs : simple_sieve limit = [] := by simp [simple_sieve, h2]
    rw [hs]
    refine ⟨fun p => ?_, List.sorted_nil⟩
    simp only [List.not_mem_nil, false_iff]
    rintro ⟨hp, hle⟩
    have := hp.two_le
    omega
  by_cases h3 : limit = 2
  · subst h3
    have hs : simple_sieve 2 = [2] := by decide
    rw [hs]
    refine ⟨fun p => ?_, List.sorted_singleton 2⟩
    simp only [List.mem_singleton]
    constructor
    · rintro rfl; exact ⟨Nat.prime_two, le_refl _⟩
    · rintro ⟨hp, hle⟩
      have := hp.two_le
      omega
  have hge : 3 ≤ limit := by omega
  have hl64 : limit < 2 ^ 64 := lt_trans hl (by norm_num)
  have hroot : floor_sqrt limit = Nat.sqrt limit := floor_sqrt_eq limit hl64
  have hsq2 := sqrt_add_two_le limit hge
  have hmax : Nat.max limit (Nat.sqrt limit + 1) = limit := by
    apply Nat.max_eq_left
    omega
  have hsize : add64 limit 1 / 2 = (limit + 1) / 2 := by
    rw [add64_eq (by omega)]
  have hunfold : simple_sieve limit =
      2 :: collect_primes limit ((limit + 1) / 2)
        (sieve_loop ((limit + 1) / 2) ((Nat.sqrt limit + 1) / 2) ((Nat.sqrt limit + 1) / 2) 1 0)
        ((limit + 1) / 2) 1 := by
    unfold simple_sieve
    rw [if_neg h2]
    simp only []
    rw [hroot, hmax, hroot, hsize]
  have hbound : (Nat.sqrt limit + 1) / 2 < (limit + 1) / 2 := by omega
  have hsz31 : (limit + 1) / 2 ≤ 2 ^ 31 := by omega
  have hmarks := sieve_loop_spec ((limit + 1) / 2) ((Nat.sqrt limit + 1) / 2) hbound hsz31
    ((Nat.sqrt limit + 1) / 2) 1 0 (le_refl _) (by omega) (by omega) (by
      intro x
      simp only [Nat.zero_testBit, Bool.false_eq_true, false_iff]
      rintro ⟨_, i, hi1, hi2, _⟩
      omega)
  have hunmarked : ∀ j, 1 ≤ j → j < (limit + 1) / 2 →
      (vb_get (sieve_loop ((limit + 1) / 2) ((Nat.sqrt limit + 1) / 2)
        ((Nat.sqrt limit + 1) / 2) 1 0) j = false ↔ Nat.Prime (2 * j + 1)) := by
    intro j hj1 hj2
    unfold vb_get
    rw [← Bool.not_eq_true, hmarks j]
    constructor
    · intro hnm
      by_contra hnp
      apply hnm
      obtain ⟨i, hi1, hi2, hi3, hi4⟩ := odd_composite_factor (2 * j + 1) (by omega) (by omega) hnp
      refine ⟨hj2, i, hi1, ?_, hi2, hi3, hi4⟩
      have hle : (2 * i + 1) * (2 * i + 1) ≤ limit := by omega
      have := Nat.le_sqrt.2 hle
      omega
    · rintro hpr ⟨_, i, _, _, hip, hisq, hid⟩
      exact prime_not_marked _ _ hpr hip hisq hid
  rw [hunfold]
  constructor
  · intro p
    rw [List.mem_cons, collect_primes_mem limit _ _ hl _ 1 p (by omega)]
    constructor
    · rintro (rfl | ⟨j, h1, h2, h3, h4, rfl⟩)
      · exact ⟨Nat.prime_two, by omega⟩
      · exact ⟨(hunmarked j h1 h2).1 h4, h3⟩
    · rintro ⟨hp, hle⟩
      rcases Nat.Prime.eq_two_or_odd hp with h | h
      · left; exact h
      · right
        have := hp.two_le
        have hj : 2 * ((p - 1) / 2) + 1 = p := by omega
        refine ⟨(p - 1) / 2, by omega, by omega, by omega, ?_, hj.symm⟩
        apply (hunmarked _ (by omega) (by omega)).2
        rw [hj]; exact hp
  · refine List.sorted_cons.2 ⟨fun n hn => ?_, (collect_primes_sorted limit _ _ hl _ 1).1⟩
    have := (collect_primes_sorted limit _ _ hl _ 1).2 n hn
    omega

/-! ## prime_count.cpp: a 64-bit prime above `2 ^ 63` -/

theorem ref_pow_mod_eq (m : Nat) : ∀ (fuel b e acc : Nat), e < 2 ^ fuel →
    ref_pow_mod m fuel b e acc = acc * b ^ e % m := by
  intro fuel
  induction fuel with
  | zero =>
    intro b e acc he
    have : e = 0 := by simpa using he
    subst this
    simp [ref_pow_mod]
  | succ k ih =>
    intro b e acc he
    unfold ref_pow_mod
    by_cases h0 : e = 0
    · subst h0; simp
    · rw [if_neg h0]
      have hlt : e / 2 < 2 ^ k := by
        rw [pow_succ] at he
        omega
      rw [ih _ _ _ hlt]
      have hsplit : e = 2 * (e / 2) + e % 2 := by omega
      have hbe : b ^ e = (b * b) ^ (e / 2) * b ^ (e % 2) := by
        conv_lhs => rw [hsplit]
        rw [pow_add, pow_mul, sq]
      have hp : (b * b % m) ^ (e / 2) ≡ (b * b) ^ (e / 2) [MOD m] :=
        (Nat.mod_modEq _ _).pow _
      change _ ≡ _ [MOD m]
      rw [hbe]
      by_cases h1 : e % 2 = 1
      · rw [if_pos h1, h1, pow_one]
        have h3 : acc * b % m ≡ acc * b [MOD m] := Nat.mod_modEq _ _
        have h4 := h3.mul hp
        have h5 : acc * b * (b * b) ^ (e / 2) = acc * ((b * b) ^ (e / 2) * b) := by ring
        rw [h5] at h4
        exact h4
      · rw [if_neg h1]
        have h2 : e % 2 = 0 := by omega
        rw [h2, pow_zero, mul_one]
        exact (Nat.ModEq.refl acc).mul hp

theorem prime_16e18 : Nat.Prime 16000000000000000001 := by
  have hfac : (16000000000000000001 : Nat) - 1 = 2 ^ 22 * 5 ^ 18 := by norm_num
  have key : ∀ e : Nat, e < 2 ^ 64 →
      ((3 : ZMod 16000000000000000001) ^ e = 1 ↔
        ref_pow_mod 16000000000000000001 64 3 e 1 = 1) := by
    intro e he
    rw [ref_pow_mod_eq _ _ _ _ _ he, one_mul]
    have h1 : ((3 : ZMod 16000000000000000001) ^ e) = ((3 ^ e : Nat) : ZMod 16000000000000000001) := by
      push_cast; rfl
    have h2 : (1 : ZMod 16000000000000000001) = ((1 : Nat) : ZMod 16000000000000000001) := by
      push_cast; rfl
    rw [h1, h2, ZMod.natCast_eq_natCast_iff']
  apply lucas_primality _ (3 : ZMod 16000000000000000001)
  · rw [key _ (by norm_num)]
    decide
  · intro q hq hdvd
    rw [hfac] at hdvd
    have hq25 : q = 2 ∨ q = 5 := by
      rcases (Nat.Prime.dvd_mul hq).1 hdvd with h | h
      · left
        exact (Nat.prime_dvd_prime_iff_eq hq Nat.prime_two).1 (hq.dvd_of_dvd_pow h)
      · right
        exact (Nat.prime_dvd_prime_iff_eq hq (by norm_num)).1 (hq.dvd_of_dvd_pow h)
    rcases hq25 with rfl | rfl
    · rw [Ne, key _ (by norm_num)]
      decide
    · rw [Ne, key _ (by norm_num)]
      decide

/-! ## Bit buffers -/

theorem or_word_length (bits : List Nat) (w mask : Nat) :
    (or_word bits w mask).length = bits.length := by
  induction bits generalizing w with
  | nil => simp [or_word]
  | cons x xs ih =>
    cases w with
    | zero => simp [or_word]
    | succ w => simp [or_word, ih]

theorem and_word_length (bits : List Nat) (w mask : Nat) :
    (and_word bits w mask).length = bits.length := by
  induction bits generalizing w with
  | nil => simp [and_word]
  | cons x xs ih =>
    cases w with
    | zero => simp [and_word]
    | succ w => simp [and_word, ih]

theorem getD_or_word (bits : List Nat) (w mask i : Nat) :
    (or_word bits w mask).getD i 0 =
      if i = w ∧ w < bits.length then bits.getD i 0 ||| mask else bits.getD i 0 := by
  induction bits generalizing w i with
  | nil => simp [or_word]
  | cons x xs ih =>
    cases w with
    | zero =>
      cases i with
      | zero => simp [or_word]
      | succ i => simp [or_word]
    | succ w =>
      cases i with
      | zero => simp [or_word]
      | succ i =>
        have := ih w i
        simp only [List.getD_eq_getElem?_getD] at this
        simp [or_word, this]

theorem getD_and_word (bits : List Nat) (w mask i : Nat) :
    (and_word bits w mask).getD i 0 =
      if i = w ∧ w < bits.length then bits.getD i 0 &&& mask else bits.getD i 0 := by
  induction bits generalizing w i with
  | nil => simp [and_word]
  | cons x xs ih =>
    cases w with
    | zero =>
      cases i with
      | zero => simp [and_word]
      | succ i => simp [and_word]
    | succ w =>
      cases i with
      | zero => simp [and_word]
      | succ i =>
        have := ih w i
        simp only [List.getD_eq_getElem?_getD] at this
        simp [and_word, this]

theorem get_bit_or_word (bits : List Nat) (w mask idx : Nat) :
    get_bit (or_word bits w mask) idx =
      (get_bit bits idx || (decide (idx / 64 = w ∧ w < bits.length) && mask.testBit (idx % 64))) := by
  unfold get_bit
  rw [getD_or_word]
  by_cases h : idx / 64 = w ∧ w < bits.length
  · simp [h, Nat.testBit_or]
  · simp [h]

theorem get_bit_and_word (bits : List Nat) (w mask idx : Nat) :
    get_bit (and_word bits w mask) idx =
      (get_bit bits idx && (!decide (idx / 64 = w ∧ w < bits.length) || mask.testBit (idx % 64))) := by
  unfold get_bit
  rw [getD_and_word]
  by_cases h : idx / 64 = w ∧ w < bits.length
  · simp [h, Nat.testBit_and]
  · simp [h]

theorem shl64_one_lt (k : Nat) (hk : k < 64) : shl64 1 k = 2 ^ k := by
  unfold shl64
  rw [Nat.shiftLeft_eq, Nat.one_mul]
  exact Nat.mod_eq_of_lt (Nat.pow_lt_pow_right (by decide) hk)

theorem set_bit_length (bits : List Nat) (i : Nat) : (set_bit bits i).length = bits.length := by
  unfold set_bit
  exact or_word_length _ _ _

theorem get_bit_set_bit (bits : List Nat) (i idx : Nat) :
    get_bit (set_bit bits i) idx =
      (get_bit bits idx || decide (idx = i ∧ i / 64 < bits.length)) := by
  unfold set_bit
  rw [get_bit_or_word, shl64_one_lt _ (Nat.mod_lt _ (by decide)), Nat.testBit_two_pow]
  congr 1
  by_cases h : idx = i
  · subst h
    by_cases h2 : idx / 64 < bits.length <;> simp [h2]
  · have : ¬ (idx / 64 = i / 64 ∧ i % 64 = idx % 64) := by
      intro ⟨a, b⟩
      apply h
      have e1 := Nat.div_add_mod idx 64
      have e2 := Nat.div_add_mod i 64
      omega
    by_cases h3 : idx / 64 = i / 64
    · have h4 : ¬ i % 64 = idx % 64 := fun b => this ⟨h3, b⟩
      simp [h, h3, h4]
    · simp [h, h3]

theorem get_bit_replicate_zero (n idx : Nat) : get_bit (List.replicate n 0) idx = false := by
  unfold get_bit
  have : (List.replicate n 0).getD (idx / 64) 0 = 0 := by
    rw [List.getD_eq_getElem?_getD]
    by_cases h : idx / 64 < n
    · simp [List.getElem?_replicate, h]
    · simp [List.getElem?_replicate, h]
  rw [this]
  simp

theorem get_bit_of_length_le (bits : List Nat) (idx : Nat) (h : bits.length ≤ idx / 64) :
    get_bit bits idx = false := by
  unfold get_bit
  rw [List.getD_eq_getElem?_getD, List.getElem?_eq_none h]
  simp

/-! ## Order on buffers and word bounds -/

theorem BitsLe.refl (a : List Nat) : BitsLe a a := ⟨rfl, fun _ h => h⟩

theorem BitsLe.trans {a b c : List Nat} (h1 : BitsLe a b) (h2 : BitsLe b c) : BitsLe a c :=
  ⟨h1.1.trans h2.1, fun idx h => h2.2 idx (h1.2 idx h)⟩

theorem BitsLe_or_word (bits : List Nat) (w mask : Nat) : BitsLe bits (or_word bits w mask) := by
  refine ⟨(or_word_length _ _ _).symm, ?_⟩
  intro idx h
  rw [get_bit_or_word, h]
  rfl

theorem BitsLe_set_bit (bits : List Nat) (i : Nat) : BitsLe bits (set_bit bits i) :=
  BitsLe_or_word _ _ _

theorem WordsOK_or_word (bits : List Nat) (w mask : Nat) (h : WordsOK bits)
    (hm : mask < 2 ^ 64) : WordsOK (or_word bits w mask) := by
  induction bits generalizing w with
  | nil => simpa [or_word] using h
  | cons x xs ih =>
    have hx : x < 2 ^ 64 := h x (List.mem_cons_self _ _)
    have hxs : WordsOK xs := fun y hy => h y (List.mem_cons_of_mem _ hy)
    cases w with
    | zero =>
      intro y hy
      simp only [or_word, List.mem_cons] at hy
      rcases hy with hy | hy
      · rw [hy]; exact Nat.or_lt_two_pow hx hm
      · exact hxs y hy
    | succ w =>
      intro y hy
      simp only [or_word, List.mem_cons] at hy
      rcases hy with hy | hy
      · rw [hy]; exact hx
      · exact ih w hxs y hy

theorem WordsOK_and_word (bits : List Nat) (w mask : Nat) (h : WordsOK bits) :
    WordsOK (and_word bits w mask) := by
  induction bits generalizing w with
  | nil => simpa [and_word] using h
  | cons x xs ih =>
    have hx : x < 2 ^ 64 := h x (List.mem_cons_self _ _)
    have hxs : WordsOK xs := fun y hy => h y (List.mem_cons_of_mem _ hy)
    cases w with
    | zero =>
      intro y hy
      simp only [and_word, List.mem_cons] at hy
      rcases hy with hy | hy
      · rw [hy]; exact lt_of_le_of_lt Nat.and_le_left hx
      · exact hxs y hy
    | succ w =>
      intro y hy
      simp only [and_word, List.mem_cons] at hy
      rcases hy with hy | hy
      · rw [hy]; exact hx
      · exact ih w hxs y hy

theorem shl64_lt (a k : Nat) : shl64 a k < 2 ^ 64 := Nat.mod_lt _ (by positivity)

theorem WordsOK_set_bit (bits : List Nat) (i : Nat) (h : WordsOK bits) :
    WordsOK (set_bit bits i) :=
  WordsOK_or_word _ _ _ h (shl64_lt _ _)

theorem WordsOK_replicate (n : Nat) : WordsOK (List.replicate n 0) := by
  intro w hw
  rw [List.eq_of_mem_replicate hw]
  positivity

/-! ## The presieve -/

theorem presieve_loop_length (w : Wheel) (bc : Nat) (fuel idx rem : Nat) (bits : List Nat) :
    (presieve_loop w bc fuel idx rem bits).length = bits.length := by
  induction fuel generalizing idx rem bits with
  | zero => rfl
  | succ fuel ih =>
    unfold presieve_loop
    split
    · rw [ih]
      split
      · exact set_bit_length _ _
      · rfl
    · rfl

theorem presieve_loop_words (w : Wheel) (bc : Nat) (fuel idx rem : Nat) (bits : List Nat)
    (h : WordsOK bits) : WordsOK (presieve_loop w bc fuel idx rem bits) := by
  induction fuel generalizing idx rem bits with
  | zero => exact h
  | succ fuel ih =>
    unfold presieve_loop
    split
    · apply ih
      split
      · exact WordsOK_set_bit _ _ h
      · exact h
    · exact h

theorem wheel_rem_step (r M : Nat) (hr : r < M) (hM : 2 ≤ M) :
    (if r + 2 ≥ M then r + 2 - M else r + 2) = (r + 2) % M := by
  split
  · rw [Nat.mod_eq_sub_mod (by omega), Nat.mod_eq_of_lt (by omega)]
  · rw [Nat.mod_eq_of_lt (by omega)]

theorem presieve_loop_spec (w : Wheel) (hM : 2 ≤ w.modulus) (start bc : Nat)
    (fuel idx : Nat) (bits : List Nat) (hf : bc ≤ idx + fuel) (j : Nat) :
    get_bit (presieve_loop w bc fuel idx ((start + 2 * idx) % w.modulus) bits) j =
      (get_bit bits j || decide (idx ≤ j ∧ j < bc ∧ j / 64 < bits.length ∧
        w.allowed.getD ((start + 2 * j) % w.modulus) 0 = 0)) := by
  induction fuel generalizing idx bits with
  | zero =>
    have : ¬ (idx ≤ j ∧ j < bc ∧ j / 64 < bits.length ∧
        w.allowed.getD ((start + 2 * j) % w.modulus) 0 = 0) := by
      intro ⟨a, b, _⟩; omega
    rw [decide_eq_false this, Bool.or_false]
    rfl
  | succ fuel ih =>
    unfold presieve_loop
    by_cases hidx : idx < bc
    · rw [if_pos hidx]
      have hlt : (start + 2 * idx) % w.modulus < w.modulus := Nat.mod_lt _ (by omega)
      have hrem : (if (start + 2 * idx) % w.modulus + 2 ≥ w.modulus
          then (start + 2 * idx) % w.modulus + 2 - w.modulus
          else (start + 2 * idx) % w.modulus + 2) = (start + 2 * (idx + 1)) % w.modulus := by
        rw [wheel_rem_step _ _ hlt hM, Nat.mod_add_mod]
        congr 1
      rw [hrem, ih (idx + 1) _ (by omega)]
      by_cases hj : j = idx
      · subst hj
        have hn : ¬ (j + 1 ≤ j ∧ j < bc ∧ j / 64 <
            (if w.allowed.getD ((start + 2 * j) % w.modulus) 0 = 0 then set_bit bits j
              else bits).length ∧ w.allowed.getD ((start + 2 * j) % w.modulus) 0 = 0) := by
          intro ⟨a, _⟩; omega
        rw [decide_eq_false hn, Bool.or_false]
        by_cases hal : w.allowed.getD ((start + 2 * j) % w.modulus) 0 = 0
        · rw [if_pos hal, get_bit_set_bit]
          congr 1
          apply decide_eq_decide.2
          constructor
          · intro h; exact ⟨le_refl _, hidx, h.2, hal⟩
          · intro h; exact ⟨rfl, h.2.2.1⟩
        · rw [if_neg hal]
          have hn2 : ¬ (j ≤ j ∧ j < bc ∧ j / 64 < bits.length ∧
              w.allowed.getD ((start + 2 * j) % w.modulus) 0 = 0) := fun h => hal h.2.2.2
          rw [decide_eq_false hn2, Bool.or_false]
      · have hlen : (if w.allowed.getD ((start + 2 * idx) % w.modulus) 0 = 0 then set_bit bits idx
            else bits).length = bits.length := by
          split
          · exact set_bit_length _ _
          · rfl
        have hb : get_bit (if w.allowed.getD ((start + 2 * idx) % w.modulus) 0 = 0
            then set_bit bits idx else bits) j = get_bit bits j := by
          split
          · rw [get_bit_set_bit]
            have : ¬ (j = idx ∧ idx / 64 < bits.length) := fun h => hj h.1
            rw [decide_eq_false this, Bool.or_false]
          · rfl
        rw [hlen, hb]
        congr 1
        apply decide_eq_decide.2
        constructor
        · intro h; exact ⟨by omega, h.2⟩
        · intro h; exact ⟨by omega, h.2⟩
    · rw [if_neg hidx]
      have : ¬ (idx ≤ j ∧ j < bc ∧ j / 64 < bits.length ∧
          w.allowed.getD ((start + 2 * j) % w.modulus) 0 = 0) := by
        intro ⟨a, b, _⟩; omega
      rw [decide_eq_false this, Bool.or_false]

theorem build_wheel_allowed (M : Nat) (ty : WheelType) (r : Nat) (hr : r < M) :
    (build_wheel M ty).allowed.getD r 0 = if Nat.gcd r M = 1 then 1 else 0 := by
  unfold build_wheel
  simp only
  rw [List.getD_eq_getElem?_getD, List.getElem?_map, List.getElem?_range hr]
  rfl

theorem get_wheel_modulus (ty : WheelType) :
    (get_wheel ty).modulus = 30 ∨ (get_wheel ty).modulus = 210 ∨ (get_wheel ty).modulus = 1155 := by
  cases ty <;> simp [get_wheel, build_wheel]

theorem gcd_mod_left (v M : Nat) : Nat.gcd (v % M) M = Nat.gcd v M := by
  rw [← Nat.gcd_rec, Nat.gcd_comm]

theorem get_wheel_allowed (ty : WheelType) (v : Nat) :
    (get_wheel ty).allowed.getD (v % (get_wheel ty).modulus) 0 =
      if Nat.gcd v (get_wheel ty).modulus = 1 then 1 else 0 := by
  cases ty
  · show (build_wheel 30 WheelType.Mod30).allowed.getD (v % 30) 0 =
      if Nat.gcd v 30 = 1 then 1 else 0
    rw [build_wheel_allowed _ _ _ (Nat.mod_lt _ (by decide))]
    simp only [gcd_mod_left]
  · show (build_wheel 210 WheelType.Mod210).allowed.getD (v % 210) 0 =
      if Nat.gcd v 210 = 1 then 1 else 0
    rw [build_wheel_allowed _ _ _ (Nat.mod_lt _ (by decide))]
    simp only [gcd_mod_left]
  · show (build_wheel 1155 WheelType.Mod1155).allowed.getD (v % 1155) 0 =
      if Nat.gcd v 1155 = 1 then 1 else 0
    rw [build_wheel_allowed _ _ _ (Nat.mod_lt _ (by decide))]
    simp only [gcd_mod_left]

theorem build_wheel_allowed_length (M : Nat) (ty : WheelType) :
    (build_wheel M ty).allowed.length = M := by
  unfold build_wheel
  simp

theorem get_wheel_allowed_ne (ty : WheelType) : (get_wheel ty).allowed.isEmpty = false := by
  have h : 0 < (get_wheel ty).allowed.length := by
    cases ty
    · show 0 < (build_wheel 30 WheelType.Mod30).allowed.length
      rw [build_wheel_allowed_length]; decide
    · show 0 < (build_wheel 210 WheelType.Mod210).allowed.length
      rw [build_wheel_allowed_length]; decide
    · show 0 < (build_wheel 1155 WheelType.Mod1155).allowed.length
      rw [build_wheel_allowed_length]; decide
  cases hl : (get_wheel ty).allowed with
  | nil => rw [hl] at h; exact absurd h (by decide)
  | cons a l => rfl

/-- After the presieve, a bit below `bit_count` is set exactly when it was set before or
its value shares a factor with the wheel modulus. -/
theorem apply_presieve_spec (ty : WheelType) (start bc : Nat) (bits : List Nat) (j : Nat) :
    get_bit (apply_presieve (get_wheel ty) start bc bits) j =
      (get_bit bits j || decide (j < bc ∧ j / 64 < bits.length ∧
        Nat.gcd (start + 2 * j) (get_wheel ty).modulus ≠ 1)) := by
  unfold apply_presieve
  rw [get_wheel_allowed_ne]
  simp only [Bool.false_eq_true, if_false]
  have hM : 2 ≤ (get_wheel ty).modulus := by
    rcases get_wheel_modulus ty with h | h | h <;> rw [h] <;> decide
  have h0 := presieve_loop_spec (get_wheel ty) hM start bc bc 0 bits (by omega) j
  simp only [Nat.mul_zero, Nat.add_zero, Nat.zero_le, true_and] at h0
  rw [h0, get_wheel_allowed]
  congr 1
  by_cases hg : Nat.gcd (start + 2 * j) (get_wheel ty).modulus = 1 <;> simp [hg]

theorem apply_presieve_length (w : Wheel) (start bc : Nat) (bits : List Nat) :
    (apply_presieve w start bc bits).length = bits.length := by
  unfold apply_presieve
  split
  · rfl
  · exact presieve_loop_length _ _ _ _ _ _

theorem apply_presieve_words (w : Wheel) (start bc : Nat) (bits : List Nat) (h : WordsOK bits) :
    WordsOK (apply_presieve w start bc bits) := by
  unfold apply_presieve
  split
  · exact h
  · exact presieve_loop_words _ _ _ _ _ _ h

/-! ## Marking only adds bits -/

theorem getD_lt_of_all (l : List Nat) (h : ∀ x ∈ l, x < 2 ^ 64) (i : Nat) :
    l.getD i 0 < 2 ^ 64 := by
  rw [List.getD_eq_getElem?_getD]
  by_cases hi : i < l.length
  · rw [List.getElem?_eq_getElem hi]
    exact h _ (List.getElem_mem hi)
  · rw [List.getElem?_eq_none (by omega)]
    show 0 < 2 ^ 64
    positivity

theorem pattern_words_le (pattern : SmallPrimePattern) (tile : TileView)
    (fuel w phase : Nat) (bits : List Nat) :
    BitsLe bits (pattern_words pattern tile fuel w phase bits) := by
  induction fuel generalizing w phase bits with
  | zero => exact BitsLe.refl _
  | succ fuel ih =>
    unfold pattern_words
    split
    · exact (BitsLe_or_word _ _ _).trans (ih _ _ _)
    · exact BitsLe.refl _

theorem pattern_words_words (pattern : SmallPrimePattern) (tile : TileView)
    (hp : ∀ x ∈ pattern.masks, x < 2 ^ 64)
    (fuel w phase : Nat) (bits : List Nat) (h : WordsOK bits) :
    WordsOK (pattern_words pattern tile fuel w phase bits) := by
  induction fuel generalizing w phase bits with
  | zero => exact h
  | succ fuel ih =>
    unfold pattern_words
    split
    · exact ih _ _ _ (WordsOK_or_word _ _ _ h (getD_lt_of_all _ hp _))
    · exact h

theorem scalar_marks_le (tile : TileView) (tile_end step : Nat)
    (fuel pos : Nat) (bits : List Nat) :
    BitsLe bits (scalar_marks tile tile_end step fuel pos bits).1 := by
  induction fuel generalizing pos bits with
  | zero => exact BitsLe.refl _
  | succ fuel ih =>
    unfold scalar_marks
    split
    · exact (BitsLe_or_word _ _ _).trans (ih _ _)
    · exact BitsLe.refl _

theorem scalar_marks_words (tile : TileView) (tile_end step : Nat)
    (fuel pos : Nat) (bits : List Nat) (h : WordsOK bits) :
    WordsOK (scalar_marks tile tile_end step fuel pos bits).1 := by
  induction fuel generalizing pos bits with
  | zero => exact h
  | succ fuel ih =>
    unfold scalar_marks
    split
    · exact ih _ _ (WordsOK_or_word _ _ _ h (shl64_lt _ _))
    · exact h

theorem small_prime_step_le (tile : TileView) (prime : Nat) (pattern : Option SmallPrimePattern)
    (pos0 : Nat) (bits : List Nat) :
    BitsLe bits (small_prime_step tile prime pattern pos0 bits).1 := by
  unfold small_prime_step
  simp only
  split
  · exact BitsLe.refl _
  · cases pattern with
    | none => exact scalar_marks_le _ _ _ _ _ _
    | some pat =>
      simp only
      split
      · exact (BitsLe_or_word _ _ _).trans (pattern_words_le _ _ _ _ _ _)
      · exact BitsLe.refl _

theorem small_prime_step_words (tile : TileView) (prime : Nat)
    (pattern : Option SmallPrimePattern)
    (hp : ∀ pat, pattern = some pat → ∀ x ∈ pat.masks, x < 2 ^ 64)
    (pos0 : Nat) (bits : List Nat) (h : WordsOK bits) :
    WordsOK (small_prime_step tile prime pattern pos0 bits).1 := by
  unfold small_prime_step
  simp only
  split
  · exact h
  · cases pattern with
    | none => exact scalar_marks_words _ _ _ _ _ _ h
    | some pat =>
      simp only
      split
      · apply pattern_words_words _ _ (hp pat rfl)
        apply WordsOK_or_word _ _ _ h
        split
        · exact lt_of_le_of_lt Nat.and_le_left (getD_lt_of_all _ (hp pat rfl) _)
        · exact getD_lt_of_all _ (hp pat rfl) _
      · exact h

theorem small_primes_loop_le (tile : TileView) (primes : List Nat)
    (patterns : List (Option SmallPrimePattern)) (positions bits : List Nat) :
    BitsLe bits (small_primes_loop tile primes patterns positions bits).1 := by
  induction primes generalizing patterns positions bits with
  | nil => unfold small_primes_loop; exact BitsLe.refl _
  | cons p ps ih =>
    cases patterns with
    | nil => unfold small_primes_loop; exact BitsLe.refl _
    | cons pat pats =>
      cases positions with
      | nil => unfold small_primes_loop; exact BitsLe.refl _
      | cons pos poss =>
        unfold small_primes_loop
        exact (small_prime_step_le _ _ _ _ _).trans (ih _ _ _)

theorem small_primes_loop_words (tile : TileView) (primes : List Nat)
    (patterns : List (Option SmallPrimePattern))
    (hp : ∀ pat, some pat ∈ patterns → ∀ x ∈ pat.masks, x < 2 ^ 64)
    (positions bits : List Nat) (h : WordsOK bits) :
    WordsOK (small_primes_loop tile primes patterns positions bits).1 := by
  induction primes generalizing patterns positions bits with
  | nil => unfold small_primes_loop; exact h
  | cons p ps ih =>
    cases patterns with
    | nil => unfold small_primes_loop; exact h
    | cons pat pats =>
      cases positions with
      | nil => unfold small_primes_loop; exact h
      | cons pos poss =>
        unfold small_primes_loop
        apply ih _ (fun q hq => hp q (List.mem_cons_of_mem _ hq))
        apply small_prime_step_words _ _ _ _ _ _ h
        intro q hq
        exact hp q (hq ▸ List.mem_cons_self _ _)

theorem apply_small_primes_le (m : PrimeMarker) (positions : List Nat) (tile : TileView)
    (bits : List Nat) : BitsLe bits (apply_small_primes m positions tile bits).1 := by
  unfold apply_small_primes
  split
  · exact BitsLe.refl _
  · exact small_primes_loop_le _ _ _ _ _

theorem apply_small_primes_words (m : PrimeMarker)
    (hp : ∀ pat, some pat ∈ m.small_prime_patterns → ∀ x ∈ pat.masks, x < 2 ^ 64)
    (positions : List Nat) (tile : TileView)
    (bits : List Nat) (h : WordsOK bits) :
    WordsOK (apply_small_primes m positions tile bits).1 := by
  unfold apply_small_primes
  split
  · exact h
  · exact small_primes_loop_words _ _ _ hp _ _ h

theorem medium_primes_loop_le (tile : TileView) (primes positions bits : List Nat) :
    BitsLe bits (medium_primes_loop tile primes positions bits).1 := by
  induction primes generalizing positions bits with
  | nil => unfold medium_primes_loop; exact BitsLe.refl _
  | cons p ps ih =>
    cases positions with
    | nil => unfold medium_primes_loop; exact BitsLe.refl _
    | cons pos poss =>
      unfold medium_primes_loop
      exact (scalar_marks_le _ _ _ _ _ _).trans (ih _ _)

theorem medium_primes_loop_words (tile : TileView) (primes positions bits : List Nat)
    (h : WordsOK bits) : WordsOK (medium_primes_loop tile primes positions bits).1 := by
  induction primes generalizing positions bits with
  | nil => unfold medium_primes_loop; exact h
  | cons p ps ih =>
    cases positions with
    | nil => unfold medium_primes_loop; exact h
    | cons pos poss =>
      unfold medium_primes_loop
      exact ih _ _ (scalar_marks_words _ _ _ _ _ _ h)

theorem apply_medium_primes_le (m : PrimeMarker) (positions : List Nat) (tile : TileView)
    (bits : List Nat) : BitsLe bits (apply_medium_primes m positions tile bits).1 := by
  unfold apply_medium_primes
  split
  · exact BitsLe.refl _
  · exact medium_primes_loop_le _ _ _ _

theorem apply_medium_primes_words (m : PrimeMarker) (positions : List Nat) (tile : TileView)
    (bits : List Nat) (h : WordsOK bits) :
    WordsOK (apply_medium_primes m positions tile bits).1 := by
  unfold apply_medium_primes
  split
  · exact h
  · exact medium_primes_loop_words _ _ _ _ h

theorem large_hits_loop_le (m : PrimeMarker) (lo hi : Nat) (hits : List BucketEntry)
    (ring : BucketRing) (large : List LargePrimeState) (bits : List Nat) :
    BitsLe bits (large_hits_loop m lo hi hits ring large bits).2.2 := by
  induction hits generalizing ring large bits with
  | nil => exact BitsLe.refl _
  | cons e hits ih =>
    unfold large_hits_loop
    have h1 : BitsLe bits (if e.value ≥ lo ∧ e.value < hi then
        set_bit bits (sub64 e.value lo >>> 1) else bits) := by
      split
      · exact BitsLe_set_bit _ _
      · exact BitsLe.refl _
    simp only
    split
    · exact h1.trans (ih _ _ _)
    · split
      · exact h1.trans (ih _ _ _)
      · exact h1.trans (ih _ _ _)

theorem large_hits_loop_words (m : PrimeMarker) (lo hi : Nat) (hits : List BucketEntry)
    (ring : BucketRing) (large : List LargePrimeState) (bits : List Nat) (h : WordsOK bits) :
    WordsOK (large_hits_loop m lo hi hits ring large bits).2.2 := by
  induction hits generalizing ring large bits with
  | nil => exact h
  | cons e hits ih =>
    unfold large_hits_loop
    have h1 : WordsOK (if e.value ≥ lo ∧ e.value < hi then
        set_bit bits (sub64 e.value lo >>> 1) else bits) := by
      split
      · exact WordsOK_set_bit _ _ h
      · exact h
    simp only
    split
    · exact ih _ _ _ h1
    · split
      · exact ih _ _ _ h1
      · exact ih _ _ _ h1

theorem apply_large_primes_le (m : PrimeMarker) (state : ThreadState) (id lo hi : Nat)
    (bits : List Nat) : BitsLe bits (apply_large_primes m state id lo hi bits).2 :=
  large_hits_loop_le _ _ _ _ _ _ _

theorem apply_large_primes_words (m : PrimeMarker) (state : ThreadState) (id lo hi : Nat)
    (bits : List Nat) (h : WordsOK bits) :
    WordsOK (apply_large_primes m state id lo hi bits).2 :=
  large_hits_loop_words _ _ _ _ _ _ _ h

/-! ## The tile loop, one pass at a time -/

theorem natmin_left {a b : Nat} (h : a ≤ b) : Nat.min a b = a := by
  show min a b = a
  exact Nat.min_eq_left h

theorem natmin_right {a b : Nat} (h : b ≤ a) : Nat.min a b = b := by
  show min a b = b
  exact Nat.min_eq_right h

theorem tile_loop_done (m : PrimeMarker) (high fuel tile_low b : Nat) (st : ThreadState)
    (bits : List Nat) (h : ¬ tile_low < high) :
    tile_loop m high fuel tile_low b st bits = (st, bits) := by
  cases fuel with
  | zero => rfl
  | succ fuel => unfold tile_loop; rw [if_neg h]

theorem tile_loop_succ (m : PrimeMarker) (hc : ConfigOK m.config) (low bc : Nat)
    (hhigh : low + 2 * bc ≤ 2 ^ 63 + 1) (fuel b : Nat) (hb : b < bc) (st : ThreadState)
    (bits : List Nat) :
    tile_loop m (low + 2 * bc) (fuel + 1) (low + 2 * b) b st bits =
      tile_loop m (low + 2 * bc) fuel (low + 2 * (b + Nat.min m.config.tile_bits (bc - b)))
        (b + Nat.min m.config.tile_bits (bc - b))
        (tile_pass_state m low b (Nat.min m.config.tile_bits (bc - b)) st bits)
        (tile_pass_bits m low b (Nat.min m.config.tile_bits (bc - b)) st bits) := by
  obtain ⟨htb0, htb64, hts, htsl, _, _, _⟩ := hc
  have hlt : low + 2 * b < low + 2 * bc := by omega
  have htb : Nat.min m.config.tile_bits (bc - b) ≤ bc - b := Nat.min_le_right _ _
  have htb' : Nat.min m.config.tile_bits (bc - b) ≤ m.config.tile_bits := Nat.min_le_left _ _
  have htbpos : 0 < Nat.min m.config.tile_bits (bc - b) := by
    rcases Nat.le_total m.config.tile_bits (bc - b) with h | h
    · rw [natmin_left h]; exact htb0
    · rw [natmin_right h]; omega
  have e1 : add64 (low + 2 * b) m.config.tile_span = low + 2 * b + 2 * m.config.tile_bits := by
    rw [add64_eq (by omega), hts]
  have e2 : Nat.min (low + 2 * bc) (add64 (low + 2 * b) m.config.tile_span) =
      low + 2 * (b + Nat.min m.config.tile_bits (bc - b)) := by
    rw [e1]
    rcases Nat.le_total m.config.tile_bits (bc - b) with h | h
    · rw [natmin_left h, natmin_right (by omega)]; ring
    · rw [natmin_right h, natmin_left (by omega)]; omega
  have e3 : sub64 (low + 2 * (b + Nat.min m.config.tile_bits (bc - b))) (low + 2 * b) >>> 1 =
      Nat.min m.config.tile_bits (bc - b) := by
    rw [sub64_eq (by omega) (by omega), Nat.shiftRight_eq_div_pow]
    omega
  have e4 : words_for_bits (Nat.min m.config.tile_bits (bc - b)) =
      (Nat.min m.config.tile_bits (bc - b) + 63) / 64 := by
    unfold words_for_bits
    rw [add64_eq (by omega)]
  have e5 : add64 b (Nat.min m.config.tile_bits (bc - b)) =
      b + Nat.min m.config.tile_bits (bc - b) := add64_eq (by omega)
  have hmod : Nat.min m.config.tile_bits (bc - b) % 64 < 64 := Nat.mod_lt _ (by decide)
  have e6 : sub64 (shl64 1 (Nat.min m.config.tile_bits (bc - b) % 64)) 1 =
      2 ^ (Nat.min m.config.tile_bits (bc - b) % 64) - 1 := by
    rw [shl64_one hmod]
    have : 2 ^ (Nat.min m.config.tile_bits (bc - b) % 64) < 2 ^ 64 :=
      Nat.pow_lt_pow_right (by decide) hmod
    exact sub64_eq (Nat.one_le_two_pow) this
  conv_lhs => unfold tile_loop
  unfold tile_pass_bits tile_pass_state tile_view
  simp only [if_pos hlt, e2, e3, e4, e5, e6]
  by_cases h64 : Nat.min m.config.tile_bits (bc - b) % 64 = 0
  · simp only [h64, ne_eq, not_true_eq_false, false_and, if_false]
  · have hw : (Nat.min m.config.tile_bits (bc - b) + 63) / 64 > 0 := by omega
    have hw2 : (Nat.min m.config.tile_bits (bc - b) + 63) / 64 - 1 =
        Nat.min m.config.tile_bits (bc - b) / 64 := by omega
    simp only [ne_eq, h64, not_false_eq_true, hw, and_self, if_true, hw2]

theorem two_pow_sub_one_testBit (n i : Nat) : (2 ^ n - 1).testBit i = decide (i < n) :=
  Nat.testBit_two_pow_sub_one n i

/-- One tile pass keeps the length of the buffer and every set bit below `bc`. -/
theorem tile_pass_keeps (m : PrimeMarker) (low b tb bc : Nat) (st : ThreadState)
    (bits : List Nat) (hb : b % 64 = 0) (hlast : tb % 64 = 0 ∨ b + tb = bc) :
    (tile_pass_bits m low b tb st bits).length = bits.length ∧
      ∀ idx, idx < bc → get_bit bits idx = true →
        get_bit (tile_pass_bits m low b tb st bits) idx = true := by
  have h1 := apply_small_primes_le m st.small_positions (tile_view low b tb) bits
  have h2 := apply_medium_primes_le m st.medium_positions (tile_view low b tb)
    (apply_small_primes m st.small_positions (tile_view low b tb) bits).1
  have h3 := h1.trans h2
  unfold tile_pass_bits
  simp only
  by_cases h64 : tb % 64 = 0
  · simp only [h64, ne_eq, not_true_eq_false, if_false]
    exact ⟨h3.1.symm, fun idx _ h => h3.2 idx h⟩
  · simp only [ne_eq, h64, not_false_eq_true, if_true]
    refine ⟨by rw [and_word_length]; exact h3.1.symm, ?_⟩
    intro idx hidx hset
    rw [get_bit_and_word, h3.2 idx hset, two_pow_sub_one_testBit]
    have hbt : b + tb = bc := by
      rcases hlast with h | h
      · exact absurd h h64
      · exact h
    by_cases hw : idx / 64 = b / 64 + tb / 64 ∧
        b / 64 + tb / 64 < (apply_medium_primes m st.medium_positions (tile_view low b tb)
          (apply_small_primes m st.small_positions (tile_view low b tb) bits).1).1.length
    · have : idx % 64 < tb % 64 := by omega
      simp [this]
    · simp [hw]

theorem tile_pass_words (m : PrimeMarker)
    (hp : ∀ pat, some pat ∈ m.small_prime_patterns → ∀ x ∈ pat.masks, x < 2 ^ 64)
    (low b tb : Nat) (st : ThreadState) (bits : List Nat) (h : WordsOK bits) :
    WordsOK (tile_pass_bits m low b tb st bits) := by
  have h1 := apply_small_primes_words m hp st.small_positions (tile_view low b tb) bits h
  have h2 := apply_medium_primes_words m st.medium_positions (tile_view low b tb) _ h1
  unfold tile_pass_bits
  simp only
  split
  · exact WordsOK_and_word _ _ _ h2
  · exact h2

theorem tile_loop_keeps (m : PrimeMarker) (hc : ConfigOK m.config) (low bc : Nat)
    (hhigh : low + 2 * bc ≤ 2 ^ 63 + 1) (fuel b : Nat) (hb : b ≤ bc)
    (hb64 : b % 64 = 0 ∨ b = bc) (st : ThreadState) (bits : List Nat) :
    (tile_loop m (low + 2 * bc) fuel (low + 2 * b) b st bits).2.length = bits.length ∧
      ∀ idx, idx < bc → get_bit bits idx = true →
        get_bit (tile_loop m (low + 2 * bc) fuel (low + 2 * b) b st bits).2 idx = true := by
  induction fuel generalizing b st bits with
  | zero => exact ⟨rfl, fun _ _ h => h⟩
  | succ fuel ih =>
    by_cases hlt : b < bc
    · rw [tile_loop_succ m hc low bc hhigh fuel b hlt]
      have hb64' : b % 64 = 0 := by
        rcases hb64 with h | h
        · exact h
        · omega
      obtain ⟨_, htb64, _⟩ := hc
      have hmin : Nat.min m.config.tile_bits (bc - b) % 64 = 0 ∨
          b + Nat.min m.config.tile_bits (bc - b) = bc := by
        rcases Nat.le_total m.config.tile_bits (bc - b) with h | h
        · left; rw [natmin_left h]; exact htb64
        · right; rw [natmin_right h]; omega
      have hle : b + Nat.min m.config.tile_bits (bc - b) ≤ bc := by
        have : Nat.min m.config.tile_bits (bc - b) ≤ bc - b := Nat.min_le_right _ _
        omega
      have hnext : (b + Nat.min m.config.tile_bits (bc - b)) % 64 = 0 ∨
          b + Nat.min m.config.tile_bits (bc - b) = bc := by
        rcases hmin with h | h
        · left; omega
        · right; exact h
      have hp := tile_pass_keeps m low b (Nat.min m.config.tile_bits (bc - b)) bc st bits
        hb64' hmin
      have hi := ih (b + Nat.min m.config.tile_bits (bc - b)) hle hnext
        (tile_pass_state m low b (Nat.min m.config.tile_bits (bc - b)) st bits)
        (tile_pass_bits m low b (Nat.min m.config.tile_bits (bc - b)) st bits)
      exact ⟨hi.1.trans hp.1, fun idx hidx h => hi.2 idx hidx (hp.2 idx hidx h)⟩
    · rw [tile_loop_done m _ _ _ _ _ _ (by omega)]
      exact ⟨rfl, fun _ _ h => h⟩

theorem tile_loop_words (m : PrimeMarker) (hc : ConfigOK m.config)
    (hp : ∀ pat, some pat ∈ m.small_prime_patterns → ∀ x ∈ pat.masks, x < 2 ^ 64)
    (low bc : Nat) (hhigh : low + 2 * bc ≤ 2 ^ 63 + 1) (fuel b : Nat)
    (st : ThreadState) (bits : List Nat) (h : WordsOK bits) :
    WordsOK (tile_loop m (low + 2 * bc) fuel (low + 2 * b) b st bits).2 := by
  induction fuel generalizing b st bits with
  | zero => exact h
  | succ fuel ih =>
    by_cases hlt : b < bc
    · rw [tile_loop_succ m hc low bc hhigh fuel b hlt]
      exact ih _ _ _ (tile_pass_words m hp low b _ st bits h)
    · rw [tile_loop_done m _ _ _ _ _ _ (by omega)]
      exact h

/-! ## What `sieve_segment` keeps of the presieve -/

theorem sieve_segment_eq (m : PrimeMarker) (st : ThreadState) (id low bc : Nat)
    (hbc : 0 < bc) (hhigh : low + 2 * bc ≤ 2 ^ 63 + 1) :
    sieve_segment m st id low (low + 2 * bc) =
      ({ (tile_loop m (low + 2 * bc) (2 * bc / m.config.tile_span + 1) (low + 2 * 0) 0
            (apply_large_primes m st id low (low + 2 * bc)
              (apply_presieve m.wheel low bc (List.replicate ((bc + 63) / 64) 0))).1
            (apply_large_primes m st id low (low + 2 * bc)
              (apply_presieve m.wheel low bc (List.replicate ((bc + 63) / 64) 0))).2).1 with
          medium_positions := advance_cursors (low + 2 * bc) m.medium_primes
            (tile_loop m (low + 2 * bc) (2 * bc / m.config.tile_span + 1) (low + 2 * 0) 0
              (apply_large_primes m st id low (low + 2 * bc)
                (apply_presieve m.wheel low bc (List.replicate ((bc + 63) / 64) 0))).1
              (apply_large_primes m st id low (low + 2 * bc)
                (apply_presieve m.wheel low bc
                  (List.replicate ((bc + 63) / 64) 0))).2).1.medium_positions
          small_positions := advance_cursors (low + 2 * bc) m.small_primes
            (tile_loop m (low + 2 * bc) (2 * bc / m.config.tile_span + 1) (low + 2 * 0) 0
              (apply_large_primes m st id low (low + 2 * bc)
                (apply_presieve m.wheel low bc (List.replicate ((bc + 63) / 64) 0))).1
              (apply_large_primes m st id low (low + 2 * bc)
                (apply_presieve m.wheel low bc
                  (List.replicate ((bc + 63) / 64) 0))).2).1.small_positions },
        (tile_loop m (low + 2 * bc) (2 * bc / m.config.tile_span + 1) (low + 2 * 0) 0
            (apply_large_primes m st id low (low + 2 * bc)
              (apply_presieve m.wheel low bc (List.replicate ((bc + 63) / 64) 0))).1
            (apply_large_primes m st id low (low + 2 * bc)
              (apply_presieve m.wheel low bc (List.replicate ((bc + 63) / 64) 0))).2).2) := by
  have e1 : ¬ (low + 2 * bc ≤ low) := by omega
  have e2 : (2 * bc) >>> 1 = bc := by
    rw [Nat.shiftRight_eq_div_pow]; omega
  have e3 : low + 2 * bc - low = 2 * bc := by omega
  have e4 : words_for_bits bc = (bc + 63) / 64 := by
    unfold words_for_bits
    rw [add64_eq (by omega)]
  have e5 : ¬ (bc = 0) := by omega
  unfold sieve_segment
  simp only [if_neg e1, e3, e2, if_neg e5, e4, Nat.mul_zero, Nat.add_zero]

theorem apply_large_primes_length (m : PrimeMarker) (state : ThreadState) (id lo hi : Nat)
    (bits : List Nat) : (apply_large_primes m state id lo hi bits).2.length = bits.length :=
  (apply_large_primes_le m state id lo hi bits).1.symm

/-- Whatever the worker state, the buffer `sieve_segment` leaves has one word per 64 bits
and every bit below `bc` whose value shares a factor with the wheel modulus is set. -/
theorem sieve_segment_presieve (ty : WheelType) (m : PrimeMarker) (hw : m.wheel = get_wheel ty)
    (hc : ConfigOK m.config) (st : ThreadState) (id low bc : Nat) (hbc : 0 < bc)
    (hhigh : low + 2 * bc ≤ 2 ^ 63 + 1) :
    (sieve_segment m st id low (low + 2 * bc)).2.length = (bc + 63) / 64 ∧
      ∀ idx, idx < bc → Nat.gcd (low + 2 * idx) (get_wheel ty).modulus ≠ 1 →
        get_bit (sieve_segment m st id low (low + 2 * bc)).2 idx = true := by
  rw [sieve_segment_eq m st id low bc hbc hhigh]
  simp only
  have hk := tile_loop_keeps m hc low bc hhigh (2 * bc / m.config.tile_span + 1) 0
    (Nat.zero_le _) (Or.inl rfl)
    (apply_large_primes m st id low (low + 2 * bc)
      (apply_presieve m.wheel low bc (List.replicate ((bc + 63) / 64) 0))).1
    (apply_large_primes m st id low (low + 2 * bc)
      (apply_presieve m.wheel low bc (List.replicate ((bc + 63) / 64) 0))).2
  refine ⟨?_, ?_⟩
  · rw [hk.1, apply_large_primes_length, apply_presieve_length, List.length_replicate]
  · intro idx hidx hg
    apply hk.2 idx hidx
    apply (apply_large_primes_le m st id low (low + 2 * bc) _).2
    rw [hw, apply_presieve_spec]
    have : idx < bc ∧ idx / 64 < (List.replicate ((bc + 63) / 64) 0).length ∧
        Nat.gcd (low + 2 * idx) (get_wheel ty).modulus ≠ 1 := by
      refine ⟨hidx, ?_, hg⟩
      rw [List.length_replicate]
      omega
    rw [decide_eq_true this, Bool.or_true]

theorem sieve_segment_words (m : PrimeMarker) (hc : ConfigOK m.config)
    (hp : ∀ pat, some pat ∈ m.small_prime_patterns → ∀ x ∈ pat.masks, x < 2 ^ 64)
    (st : ThreadState) (id low bc : Nat) (hbc : 0 < bc)
    (hhigh : low + 2 * bc ≤ 2 ^ 63 + 1) :
    WordsOK (sieve_segment m st id low (low + 2 * bc)).2 := by
  rw [sieve_segment_eq m st id low bc hbc hhigh]
  simp only
  apply tile_loop_words m hc hp low bc hhigh
  apply apply_large_primes_words
  apply apply_presieve_words
  exact WordsOK_replicate _

/-! ## The extraction of the primes of a segment -/

theorem and_one_eq_zero_iff (n : Nat) : (n &&& 1 = 0) ↔ n % 2 = 0 := by
  rw [Nat.and_one_is_mod]

/-- The work queue hands out the segment `idx` exactly when it starts inside the range:
it then reaches from `begin + idx * span` over one span, cut at the end of the range. -/
theorem queue_next_eq (range : SieveRange) (config : SegmentConfig) (idx : Nat)
    (hc : ConfigOK config) (hb : range.begin_ ≤ range.end_)
    (hend : range.end_ ≤ 2 ^ 63 + 1) :
    queue_next range config idx =
      if idx * config.segment_span < range.end_ - range.begin_ then
        some (idx, range.begin_ + idx * config.segment_span,
          range.begin_ + Nat.min (range.end_ - range.begin_)
            (idx * config.segment_span + config.segment_span))
      else none := by
  obtain ⟨_, _, _, _, hs0, _, hsl⟩ := hc
  have hlen : (if range.end_ > range.begin_ then range.end_ - range.begin_ else 0) =
      range.end_ - range.begin_ := by
    split
    · rfl
    · omega
  unfold queue_next
  simp only [hlen]
  have hsne : config.segment_span ≠ 0 := by omega
  by_cases hP : idx * config.segment_span < 2 ^ 64
  · have e1 : mul64 idx config.segment_span = idx * config.segment_span := mul64_eq hP
    have e2 : idx * config.segment_span / config.segment_span = idx :=
      Nat.mul_div_cancel _ hs0
    simp only [e1, e2, ne_eq, not_true_eq_false, and_false, if_false]
    by_cases hin : idx * config.segment_span < range.end_ - range.begin_
    · have h1 : ¬ (idx * config.segment_span ≥ range.end_ - range.begin_) := by omega
      simp only [if_neg h1, if_pos hin]
      have e3 : add64 range.begin_ (idx * config.segment_span) =
          range.begin_ + idx * config.segment_span := add64_eq (by omega)
      rw [e3]
      by_cases hcut : config.segment_span >
          range.end_ - range.begin_ - idx * config.segment_span
      · simp only [if_pos hcut]
        have e4 : add64 (range.begin_ + idx * config.segment_span)
            (range.end_ - range.begin_ - idx * config.segment_span) = range.end_ := by
          rw [add64_eq (by omega)]; omega
        have e5 : Nat.min (range.end_ - range.begin_)
            (idx * config.segment_span + config.segment_span) =
              range.end_ - range.begin_ := natmin_left (by omega)
        rw [e4, e5]
        have e6 : range.begin_ + idx * config.segment_span < range.end_ := by omega
        simp only [if_pos e6]
        have e7 : range.begin_ + (range.end_ - range.begin_) = range.end_ := by omega
        rw [e7]
      · simp only [if_neg hcut]
        have e4 : add64 (range.begin_ + idx * config.segment_span) config.segment_span =
            range.begin_ + idx * config.segment_span + config.segment_span :=
          add64_eq (by omega)
        have e5 : Nat.min (range.end_ - range.begin_)
            (idx * config.segment_span + config.segment_span) =
              idx * config.segment_span + config.segment_span := natmin_right (by omega)
        rw [e4, e5]
        have e6 : range.begin_ + idx * config.segment_span <
            range.begin_ + idx * config.segment_span + config.segment_span := by omega
        simp only [if_pos e6]
        have e7 : range.begin_ + (idx * config.segment_span + config.segment_span) =
            range.begin_ + idx * config.segment_span + config.segment_span := by omega
        rw [e7]
    · have h1 : idx * config.segment_span ≥ range.end_ - range.begin_ := by omega
      simp only [if_pos h1, if_neg hin]
  · have hlt : mul64 idx config.segment_span < idx * config.segment_span := by
      unfold mul64
      have := Nat.mod_lt (idx * config.segment_span) (show 0 < 2 ^ 64 by positivity)
      omega
    have hne : mul64 idx config.segment_span / config.segment_span ≠ idx := by
      have := (Nat.div_lt_iff_lt_mul hs0).2 hlt
      omega
    have hin : ¬ (idx * config.segment_span < range.end_ - range.begin_) := by omega
    simp only [ne_eq, hsne, not_false_eq_true, hne, and_self, if_true, if_neg hin]

/-! ## The fields of the marker -/

theorem classify_primes_fields (wheel : Wheel) (config : SegmentConfig) (rb lim : Nat)
    (ps : List Nat) (m : PrimeMarker) :
    (classify_primes wheel config rb lim ps m).wheel = m.wheel ∧
      (classify_primes wheel config rb lim ps m).config = m.config ∧
      (classify_primes wheel config rb lim ps m).range_begin = m.range_begin ∧
      (classify_primes wheel config rb lim ps m).range_end = m.range_end := by
  induction ps generalizing m with
  | nil => exact ⟨rfl, rfl, rfl, rfl⟩
  | cons p ps ih =>
    unfold classify_primes
    simp only
    split_ifs
    · exact ih m
    · exact ih m
    · exact ih _
    · exact ih _
    · exact ih _

theorem mk_marker_wheel (wheel : Wheel) (config : SegmentConfig) (rb re : Nat)
    (primes : List Nat) (lim : Nat) :
    (PrimeMarker.mk_marker wheel config rb re primes lim).wheel = wheel :=
  (classify_primes_fields wheel config rb lim primes _).1

theorem mk_marker_config (wheel : Wheel) (config : SegmentConfig) (rb re : Nat)
    (primes : List Nat) (lim : Nat) :
    (PrimeMarker.mk_marker wheel config rb re primes lim).config = config :=
  (classify_primes_fields wheel config rb lim primes _).2.1

theorem mk_marker_range_begin (wheel : Wheel) (config : SegmentConfig) (rb re : Nat)
    (primes : List Nat) (lim : Nat) :
    (PrimeMarker.mk_marker wheel config rb re primes lim).range_begin = rb :=
  (classify_primes_fields wheel config rb lim primes _).2.2.1

theorem mk_marker_range_end (wheel : Wheel) (config : SegmentConfig) (rb re : Nat)
    (primes : List Nat) (lim : Nat) :
    (PrimeMarker.mk_marker wheel config rb re primes lim).range_end = re :=
  (classify_primes_fields wheel config rb lim primes _).2.2.2

/-! ## The values of the zero bits -/

theorem set_at_length {α : Type} (l : List α) (i : Nat) (a : α) :
    (set_at l i a).length = l.length := by
  induction l generalizing i with
  | nil => rfl
  | cons x xs ih =>
    cases i with
    | zero => rfl
    | succ i => simp [set_at, ih]

/-- The prefix primes are strictly increasing and none exceeds the largest wheel prime. -/
theorem prefix_primes_sorted (from_ to_ : Nat) (ty : WheelType) :
    List.Sorted (fun a b => a < b) (prefix_primes from_ to_ ty) ∧
      ∀ p ∈ prefix_primes from_ to_ ty, p ≤ wheel_pmax ty := by
  have hsub : List.Sublist (prefix_primes from_ to_ ty) (2 :: wheel_primes ty) := by
    unfold prefix_primes
    split
    · exact List.Sublist.cons₂ _ (List.filter_sublist _)
    · exact List.Sublist.cons _ (List.filter_sublist _)
  have hs : List.Sorted (fun a b => a < b) (2 :: wheel_primes ty) := by
    cases ty <;> simp [wheel_primes, List.Sorted]
  refine ⟨List.Pairwise.sublist hsub hs, ?_⟩
  intro p hp
  have := hsub.subset hp
  cases ty <;> simp [wheel_primes] at this <;> simp [wheel_pmax] <;> omega

theorem align_to_128 (v : Nat) (hv : v ≤ 2 ^ 57) :
    align_to v 128 % 128 = 0 ∧ v ≤ align_to v 128 ∧ align_to v 128 ≤ v + 127 := by
  unfold align_to
  simp only [show ¬ (128 = 0) by decide, if_false]
  split
  · omega
  · split
    · omega
    · omega

/-- Every configuration `choose_segment_config` arrives at from sizes up to `2 ^ 57` bytes
is well formed. -/
theorem finish_segment_config_ok (chosen cap rt l1 : Nat) (h1 : chosen ≤ 2 ^ 57)
    (h3 : rt ≤ 2 ^ 57) (h4 : l1 ≤ 2 ^ 57) :
    ConfigOK (finish_segment_config chosen cap rt l1) := by
  obtain ⟨a1, a2, a3⟩ := align_to_128 chosen h1
  obtain ⟨b1, b2, b3⟩ := align_to_128 rt h3
  have hl : Nat.max l1 (8 * 1024) ≤ 2 ^ 57 := by
    show max l1 (8 * 1024) ≤ 2 ^ 57
    omega
  have hl2 : 8 * 1024 ≤ Nat.max l1 (8 * 1024) := by
    show 8 * 1024 ≤ max l1 (8 * 1024)
    omega
  obtain ⟨c1, c2, c3⟩ := align_to_128 (Nat.max l1 (8 * 1024)) hl
  have hseg : ∃ sb, (finish_segment_config chosen cap rt l1).segment_bytes = sb ∧
      sb % 128 = 0 ∧ 8192 ≤ sb ∧ sb ≤ 2 ^ 57 + 127 := by
    refine ⟨_, rfl, ?_⟩
    unfold finish_segment_config
    simp only
    split_ifs <;> omega
  obtain ⟨sb, hsb, s1, s2, s3⟩ := hseg
  have htile : ∃ tb, (finish_segment_config chosen cap rt l1).tile_bytes = tb ∧
      tb % 128 = 0 ∧ 0 < tb ∧ tb ≤ sb := by
    refine ⟨_, rfl, ?_⟩
    rw [← hsb]
    unfold finish_segment_config
    simp only
    by_cases hr : rt = 0
    · rw [if_pos hr]
      show min _ _ % 128 = 0 ∧ 0 < min _ _ ∧ min _ _ ≤ _
      unfold finish_segment_config at hsb
      simp only at hsb
      rw [hsb]
      omega
    · rw [if_neg hr]
      show min _ _ % 128 = 0 ∧ 0 < min _ _ ∧ min _ _ ≤ _
      unfold finish_segment_config at hsb
      simp only at hsb
      rw [hsb]
      omega
  obtain ⟨tb, htb, t1, t2, t3⟩ := htile
  have e1 : (finish_segment_config chosen cap rt l1).tile_bits = mul64 tb 8 := by
    rw [← htb]; rfl
  have e2 : (finish_segment_config chosen cap rt l1).tile_span = mul64 (mul64 tb 8) 2 := by
    rw [← htb]; rfl
  have e3 : (finish_segment_config chosen cap rt l1).segment_span =
      mul64 (mul64 sb 8) 2 := by
    rw [← hsb]; rfl
  have m1 : mul64 tb 8 = tb * 8 := mul64_eq (by omega)
  have m2 : mul64 (tb * 8) 2 = tb * 8 * 2 := mul64_eq (by omega)
  have m3 : mul64 sb 8 = sb * 8 := mul64_eq (by omega)
  have m4 : mul64 (sb * 8) 2 = sb * 8 * 2 := mul64_eq (by omega)
  unfold ConfigOK
  rw [e1, e2, e3, m1, m2, m3, m4]
  omega

theorem choose_segment_config_requested_ok (seg tile : Nat) (h1 : seg ≤ 2 ^ 56)
    (h2 : tile ≤ 2 ^ 57) : ConfigOK (choose_segment_config_requested seg tile) := by
  unfold choose_segment_config_requested
  have := align_to_128 seg (by omega)
  exact finish_segment_config_ok _ 0 tile 0 (by omega) h2 (by norm_num)

/-! ## First hits and cursors -/

/-- Two odd multiples of an odd `p` that differ are at least `2 * p` apart. -/
theorem odd_multiple_gap (p a g : Nat) (ha : p ∣ a) (hg : p ∣ g)
    (ha2 : a % 2 = 1) (hg2 : g % 2 = 1) (hlt : a < g) : a + 2 * p ≤ g := by
  obtain ⟨x, rfl⟩ := ha
  obtain ⟨y, rfl⟩ := hg
  have hx : x % 2 = 1 := by
    rcases Nat.mod_two_eq_zero_or_one x with h | h
    · rw [Nat.mul_mod, h] at ha2; simp at ha2
    · exact h
  have hy : y % 2 = 1 := by
    rcases Nat.mod_two_eq_zero_or_one y with h | h
    · rw [Nat.mul_mod, h] at hg2; simp at hg2
    · exact h
  have hxy : x < y := by
    by_contra hge
    have : p * y ≤ p * x := Nat.mul_le_mul_left _ (by omega)
    omega
  have h2 : x + 2 ≤ y := by omega
  calc p * x + 2 * p = p * (x + 2) := by ring
    _ ≤ p * y := Nat.mul_le_mul_left _ h2

theorem FirstHit_unique (p s f f1 : Nat) (h : FirstHit p s f) (h1 : FirstHit p s f1) :
    f = f1 := by
  obtain ⟨a1, a2, a3, a4, a5⟩ := h
  obtain ⟨b1, b2, b3, b4, b5⟩ := h1
  exact le_antisymm (a5 f1 b1 b2 b3 b4) (b5 f a1 a2 a3 a4)

theorem FirstHit_mono (p x y f : Nat) (h : FirstHit p x f) (hxy : x ≤ y) (hy : y ≤ f) :
    FirstHit p y f := by
  obtain ⟨a1, a2, a3, a4, a5⟩ := h
  exact ⟨a1, a2, a3, hy, fun g g1 g2 g3 g4 => a5 g g1 g2 g3 (le_trans hxy g4)⟩

theorem sq_lt_two_pow_64 (p : Nat) (hp : p < 2 ^ 32) : p * p < 2 ^ 64 - 2 ^ 33 + 2 := by
  have h1 : p ≤ 2 ^ 32 - 1 := by omega
  have := Nat.mul_le_mul h1 h1
  norm_num at this ⊢
  omega

/-- `first_hit` returns the first odd multiple of the prime from its square and from
`start` on. -/
theorem first_hit_spec (p s : Nat) (hp : SievePrime p) (hs : s ≤ 2 ^ 63 + 1) :
    FirstHit p s (first_hit p s) ∧ first_hit p s < 2 ^ 64 - 2 ^ 33 + 2 := by
  obtain ⟨hp3, hp2, hp32⟩ := hp
  have hsq := sq_lt_two_pow_64 p hp32
  have hsq2 : (p * p) % 2 = 1 := by rw [Nat.mul_mod, hp2]
  have hsqp : (p * p) % p = 0 := Nat.mul_mod_right p p
  unfold first_hit
  simp only [and_one_eq_zero_iff]
  rw [mul64_eq (by omega)]
  by_cases hlt : p * p < s
  · simp only [if_pos hlt]
    have hrem : s % p < p := Nat.mod_lt _ (by omega)
    have hdm := Nat.div_add_mod s p
    by_cases hr : s % p ≠ 0
    · simp only [if_pos hr]
      rw [add64_eq (by omega)]
      have hdvd : p ∣ s + (p - s % p) := by
        refine ⟨s / p + 1, ?_⟩
        have : p * (s / p + 1) = p * (s / p) + p := by ring
        omega
      by_cases he : (s + (p - s % p)) % 2 = 0
      · simp only [if_pos he]
        rw [add64_eq (by omega)]
        refine ⟨⟨Dvd.dvd.add hdvd (dvd_refl p), by omega, by omega, by omega, ?_⟩, by omega⟩
        intro g g1 g2 g3 g4
        by_contra hgl
        have hgm : g % p = 0 := Nat.mod_eq_zero_of_dvd g1
        obtain ⟨k, hk⟩ := g1
        obtain ⟨j, hj⟩ := hdvd
        have hkj : j ≤ k := by
          by_contra hh
          have : p * (k + 1) ≤ p * j := Nat.mul_le_mul_left _ (by omega)
          have e : p * (k + 1) = p * k + p := by ring
          omega
        have hne : g ≠ s + (p - s % p) := by
          intro e; rw [e] at g2; omega
        have hkj2 : j < k := by
          rcases Nat.lt_or_eq_of_le hkj with h | h
          · exact h
          · exfalso; apply hne; rw [hk, hj, h]
        have : p * (j + 1) ≤ p * k := Nat.mul_le_mul_left _ (by omega)
        have e : p * (j + 1) = p * j + p := by ring
        omega
      · simp only [if_neg he]
        refine ⟨⟨hdvd, by omega, by omega, by omega, ?_⟩, by omega⟩
        intro g g1 g2 g3 g4
        obtain ⟨k, hk⟩ := g1
        obtain ⟨j, hj⟩ := hdvd
        by_contra hgl
        have hkj : k < j := by
          by_contra hh
          have : p * j ≤ p * k := Nat.mul_le_mul_left _ (by omega)
          omega
        have : p * (k + 1) ≤ p * j := Nat.mul_le_mul_left _ (by omega)
        have e : p * (k + 1) = p * k + p := by ring
        have hsj : p * j = s + (p - s % p) := hj.symm
        omega
    · have hr0 : s % p = 0 := by omega
      simp only [if_neg hr]
      have hdvd : p ∣ s := Nat.dvd_of_mod_eq_zero hr0
      by_cases he : s % 2 = 0
      · simp only [if_pos he]
        rw [add64_eq (by omega)]
        refine ⟨⟨Dvd.dvd.add hdvd (dvd_refl p), by omega, by omega, by omega, ?_⟩, by omega⟩
        intro g g1 g2 g3 g4
        obtain ⟨k, hk⟩ := g1
        obtain ⟨j, hj⟩ := hdvd
        by_contra hgl
        have hne : g ≠ s := by
          intro e; rw [e] at g2; omega
        have hkj : j < k := by
          by_contra hh
          have : p * k ≤ p * j := Nat.mul_le_mul_left _ (by omega)
          omega
        have : p * (j + 1) ≤ p * k := Nat.mul_le_mul_left _ (by omega)
        have e : p * (j + 1) = p * j + p := by ring
        omega
      · simp only [if_neg he]
        exact ⟨⟨hdvd, by omega, by omega, le_refl _, fun g _ _ _ g4 => g4⟩, by omega⟩
  · simp only [if_neg hlt]
    have hr : ¬ ((p * p) % p ≠ 0) := by omega
    simp only [if_neg hr]
    have he : ¬ ((p * p) % 2 = 0) := by omega
    simp only [if_neg he]
    exact ⟨⟨Dvd.intro _ rfl, hsq2, le_refl _, by omega, fun g _ _ g3 _ => g3⟩, by omega⟩

theorem first_hit_eq (p s f : Nat) (hp : SievePrime p) (hs : s ≤ 2 ^ 63 + 1)
    (h : FirstHit p s f) : first_hit p s = f :=
  FirstHit_unique p s _ _ (first_hit_spec p s hp hs).1 h

/-- A first hit lies less than `2 * p` above the larger of `p * p` and `s`. -/
theorem FirstHit_lt (p s f : Nat) (hp : SievePrime p) (h : FirstHit p s f) :
    f < Nat.max (p * p) s + 2 * p := by
  obtain ⟨a1, a2, a3, a4, a5⟩ := h
  obtain ⟨hp3, hp2, _⟩ := hp
  by_contra hge
  have hmax : p * p ≤ Nat.max (p * p) s ∧ s ≤ Nat.max (p * p) s := by
    constructor
    · exact Nat.le_max_left _ _
    · exact Nat.le_max_right _ _
  have hf : 2 * p ≤ f := by omega
  have hd : p ∣ f - 2 * p := Nat.dvd_sub' a1 (Dvd.intro_left 2 rfl)
  have := a5 (f - 2 * p) hd (by omega) (by omega) (by omega)
  omega

/-! ## Cursor advances -/

/-- The difference of two odd multiples of an odd `p` is a multiple of `2 * p`. -/
theorem odd_multiple_diff (p a g : Nat) (hp : p % 2 = 1) (ha : p ∣ a) (hg : p ∣ g)
    (ha2 : a % 2 = 1) (hg2 : g % 2 = 1) (hle : a ≤ g) : ∃ j, g = a + 2 * p * j := by
  obtain ⟨x, rfl⟩ := ha
  obtain ⟨y, rfl⟩ := hg
  have hx : x % 2 = 1 := by
    rcases Nat.mod_two_eq_zero_or_one x with h | h
    · rw [Nat.mul_mod, h] at ha2; simp at ha2
    · exact h
  have hy : y % 2 = 1 := by
    rcases Nat.mod_two_eq_zero_or_one y with h | h
    · rw [Nat.mul_mod, h] at hg2; simp at hg2
    · exact h
  have hxy : x ≤ y := by
    by_contra hge
    have : p * (y + 1) ≤ p * x := Nat.mul_le_mul_left _ (by omega)
    have e : p * (y + 1) = p * y + p := by ring
    have hp0 : 0 < p := by omega
    omega
  refine ⟨(y - x) / 2, ?_⟩
  have e : y = x + 2 * ((y - x) / 2) := by omega
  conv_lhs => rw [e]
  ring

theorem mul64_two (p : Nat) (hp : p < 2 ^ 32) : mul64 p 2 = 2 * p := by
  rw [mul64_eq (by omega)]; ring

/-- Advancing a cursor that is the first hit from `x` to a later bound `y` gives the first
hit from `y`. -/
theorem advance_to_spec (p x y pos : Nat) (hp : SievePrime p) (h : FirstHit p x pos)
    (hxy : x ≤ y) (hy : y ≤ 2 ^ 63 + 1) (hpos : pos < 2 ^ 64 - 2 ^ 33 + 2) :
    FirstHit p y (advance_to pos y (mul64 p 2)) := by
  obtain ⟨hp3, hp2, hp32⟩ := hp
  unfold advance_to
  rw [mul64_two p hp32]
  by_cases hlt : pos < y
  · simp only [if_pos hlt]
    obtain ⟨a1, a2, a3, a4, a5⟩ := h
    have e1 : sub64 y pos = y - pos := sub64_eq (by omega) (by omega)
    have e2 : add64 (y - pos) (2 * p) = y - pos + 2 * p := add64_eq (by omega)
    have e3 : sub64 (y - pos + 2 * p) 1 = y - pos + 2 * p - 1 :=
      sub64_eq (by omega) (by omega)
    rw [e1, e2, e3]
    have hdm := Nat.div_add_mod (y - pos + 2 * p - 1) (2 * p)
    have hml := Nat.mod_lt (y - pos + 2 * p - 1) (show 0 < 2 * p by omega)
    generalize hk : (y - pos + 2 * p - 1) / (2 * p) = k at hdm
    have e4 : mul64 k (2 * p) = 2 * p * k := by
      rw [mul64_eq (by rw [Nat.mul_comm]; omega), Nat.mul_comm]
    rw [e4, add64_eq (by omega)]
    refine ⟨Dvd.dvd.add a1 ⟨2 * k, by ring⟩, ?_, by omega, by omega, ?_⟩
    · have : (2 * p * k) % 2 = 0 := by
        rw [Nat.mul_assoc, Nat.mul_mod_right]
      omega
    · intro g g1 g2 g3 g4
      obtain ⟨j, hj⟩ := odd_multiple_diff p pos g hp2 a1 g1 a2 g2 (by omega)
      by_contra hgl
      have hjk : j < k := by
        by_contra hh
        have : 2 * p * k ≤ 2 * p * j := Nat.mul_le_mul_left _ (by omega)
        omega
      have : 2 * p * (j + 1) ≤ 2 * p * k := Nat.mul_le_mul_left _ (by omega)
      have e : 2 * p * (j + 1) = 2 * p * j + 2 * p := by ring
      omega
  · simp only [if_neg hlt]
    exact FirstHit_mono p x y pos h hxy (by omega)

theorem advance_to_first_hit (p x y : Nat) (hp : SievePrime p) (hx : x ≤ y)
    (hy : y ≤ 2 ^ 63 + 1) :
    advance_to (first_hit p x) y (mul64 p 2) = first_hit p y := by
  have h := first_hit_spec p x hp (by omega)
  exact (first_hit_eq p y _ hp hy (advance_to_spec p x y _ hp h.1 hx hy h.2)).symm

/-- Among the odd values from `s` on, the multiples of `p` from its square on are the
first hit and the values at multiples of `2 * p` above it. -/
theorem FirstHit_marks (p s pos v : Nat) (hp : SievePrime p) (h : FirstHit p s pos)
    (hv : v % 2 = 1) (hs : s ≤ v) :
    (pos ≤ v ∧ (2 * p) ∣ (v - pos)) ↔ (p * p ≤ v ∧ p ∣ v) := by
  obtain ⟨a1, a2, a3, a4, a5⟩ := h
  obtain ⟨hp3, hp2, _⟩ := hp
  constructor
  · rintro ⟨h1, j, hj⟩
    refine ⟨by omega, ?_⟩
    have : v = pos + 2 * p * j := by omega
    rw [this]
    exact Dvd.dvd.add a1 ⟨2 * j, by ring⟩
  · rintro ⟨h1, h2⟩
    have hle := a5 v h2 hv h1 hs
    obtain ⟨j, hj⟩ := odd_multiple_diff p pos v hp2 a1 h2 a2 hv hle
    exact ⟨hle, j, by omega⟩

/-! ## The scalar marking loop -/

theorem get_bit_set_bit_iff (bits : List Nat) (i idx : Nat) :
    get_bit (set_bit bits i) idx = true ↔
      (get_bit bits idx = true ∨ (idx = i ∧ i / 64 < bits.length)) := by
  rw [get_bit_set_bit, Bool.or_eq_true, decide_eq_true_iff]

/-- The store of the scalar loop is the store of the bit of the cursor's value. -/
theorem scalar_store_eq (low b tb pos : Nat) (bits : List Nat) (hb : b % 64 = 0)
    (hlow : low % 2 = 1) (hodd : pos % 2 = 1) (hge : low + 2 * b ≤ pos)
    (hlt : pos < 2 ^ 64) :
    or_word bits ((tile_view low b tb).word_base +
        (sub64 pos (tile_view low b tb).start_value >>> 1) / 64)
      (shl64 1 ((sub64 pos (tile_view low b tb).start_value >>> 1) % 64)) =
      set_bit bits ((pos - low) / 2) := by
  unfold tile_view set_bit
  simp only
  rw [sub64_eq hge hlt, Nat.shiftRight_eq_div_pow]
  have e1 : b / 64 + (pos - (low + 2 * b)) / 2 ^ 1 / 64 = (pos - low) / 2 / 64 := by omega
  have e2 : (pos - (low + 2 * b)) / 2 ^ 1 % 64 = (pos - low) / 2 % 64 := by omega
  rw [e1, e2]

theorem scalar_marks_bits (low b tb p : Nat) (hb : b % 64 = 0) (hp : SievePrime p)
    (hlow : low % 2 = 1) (hend : low + 2 * (b + tb) ≤ 2 ^ 63 + 1)
    (fuel pos : Nat) (bits : List Nat) (hodd : pos % 2 = 1) (hge : low + 2 * b ≤ pos)
    (hfuel : low + 2 * (b + tb) ≤ pos + 2 * p * fuel) (idx : Nat) :
    get_bit (scalar_marks (tile_view low b tb) (low + 2 * (b + tb)) (2 * p) fuel pos bits).1
        idx = true ↔
      (get_bit bits idx = true ∨
        (idx / 64 < bits.length ∧ pos ≤ low + 2 * idx ∧ low + 2 * idx < low + 2 * (b + tb) ∧
          (2 * p) ∣ (low + 2 * idx - pos))) := by
  obtain ⟨hp3, hp2, hp32⟩ := hp
  induction fuel generalizing pos bits with
  | zero =>
    unfold scalar_marks
    constructor
    · intro h; exact Or.inl h
    · rintro (h | ⟨_, h1, h2, _⟩)
      · exact h
      · omega
  | succ fuel ih =>
    unfold scalar_marks
    by_cases hlt : pos < low + 2 * (b + tb)
    · simp only [if_pos hlt]
      rw [scalar_store_eq low b tb pos bits hb hlow hodd hge (by omega),
        add64_eq (by omega)]
      have hf : low + 2 * (b + tb) ≤ pos + 2 * p + 2 * p * fuel := by
        have e : 2 * p * (fuel + 1) = 2 * p * fuel + 2 * p := by ring
        omega
      rw [ih (pos + 2 * p) _ (by omega) (by omega) hf, get_bit_set_bit_iff, set_bit_length]
      constructor
      · rintro ((h | ⟨h1, h2⟩) | ⟨h1, h2, h3, j, hj⟩)
        · exact Or.inl h
        · right
          refine ⟨by rw [h1]; exact h2, by omega, by omega, ⟨0, by omega⟩⟩
        · right
          refine ⟨h1, by omega, h3, ⟨j + 1, ?_⟩⟩
          have e : 2 * p * (j + 1) = 2 * p * j + 2 * p := by ring
          omega
      · rintro (h | ⟨h1, h2, h3, j, hj⟩)
        · exact Or.inl (Or.inl h)
        · by_cases hj0 : j = 0
          · left; right
            subst hj0
            have : idx = (pos - low) / 2 := by omega
            exact ⟨this, by rw [← this]; exact h1⟩
          · right
            obtain ⟨j1, rfl⟩ : ∃ j1, j = j1 + 1 := ⟨j - 1, by omega⟩
            have e : 2 * p * (j1 + 1) = 2 * p * j1 + 2 * p := by ring
            exact ⟨h1, by omega, h3, ⟨j1, by omega⟩⟩
    · simp only [if_neg hlt]
      constructor
      · intro h; exact Or.inl h
      · rintro (h | ⟨_, h1, h2, _⟩)
        · exact h
        · omega

theorem scalar_marks_length (tile : TileView) (tile_end step fuel pos : Nat)
    (bits : List Nat) : (scalar_marks tile tile_end step fuel pos bits).1.length = bits.length :=
  (scalar_marks_le tile tile_end step fuel pos bits).1.symm

/-- The scalar loop leaves the cursor at the first hit from the end of the tile. -/
theorem scalar_marks_cursor (tile : TileView) (tile_end p x : Nat) (hp : SievePrime p)
    (hend : tile_end ≤ 2 ^ 63 + 1) (hx : x ≤ tile_end)
    (fuel pos : Nat) (bits : List Nat) (h : FirstHit p x pos)
    (hfuel : tile_end ≤ pos + 2 * p * fuel) :
    FirstHit p tile_end (scalar_marks tile tile_end (2 * p) fuel pos bits).2 := by
  induction fuel generalizing pos bits x with
  | zero =>
    unfold scalar_marks
    exact FirstHit_mono p x tile_end pos h hx (by omega)
  | succ fuel ih =>
    unfold scalar_marks
    by_cases hlt : pos < tile_end
    · simp only [if_pos hlt]
      obtain ⟨a1, a2, a3, a4, a5⟩ := h
      have hp32 := hp.2.2
      rw [add64_eq (by omega)]
      have hnext : FirstHit p (pos + 1) (pos + 2 * p) := by
        refine ⟨Dvd.dvd.add a1 ⟨2, by ring⟩, by omega, by omega, by have := hp.1; omega, ?_⟩
        intro g g1 g2 g3 g4
        exact odd_multiple_gap p pos g a1 g1 a2 g2 (by omega)
      have hf : tile_end ≤ pos + 2 * p + 2 * p * fuel := by
        have e : 2 * p * (fuel + 1) = 2 * p * fuel + 2 * p := by ring
        omega
      exact ih (pos + 1) (by omega) (pos + 2 * p) _ hnext hf
    · simp only [if_neg hlt]
      exact FirstHit_mono p x tile_end pos h hx (by omega)

/-! ## The small-prime patterns -/

theorem mask_entry_bits : ∀ p ∈ kSmallPrimes, ∀ r, r < p → ∀ j, j < 64 →
    (mask_entry p r).testBit j = decide (p ∣ r + 2 * j) := by
  decide

theorem mask_entry_lt : ∀ p ∈ kSmallPrimes, ∀ r, r < p → mask_entry p r < 2 ^ 64 := by
  decide

theorem start_phase_eq : ∀ p ∈ kSmallPrimes, ∀ bit, bit < 64 →
    start_phase_entry p bit = (p - (2 * bit) % p) % p := by
  decide

theorem kSmallPrimes_bounds : ∀ p ∈ kSmallPrimes, 3 ≤ p ∧ p % 2 = 1 ∧ p < 64 := by
  decide

theorem getD_map_range (f : Nat → Nat) (n i : Nat) (h : i < n) :
    ((List.range n).map f).getD i 0 = f i := by
  rw [List.getD_eq_getElem?_getD, List.getElem?_map, List.getElem?_range h]
  rfl

theorem pattern_masks (p r : Nat) (h : r < p) :
    (build_small_pattern p).masks.getD r 0 = mask_entry p r :=
  getD_map_range _ _ _ h

theorem pattern_next_phase (p r : Nat) (h : r < p) :
    (build_small_pattern p).next_phase.getD r 0 = (r + 128 % p) % p :=
  getD_map_range _ _ _ h

theorem pattern_start_phase (p bit : Nat) (h : bit < 64) :
    (build_small_pattern p).start_phase.getD bit 0 = start_phase_entry p bit :=
  getD_map_range _ _ _ h

theorem get_wheel_small_patterns (ty : WheelType) :
    (get_wheel ty).small_patterns =
      (kSmallPrimes.takeWhile (fun p => decide (p ≤ small_limit_of ty))).map
        build_small_pattern := by
  cases ty <;> rfl

/-- A pattern found for a prime is the one built for it, and the prime is in the table. -/
theorem find_small_pattern_some (ty : WheelType) (q : Nat) (pat : SmallPrimePattern)
    (h : find_small_pattern (get_wheel ty) q = some pat) :
    pat = build_small_pattern q ∧ q ∈ kSmallPrimes := by
  unfold find_small_pattern at h
  have h1 := List.find?_some h
  have h2 := List.mem_of_find?_eq_some h
  rw [get_wheel_small_patterns] at h2
  obtain ⟨q1, hq1, rfl⟩ := List.mem_map.1 h2
  have hq : q1 = q := by simpa [build_small_pattern] using h1
  subst hq
  exact ⟨rfl, (List.takeWhile_sublist _).subset hq1⟩

theorem dvd_mod_add (p a c : Nat) : p ∣ a % p + c ↔ p ∣ a + c := by
  rw [Nat.dvd_iff_mod_eq_zero, Nat.dvd_iff_mod_eq_zero, Nat.mod_add_mod]

theorem get_bit_or_word_iff (bits : List Nat) (w mask idx : Nat) :
    get_bit (or_word bits w mask) idx = true ↔
      (get_bit bits idx = true ∨
        (idx / 64 = w ∧ w < bits.length ∧ mask.testBit (idx % 64) = true)) := by
  rw [get_bit_or_word, Bool.or_eq_true, Bool.and_eq_true, decide_eq_true_iff, and_assoc]

/-- The word loop of the pattern path sets, in the tile words from `w` on, the bits whose
value is a multiple of the prime. -/
theorem pattern_words_spec (p : Nat) (hp : p ∈ kSmallPrimes) (low b tb : Nat)
    (hb : b % 64 = 0) (fuel w phase : Nat) (bits : List Nat)
    (hphase : phase = (low + 2 * (b + 64 * w)) % p) (hf : (tb + 63) / 64 ≤ w + fuel)
    (idx : Nat) :
    get_bit (pattern_words (build_small_pattern p) (tile_view low b tb) fuel w phase bits)
        idx = true ↔
      (get_bit bits idx = true ∨
        (idx / 64 < bits.length ∧ b / 64 + w ≤ idx / 64 ∧ idx / 64 < b / 64 + (tb + 63) / 64 ∧
          p ∣ low + 2 * idx)) := by
  obtain ⟨hp3, hp2, hp64⟩ := kSmallPrimes_bounds p hp
  induction fuel generalizing w phase bits with
  | zero =>
    unfold pattern_words
    constructor
    · intro h; exact Or.inl h
    · rintro (h | ⟨_, h1, h2, _⟩)
      · exact h
      · omega
  | succ fuel ih =>
    unfold pattern_words
    have hwc : (tile_view low b tb).word_count = (tb + 63) / 64 := rfl
    have hwb : (tile_view low b tb).word_base = b / 64 := rfl
    rw [hwc, hwb]
    by_cases hw : w < (tb + 63) / 64
    · simp only [if_pos hw]
      have hlt : phase < p := by rw [hphase]; exact Nat.mod_lt _ (by omega)
      have hnext : (build_small_pattern p).next_phase.getD phase 0 =
          (low + 2 * (b + 64 * (w + 1))) % p := by
        rw [pattern_next_phase p phase hlt, hphase, ← Nat.add_mod]
        congr 1
      rw [ih (w + 1) _ _ hnext (by omega), get_bit_or_word_iff, or_word_length,
        pattern_masks p phase hlt]
      constructor
      · rintro ((h | ⟨h1, h2, h3⟩) | ⟨h1, h2, h3, h4⟩)
        · exact Or.inl h
        · right
          refine ⟨by omega, by omega, by omega, ?_⟩
          rw [mask_entry_bits p hp phase hlt _ (Nat.mod_lt _ (by decide)),
            decide_eq_true_iff, hphase, dvd_mod_add] at h3
          have e : low + 2 * (b + 64 * w) + 2 * (idx % 64) = low + 2 * idx := by omega
          rwa [e] at h3
        · exact Or.inr ⟨h1, by omega, h3, h4⟩
      · rintro (h | ⟨h1, h2, h3, h4⟩)
        · exact Or.inl (Or.inl h)
        · by_cases hiw : idx / 64 = b / 64 + w
          · left; right
            refine ⟨hiw, by omega, ?_⟩
            rw [mask_entry_bits p hp phase hlt _ (Nat.mod_lt _ (by decide)),
              decide_eq_true_iff, hphase, dvd_mod_add]
            have e : low + 2 * (b + 64 * w) + 2 * (idx % 64) = low + 2 * idx := by omega
            rwa [e]
          · exact Or.inr ⟨h1, by omega, h3, h4⟩
    · simp only [if_neg hw]
      constructor
      · intro h; exact Or.inl h
      · rintro (h | ⟨_, h1, h2, _⟩)
        · exact h
        · omega

/-! ## One small or medium prime on one tile -/

theorem first_mask_testBit (mask0 biw j : Nat) (hj : j < 64) :
    (if biw ≠ 0 then mask0 &&& shl64 (2 ^ 64 - 1) biw else mask0).testBit j =
      (mask0.testBit j && decide (biw ≤ j)) := by
  split
  · unfold shl64
    rw [Nat.testBit_and, Nat.testBit_mod_two_pow, Nat.testBit_shiftLeft,
      Nat.testBit_two_pow_sub_one]
    by_cases h : biw ≤ j
    · have h2 : j - biw < 64 := by omega
      simp [h, hj, h2]
    · simp [h]
  · have : biw = 0 := by omega
    subst this
    simp

theorem start_phase_value (p a c : Nat) (hp0 : 0 < p) (h : p ∣ a + c) :
    a % p = (p - c % p) % p := by
  have hx : a % p < p := Nat.mod_lt _ hp0
  have hy : c % p < p := Nat.mod_lt _ hp0
  have hs : p ∣ a % p + c % p := by
    rw [Nat.dvd_iff_mod_eq_zero, ← Nat.add_mod]
    exact Nat.mod_eq_zero_of_dvd h
  obtain ⟨k, hk⟩ := hs
  have hk2 : k < 2 := by
    by_contra hge
    have : p * 2 ≤ p * k := Nat.mul_le_mul_left _ (by omega)
    omega
  interval_cases k
  · have h1 : a % p = 0 := by omega
    have h2 : c % p = 0 := by omega
    rw [h1, h2, Nat.sub_zero, Nat.mod_self]
  · have h1 : a % p = p - c % p := by omega
    have h2 : 0 < c % p := by omega
    rw [h1]
    exact (Nat.mod_eq_of_lt (by omega)).symm

theorem tile_end_eq (low b tb : Nat) (h : low + 2 * (b + tb) ≤ 2 ^ 63 + 1) :
    add64 (tile_view low b tb).start_value (mul64 (tile_view low b tb).bit_count 2) =
      low + 2 * (b + tb) := by
  unfold tile_view
  simp only
  rw [mul64_eq (by omega), add64_eq (by omega)]
  ring

/-- A prime whose cursor is already past the tile leaves the buffer alone. -/
theorem small_prime_step_skip (low b tb p x : Nat) (pattern : Option SmallPrimePattern)
    (bits : List Nat) (hp : SievePrime p) (hend : low + 2 * (b + tb) ≤ 2 ^ 63 + 1)
    (hx : x ≤ low + 2 * b) (hskip : first_hit p (low + 2 * b) ≥ low + 2 * (b + tb)) :
    small_prime_step (tile_view low b tb) p pattern (first_hit p x) bits =
      (bits, first_hit p (low + 2 * b)) := by
  unfold small_prime_step
  simp only
  rw [tile_end_eq low b tb hend]
  have hs : (tile_view low b tb).start_value = low + 2 * b := rfl
  rw [hs, advance_to_first_hit p x (low + 2 * b) hp hx (by omega)]
  simp only [if_pos hskip]

theorem small_prime_step_scalar (low b tb p x : Nat)
    (bits : List Nat) (hp : SievePrime p) (hend : low + 2 * (b + tb) ≤ 2 ^ 63 + 1)
    (hx : x ≤ low + 2 * b) (hin : ¬ first_hit p (low + 2 * b) ≥ low + 2 * (b + tb)) :
    small_prime_step (tile_view low b tb) p none (first_hit p x) bits =
      scalar_marks (tile_view low b tb) (low + 2 * (b + tb)) (2 * p) (tb + 1)
        (first_hit p (low + 2 * b)) bits := by
  unfold small_prime_step
  simp only
  rw [tile_end_eq low b tb hend]
  have hs : (tile_view low b tb).start_value = low + 2 * b := rfl
  have hb : (tile_view low b tb).bit_count = tb := rfl
  rw [hs, hb, advance_to_first_hit p x (low + 2 * b) hp hx (by omega), mul64_two p hp.2.2]
  simp only [if_neg hin]

theorem small_prime_step_pattern (low b tb p x : Nat) (pat : SmallPrimePattern)
    (bits : List Nat) (hp : SievePrime p) (hend : low + 2 * (b + tb) ≤ 2 ^ 63 + 1)
    (hx : x ≤ low + 2 * b) (hin : ¬ first_hit p (low + 2 * b) ≥ low + 2 * (b + tb)) :
    small_prime_step (tile_view low b tb) p (some pat) (first_hit p x) bits =
      (pattern_words pat (tile_view low b tb) ((tb + 63) / 64)
          ((first_hit p (low + 2 * b) - (low + 2 * b)) / 2 / 64 + 1)
          (pat.next_phase.getD (pat.start_phase.getD
            ((first_hit p (low + 2 * b) - (low + 2 * b)) / 2 % 64) 0) 0)
          (or_word bits (b / 64 + (first_hit p (low + 2 * b) - (low + 2 * b)) / 2 / 64)
            (if (first_hit p (low + 2 * b) - (low + 2 * b)) / 2 % 64 ≠ 0 then
              pat.masks.getD (pat.start_phase.getD
                ((first_hit p (low + 2 * b) - (low + 2 * b)) / 2 % 64) 0) 0 &&&
                shl64 (2 ^ 64 - 1) ((first_hit p (low + 2 * b) - (low + 2 * b)) / 2 % 64)
            else pat.masks.getD (pat.start_phase.getD
                ((first_hit p (low + 2 * b) - (low + 2 * b)) / 2 % 64) 0) 0)),
        first_hit p (low + 2 * (b + tb))) := by
  have hfh := first_hit_spec p (low + 2 * b) hp (by omega)
  obtain ⟨⟨a1, a2, a3, a4, a5⟩, hlt⟩ := hfh
  have hcur : add64 (first_hit p (low + 2 * b))
      (mul64 (sub64 (add64 (sub64 (low + 2 * (b + tb)) (first_hit p (low + 2 * b)))
        (mul64 p 2)) 1 / mul64 p 2) (mul64 p 2)) = first_hit p (low + 2 * (b + tb)) := by
    have h1 := advance_to_first_hit p (low + 2 * b) (low + 2 * (b + tb)) hp (by omega) hend
    unfold advance_to at h1
    rw [if_pos (by omega)] at h1
    exact h1
  unfold small_prime_step
  simp only
  rw [tile_end_eq low b tb hend]
  have hs : (tile_view low b tb).start_value = low + 2 * b := rfl
  have hwc : (tile_view low b tb).word_count = (tb + 63) / 64 := rfl
  have hwb : (tile_view low b tb).word_base = b / 64 := rfl
  rw [hs, hwc, hwb, advance_to_first_hit p x (low + 2 * b) hp hx (by omega)]
  simp only [if_neg hin]
  rw [hcur]
  have e1 : sub64 (first_hit p (low + 2 * b)) (low + 2 * b) >>> 1 =
      (first_hit p (low + 2 * b) - (low + 2 * b)) / 2 := by
    rw [sub64_eq a4 (by omega), Nat.shiftRight_eq_div_pow]
  rw [e1]
  have hw : (first_hit p (low + 2 * b) - (low + 2 * b)) / 2 / 64 < (tb + 63) / 64 := by omega
  simp only [if_pos hw]

/-- One small prime on one tile: inside the tile the bits of its multiples from the square
on are added, past the words of the tile nothing changes, and the cursor ends at the first
hit from the end of the tile. -/
theorem small_prime_step_spec (low b tb p x : Nat) (pattern : Option SmallPrimePattern)
    (bits : List Nat)
    (hpat : ∀ pat, pattern = some pat → pat = build_small_pattern p ∧ p ∈ kSmallPrimes)
    (hb : b % 64 = 0) (hp : SievePrime p) (hlow : low % 2 = 1)
    (hend : low + 2 * (b + tb) ≤ 2 ^ 63 + 1) (hx : x ≤ low + 2 * b) :
    (∀ idx, idx < b + tb →
      (get_bit (small_prime_step (tile_view low b tb) p pattern (first_hit p x) bits).1 idx
          = true ↔
        (get_bit bits idx = true ∨ (idx / 64 < bits.length ∧ b ≤ idx ∧
          p * p ≤ low + 2 * idx ∧ p ∣ low + 2 * idx)))) ∧
    (∀ idx, b + 64 * ((tb + 63) / 64) ≤ idx →
      (get_bit (small_prime_step (tile_view low b tb) p pattern (first_hit p x) bits).1 idx
          = true ↔ get_bit bits idx = true)) ∧
    (small_prime_step (tile_view low b tb) p pattern (first_hit p x) bits).2 =
      first_hit p (low + 2 * (b + tb)) := by
  have hfh := first_hit_spec p (low + 2 * b) hp (by omega)
  obtain ⟨hFH, hlt⟩ := hfh
  have hFH' := hFH
  obtain ⟨a1, a2, a3, a4, a5⟩ := hFH
  obtain ⟨hp3, hp2, hp32⟩ := hp
  have hp' : SievePrime p := ⟨hp3, hp2, hp32⟩
  by_cases hskip : first_hit p (low + 2 * b) ≥ low + 2 * (b + tb)
  · rw [small_prime_step_skip low b tb p x pattern bits hp' hend hx hskip]
    refine ⟨?_, fun _ _ => Iff.rfl, ?_⟩
    · intro idx hidx
      constructor
      · intro h; exact Or.inl h
      · rintro (h | ⟨_, h1, h2, h3⟩)
        · exact h
        · have := a5 (low + 2 * idx) h3 (by omega) h2 (by omega)
          omega
    · exact (first_hit_eq p _ _ hp' hend
        (FirstHit_mono p _ _ _ hFH' (by omega) hskip)).symm
  · cases pattern with
    | none =>
      rw [small_prime_step_scalar low b tb p x bits hp' hend hx hskip]
      have hfuel : low + 2 * (b + tb) ≤ first_hit p (low + 2 * b) + 2 * p * (tb + 1) := by
        have : 2 * 1 * (tb + 1) ≤ 2 * p * (tb + 1) :=
          Nat.mul_le_mul_right _ (Nat.mul_le_mul_left _ (by omega))
        omega
      refine ⟨?_, ?_, ?_⟩
      · intro idx hidx
        rw [scalar_marks_bits low b tb p hb hp' hlow hend (tb + 1) _ bits a2 a4 hfuel idx]
        constructor
        · rintro (h | ⟨h1, h2, h3, h4⟩)
          · exact Or.inl h
          · have := (FirstHit_marks p (low + 2 * b) _ (low + 2 * idx) hp' hFH' (by omega)
              (by omega)).1 ⟨h2, h4⟩
            exact Or.inr ⟨h1, by omega, this.1, this.2⟩
        · rintro (h | ⟨h1, h2, h3, h4⟩)
          · exact Or.inl h
          · have := (FirstHit_marks p (low + 2 * b) _ (low + 2 * idx) hp' hFH' (by omega)
              (by omega)).2 ⟨h3, h4⟩
            exact Or.inr ⟨h1, this.1, by omega, this.2⟩
      · intro idx hidx
        rw [scalar_marks_bits low b tb p hb hp' hlow hend (tb + 1) _ bits a2 a4 hfuel idx]
        constructor
        · rintro (h | ⟨h1, h2, h3, h4⟩)
          · exact h
          · omega
        · intro h; exact Or.inl h
      · exact (first_hit_eq p _ _ hp' hend
          (scalar_marks_cursor _ _ p (low + 2 * b) hp' hend (by omega) (tb + 1) _ bits
            hFH' hfuel)).symm
    | some pat =>
      obtain ⟨rfl, hk⟩ := hpat pat rfl
      rw [small_prime_step_pattern low b tb p x _ bits hp' hend hx hskip]
      simp only
      have hbiw : (first_hit p (low + 2 * b) - (low + 2 * b)) / 2 % 64 < 64 :=
        Nat.mod_lt _ (by decide)
      have hph0 : (build_small_pattern p).start_phase.getD
          ((first_hit p (low + 2 * b) - (low + 2 * b)) / 2 % 64) 0 =
          (low + 2 * (b + 64 * ((first_hit p (low + 2 * b) - (low + 2 * b)) / 2 / 64))) % p := by
        rw [pattern_start_phase p _ hbiw, start_phase_eq p hk _ hbiw]
        symm
        apply start_phase_value p _ _ (by omega)
        have e : low + 2 * (b + 64 * ((first_hit p (low + 2 * b) - (low + 2 * b)) / 2 / 64)) +
            2 * ((first_hit p (low + 2 * b) - (low + 2 * b)) / 2 % 64) =
              first_hit p (low + 2 * b) := by omega
        rw [e]
        exact a1
      have hph0lt : (build_small_pattern p).start_phase.getD
          ((first_hit p (low + 2 * b) - (low + 2 * b)) / 2 % 64) 0 < p := by
        rw [hph0]; exact Nat.mod_lt _ (by omega)
      have hnext : (build_small_pattern p).next_phase.getD
          ((build_small_pattern p).start_phase.getD
            ((first_hit p (low + 2 * b) - (low + 2 * b)) / 2 % 64) 0) 0 =
          (low + 2 * (b + 64 * ((first_hit p (low + 2 * b) - (low + 2 * b)) / 2 / 64 + 1))) %
            p := by
        rw [pattern_next_phase p _ hph0lt, hph0, ← Nat.add_mod]
        congr 1
      have hmask : ∀ j, j < 64 →
          ((if (first_hit p (low + 2 * b) - (low + 2 * b)) / 2 % 64 ≠ 0 then
            (build_small_pattern p).masks.getD ((build_small_pattern p).start_phase.getD
              ((first_hit p (low + 2 * b) - (low + 2 * b)) / 2 % 64) 0) 0 &&&
              shl64 (2 ^ 64 - 1) ((first_hit p (low + 2 * b) - (low + 2 * b)) / 2 % 64)
          else (build_small_pattern p).masks.getD ((build_small_pattern p).start_phase.getD
              ((first_hit p (low + 2 * b) - (low + 2 * b)) / 2 % 64) 0) 0).testBit j = true ↔
            (p ∣ low + 2 * (b + 64 * ((first_hit p (low + 2 * b) - (low + 2 * b)) / 2 / 64)) +
                2 * j ∧
              (first_hit p (low + 2 * b) - (low + 2 * b)) / 2 % 64 ≤ j)) := by
        intro j hj
        rw [first_mask_testBit _ _ j hj, pattern_masks p _ hph0lt,
          mask_entry_bits p hk _ hph0lt j hj, Bool.and_eq_true, decide_eq_true_iff,
          decide_eq_true_iff, hph0, dvd_mod_add]
      have hspec := fun idx => pattern_words_spec p hk low b tb hb ((tb + 63) / 64)
        ((first_hit p (low + 2 * b) - (low + 2 * b)) / 2 / 64 + 1) _
        (or_word bits (b / 64 + (first_hit p (low + 2 * b) - (low + 2 * b)) / 2 / 64)
          (if (first_hit p (low + 2 * b) - (low + 2 * b)) / 2 % 64 ≠ 0 then
            (build_small_pattern p).masks.getD ((build_small_pattern p).start_phase.getD
              ((first_hit p (low + 2 * b) - (low + 2 * b)) / 2 % 64) 0) 0 &&&
              shl64 (2 ^ 64 - 1) ((first_hit p (low + 2 * b) - (low + 2 * b)) / 2 % 64)
          else (build_small_pattern p).masks.getD ((build_small_pattern p).start_phase.getD
              ((first_hit p (low + 2 * b) - (low + 2 * b)) / 2 % 64) 0) 0))
        hnext (by omega) idx
      refine ⟨?_, ?_, trivial⟩
      · intro idx hidx
        rw [hspec idx, get_bit_or_word_iff, or_word_length, hmask _ (Nat.mod_lt _ (by decide))]
        constructor
        · rintro ((h | ⟨h1, h2, h3, h4⟩) | ⟨h1, h2, h3, h4⟩)
          · exact Or.inl h
          · right
            have e : low + 2 * (b + 64 * ((first_hit p (low + 2 * b) - (low + 2 * b)) / 2 / 64))
                + 2 * (idx % 64) = low + 2 * idx := by omega
            rw [e] at h3
            exact ⟨by omega, by omega, by omega, h3⟩
          · exact Or.inr ⟨h1, by omega, by omega, h4⟩
        · rintro (h | ⟨h1, h2, h3, h4⟩)
          · exact Or.inl (Or.inl h)
          · have hle := a5 (low + 2 * idx) h4 (by omega) h3 (by omega)
            by_cases hw : idx / 64 =
                b / 64 + (first_hit p (low + 2 * b) - (low + 2 * b)) / 2 / 64
            · left; right
              have e : low + 2 * (b + 64 *
                  ((first_hit p (low + 2 * b) - (low + 2 * b)) / 2 / 64))
                  + 2 * (idx % 64) = low + 2 * idx := by omega
              rw [e]
              exact ⟨hw, by omega, h4, by omega⟩
            · right
              exact ⟨h1, by omega, by omega, h4⟩
      · intro idx hidx
        rw [hspec idx, get_bit_or_word_iff]
        constructor
        · rintro ((h | ⟨h1, h2, h3⟩) | ⟨h1, h2, h3, h4⟩)
          · exact h
          · omega
          · omega
        · intro h; exact Or.inl (Or.inl h)

/-! ## All small and medium primes on one tile -/

theorem small_prime_step_length (tile : TileView) (prime : Nat)
    (pattern : Option SmallPrimePattern) (pos0 : Nat) (bits : List Nat) :
    (small_prime_step tile prime pattern pos0 bits).1.length = bits.length :=
  (small_prime_step_le tile prime pattern pos0 bits).1.symm

theorem small_primes_loop_spec (ty : WheelType) (low b tb x : Nat) (hb : b % 64 = 0)
    (hlow : low % 2 = 1) (hend : low + 2 * (b + tb) ≤ 2 ^ 63 + 1) (hx : x ≤ low + 2 * b)
    (primes : List Nat) (hp : ∀ p ∈ primes, SievePrime p) (bits : List Nat) :
    (∀ idx, idx < b + tb →
      (get_bit (small_primes_loop (tile_view low b tb) primes
          (primes.map (find_small_pattern (get_wheel ty)))
          (primes.map (fun p => first_hit p x)) bits).1 idx = true ↔
        (get_bit bits idx = true ∨ (idx / 64 < bits.length ∧ b ≤ idx ∧
          ∃ p ∈ primes, p * p ≤ low + 2 * idx ∧ p ∣ low + 2 * idx)))) ∧
    (∀ idx, b + 64 * ((tb + 63) / 64) ≤ idx →
      (get_bit (small_primes_loop (tile_view low b tb) primes
          (primes.map (find_small_pattern (get_wheel ty)))
          (primes.map (fun p => first_hit p x)) bits).1 idx = true ↔
        get_bit bits idx = true)) ∧
    (small_primes_loop (tile_view low b tb) primes
        (primes.map (find_small_pattern (get_wheel ty)))
        (primes.map (fun p => first_hit p x)) bits).2 =
      primes.map (fun p => first_hit p (low + 2 * (b + tb))) := by
  induction primes generalizing bits with
  | nil =>
    unfold small_primes_loop
    refine ⟨?_, fun _ _ => Iff.rfl, rfl⟩
    intro idx _
    constructor
    · intro h; exact Or.inl h
    · rintro (h | ⟨_, _, p, hp', _⟩)
      · exact h
      · exact absurd hp' (List.not_mem_nil _)
  | cons q qs ih =>
    simp only [List.map_cons]
    unfold small_primes_loop
    simp only
    have hq : SievePrime q := hp q (List.mem_cons_self _ _)
    have hqs : ∀ p ∈ qs, SievePrime p := fun p h => hp p (List.mem_cons_of_mem _ h)
    obtain ⟨s1, s2, s3⟩ := small_prime_step_spec low b tb q x
      (find_small_pattern (get_wheel ty) q) bits
      (fun pat h => find_small_pattern_some ty q pat h) hb hq hlow hend hx
    obtain ⟨i1, i2, i3⟩ := ih hqs
      (small_prime_step (tile_view low b tb) q (find_small_pattern (get_wheel ty) q)
        (first_hit q x) bits).1
    refine ⟨?_, ?_, ?_⟩
    · intro idx hidx
      rw [i1 idx hidx, s1 idx hidx, small_prime_step_length]
      constructor
      · rintro ((h | ⟨h1, h2, h3, h4⟩) | ⟨h1, h2, p, h3, h4⟩)
        · exact Or.inl h
        · exact Or.inr ⟨h1, h2, q, List.mem_cons_self _ _, h3, h4⟩
        · exact Or.inr ⟨h1, h2, p, List.mem_cons_of_mem _ h3, h4⟩
      · rintro (h | ⟨h1, h2, p, h3, h4⟩)
        · exact Or.inl (Or.inl h)
        · rcases List.mem_cons.1 h3 with h5 | h5
          · subst h5
            exact Or.inl (Or.inr ⟨h1, h2, h4.1, h4.2⟩)
          · exact Or.inr ⟨h1, h2, p, h5, h4⟩
    · intro idx hidx
      rw [i2 idx hidx, s2 idx hidx]
    · rw [i3, s3]

theorem medium_prime_step_eq (tile : TileView) (prime pos0 : Nat) (bits : List Nat) :
    medium_prime_step tile prime pos0 bits = small_prime_step tile prime none pos0 bits := by
  unfold medium_prime_step small_prime_step
  simp only
  split
  · rename_i h
    unfold scalar_marks
    rw [if_neg (by omega)]
  · rfl

theorem medium_primes_loop_spec (low b tb x : Nat) (hb : b % 64 = 0)
    (hlow : low % 2 = 1) (hend : low + 2 * (b + tb) ≤ 2 ^ 63 + 1) (hx : x ≤ low + 2 * b)
    (primes : List Nat) (hp : ∀ p ∈ primes, SievePrime p) (bits : List Nat) :
    (∀ idx, idx < b + tb →
      (get_bit (medium_primes_loop (tile_view low b tb) primes
          (primes.map (fun p => first_hit p x)) bits).1 idx = true ↔
        (get_bit bits idx = true ∨ (idx / 64 < bits.length ∧ b ≤ idx ∧
          ∃ p ∈ primes, p * p ≤ low + 2 * idx ∧ p ∣ low + 2 * idx)))) ∧
    (∀ idx, b + 64 * ((tb + 63) / 64) ≤ idx →
      (get_bit (medium_primes_loop (tile_view low b tb) primes
          (primes.map (fun p => first_hit p x)) bits).1 idx = true ↔
        get_bit bits idx = true)) ∧
    (medium_primes_loop (tile_view low b tb) primes
        (primes.map (fun p => first_hit p x)) bits).2 =
      primes.map (fun p => first_hit p (low + 2 * (b + tb))) := by
  induction primes generalizing bits with
  | nil =>
    unfold medium_primes_loop
    refine ⟨?_, fun _ _ => Iff.rfl, rfl⟩
    intro idx _
    constructor
    · intro h; exact Or.inl h
    · rintro (h | ⟨_, _, p, hp', _⟩)
      · exact h
      · exact absurd hp' (List.not_mem_nil _)
  | cons q qs ih =>
    simp only [List.map_cons]
    unfold medium_primes_loop
    simp only
    rw [medium_prime_step_eq]
    have hq : SievePrime q := hp q (List.mem_cons_self _ _)
    have hqs : ∀ p ∈ qs, SievePrime p := fun p h => hp p (List.mem_cons_of_mem _ h)
    obtain ⟨s1, s2, s3⟩ := small_prime_step_spec low b tb q x none bits
      (fun pat h => absurd h (by simp)) hb hq hlow hend hx
    obtain ⟨i1, i2, i3⟩ := ih hqs
      (small_prime_step (tile_view low b tb) q none (first_hit q x) bits).1
    refine ⟨?_, ?_, ?_⟩
    · intro idx hidx
      rw [i1 idx hidx, s1 idx hidx, small_prime_step_length]
      constructor
      · rintro ((h | ⟨h1, h2, h3, h4⟩) | ⟨h1, h2, p, h3, h4⟩)
        · exact Or.inl h
        · exact Or.inr ⟨h1, h2, q, List.mem_cons_self _ _, h3, h4⟩
        · exact Or.inr ⟨h1, h2, p, List.mem_cons_of_mem _ h3, h4⟩
      · rintro (h | ⟨h1, h2, p, h3, h4⟩)
        · exact Or.inl (Or.inl h)
        · rcases List.mem_cons.1 h3 with h5 | h5
          · subst h5
            exact Or.inl (Or.inr ⟨h1, h2, h4.1, h4.2⟩)
          · exact Or.inr ⟨h1, h2, p, h5, h4⟩
    · intro idx hidx
      rw [i2 idx hidx, s2 idx hidx]
    · rw [i3, s3]

/-! ## The tile loop -/

theorem apply_small_primes_eq (m : PrimeMarker) (positions : List Nat) (low b tb : Nat)
    (htb : 0 < tb) (bits : List Nat) :
    apply_small_primes m positions (tile_view low b tb) bits =
      small_primes_loop (tile_view low b tb) m.small_primes m.small_prime_patterns
        positions bits := by
  unfold apply_small_primes
  have : ¬ ((tile_view low b tb).bit_count = 0) := by
    show ¬ (tb = 0)
    omega
  rw [if_neg this]

theorem apply_medium_primes_eq (m : PrimeMarker) (positions : List Nat) (low b tb : Nat)
    (htb : 0 < tb) (bits : List Nat) :
    apply_medium_primes m positions (tile_view low b tb) bits =
      medium_primes_loop (tile_view low b tb) m.medium_primes positions bits := by
  unfold apply_medium_primes
  have : ¬ ((tile_view low b tb).bit_count = 0) := by
    show ¬ (tb = 0)
    omega
  rw [if_neg this]

theorem get_bit_and_word_iff (bits : List Nat) (w mask idx : Nat) :
    get_bit (and_word bits w mask) idx = true ↔
      (get_bit bits idx = true ∧
        (¬ (idx / 64 = w ∧ w < bits.length) ∨ mask.testBit (idx % 64) = true)) := by
  rw [get_bit_and_word, Bool.and_eq_true, Bool.or_eq_true, Bool.not_eq_true',
    decide_eq_false_iff_not]

/-- One tile pass adds, for the bits of the tile, the multiples of the small and medium
primes from their squares on, and leaves the other bits of the segment alone. -/
theorem tile_pass_spec (ty : WheelType) (m : PrimeMarker) (hm : MarkerOK ty m)
    (low b tb bc x : Nat) (hb : b % 64 = 0) (htb : 0 < tb) (hlow : low % 2 = 1)
    (hend : low + 2 * (b + tb) ≤ 2 ^ 63 + 1) (hx : x ≤ low + 2 * b)
    (hlast : tb % 64 = 0 ∨ b + tb = bc) (st : ThreadState) (hcur : CursorsAt m st x)
    (bits : List Nat) :
    (∀ idx, idx < bc →
      (get_bit (tile_pass_bits m low b tb st bits) idx = true ↔
        (get_bit bits idx = true ∨ (idx / 64 < bits.length ∧ b ≤ idx ∧ idx < b + tb ∧
          StruckSM m (low + 2 * idx))))) ∧
    CursorsAt m (tile_pass_state m low b tb st bits) (low + 2 * (b + tb)) ∧
    (tile_pass_state m low b tb st bits).bucket = st.bucket ∧
    (tile_pass_state m low b tb st bits).large_states = st.large_states := by
  obtain ⟨hw, hc, hpat, hsp, hmp⟩ := hm
  obtain ⟨hc1, hc2⟩ := hcur
  unfold tile_pass_bits tile_pass_state
  simp only
  rw [apply_small_primes_eq m _ low b tb htb, hpat, hc1,
    apply_medium_primes_eq m _ low b tb htb, hc2]
  obtain ⟨s1, s2, s3⟩ := small_primes_loop_spec ty low b tb x hb hlow hend hx
    m.small_primes hsp bits
  obtain ⟨m1, m2, m3⟩ := medium_primes_loop_spec low b tb x hb hlow hend hx
    m.medium_primes hmp
    (small_primes_loop (tile_view low b tb) m.small_primes
      (m.small_primes.map (find_small_pattern (get_wheel ty)))
      (m.small_primes.map (fun p => first_hit p x)) bits).1
  have hlen1 := (small_primes_loop_le (tile_view low b tb) m.small_primes
      (m.small_primes.map (find_small_pattern (get_wheel ty)))
      (m.small_primes.map (fun p => first_hit p x)) bits).1
  have hlen2 := (medium_primes_loop_le (tile_view low b tb) m.medium_primes
      (m.medium_primes.map (fun p => first_hit p x))
      (small_primes_loop (tile_view low b tb) m.small_primes
        (m.small_primes.map (find_small_pattern (get_wheel ty)))
        (m.small_primes.map (fun p => first_hit p x)) bits).1).1
  refine ⟨?_, ⟨s3, m3⟩, ⟨trivial, trivial⟩⟩
  intro idx hidx
  have hsm : ∀ v, StruckSM m v ↔
      ((∃ p ∈ m.small_primes, p * p ≤ v ∧ p ∣ v) ∨
        (∃ p ∈ m.medium_primes, p * p ≤ v ∧ p ∣ v)) := by
    intro v
    unfold StruckSM
    constructor
    · rintro ⟨p, hp, h⟩
      rcases List.mem_append.1 hp with h1 | h1
      · exact Or.inl ⟨p, h1, h⟩
      · exact Or.inr ⟨p, h1, h⟩
    · rintro (⟨p, hp, h⟩ | ⟨p, hp, h⟩)
      · exact ⟨p, List.mem_append_left _ hp, h⟩
      · exact ⟨p, List.mem_append_right _ hp, h⟩
  have hcore : get_bit (medium_primes_loop (tile_view low b tb) m.medium_primes
      (m.medium_primes.map (fun p => first_hit p x))
      (small_primes_loop (tile_view low b tb) m.small_primes
        (m.small_primes.map (find_small_pattern (get_wheel ty)))
        (m.small_primes.map (fun p => first_hit p x)) bits).1).1 idx = true ↔
      (get_bit bits idx = true ∨ (idx / 64 < bits.length ∧ b ≤ idx ∧ idx < b + tb ∧
          StruckSM m (low + 2 * idx))) ∨ (b + tb ≤ idx ∧ tb % 64 ≠ 0 ∧ False) := by
    by_cases hin : idx < b + tb
    · rw [m1 idx hin, s1 idx hin, ← hlen1, hsm]
      constructor
      · rintro ((h | ⟨h1, h2, h3⟩) | ⟨h1, h2, h3⟩)
        · exact Or.inl (Or.inl h)
        · exact Or.inl (Or.inr ⟨h1, h2, hin, Or.inl h3⟩)
        · exact Or.inl (Or.inr ⟨h1, h2, hin, Or.inr h3⟩)
      · rintro ((h | ⟨h1, h2, _, h3 | h3⟩) | ⟨_, _, hf⟩)
        · exact Or.inl (Or.inl h)
        · exact Or.inl (Or.inr ⟨h1, h2, h3⟩)
        · exact Or.inr ⟨h1, h2, h3⟩
        · exact absurd hf id
    · have h64 : tb % 64 = 0 := by
        rcases hlast with h | h
        · exact h
        · omega
      have hge : b + 64 * ((tb + 63) / 64) ≤ idx := by omega
      rw [m2 idx hge, s2 idx hge]
      constructor
      · intro h; exact Or.inl (Or.inl h)
      · rintro ((h | ⟨_, _, h3, _⟩) | ⟨_, _, hf⟩)
        · exact h
        · omega
        · exact absurd hf id
  have hcore2 : get_bit (medium_primes_loop (tile_view low b tb) m.medium_primes
      (m.medium_primes.map (fun p => first_hit p x))
      (small_primes_loop (tile_view low b tb) m.small_primes
        (m.small_primes.map (find_small_pattern (get_wheel ty)))
        (m.small_primes.map (fun p => first_hit p x)) bits).1).1 idx = true ↔
      (get_bit bits idx = true ∨ (idx / 64 < bits.length ∧ b ≤ idx ∧ idx < b + tb ∧
          StruckSM m (low + 2 * idx))) := by
    rw [hcore]
    constructor
    · rintro (h | ⟨_, _, hf⟩)
      · exact h
      · exact absurd hf id
    · intro h; exact Or.inl h
  by_cases h64 : tb % 64 = 0
  · simp only [h64, ne_eq, not_true_eq_false, if_false]
    exact hcore2
  · simp only [ne_eq, h64, not_false_eq_true, if_true]
    rw [get_bit_and_word_iff, hcore2, two_pow_sub_one_testBit, decide_eq_true_iff]
    have hbt : b + tb = bc := by
      rcases hlast with h | h
      · exact absurd h h64
      · exact h
    constructor
    · rintro ⟨h, _⟩; exact h
    · intro h
      refine ⟨h, ?_⟩
      by_cases hw2 : idx / 64 = b / 64 + tb / 64
      · right; omega
      · left; exact fun hh => hw2 hh.1

/-- The tile loop adds, for every bit of the segment from bit `b` on, the multiples of the
small and medium primes from their squares on; the fuel suffices, and the cursors end at
the first hits from the end of the segment. -/
theorem tile_loop_spec (ty : WheelType) (m : PrimeMarker) (hm : MarkerOK ty m)
    (low bc : Nat) (hlow : low % 2 = 1) (hhigh : low + 2 * bc ≤ 2 ^ 63 + 1)
    (fuel b x : Nat) (hb : b < bc) (hb64 : b % 64 = 0) (hx : x ≤ low + 2 * b)
    (hfuel : bc - b ≤ fuel * m.config.tile_bits)
    (st : ThreadState) (hcur : CursorsAt m st x) (bits : List Nat) :
    (∀ idx, idx < bc →
      (get_bit (tile_loop m (low + 2 * bc) fuel (low + 2 * b) b st bits).2 idx = true ↔
        (get_bit bits idx = true ∨ (idx / 64 < bits.length ∧ b ≤ idx ∧
          StruckSM m (low + 2 * idx))))) ∧
    CursorsAt m (tile_loop m (low + 2 * bc) fuel (low + 2 * b) b st bits).1 (low + 2 * bc) ∧
    (tile_loop m (low + 2 * bc) fuel (low + 2 * b) b st bits).1.bucket = st.bucket ∧
    (tile_loop m (low + 2 * bc) fuel (low + 2 * b) b st bits).1.large_states =
      st.large_states := by
  have hc := hm.2.1
  obtain ⟨htb0, htb64, _, _, _, _, _⟩ := hc
  induction fuel generalizing b x st bits with
  | zero => omega
  | succ fuel ih =>
    rw [tile_loop_succ m hm.2.1 low bc hhigh fuel b hb]
    have htb : Nat.min m.config.tile_bits (bc - b) ≤ bc - b := Nat.min_le_right _ _
    have htbpos : 0 < Nat.min m.config.tile_bits (bc - b) := by
      rcases Nat.le_total m.config.tile_bits (bc - b) with h | h
      · rw [natmin_left h]; exact htb0
      · rw [natmin_right h]; omega
    have hlast : Nat.min m.config.tile_bits (bc - b) % 64 = 0 ∨
        b + Nat.min m.config.tile_bits (bc - b) = bc := by
      rcases Nat.le_total m.config.tile_bits (bc - b) with h | h
      · left; rw [natmin_left h]; exact htb64
      · right; rw [natmin_right h]; omega
    obtain ⟨p1, p2, p3, p4⟩ := tile_pass_spec ty m hm low b
      (Nat.min m.config.tile_bits (bc - b)) bc x hb64 htbpos hlow (by omega) hx hlast st hcur
      bits
    have plen := (tile_pass_keeps m low b (Nat.min m.config.tile_bits (bc - b)) bc st bits
      hb64 hlast).1
    by_cases hnext : b + Nat.min m.config.tile_bits (bc - b) < bc
    · have h64 : (b + Nat.min m.config.tile_bits (bc - b)) % 64 = 0 := by
        rcases hlast with h | h
        · omega
        · omega
      have hfu : bc - (b + Nat.min m.config.tile_bits (bc - b)) ≤
          fuel * m.config.tile_bits := by
        have e : (fuel + 1) * m.config.tile_bits =
            fuel * m.config.tile_bits + m.config.tile_bits := by ring
        have : Nat.min m.config.tile_bits (bc - b) = m.config.tile_bits := by
          rcases Nat.le_total m.config.tile_bits (bc - b) with h | h
          · exact natmin_left h
          · rw [natmin_right h] at hnext; omega
        omega
      obtain ⟨i1, i2, i3, i4⟩ := ih (b + Nat.min m.config.tile_bits (bc - b))
        (low + 2 * (b + Nat.min m.config.tile_bits (bc - b))) hnext h64 (le_refl _) hfu
        (tile_pass_state m low b (Nat.min m.config.tile_bits (bc - b)) st bits) p2
        (tile_pass_bits m low b (Nat.min m.config.tile_bits (bc - b)) st bits)
      refine ⟨?_, i2, i3.trans p3, i4.trans p4⟩
      intro idx hidx
      rw [i1 idx hidx, p1 idx hidx, plen]
      constructor
      · rintro ((h | ⟨h1, h2, h3, h4⟩) | ⟨h1, h2, h3⟩)
        · exact Or.inl h
        · exact Or.inr ⟨h1, h2, h4⟩
        · exact Or.inr ⟨h1, by omega, h3⟩
      · rintro (h | ⟨h1, h2, h3⟩)
        · exact Or.inl (Or.inl h)
        · by_cases hin : idx < b + Nat.min m.config.tile_bits (bc - b)
          · exact Or.inl (Or.inr ⟨h1, h2, hin, h3⟩)
          · exact Or.inr ⟨h1, by omega, h3⟩
    · have hbe : b + Nat.min m.config.tile_bits (bc - b) = bc := by omega
      rw [tile_loop_done m _ _ _ _ _ _ (by omega)]
      simp only
      rw [hbe] at p2
      refine ⟨?_, p2, p3, p4⟩
      intro idx hidx
      rw [p1 idx hidx]
      constructor
      · rintro (h | ⟨h1, h2, h3, h4⟩)
        · exact Or.inl h
        · exact Or.inr ⟨h1, h2, h4⟩
      · rintro (h | ⟨h1, h2, h3⟩)
        · exact Or.inl h
        · exact Or.inr ⟨h1, h2, by omega, h3⟩

/-! ## The bucket ring -/

theorem slot_push_length (bs : List (List BucketEntry)) (i : Nat) (e : BucketEntry) :
    (slot_push bs i e).length = bs.length := by
  induction bs generalizing i with
  | nil => rfl
  | cons b bs ih =>
    cases i with
    | zero => rfl
    | succ i => simp [slot_push, ih]

theorem slot_push_perm (bs : List (List BucketEntry)) (i : Nat) (e : BucketEntry)
    (h : i < bs.length) : List.Perm (slot_push bs i e).flatten (e :: bs.flatten) := by
  induction bs generalizing i with
  | nil => exact absurd h (by simp)
  | cons b bs ih =>
    cases i with
    | zero =>
      simp only [slot_push, List.flatten_cons, List.append_assoc, List.singleton_append]
      exact List.perm_middle
    | succ i =>
      simp only [slot_push, List.flatten_cons]
      have h1 := ih i (by simpa using h)
      exact (List.Perm.append_left b h1).trans List.perm_middle

theorem slot_push_getElem? (bs : List (List BucketEntry)) (i j : Nat) (e : BucketEntry) :
    (slot_push bs i e)[j]? = if j = i then (bs[i]?).map (fun b => b ++ [e]) else bs[j]? := by
  induction bs generalizing i j with
  | nil => simp [slot_push]
  | cons b bs ih =>
    cases i with
    | zero =>
      cases j with
      | zero => simp [slot_push]
      | succ j => simp [slot_push]
    | succ i =>
      cases j with
      | zero => simp [slot_push]
      | succ j => simp [slot_push, ih]

theorem SlotsAt_push (mask : Nat) (bs : List (List BucketEntry)) (e : BucketEntry)
    (h : SlotsAt mask bs) : SlotsAt mask (slot_push bs (e.next_index &&& mask) e) := by
  intro i b hb x hx
  rw [slot_push_getElem?] at hb
  by_cases hi : i = e.next_index &&& mask
  · rw [if_pos hi] at hb
    cases hg : bs[e.next_index &&& mask]? with
    | none => rw [hg] at hb; exact absurd hb (by simp)
    | some b0 =>
      rw [hg] at hb
      simp only [Option.map_some', Option.some.injEq] at hb
      subst hb
      rcases List.mem_append.1 hx with h1 | h1
      · rw [hi]; exact h _ _ hg x h1
      · rw [List.mem_singleton.1 h1, hi]
  · rw [if_neg hi] at hb
    exact h i b hb x hx

theorem slot_set_length (bs : List (List BucketEntry)) (i : Nat) (b : List BucketEntry) :
    (slot_set bs i b).length = bs.length := by
  induction bs generalizing i with
  | nil => rfl
  | cons x bs ih =>
    cases i with
    | zero => rfl
    | succ i => simp [slot_set, ih]

theorem slot_set_getElem? (bs : List (List BucketEntry)) (i j : Nat) (b : List BucketEntry) :
    (slot_set bs i b)[j]? = if j = i ∧ i < bs.length then some b else bs[j]? := by
  induction bs generalizing i j with
  | nil => simp [slot_set]
  | cons x bs ih =>
    cases i with
    | zero =>
      cases j with
      | zero => simp [slot_set]
      | succ j => simp [slot_set]
    | succ i =>
      cases j with
      | zero => simp [slot_set]
      | succ j => simp [slot_set, ih]

/-- Splitting one slot into the kept entries and the hits keeps all entries. -/
theorem slot_set_filter_perm (bs : List (List BucketEntry)) (i : Nat)
    (q : BucketEntry → Bool) (h : i < bs.length) :
    List.Perm ((bs.getD i []).filter q ++
        (slot_set bs i ((bs.getD i []).filter (fun e => !q e))).flatten) bs.flatten := by
  induction bs generalizing i with
  | nil => exact absurd h (by simp)
  | cons b bs ih =>
    cases i with
    | zero =>
      simp only [slot_set, List.flatten_cons, List.getD_cons_zero]
      rw [← List.append_assoc]
      exact List.Perm.append_right _ (List.filter_append_perm q b)
    | succ i =>
      simp only [slot_set, List.flatten_cons, List.getD_cons_succ]
      have h1 := ih i (by simpa using h)
      have h2 : List.Perm ((bs.getD i []).filter q ++
          (b ++ (slot_set bs i ((bs.getD i []).filter (fun e => !q e))).flatten))
          (b ++ ((bs.getD i []).filter q ++
            (slot_set bs i ((bs.getD i []).filter (fun e => !q e))).flatten)) := by
        rw [← List.append_assoc, ← List.append_assoc]
        exact List.Perm.append_right _ List.perm_append_comm
      exact h2.trans (List.Perm.append_left b h1)

theorem and_mask_lt (x k : Nat) : x &&& (2 ^ k - 1) < 2 ^ k := by
  rw [Nat.and_pow_two_sub_one_eq_mod]
  exact Nat.mod_lt _ (by positivity)

theorem foldl_foldl_flatten {α β : Type} (f : β → α → β) (bs : List (List α)) (init : β) :
    bs.foldl (fun acc b => b.foldl f acc) init = bs.flatten.foldl f init := by
  induction bs generalizing init with
  | nil => rfl
  | cons b bs ih =>
    simp only [List.foldl_cons, List.flatten_cons, List.foldl_append]
    exact ih _

theorem rehash_fold (mask : Nat) (es : List BucketEntry) (init : List (List BucketEntry))
    (hslot : ∀ e ∈ es, e.next_index &&& mask < init.length) (hinit : SlotsAt mask init) :
    (es.foldl (fun acc e => slot_push acc (e.next_index &&& mask) e) init).length =
        init.length ∧
      List.Perm (es.foldl (fun acc e => slot_push acc (e.next_index &&& mask) e) init).flatten
        (init.flatten ++ es) ∧
      SlotsAt mask (es.foldl (fun acc e => slot_push acc (e.next_index &&& mask) e) init) := by
  induction es generalizing init with
  | nil => exact ⟨rfl, by simp, hinit⟩
  | cons e es ih =>
    simp only [List.foldl_cons]
    have he := hslot e (List.mem_cons_self _ _)
    have hlen := slot_push_length init (e.next_index &&& mask) e
    obtain ⟨i1, i2, i3⟩ := ih (slot_push init (e.next_index &&& mask) e)
      (fun x hx => by rw [hlen]; exact hslot x (List.mem_cons_of_mem _ hx))
      (SlotsAt_push mask init e hinit)
    refine ⟨i1.trans hlen, ?_, i3⟩
    refine i2.trans ?_
    have h1 := slot_push_perm init (e.next_index &&& mask) e he
    exact (List.Perm.append_right es h1).trans (by
      simp only [List.cons_append]
      exact List.perm_middle.symm)

theorem SlotsAt_replicate (mask n : Nat) : SlotsAt mask (List.replicate n []) := by
  intro i b hb e he
  rw [List.getElem?_replicate] at hb
  split at hb
  · simp only [Option.some.injEq] at hb
    subst hb
    exact absurd he (List.not_mem_nil _)
  · exact absurd hb (by simp)

theorem flatten_replicate_nil (n : Nat) :
    (List.replicate n ([] : List BucketEntry)).flatten = [] := by
  induction n with
  | zero => rfl
  | succ n ih => simp [List.replicate_succ, ih]

/-- Doubling a ring of size `2 ^ k` keeps its entries and puts each in its slot. -/
theorem rehash_double (ring : BucketRing) (k : Nat) (hk : k ≤ 62)
    (hlen : ring.buckets.length = 2 ^ k) :
    (ring.rehash (mul64 ring.buckets.length 2)).buckets.length = 2 ^ (k + 1) ∧
      (ring.rehash (mul64 ring.buckets.length 2)).mask = 2 ^ (k + 1) - 1 ∧
      (ring.rehash (mul64 ring.buckets.length 2)).base_segment = ring.base_segment ∧
      List.Perm (ring.rehash (mul64 ring.buckets.length 2)).entries ring.entries ∧
      SlotsAt (2 ^ (k + 1) - 1) (ring.rehash (mul64 ring.buckets.length 2)).buckets := by
  have hpow : 2 ^ (k + 1) < 2 ^ 64 := Nat.pow_lt_pow_right (by decide) (by omega)
  have hpos : 0 < 2 ^ (k + 1) := by positivity
  have e1 : mul64 ring.buckets.length 2 = 2 ^ (k + 1) := by
    rw [hlen, mul64_eq (by rw [← pow_succ]; exact hpow), pow_succ]
  have e2 : sub64 (2 ^ (k + 1)) 1 = 2 ^ (k + 1) - 1 := sub64_eq (by omega) hpow
  have e3 : ¬ (2 ^ (k + 1) &&& (2 ^ (k + 1) - 1) ≠ 0) := by
    rw [Nat.and_pow_two_sub_one_eq_mod, Nat.mod_self]
    simp
  unfold BucketRing.rehash BucketRing.entries
  simp only [e1, e2, if_neg e3]
  rw [foldl_foldl_flatten]
  obtain ⟨r1, r2, r3⟩ := rehash_fold (2 ^ (k + 1) - 1) ring.buckets.flatten
    (List.replicate (2 ^ (k + 1)) [])
    (fun e _ => by rw [List.length_replicate]; exact and_mask_lt _ _)
    (SlotsAt_replicate _ _)
  refine ⟨by rw [r1, List.length_replicate], trivial, trivial, ?_, r3⟩
  rw [flatten_replicate_nil, List.nil_append] at r2
  exact r2

/-! ## Growing, pushing and taking -/

theorem pow_le_of_le_sub (k d : Nat) (h : 2 ^ k ≤ d) (hd : d < 2 ^ 63) : k < 63 := by
  by_contra hk
  have : 2 ^ 63 ≤ 2 ^ k := Nat.pow_le_pow_right (by decide) (by omega)
  omega

/-- The growth loop of `ensure_capacity` on a ring of size `2 ^ k`: it stops by its own
condition, keeps the entries, and leaves a ring of size `2 ^ j` that is either the one it
found or at most twice the distance of the segment from the base. -/
theorem grow_loop_spec (seg : Nat) (hseg : seg < 2 ^ 64) (fuel : Nat) (ring : BucketRing)
    (k : Nat) (hk : k ≤ 63) (hlen : ring.buckets.length = 2 ^ k)
    (hmask : ring.mask = 2 ^ k - 1) (hslots : SlotsAt ring.mask ring.buckets)
    (hbase : ring.base_segment ≤ seg) (hd : seg - ring.base_segment < 2 ^ 63)
    (hfuel : 64 ≤ fuel + k) :
    ∃ j, k ≤ j ∧ j ≤ 63 ∧ (grow_loop seg fuel ring).buckets.length = 2 ^ j ∧
      (grow_loop seg fuel ring).mask = 2 ^ j - 1 ∧
      (grow_loop seg fuel ring).base_segment = ring.base_segment ∧
      List.Perm (grow_loop seg fuel ring).entries ring.entries ∧
      SlotsAt (grow_loop seg fuel ring).mask (grow_loop seg fuel ring).buckets ∧
      (j = k ∨ 2 ^ (j - 1) ≤ seg - ring.base_segment) ∧
      seg - ring.base_segment ≤ (grow_loop seg fuel ring).mask := by
  induction fuel generalizing ring k with
  | zero => omega
  | succ fuel ih =>
    unfold grow_loop
    have hsub : sub64 seg ring.base_segment = seg - ring.base_segment :=
      sub64_eq hbase hseg
    rw [hsub]
    by_cases hgt : seg - ring.base_segment > ring.mask
    · rw [if_pos hgt]
      have hpos : 0 < 2 ^ k := by positivity
      have hk62 : k ≤ 62 := by
        have h1 : 2 ^ k ≤ seg - ring.base_segment := by omega
        have := pow_le_of_le_sub k _ h1 hd
        omega
      obtain ⟨r1, r2, r3, r4, r5⟩ := rehash_double ring k hk62 hlen
      have hsl : SlotsAt (ring.rehash (mul64 ring.buckets.length 2)).mask
          (ring.rehash (mul64 ring.buckets.length 2)).buckets := by
        rw [r2]; exact r5
      obtain ⟨j, j1, j2, j3, j4, j5, j6, j7, j8, j9⟩ :=
        ih (ring.rehash (mul64 ring.buckets.length 2)) (k + 1) (by omega) r1 r2 hsl
          (by rw [r3]; exact hbase) (by rw [r3]; exact hd) (by omega)
      refine ⟨j, by omega, j2, j3, j4, j5.trans r3, j6.trans r4, j7, ?_, ?_⟩
      · right
        rcases j8 with h | h
        · rw [h]
          have : k + 1 - 1 = k := by omega
          rw [this]
          omega
        · rw [r3] at h; exact h
      · rw [r3] at j9; exact j9
    · rw [if_neg hgt]
      exact ⟨k, le_refl _, hk, hlen, hmask, rfl, List.Perm.refl _, hslots, Or.inl rfl,
        by omega⟩

theorem RingOK_reset (s : Nat) : RingOK (BucketRing.reset s) := by
  refine ⟨Or.inl rfl, ?_⟩
  intro i b hb
  simp [BucketRing.reset] at hb

theorem entries_of_nil (ring : BucketRing) (h : ring.buckets = []) : ring.entries = [] := by
  unfold BucketRing.entries
  rw [h]
  rfl

theorem isEmpty_eq_true_iff {α : Type} (l : List α) : l.isEmpty = true ↔ l = [] := by
  cases l <;> simp

/-- `ensure_capacity` keeps the entries and the base; for a segment from the base on it
leaves a non-empty ring of size a power of two, every entry in its slot. -/
theorem ensure_capacity_spec (ring : BucketRing) (seg : Nat) (hr : RingOK ring)
    (hseg : seg < 2 ^ 64) (hd : seg - ring.base_segment < 2 ^ 63) :
    (ring.ensure_capacity seg).base_segment = ring.base_segment ∧
      List.Perm (ring.ensure_capacity seg).entries ring.entries ∧
      SlotsAt (ring.ensure_capacity seg).mask (ring.ensure_capacity seg).buckets ∧
      ((ring.ensure_capacity seg).buckets = [] ∨
        ∃ j, j ≤ 63 ∧ (ring.ensure_capacity seg).buckets.length = 2 ^ j ∧
          (ring.ensure_capacity seg).mask = 2 ^ j - 1 ∧
          (seg - ring.base_segment < 2 ^ 62 → j ≤ 62)) ∧
      (ring.base_segment ≤ seg → (ring.ensure_capacity seg).buckets ≠ []) := by
  obtain ⟨hshape, hslots⟩ := hr
  unfold BucketRing.ensure_capacity
  by_cases hlt : seg < ring.base_segment
  · rw [if_pos hlt]
    refine ⟨rfl, List.Perm.refl _, hslots, ?_, fun h => absurd h (by omega)⟩
    rcases hshape with h | ⟨k, h1, h2, h3⟩
    · exact Or.inl h
    · exact Or.inr ⟨k, by omega, h2, h3, fun _ => h1⟩
  · rw [if_neg hlt]
    by_cases hemp : ring.buckets.isEmpty = true
    · rw [if_pos hemp]
      have hnil := (isEmpty_eq_true_iff _).1 hemp
      refine ⟨rfl, ?_, SlotsAt_replicate _ _, ?_, ?_⟩
      rotate_right
      · intro _ h
        have := congrArg List.length h
        rw [List.length_replicate] at this
        exact absurd this (by decide)
      · rw [entries_of_nil ring hnil]
        unfold BucketRing.entries
        simp only
        rw [flatten_replicate_nil]
      · right
        exact ⟨10, by omega, by rw [List.length_replicate]; norm_num, by norm_num,
          fun _ => by omega⟩
    · rw [if_neg hemp]
      rcases hshape with h | ⟨k, h1, h2, h3⟩
      · rw [h] at hemp; exact absurd rfl hemp
      · obtain ⟨j, j1, j2, j3, j4, j5, j6, j7, j8, j9⟩ :=
          grow_loop_spec seg hseg 64 ring k (by omega) h2 h3 hslots (by omega) hd (by omega)
        refine ⟨j5, j6, j7, Or.inr ⟨j, j2, j3, j4, ?_⟩, ?_⟩
        · intro h62
          rcases j8 with h | h
          · omega
          · by_contra hj
            have : 2 ^ 62 ≤ 2 ^ (j - 1) := Nat.pow_le_pow_right (by decide) (by omega)
            omega
        · intro _ hnil
          rw [hnil] at j3
          have : 0 < 2 ^ j := by positivity
          simp at j3
          omega

theorem mem_flatten_iff_getElem? (bs : List (List BucketEntry)) (e : BucketEntry) :
    e ∈ bs.flatten ↔ ∃ (j : Nat) (b : List BucketEntry), bs[j]? = some b ∧ e ∈ b := by
  rw [List.mem_flatten]
  constructor
  · rintro ⟨b, hb, he⟩
    obtain ⟨j, hj⟩ := List.mem_iff_getElem?.1 hb
    exact ⟨j, b, hj, he⟩
  · rintro ⟨j, b, hj, he⟩
    exact ⟨b, List.mem_iff_getElem?.2 ⟨j, hj⟩, he⟩

theorem getD_eq_of_lt (bs : List (List BucketEntry)) (i : Nat) (h : i < bs.length) :
    bs[i]? = some (bs.getD i []) := by
  rw [List.getD_eq_getElem?_getD, List.getElem?_eq_getElem h]
  rfl

theorem filter_ne_eq (l : List BucketEntry) (seg : Nat) :
    l.filter (fun e => decide (e.next_index ≠ seg)) =
      l.filter (fun e => !decide (e.next_index = seg)) := by
  congr 1
  funext e
  simp

/-- The shape of a ring that holds buckets: size `2 ^ j` with `j ≤ 63` and `mask` one
less. -/
theorem take_nonempty (ring : BucketRing) (seg j : Nat)
    (hlen : ring.buckets.length = 2 ^ j) (hmask : ring.mask = 2 ^ j - 1)
    (hslots : SlotsAt ring.mask ring.buckets) :
    List.Perm
        ((ring.buckets.getD (seg &&& ring.mask) []).filter
            (fun e => decide (e.next_index = seg)) ++
          (slot_set ring.buckets (seg &&& ring.mask)
            ((ring.buckets.getD (seg &&& ring.mask) []).filter
              (fun e => decide (e.next_index ≠ seg)))).flatten)
        ring.buckets.flatten ∧
      (∀ e ∈ (slot_set ring.buckets (seg &&& ring.mask)
          ((ring.buckets.getD (seg &&& ring.mask) []).filter
            (fun e => decide (e.next_index ≠ seg)))).flatten, e.next_index ≠ seg) ∧
      SlotsAt ring.mask (slot_set ring.buckets (seg &&& ring.mask)
          ((ring.buckets.getD (seg &&& ring.mask) []).filter
            (fun e => decide (e.next_index ≠ seg)))) := by
  have hi : seg &&& ring.mask < ring.buckets.length := by
    rw [hmask, hlen]; exact and_mask_lt _ _
  refine ⟨?_, ?_, ?_⟩
  · rw [filter_ne_eq]
    exact slot_set_filter_perm ring.buckets (seg &&& ring.mask)
      (fun e => decide (e.next_index = seg)) hi
  · intro e he
    obtain ⟨j1, b, hb, heb⟩ := (mem_flatten_iff_getElem? _ _).1 he
    rw [slot_set_getElem?] at hb
    by_cases hj : j1 = seg &&& ring.mask
    · rw [if_pos ⟨hj, hi⟩] at hb
      simp only [Option.some.injEq] at hb
      subst hb
      have := (List.mem_filter.1 heb).2
      simpa using this
    · rw [if_neg (fun h => hj h.1)] at hb
      have := hslots j1 b hb e heb
      intro hseg
      apply hj
      rw [← this, hseg]
  · intro j1 b hb e heb
    rw [slot_set_getElem?] at hb
    by_cases hj : j1 = seg &&& ring.mask
    · rw [if_pos ⟨hj, hi⟩] at hb
      simp only [Option.some.injEq] at hb
      subst hb
      have h1 := (List.mem_filter.1 heb).1
      rw [hj]
      exact hslots _ _ (getD_eq_of_lt _ _ hi) e h1
    · rw [if_neg (fun h => hj h.1)] at hb
      exact hslots j1 b hb e heb

/-- `take(seg)` on a well-formed ring: hits and remaining entries together are the entries
held before, the hits are the entries of segment `seg`, none of which remains, and the ring
stays well formed. -/
theorem take_spec (ring : BucketRing) (seg : Nat) (hr : RingOK ring)
    (hseg : seg < 2 ^ 64) (hd : seg - ring.base_segment < 2 ^ 63) :
    List.Perm ((ring.take seg).2 ++ (ring.take seg).1.entries) ring.entries ∧
      (∀ e ∈ (ring.take seg).2, e.next_index = seg) ∧
      (∀ e ∈ (ring.take seg).1.entries, e.next_index ≠ seg) ∧
      SlotsAt (ring.take seg).1.mask (ring.take seg).1.buckets ∧
      ((ring.take seg).1.buckets = [] ∨
        ∃ j, j ≤ 63 ∧ (ring.take seg).1.buckets.length = 2 ^ j ∧
          (ring.take seg).1.mask = 2 ^ j - 1 ∧
          (seg - ring.base_segment < 2 ^ 62 → j ≤ 62)) ∧
      (ring.take seg).1.base_segment =
        (if ring.base_segment ≤ seg then add64 seg 1 else ring.base_segment) := by
  obtain ⟨c1, c2, c3, c4, c5⟩ := ensure_capacity_spec ring seg hr hseg hd
  unfold BucketRing.take
  simp only
  by_cases hemp : (ring.ensure_capacity seg).buckets.isEmpty = true
  · rw [if_pos hemp]
    have hnil := (isEmpty_eq_true_iff _).1 hemp
    simp only [List.nil_append]
    refine ⟨c2, fun e he => absurd he (List.not_mem_nil _), ?_, c3, c4, ?_⟩
    · intro e he
      rw [entries_of_nil _ hnil] at he
      exact absurd he (List.not_mem_nil _)
    · rw [c1]
      by_cases hb : ring.base_segment ≤ seg
      · exact absurd hnil (c5 hb)
      · rw [if_neg hb]
  · rw [if_neg hemp]
    rcases c4 with h | ⟨j, j1, j2, j3, j4⟩
    · rw [h] at hemp; exact absurd rfl hemp
    · obtain ⟨t1, t2, t3⟩ := take_nonempty (ring.ensure_capacity seg) seg j j2 j3 c3
      have hbase : ∀ r2 : BucketRing, (if seg ≥ r2.base_segment then
          ({ r2 with base_segment := add64 seg 1 } : BucketRing) else r2).buckets =
            r2.buckets ∧ (if seg ≥ r2.base_segment then
          ({ r2 with base_segment := add64 seg 1 } : BucketRing) else r2).mask = r2.mask ∧
          (if seg ≥ r2.base_segment then
          ({ r2 with base_segment := add64 seg 1 } : BucketRing) else r2).base_segment =
            (if r2.base_segment ≤ seg then add64 seg 1 else r2.base_segment) := by
        intro r2
        by_cases h : seg ≥ r2.base_segment
        · rw [if_pos h, if_pos h]; exact ⟨rfl, rfl, rfl⟩
        · rw [if_neg h, if_neg h]; exact ⟨rfl, rfl, rfl⟩
      obtain ⟨b1, b2, b3⟩ := hbase
        { (ring.ensure_capacity seg) with
          buckets := slot_set (ring.ensure_capacity seg).buckets
            (seg &&& (ring.ensure_capacity seg).mask)
            (((ring.ensure_capacity seg).buckets.getD
              (seg &&& (ring.ensure_capacity seg).mask) []).filter
              (fun e => decide (e.next_index ≠ seg))) }
      simp only at b1 b2 b3
      unfold BucketRing.entries
      rw [b1, b2, b3, c1]
      refine ⟨t1.trans c2, ?_, t2, t3, Or.inr ⟨j, j1, ?_, j3, j4⟩, rfl⟩
      · intro e he
        have := (List.mem_filter.1 he).2
        simpa using this
      · rw [slot_set_length]; exact j2

/-- `push(seg, e)` of an entry of segment `seg` on a well-formed ring: the ring stays well
formed, keeps its base and gains exactly the entry. -/
theorem push_spec (ring : BucketRing) (seg : Nat) (e : BucketEntry) (hr : RingOK ring)
    (hseg : seg < 2 ^ 62) (he : e.next_index = seg) :
    RingOK (ring.push seg e) ∧ List.Perm (ring.push seg e).entries (e :: ring.entries) ∧
      (ring.push seg e).base_segment = ring.base_segment ∧
      (ring.push seg e).buckets ≠ [] := by
  obtain ⟨c1, c2, c3, c4, c5⟩ :=
    ensure_capacity_spec ring seg hr (by omega) (by omega)
  have key : ∀ (base mask : Nat) (bs : List (List BucketEntry)), SlotsAt mask bs →
      (∃ j, j ≤ 62 ∧ bs.length = 2 ^ j ∧ mask = 2 ^ j - 1) →
      RingOK (BucketRing.mk base mask (slot_push bs (seg &&& mask) e)) ∧
        List.Perm (BucketRing.mk base mask (slot_push bs (seg &&& mask) e)).entries
          (e :: bs.flatten) ∧
        (BucketRing.mk base mask (slot_push bs (seg &&& mask) e)).buckets ≠ [] := by
    intro base mask bs hs ⟨j, j1, j2, j3⟩
    have hi : seg &&& mask < bs.length := by
      rw [j3, j2]; exact and_mask_lt _ _
    refine ⟨⟨Or.inr ⟨j, j1, ?_, j3⟩, ?_⟩, ?_, ?_⟩
    · show (slot_push bs (seg &&& mask) e).length = 2 ^ j
      rw [slot_push_length]; exact j2
    · show SlotsAt mask (slot_push bs (seg &&& mask) e)
      have := SlotsAt_push mask bs e hs
      rw [he] at this
      exact this
    · exact slot_push_perm bs (seg &&& mask) e hi
    · intro hnil
      have h1 : (slot_push bs (seg &&& mask) e).length = 0 := by
        have : (slot_push bs (seg &&& mask) e) = [] := hnil
        rw [this]; rfl
      rw [slot_push_length] at h1
      have : 0 < 2 ^ j := by positivity
      omega
  unfold BucketRing.push
  simp only
  by_cases hemp : (ring.ensure_capacity seg).buckets.isEmpty = true
  · rw [if_pos hemp]
    have hnil := (isEmpty_eq_true_iff _).1 hemp
    have hlen : (List.replicate 1024 ([] : List BucketEntry)).length = 2 ^ 10 := by
      rw [List.length_replicate]; norm_num
    obtain ⟨k1, k2, k3⟩ := key (ring.ensure_capacity seg).base_segment 1023
      (List.replicate 1024 []) (SlotsAt_replicate _ _) ⟨10, by omega, hlen, by norm_num⟩
    rw [flatten_replicate_nil] at k2
    have e2 := entries_of_nil _ hnil
    rw [e2] at c2
    exact ⟨k1, k2.trans (List.Perm.cons e c2), c1, k3⟩
  · rw [if_neg hemp]
    rcases c4 with h | ⟨j, j1, j2, j3, j4⟩
    · rw [h] at hemp; exact absurd rfl hemp
    · obtain ⟨k1, k2, k3⟩ := key (ring.ensure_capacity seg).base_segment
        (ring.ensure_capacity seg).mask (ring.ensure_capacity seg).buckets c3
        ⟨j, j4 (by omega), j2, j3⟩
      exact ⟨k1, k2.trans (List.Perm.cons e c2), c1, k3⟩

/-- A take with a segment below `2 ^ 62` keeps the ring well formed. -/
theorem take_RingOK (ring : BucketRing) (seg : Nat) (hr : RingOK ring)
    (hseg : seg < 2 ^ 62) : RingOK (ring.take seg).1 := by
  obtain ⟨_, _, _, t4, t5, _⟩ := take_spec ring seg hr (by omega) (by omega)
  refine ⟨?_, t4⟩
  rcases t5 with h | ⟨j, _, j2, j3, j4⟩
  · exact Or.inl h
  · exact Or.inr ⟨j, j4 (by omega), j2, j3⟩

/-- The hits of a take are, up to order, the stored entries of that segment; what remains
is, up to order, the stored entries of the other segments. -/
theorem take_filter (ring : BucketRing) (seg : Nat) (hr : RingOK ring)
    (hseg : seg < 2 ^ 64) (hd : seg - ring.base_segment < 2 ^ 63) :
    List.Perm (ring.take seg).2
        (ring.entries.filter (fun e => decide (e.next_index = seg))) ∧
      List.Perm (ring.take seg).1.entries
        (ring.entries.filter (fun e => decide (e.next_index ≠ seg))) := by
  obtain ⟨t1, t2, t3, _⟩ := take_spec ring seg hr hseg hd
  have hA : (ring.take seg).2.filter (fun e => decide (e.next_index = seg)) =
      (ring.take seg).2 :=
    List.filter_eq_self.2 (fun e he => by simpa using t2 e he)
  have hB : (ring.take seg).1.entries.filter (fun e => decide (e.next_index = seg)) = [] :=
    List.filter_eq_nil_iff.2 (fun e he => by simpa using t3 e he)
  have hC : (ring.take seg).2.filter (fun e => decide (e.next_index ≠ seg)) = [] :=
    List.filter_eq_nil_iff.2 (fun e he => by simpa using t2 e he)
  have hD : (ring.take seg).1.entries.filter (fun e => decide (e.next_index ≠ seg)) =
      (ring.take seg).1.entries :=
    List.filter_eq_self.2 (fun e he => by simpa using t3 e he)
  constructor
  · have := List.Perm.filter (fun e => decide (e.next_index = seg)) t1
    rw [List.filter_append, hA, hB, List.append_nil] at this
    exact this
  · have := List.Perm.filter (fun e => decide (e.next_index ≠ seg)) t1
    rw [List.filter_append, hC, hD, List.nil_append] at this
    exact this

/-! ## Population count against the bits -/

theorem word_zeros_add_ones (r w : Nat) :
    word_zeros r w + (List.range r).countP (fun b => w.testBit b) = r := by
  unfold word_zeros
  have := List.length_eq_countP_add_countP (fun b => w.testBit b) (List.range r)
  rw [List.length_range] at this
  have e : (List.range r).countP (fun b => !w.testBit b) =
      (List.range r).countP (fun a => decide (¬ w.testBit a = true)) := by
    apply List.countP_congr
    intro i _
    simp
  omega

/-- The population of the low `r` bits is the number of set bits among them. -/
theorem popBits_eq_countP (r w : Nat) :
    popBits r w = (List.range r).countP (fun b => w.testBit b) := by
  have h1 := word_zeros_eq r w
  have h2 := word_zeros_add_ones r w
  omega

/-! ## The writer -/

theorem le_bytes_length (x : Nat) : (le_bytes x).length = 8 := by
  unfold le_bytes
  simp

theorem object_bytes_length (build : ByteOrderBuild) (x : Nat) :
    (object_bytes build x).length = 8 := by
  cases build <;> simp [object_bytes, le_bytes_length]

theorem encode_deltas_loop_none (build : ByteOrderBuild) (v : Nat) (vs : List Nat) :
    encode_deltas_loop build v vs = none ↔ ¬ List.Chain (fun a b => a ≤ b) v vs := by
  induction vs generalizing v with
  | nil => simp [encode_deltas_loop]
  | cons x rest ih =>
    unfold encode_deltas_loop
    rw [List.chain_cons]
    by_cases hlt : x < v
    · rw [if_pos hlt]
      constructor
      · intro _ h; omega
      · intro _; rfl
    · rw [if_neg hlt]
      cases hr : encode_deltas_loop build x rest with
      | none =>
        have := (ih x).1 hr
        simp only [true_iff]
        exact fun h => this h.2
      | some pr =>
        have hc : List.Chain (fun a b => a ≤ b) x rest := by
          by_contra hn
          have := (ih x).2 hn
          rw [hr] at this
          exact absurd this (by simp)
        constructor
        · intro h; exact absurd h (by simp)
        · intro h; exact absurd ⟨by omega, hc⟩ h

theorem encode_deltas_loop_some (build : ByteOrderBuild) (v : Nat) (vs : List Nat)
    (bytes : List Nat) (last : Nat) (h : encode_deltas_loop build v vs = some (bytes, last)) :
    last = vs.getLastD v ∧ bytes.length = 8 * vs.length := by
  induction vs generalizing v bytes last with
  | nil =>
    simp only [encode_deltas_loop, Option.some.injEq, Prod.mk.injEq] at h
    obtain ⟨h1, h2⟩ := h
    subst h1 h2
    exact ⟨rfl, rfl⟩
  | cons x rest ih =>
    unfold encode_deltas_loop at h
    by_cases hlt : x < v
    · rw [if_pos hlt] at h
      exact absurd h (by simp)
    · rw [if_neg hlt] at h
      cases hr : encode_deltas_loop build x rest with
      | none => rw [hr] at h; exact absurd h (by simp)
      | some pr =>
        obtain ⟨b1, l1⟩ := pr
        rw [hr] at h
        simp only [Option.some.injEq, Prod.mk.injEq] at h
        obtain ⟨h1, h2⟩ := h
        obtain ⟨i1, i2⟩ := ih x b1 l1 hr
        subst h1 h2
        refine ⟨?_, ?_⟩
        · rw [List.getLastD_cons]; exact i1
        · rw [List.length_append, object_bytes_length, i2, List.length_cons]
          ring

/-! ## The early returns of the runner -/

theorem final_status_ne_invalid (nth_index : Nat) (nth_found : Bool) :
    (final_status FailureKind.None "" false false false nth_index nth_found).1 ≠
      Status.INVALID_ARGUMENT := by
  unfold final_status
  simp only
  split_ifs <;> simp_all

/-! ## The validation of the runner -/

theorem run_invalid_range (build : Build) (config : SegmentConfig) (draw : Nat → Nat)
    (opts : RangeOptions) (h : opts.to_ ≤ opts.from_ ∨ opts.to_ < 2) :
    calcprime_run_range build config draw opts =
      some (initial_result Status.INVALID_ARGUMENT "invalid range") := by
  unfold calcprime_run_range
  rw [if_pos h]

theorem run_meissel_rejected (build : Build) (config : SegmentConfig) (draw : Nat → Nat)
    (opts : RangeOptions) (hv : ¬ (opts.to_ ≤ opts.from_ ∨ opts.to_ < 2))
    (hm : opts.use_meissel = true)
    (h : need_prime_delivery opts = true ∨ opts.nth_index ≠ 0) :
    calcprime_run_range build config draw opts =
      some (initial_result Status.INVALID_ARGUMENT "Meissel counting cannot emit primes") := by
  unfold calcprime_run_range
  rw [if_neg hv]
  simp only
  rw [if_pos ⟨hm, h⟩]

theorem run_meissel_count (build : Build) (config : SegmentConfig) (draw : Nat → Nat)
    (opts : RangeOptions) (hv : ¬ (opts.to_ ≤ opts.from_ ∨ opts.to_ < 2))
    (hm : opts.use_meissel = true)
    (h : ¬ (need_prime_delivery opts = true ∨ opts.nth_index ≠ 0)) :
    calcprime_run_range build config draw opts =
      some { initial_result Status.SUCCESS "" with
        total_count := meissel_count opts.from_ opts.to_
          (simple_sieve (add64 (floor_sqrt opts.to_) 1))
        completed := true } := by
  unfold calcprime_run_range
  rw [if_neg hv]
  simp only
  rw [if_neg (fun hh => h hh.2), if_pos hm]
  have : opts.to_ > 1 := by omega
  rw [if_pos this]

/-- Past the range check no path of the runner reports `INVALID_ARGUMENT` with the message
`invalid range`. -/
theorem run_valid_range_status (build : Build) (config : SegmentConfig) (draw : Nat → Nat)
    (opts : RangeOptions) (hv : ¬ (opts.to_ ≤ opts.from_ ∨ opts.to_ < 2)) (r : RunResult)
    (hr : calcprime_run_range build config draw opts = some r) :
    ¬ (r.status = Status.INVALID_ARGUMENT ∧ r.error_message = "invalid range") := by
  by_cases hm : opts.use_meissel = true
  · by_cases hd : need_prime_delivery opts = true ∨ opts.nth_index ≠ 0
    · rw [run_meissel_rejected build config draw opts hv hm hd] at hr
      simp only [Option.some.injEq] at hr
      subst hr
      intro ⟨_, h2⟩
      exact absurd h2 (by decide)
    · rw [run_meissel_count build config draw opts hv hm hd] at hr
      simp only [Option.some.injEq] at hr
      subst hr
      intro ⟨h1, _⟩
      cases h1
  · unfold calcprime_run_range at hr
    rw [if_neg hv] at hr
    simp only at hr
    rw [if_neg (fun hh => hm hh.1), if_neg hm] at hr
    by_cases hn : (if (odd_range opts.from_ opts.to_).end_ >
        (odd_range opts.from_ opts.to_).begin_ then
          (odd_range opts.from_ opts.to_).end_ - (odd_range opts.from_ opts.to_).begin_
        else 0) ≠ 0 ∧ config.segment_span = 0
    · rw [if_pos hn] at hr
      exact absurd hr (by simp)
    · rw [if_neg hn] at hr
      simp only [Option.some.injEq] at hr
      subst hr
      intro ⟨h1, _⟩
      exact final_status_ne_invalid _ _ h1

/-! ## The work queue without size bounds -/

/-- The work queue hands out the segment `idx` exactly when it starts inside the range, for
every non-zero span and every range that ends below `2 ^ 64`. -/
theorem queue_next_general (range : SieveRange) (config : SegmentConfig) (idx : Nat)
    (hb : range.begin_ ≤ range.end_) (hend : range.end_ < 2 ^ 64)
    (hs0 : 0 < config.segment_span) :
    queue_next range config idx =
      if idx * config.segment_span < range.end_ - range.begin_ then
        some (idx, range.begin_ + idx * config.segment_span,
          Nat.min (range.begin_ + (idx + 1) * config.segment_span) range.end_)
      else none := by
  have hlen : (if range.end_ > range.begin_ then range.end_ - range.begin_ else 0) =
      range.end_ - range.begin_ := by
    split
    · rfl
    · omega
  have hmul : (idx + 1) * config.segment_span =
      idx * config.segment_span + config.segment_span := by ring
  unfold queue_next
  simp only [hlen, hmul]
  have hsne : config.segment_span ≠ 0 := by omega
  by_cases hP : idx * config.segment_span < 2 ^ 64
  · have e1 : mul64 idx config.segment_span = idx * config.segment_span := mul64_eq hP
    have e2 : idx * config.segment_span / config.segment_span = idx :=
      Nat.mul_div_cancel _ hs0
    simp only [e1, e2, ne_eq, not_true_eq_false, and_false, if_false]
    by_cases hin : idx * config.segment_span < range.end_ - range.begin_
    · have h1 : ¬ (idx * config.segment_span ≥ range.end_ - range.begin_) := by omega
      simp only [if_neg h1, if_pos hin]
      have e3 : add64 range.begin_ (idx * config.segment_span) =
          range.begin_ + idx * config.segment_span := add64_eq (by omega)
      rw [e3]
      by_cases hcut : config.segment_span >
          range.end_ - range.begin_ - idx * config.segment_span
      · simp only [if_pos hcut]
        have e4 : add64 (range.begin_ + idx * config.segment_span)
            (range.end_ - range.begin_ - idx * config.segment_span) = range.end_ := by
          rw [add64_eq (by omega)]; omega
        have e5 : Nat.min (range.begin_ + (idx * config.segment_span + config.segment_span))
            range.end_ = range.end_ := natmin_right (by omega)
        rw [e4, e5]
        have e6 : range.begin_ + idx * config.segment_span < range.end_ := by omega
        simp only [if_pos e6]
      · simp only [if_neg hcut]
        have e4 : add64 (range.begin_ + idx * config.segment_span) config.segment_span =
            range.begin_ + idx * config.segment_span + config.segment_span :=
          add64_eq (by omega)
        have e5 : Nat.min (range.begin_ + (idx * config.segment_span + config.segment_span))
            range.end_ = range.begin_ + (idx * config.segment_span + config.segment_span) :=
          natmin_left (by omega)
        rw [e4, e5]
        have e6 : range.begin_ + idx * config.segment_span <
            range.begin_ + idx * config.segment_span + config.segment_span := by omega
        simp only [if_pos e6]
        have e7 : range.begin_ + (idx * config.segment_span + config.segment_span) =
            range.begin_ + idx * config.segment_span + config.segment_span := by omega
        rw [e7]
    · have h1 : idx * config.segment_span ≥ range.end_ - range.begin_ := by omega
      simp only [if_pos h1, if_neg hin]
  · have hlt : mul64 idx config.segment_span < idx * config.segment_span := by
      unfold mul64
      have := Nat.mod_lt (idx * config.segment_span) (show 0 < 2 ^ 64 by positivity)
      omega
    have hne : mul64 idx config.segment_span / config.segment_span ≠ idx := by
      have := (Nat.div_lt_iff_lt_mul hs0).2 hlt
      omega
    have hin : ¬ (idx * config.segment_span < range.end_ - range.begin_) := by omega
    simp only [ne_eq, hsne, not_false_eq_true, hne, and_self, if_true, if_neg hin]

/-- Without overflow of `length + span - 1` the runner's `num_segments` is the rounded-up
quotient, and the tickets below it are those whose segment starts inside the range. -/
theorem num_segments_spec (length span : Nat) (hl : 0 < length) (hs : 0 < span)
    (h : length + span ≤ 2 ^ 64) :
    num_segments length span = (length + span - 1) / span ∧
      ∀ k, k * span < length ↔ k < num_segments length span := by
  have e : num_segments length span = (length + span - 1) / span := by
    unfold num_segments
    have h0 : length ≠ 0 := by omega
    rw [if_pos h0]
    rcases Nat.lt_or_ge (length + span) (2 ^ 64) with h2 | h2
    · rw [add64_eq h2, sub64_eq (by omega) h2]
    · have h3 : length + span = 2 ^ 64 := by omega
      have h4 : add64 length span = 0 := by
        unfold add64
        rw [h3]
        exact Nat.mod_self _
      rw [h4, h3]
      rfl
  refine ⟨e, fun k => ?_⟩
  rw [e]
  have e2 : (k + 1) * span = k * span + span := by ring
  have h3 : k < (length + span - 1) / span ↔ (k + 1) * span ≤ length + span - 1 :=
    Nat.le_div_iff_mul_le hs
  rw [h3, e2]
  omega

/-! ## `first_hit` whenever its result fits 64 bits -/

/-- A multiple of `p` that is at least `s` is at least the next multiple of `p` from `s`
on. -/
theorem next_multiple_le (p s f : Nat) (hp : 0 < p) (hd : p ∣ f) (hs : s ≤ f)
    (hr : s % p ≠ 0) : s + (p - s % p) ≤ f := by
  obtain ⟨k, rfl⟩ := hd
  have hdm := Nat.div_add_mod s p
  have hrem : s % p < p := Nat.mod_lt _ hp
  have hk : s / p < k := by
    by_contra hh
    have : p * k ≤ p * (s / p) := Nat.mul_le_mul_left _ (by omega)
    omega
  have : p * (s / p + 1) ≤ p * k := Nat.mul_le_mul_left _ (by omega)
  have e : p * (s / p + 1) = p * (s / p) + p := by ring
  omega

/-- An odd multiple of the odd `p` above an even multiple is at least `p` above it. -/
theorem odd_above_even_multiple (p n f : Nat) (hp2 : p % 2 = 1) (hn : p ∣ n) (hf : p ∣ f)
    (hne : n % 2 = 0) (hfo : f % 2 = 1) (hle : n ≤ f) : n + p ≤ f := by
  obtain ⟨j, rfl⟩ := hn
  obtain ⟨k, rfl⟩ := hf
  have hjk : j < k := by
    by_contra hh
    have h1 : p * k ≤ p * j := Nat.mul_le_mul_left _ (by omega)
    have h2 : p * k = p * j := by omega
    omega
  have : p * (j + 1) ≤ p * k := Nat.mul_le_mul_left _ (by omega)
  have e : p * (j + 1) = p * j + p := by ring
  omega

/-- Whenever the first odd multiple of `p` from `p * p` and `s` on is below `2 ^ 64`,
`first_hit` returns it. -/
theorem first_hit_exact (p s f : Nat) (hp : SievePrime p) (h : FirstHit p s f)
    (hf : f < 2 ^ 64) : first_hit p s = f := by
  obtain ⟨hp3, hp2, hp32⟩ := hp
  obtain ⟨a1, a2, a3, a4, a5⟩ := h
  have hsq := sq_lt_two_pow_64 p hp32
  have hsq2 : (p * p) % 2 = 1 := by rw [Nat.mul_mod, hp2]
  have hsqp : (p * p) % p = 0 := Nat.mul_mod_right p p
  unfold first_hit
  simp only [and_one_eq_zero_iff]
  rw [mul64_eq (by omega)]
  by_cases hlt : p * p < s
  · simp only [if_pos hlt]
    have hrem : s % p < p := Nat.mod_lt _ (by omega)
    by_cases hr : s % p ≠ 0
    · simp only [if_pos hr]
      have hn := next_multiple_le p s f (by omega) a1 a4 hr
      rw [add64_eq (by omega)]
      have hdvd : p ∣ s + (p - s % p) := by
        have hdm := Nat.div_add_mod s p
        refine ⟨s / p + 1, ?_⟩
        have : p * (s / p + 1) = p * (s / p) + p := by ring
        omega
      by_cases he : (s + (p - s % p)) % 2 = 0
      · simp only [if_pos he]
        have hn2 := odd_above_even_multiple p _ f hp2 hdvd a1 he a2 hn
        rw [add64_eq (by omega)]
        have := a5 (s + (p - s % p) + p) (Dvd.dvd.add hdvd (dvd_refl p)) (by omega)
          (by omega) (by omega)
        omega
      · simp only [if_neg he]
        have := a5 (s + (p - s % p)) hdvd (by omega) (by omega) (by omega)
        omega
    · have hr0 : s % p = 0 := by omega
      simp only [if_neg hr]
      have hdvd : p ∣ s := Nat.dvd_of_mod_eq_zero hr0
      by_cases he : s % 2 = 0
      · simp only [if_pos he]
        have hn2 := odd_above_even_multiple p s f hp2 hdvd a1 he a2 a4
        rw [add64_eq (by omega)]
        have := a5 (s + p) (Dvd.dvd.add hdvd (dvd_refl p)) (by omega) (by omega) (by omega)
        omega
      · simp only [if_neg he]
        have := a5 s hdvd (by omega) (by omega) (le_refl _)
        omega
  · simp only [if_neg hlt]
    have hr : ¬ ((p * p) % p ≠ 0) := by omega
    simp only [if_neg hr]
    have he : ¬ ((p * p) % 2 = 0) := by omega
    simp only [if_neg he]
    have := a5 (p * p) (Dvd.intro _ rfl) hsq2 (le_refl _) (by omega)
    omega

/-- Every odd `p` has a first odd multiple from `p * p` and `s` on. -/
theorem FirstHit_exists (p s : Nat) (hp2 : p % 2 = 1) : ∃ f, FirstHit p s f := by
  classical
  have hex : ∃ g, p ∣ g ∧ g % 2 = 1 ∧ p * p ≤ g ∧ s ≤ g := by
    refine ⟨p * (2 * (p + s) + 1), Dvd.intro _ rfl, ?_, ?_, ?_⟩
    · rw [Nat.mul_mod, hp2]; omega
    · exact Nat.mul_le_mul_left _ (by omega)
    · have h1 : 1 ≤ p := by omega
      calc s ≤ 1 * (2 * (p + s) + 1) := by omega
        _ ≤ p * (2 * (p + s) + 1) := Nat.mul_le_mul_right _ h1
  refine ⟨Nat.find hex, ?_⟩
  obtain ⟨b1, b2, b3, b4⟩ := Nat.find_spec hex
  exact ⟨b1, b2, b3, b4, fun g g1 g2 g3 g4 => Nat.find_min' hex ⟨g1, g2, g3, g4⟩⟩

/-! ## The sizes of `choose_segment_config` -/

/-- `align_to(v, 128)` is a multiple of 128 for every `std::size_t` value, and at least `v`
unless `v` lies above the last multiple. -/
theorem align_to_128_general (v : Nat) (hv : v < 2 ^ 64) :
    align_to v 128 % 128 = 0 ∧ (v ≤ 2 ^ 64 - 128 → v ≤ align_to v 128) ∧
      (8192 ≤ v → 8192 ≤ align_to v 128) := by
  unfold align_to
  simp only [show ¬ (128 = 0) by decide, if_false]
  split
  · omega
  · split
    · omega
    · omega

/-- The sizes `choose_segment_config` returns: the tile is no larger than the segment, the
segment has at least 8192 bytes, both are multiples of 128, and the tile has at least 8192
bytes when no tile size is requested or the requested one exceeds 8064. -/
theorem finish_segment_config_sizes (chosen cap rt l1 : Nat) (h1 : chosen < 2 ^ 64)
    (h3 : rt < 2 ^ 64) (h4 : l1 < 2 ^ 64) :
    (finish_segment_config chosen cap rt l1).tile_bytes ≤
        (finish_segment_config chosen cap rt l1).segment_bytes ∧
      8192 ≤ (finish_segment_config chosen cap rt l1).segment_bytes ∧
      (finish_segment_config chosen cap rt l1).segment_bytes % 128 = 0 ∧
      (finish_segment_config chosen cap rt l1).tile_bytes % 128 = 0 ∧
      (rt = 0 ∨ 8064 < rt → 8192 ≤ (finish_segment_config chosen cap rt l1).tile_bytes) := by
  obtain ⟨a1, _, _⟩ := align_to_128_general chosen h1
  obtain ⟨b1, b2, b3⟩ := align_to_128_general rt h3
  have hl : Nat.max l1 (8 * 1024) < 2 ^ 64 := by
    show max l1 (8 * 1024) < 2 ^ 64
    omega
  have hl2 : 8192 ≤ Nat.max l1 (8 * 1024) := by
    show 8192 ≤ max l1 (8 * 1024)
    omega
  obtain ⟨c1, _, c3⟩ := align_to_128_general (Nat.max l1 (8 * 1024)) hl
  have c4 := c3 hl2
  have hrt : 8064 < rt → 8192 ≤ align_to rt 128 := by
    intro h
    unfold align_to
    simp only [show ¬ (128 = 0) by decide, if_false]
    split
    · omega
    · split
      · omega
      · omega
  have hseg : ∃ sb, (finish_segment_config chosen cap rt l1).segment_bytes = sb ∧
      sb % 128 = 0 ∧ 8192 ≤ sb := by
    refine ⟨_, rfl, ?_⟩
    unfold finish_segment_config
    simp only
    split_ifs <;> omega
  obtain ⟨sb, hsb, s1, s2⟩ := hseg
  have htile : (finish_segment_config chosen cap rt l1).tile_bytes =
      Nat.min (if rt = 0 then align_to (Nat.max l1 (8 * 1024)) 128 else align_to rt 128)
        (finish_segment_config chosen cap rt l1).segment_bytes := rfl
  rw [htile, hsb]
  refine ⟨?_, s2, s1, ?_, ?_⟩
  · show min _ _ ≤ _
    exact Nat.min_le_right _ _
  · by_cases hr : rt = 0
    · rw [if_pos hr]
      show min _ _ % 128 = 0
      omega
    · rw [if_neg hr]
      show min _ _ % 128 = 0
      omega
  · intro h
    by_cases hr : rt = 0
    · rw [if_pos hr]
      show 8192 ≤ min _ _
      omega
    · rw [if_neg hr]
      have := hrt (by omega)
      show 8192 ≤ min _ _
      omega

/-! ## The prefix primes -/

theorem wheel_modulus_eq (ty : WheelType) :
    (get_wheel ty).modulus =
      match ty with
      | WheelType.Mod30 => 30
      | WheelType.Mod210 => 210
      | WheelType.Mod1155 => 1155 := by
  cases ty <;> rfl

theorem prime_dvd_prime_eq (p q : Nat) (hp : Nat.Prime p) (hq : Nat.Prime q) (h : p ∣ q) :
    p = q := (Nat.prime_dvd_prime_iff_eq hp hq).1 h

/-- The primes 2 and those dividing the wheel modulus are 2 and the `wheel_primes`. -/
theorem wheel_primes_spec (ty : WheelType) (p : Nat) :
    (p = 2 ∨ p ∈ wheel_primes ty) ↔
      (Nat.Prime p ∧ (p = 2 ∨ p ∣ (get_wheel ty).modulus)) := by
  have h2 : Nat.Prime 2 := by norm_num
  have h3 : Nat.Prime 3 := by norm_num
  have h5 : Nat.Prime 5 := by norm_num
  have h7 : Nat.Prime 7 := by norm_num
  have h11 : Nat.Prime 11 := by norm_num
  rw [wheel_modulus_eq]
  cases ty
  · simp only [wheel_primes, List.mem_cons, List.mem_singleton, List.not_mem_nil, or_false]
    constructor
    · rintro (rfl | rfl | rfl)
      · exact ⟨h2, Or.inl rfl⟩
      · exact ⟨h3, Or.inr (by decide)⟩
      · exact ⟨h5, Or.inr (by decide)⟩
    · rintro ⟨hp, rfl | hd⟩
      · exact Or.inl rfl
      · have e : 30 = 2 * (3 * 5) := by norm_num
        rw [e] at hd
        rcases (Nat.Prime.dvd_mul hp).1 hd with h | h
        · exact Or.inl (prime_dvd_prime_eq _ _ hp h2 h)
        · rcases (Nat.Prime.dvd_mul hp).1 h with h | h
          · exact Or.inr (Or.inl (prime_dvd_prime_eq _ _ hp h3 h))
          · exact Or.inr (Or.inr (prime_dvd_prime_eq _ _ hp h5 h))
  · simp only [wheel_primes, List.mem_cons, List.mem_singleton, List.not_mem_nil, or_false]
    constructor
    · rintro (rfl | rfl | rfl | rfl)
      · exact ⟨h2, Or.inl rfl⟩
      · exact ⟨h3, Or.inr (by decide)⟩
      · exact ⟨h5, Or.inr (by decide)⟩
      · exact ⟨h7, Or.inr (by decide)⟩
    · rintro ⟨hp, rfl | hd⟩
      · exact Or.inl rfl
      · have e : 210 = 2 * (3 * (5 * 7)) := by norm_num
        rw [e] at hd
        rcases (Nat.Prime.dvd_mul hp).1 hd with h | h
        · exact Or.inl (prime_dvd_prime_eq _ _ hp h2 h)
        · rcases (Nat.Prime.dvd_mul hp).1 h with h | h
          · exact Or.inr (Or.inl (prime_dvd_prime_eq _ _ hp h3 h))
          · rcases (Nat.Prime.dvd_mul hp).1 h with h | h
            · exact Or.inr (Or.inr (Or.inl (prime_dvd_prime_eq _ _ hp h5 h)))
            · exact Or.inr (Or.inr (Or.inr (prime_dvd_prime_eq _ _ hp h7 h)))
  · simp only [wheel_primes, List.mem_cons, List.mem_singleton, List.not_mem_nil, or_false]
    constructor
    · rintro (rfl | rfl | rfl | rfl | rfl)
      · exact ⟨h2, Or.inl rfl⟩
      · exact ⟨h3, Or.inr (by decide)⟩
      · exact ⟨h5, Or.inr (by decide)⟩
      · exact ⟨h7, Or.inr (by decide)⟩
      · exact ⟨h11, Or.inr (by decide)⟩
    · rintro ⟨hp, rfl | hd⟩
      · exact Or.inl rfl
      · have e : 1155 = 3 * (5 * (7 * 11)) := by norm_num
        rw [e] at hd
        rcases (Nat.Prime.dvd_mul hp).1 hd with h | h
        · exact Or.inr (Or.inl (prime_dvd_prime_eq _ _ hp h3 h))
        · rcases (Nat.Prime.dvd_mul hp).1 h with h | h
          · exact Or.inr (Or.inr (Or.inl (prime_dvd_prime_eq _ _ hp h5 h)))
          · rcases (Nat.Prime.dvd_mul hp).1 h with h | h
            · exact Or.inr (Or.inr (Or.inr (Or.inl (prime_dvd_prime_eq _ _ hp h7 h))))
            · exact Or.inr (Or.inr (Or.inr (Or.inr (prime_dvd_prime_eq _ _ hp h11 h))))

/-- The wheel primes are at least 3. -/
theorem wheel_primes_ge (ty : WheelType) (p : Nat) (h : p ∈ wheel_primes ty) : 3 ≤ p := by
  cases ty <;> simp [wheel_primes] at h <;> omega

/-- The members of the prefix chunk are 2 and the wheel primes that lie in `[from, to)`. -/
theorem prefix_primes_mem (from_ to_ : Nat) (ty : WheelType) (p : Nat) :
    p ∈ prefix_primes from_ to_ ty ↔
      ((p = 2 ∨ p ∈ wheel_primes ty) ∧ from_ ≤ p ∧ p < to_) := by
  unfold prefix_primes
  rw [List.mem_append, List.mem_filter]
  constructor
  · rintro (h | ⟨h1, h2⟩)
    · split at h
      · rename_i hc
        rw [List.mem_singleton] at h
        subst h
        exact ⟨Or.inl rfl, by omega, by omega⟩
      · exact absurd h (List.not_mem_nil _)
    · have := of_decide_eq_true h2
      exact ⟨Or.inr h1, by omega, by omega⟩
  · rintro ⟨h | h, h1, h2⟩
    · subst h
      left
      rw [if_pos ⟨h1, h2⟩]
      exact List.mem_singleton.2 rfl
    · right
      exact ⟨h, decide_eq_true ⟨h1, h2⟩⟩

/-! ## The parser on decimal numerals -/

theorem digit_char_toNat (d : Nat) (h : d < 10) : (digit_char d).toNat = 48 + d := by
  interval_cases d <;> rfl

theorem digit_value_digit_char (d : Nat) (h : d < 10) : digit_value (digit_char d) = some d := by
  interval_cases d <;> rfl

theorem is_space_digit_char (d : Nat) (h : d < 10) : is_space (digit_char d) = false := by
  interval_cases d <;> rfl

/-- On a run of decimal digits, `scan_digits` reads all of them. -/
theorem scan_digits_text (base : Nat) (ds : List Nat) (hd : ∀ d ∈ ds, d < 10 ∧ d < base)
    (acc n : Nat) :
    scan_digits base (ds.map digit_char) acc n =
      (ds.foldl (fun a d => a * base + d) acc, n + ds.length) := by
  induction ds generalizing acc n with
  | nil => rfl
  | cons d ds ih =>
    have h1 := hd d (List.mem_cons_self _ _)
    simp only [List.map_cons, scan_digits, digit_value_digit_char d h1.1, if_pos h1.2,
      List.foldl_cons, List.length_cons]
    rw [ih (fun x hx => hd x (List.mem_cons_of_mem _ hx))]
    congr 1
    omega

/-- The loop of the exponent form multiplies by ten as long as the result fits 64 bits. -/
theorem scale_loop_spec (e r : Nat) (hr : r < 2 ^ 64) :
    scale_loop e r = if r * 10 ^ e < 2 ^ 64 then some (r * 10 ^ e) else none := by
  induction e generalizing r with
  | zero =>
    have hr2 : r * 10 ^ 0 < 2 ^ 64 := by simpa using hr
    rw [if_pos hr2]
    simp [scale_loop]
  | succ e ih =>
    unfold scale_loop
    have hq : (2 ^ 64 - 1) / 10 = 1844674407370955161 := by norm_num
    rw [hq]
    have hpow : r * 10 ^ (e + 1) = r * 10 * 10 ^ e := by ring
    by_cases hbig : r > 1844674407370955161
    · rw [if_pos hbig]
      have h1 : 2 ^ 64 ≤ r * 10 := by norm_num; omega
      have h2 : r * 10 * 1 ≤ r * 10 * 10 ^ e :=
        Nat.mul_le_mul_left _ (Nat.one_le_pow _ _ (by norm_num))
      have h3 : ¬ (r * 10 ^ (e + 1) < 2 ^ 64) := by rw [hpow]; omega
      rw [if_neg h3]
    · rw [if_neg hbig]
      have h1 : r * 10 < 2 ^ 64 := by norm_num; omega
      rw [mul64_eq h1, ih (r * 10) h1, hpow]

theorem find_first_of_eE_text (ms : List Nat) (hm : ∀ d ∈ ms, d < 10) (rest : List Char) :
    find_first_of_eE (ms.map digit_char ++ 'e' :: rest) = some ms.length := by
  unfold find_first_of_eE
  induction ms with
  | nil => rfl
  | cons d ds ih =>
    have h1 := hm d (List.mem_cons_self _ _)
    have hne : (decide ((digit_char d).toNat = 101) || decide ((digit_char d).toNat = 69))
        = false := by
      rw [digit_char_toNat d h1]
      simp only [Bool.or_eq_false_iff, decide_eq_false_iff_not]
      omega
    simp only [List.map_cons, List.cons_append, List.findIdx?_cons, hne]
    simp only [Bool.false_eq_true, if_false]
    rw [List.findIdx?_succ, ih (fun x hx => hm x (List.mem_cons_of_mem _ hx))]
    rfl

theorem takeWhile_space_text (d : Nat) (h : d < 10) (rest : List Char) :
    (digit_char d :: rest).takeWhile is_space = [] := by
  rw [List.takeWhile_cons, is_space_digit_char d h]
  rfl

theorem scan_sign_text (d : Nat) (h : d < 10) (rest : List Char) :
    scan_sign (digit_char d :: rest) = (false, 0) := by
  unfold scan_sign
  simp only [digit_char_toNat d h]
  rw [if_neg (by omega), if_neg (by omega)]

theorem has_hex_prefix_text (ds : List Nat) (hd : ∀ d ∈ ds, d < 10) :
    has_hex_prefix (ds.map digit_char) = false := by
  match ds, hd with
  | [], _ => rfl
  | [_], _ => rfl
  | [_, _], _ => rfl
  | d0 :: d1 :: d2 :: rest, hd =>
    have h1 : d1 < 10 := hd d1 (by simp)
    simp only [List.map_cons, has_hex_prefix, digit_char_toNat d1 h1]
    have e1 : decide (48 + d1 = 120) = false := decide_eq_false (by omega)
    have e2 : decide (48 + d1 = 88) = false := decide_eq_false (by omega)
    rw [e1, e2]
    simp

/-- A run of decimal digits read in base 10. -/
theorem scan_integer_decimal (ds : List Nat) (hne : ds ≠ []) (hd : ∀ d ∈ ds, d < 10) :
    scan_integer (ds.map digit_char) 10 =
      some { negative := false, magnitude := decimal_value ds, idx := ds.length } := by
  cases ds with
  | nil => exact absurd rfl hne
  | cons d ds =>
    have h1 := hd d (List.mem_cons_self _ _)
    have hs := scan_digits_text 10 (d :: ds) (fun x hx => ⟨hd x hx, hd x hx⟩) 0 0
    have hb : scan_base 10 (digit_char d :: ds.map digit_char) = (10, 0) := by
      unfold scan_base
      rw [if_neg (fun h => absurd h.1 (by decide)), if_neg (by decide)]
    simp only [List.map_cons] at hs
    unfold scan_integer
    simp only [List.map_cons, takeWhile_space_text d h1, List.length_nil, List.drop_zero,
      scan_sign_text d h1, hb, hs]
    simp [decimal_value]

/-- A minus sign and a run of decimal digits read in base 10. -/
theorem scan_integer_negative (ds : List Nat) (hne : ds ≠ []) (hd : ∀ d ∈ ds, d < 10) :
    scan_integer ('-' :: ds.map digit_char) 10 =
      some { negative := true, magnitude := decimal_value ds, idx := ds.length + 1 } := by
  cases ds with
  | nil => exact absurd rfl hne
  | cons d ds =>
    have h1 := hd d (List.mem_cons_self _ _)
    have hs := scan_digits_text 10 (d :: ds) (fun x hx => ⟨hd x hx, hd x hx⟩) 0 0
    have hb : scan_base 10 (digit_char d :: ds.map digit_char) = (10, 0) := by
      unfold scan_base
      rw [if_neg (fun h => absurd h.1 (by decide)), if_neg (by decide)]
    have hw : ('-' :: digit_char d :: ds.map digit_char).takeWhile is_space = [] := rfl
    have hsg : scan_sign ('-' :: digit_char d :: ds.map digit_char) = (true, 1) := rfl
    simp only [List.map_cons] at hs
    unfold scan_integer
    simp only [List.map_cons, hw, List.length_nil, List.drop_zero, hsg, List.drop_succ_cons,
      hb, hs]
    simp [decimal_value]
    omega

/-- A decimal numeral read with base 0. -/
theorem scan_integer_numeral (ds : List Nat) (h : Numeral ds) :
    scan_integer (ds.map digit_char) 0 =
      some { negative := false, magnitude := decimal_value ds, idx := ds.length } := by
  obtain ⟨hne, hd, hz⟩ := h
  cases ds with
  | nil => exact absurd rfl hne
  | cons d ds =>
    have h1 := hd d (List.mem_cons_self _ _)
    have hx := has_hex_prefix_text (d :: ds) hd
    simp only [List.map_cons] at hx
    by_cases h0 : d = 0
    · have e : d :: ds = [0] := hz (by rw [h0]; rfl)
      rw [e]
      rfl
    · have hzp : has_zero_prefix (digit_char d :: ds.map digit_char) = false := by
        unfold has_zero_prefix
        simp only [digit_char_toNat d h1]
        exact decide_eq_false (by omega)
      have hs := scan_digits_text 10 (d :: ds) (fun x hx => ⟨hd x hx, hd x hx⟩) 0 0
      have hb : scan_base 0 (digit_char d :: ds.map digit_char) = (10, 0) := by
        unfold scan_base
        rw [hx, hzp]
        simp
      simp only [List.map_cons] at hs
      unfold scan_integer
      simp only [List.map_cons, takeWhile_space_text d h1, List.length_nil, List.drop_zero,
        scan_sign_text d h1, hb, hs]
      simp [decimal_value]

theorem text_take (ms : List Nat) (c : Char) (rest : List Char) :
    (ms.map digit_char ++ c :: rest).take ms.length = ms.map digit_char := by
  have h : ms.length = (ms.map digit_char).length := (List.length_map _ _).symm
  rw [h, List.take_left]

theorem text_drop (ms : List Nat) (c : Char) (rest : List Char) :
    (ms.map digit_char ++ c :: rest).drop (ms.length + 1) = rest := by
  have h : ms.length = (ms.map digit_char).length := (List.length_map _ _).symm
  rw [← List.drop_drop, h, List.drop_left]
  rfl

theorem text_isEmpty (ms : List Nat) (h : ms ≠ []) : (ms.map digit_char).isEmpty = false := by
  cases ms with
  | nil => exact absurd rfl h
  | cons d ds => rfl

theorem stoull_numeral (ms : List Nat) (hm : Numeral ms) (hmv : decimal_value ms < 2 ^ 64) :
    stoull (ms.map digit_char) 0 = Sto.value (decimal_value ms) ms.length := by
  unfold stoull
  rw [scan_integer_numeral ms hm]
  have h1 : ¬ (decimal_value ms ≥ 2 ^ 64) := Nat.not_le.2 hmv
  simp only [Bool.false_eq_true, if_false, if_neg h1]

theorem stoll_decimal (es : List Nat) (hne : es ≠ []) (hd : ∀ d ∈ es, d < 10)
    (hv : decimal_value es < 2 ^ 63) :
    stoll (es.map digit_char) 10 = Sto.value (decimal_value es : Int) es.length := by
  unfold stoll
  rw [scan_integer_decimal es hne hd]
  have h1 : ¬ (decimal_value es ≥ 2 ^ 63) := Nat.not_le.2 hv
  simp only [Bool.false_eq_true, if_false, if_neg h1]

theorem stoll_decimal_large (es : List Nat) (hne : es ≠ []) (hd : ∀ d ∈ es, d < 10)
    (hv : 2 ^ 63 ≤ decimal_value es) :
    stoll (es.map digit_char) 10 = Sto.out_of_range := by
  unfold stoll
  rw [scan_integer_decimal es hne hd]
  have h1 : decimal_value es ≥ 2 ^ 63 := hv
  simp only [Bool.false_eq_true, if_false, if_pos h1]

theorem stoll_negative (es : List Nat) (hne : es ≠ []) (hd : ∀ d ∈ es, d < 10) :
    stoll ('-' :: es.map digit_char) 10 =
      if decimal_value es > 2 ^ 63 then Sto.out_of_range
      else Sto.value (- (decimal_value es : Int)) (es.length + 1) := by
  unfold stoll
  rw [scan_integer_negative es hne hd]
  simp

/-- The exponent form with a numeral mantissa that fits 64 bits and an exponent that fits
`long long`: the product when it fits 64 bits, and `integer too large` otherwise. -/
theorem parse_u64_exponent (ms es : List Nat) (hm : Numeral ms)
    (hmv : decimal_value ms < 2 ^ 64) (hne : es ≠ []) (hd : ∀ d ∈ es, d < 10)
    (hv : decimal_value es < 2 ^ 63) :
    parse_u64 (ms.map digit_char ++ 'e' :: es.map digit_char) =
      if decimal_value ms * 10 ^ decimal_value es < 2 ^ 64 then
        Parsed.value (decimal_value ms * 10 ^ decimal_value es)
      else Parsed.integer_too_large := by
  have hemp : (ms.map digit_char ++ 'e' :: es.map digit_char).isEmpty = false := by
    cases ms <;> rfl
  unfold parse_u64
  rw [hemp]
  simp only [Bool.false_eq_true, if_false, find_first_of_eE_text ms hm.2.1, text_take,
    text_drop, text_isEmpty ms hm.1, text_isEmpty es hne, or_self,
    stoull_numeral ms hm hmv, stoll_decimal es hne hd hv, List.length_map, ne_eq,
    not_true_eq_false]
  rw [if_neg (by omega), Int.toNat_ofNat, scale_loop_spec _ _ hmv]
  by_cases hfit : decimal_value ms * 10 ^ decimal_value es < 2 ^ 64
  · simp only [if_pos hfit]
  · simp only [if_neg hfit]

/-- The exponent form with an exponent that `long long` cannot hold is rejected as an
invalid integer. -/
theorem parse_u64_exponent_large (ms es : List Nat) (hm : Numeral ms)
    (hmv : decimal_value ms < 2 ^ 64) (hne : es ≠ []) (hd : ∀ d ∈ es, d < 10)
    (hv : 2 ^ 63 ≤ decimal_value es) :
    parse_u64 (ms.map digit_char ++ 'e' :: es.map digit_char) = Parsed.invalid_integer := by
  have hemp : (ms.map digit_char ++ 'e' :: es.map digit_char).isEmpty = false := by
    cases ms <;> rfl
  unfold parse_u64
  rw [hemp]
  simp only [Bool.false_eq_true, if_false, find_first_of_eE_text ms hm.2.1, text_take,
    text_drop, text_isEmpty ms hm.1, text_isEmpty es hne, or_self,
    stoull_numeral ms hm hmv, stoll_decimal_large es hne hd hv, List.length_map, ne_eq,
    not_true_eq_false]

/-- The exponent form with a negative exponent is rejected as an invalid integer. -/
theorem parse_u64_exponent_negative (ms es : List Nat) (hm : ∀ d ∈ ms, d < 10)
    (hne : es ≠ []) (hd : ∀ d ∈ es, d < 10) (hv : 0 < decimal_value es) :
    parse_u64 (ms.map digit_char ++ 'e' :: '-' :: es.map digit_char) =
      Parsed.invalid_integer := by
  have hemp : (ms.map digit_char ++ 'e' :: '-' :: es.map digit_char).isEmpty = false := by
    cases ms <;> rfl
  unfold parse_u64
  rw [hemp]
  simp only [Bool.false_eq_true, if_false, find_first_of_eE_text ms hm, text_take,
    text_drop, stoll_negative es hne hd]
  split
  · rfl
  · cases stoull (ms.map digit_char) 0 with
    | value mantissa mantissa_idx =>
      simp only
      split
      · rfl
      · by_cases hbig : decimal_value es > 2 ^ 63
        · simp only [if_pos hbig]
        · simp only [if_neg hbig]
          split
          · rfl
          · have hneg : (- (decimal_value es : Int)) < 0 := by omega
            simp only [if_pos hneg]
    | invalid_argument => rfl
    | out_of_range => rfl

/-- The exponent form with an empty mantissa is rejected as an invalid integer. -/
theorem parse_u64_empty_mantissa (rest : List Char) :
    parse_u64 ('e' :: rest) = Parsed.invalid_integer := by
  unfold parse_u64
  have h : find_first_of_eE ('e' :: rest) = some 0 := rfl
  simp only [h, List.isEmpty_cons, Bool.false_eq_true, if_false, List.take_zero,
    List.isEmpty_nil, true_or, if_true]

/-- The exponent form with an empty exponent is rejected as an invalid integer. -/
theorem parse_u64_empty_exponent (ms : List Nat) (hm : ∀ d ∈ ms, d < 10) :
    parse_u64 (ms.map digit_char ++ ['e']) = Parsed.invalid_integer := by
  have hemp : (ms.map digit_char ++ ['e']).isEmpty = false := by
    cases ms <;> rfl
  unfold parse_u64
  rw [hemp]
  simp only [Bool.false_eq_true, if_false, find_first_of_eE_text ms hm, text_drop,
    List.isEmpty_nil, or_true, if_true]

/-! ## What the constructor of the marker stores -/

/-- The constructor loop appends, in the order of the sieving primes: to the small primes
those from 3 up to the limit, to the medium primes those above the limit up to half a
segment span, and to the large template the others; the cursors start at the first hit
from `range_begin`. -/
theorem classify_primes_lists (wheel : Wheel) (config : SegmentConfig) (rb lim : Nat)
    (ps : List Nat) (m : PrimeMarker) :
    (classify_primes wheel config rb lim ps m).small_primes =
        m.small_primes ++ ps.filter (fun p => decide (3 ≤ p ∧ p ≤ lim)) ∧
      (classify_primes wheel config rb lim ps m).small_initial =
        m.small_initial ++
          (ps.filter (fun p => decide (3 ≤ p ∧ p ≤ lim))).map (fun p => first_hit p rb) ∧
      (classify_primes wheel config rb lim ps m).small_prime_patterns =
        m.small_prime_patterns ++
          (ps.filter (fun p => decide (3 ≤ p ∧ p ≤ lim))).map (find_small_pattern wheel) ∧
      (classify_primes wheel config rb lim ps m).medium_primes =
        m.medium_primes ++
          ps.filter (fun p => decide (3 ≤ p ∧ ¬ p ≤ lim ∧ p ≤ config.segment_span / 2)) ∧
      (classify_primes wheel config rb lim ps m).medium_initial =
        m.medium_initial ++
          (ps.filter (fun p => decide (3 ≤ p ∧ ¬ p ≤ lim ∧ p ≤ config.segment_span / 2))).map
            (fun p => first_hit p rb) ∧
      (classify_primes wheel config rb lim ps m).large_primes_template =
        m.large_primes_template ++
          (ps.filter (fun p => decide (3 ≤ p ∧ ¬ p ≤ lim ∧ ¬ p ≤ config.segment_span / 2))).map
            (fun p => LargePrimeState.mk p (first_hit p rb) (mul64 p 2)) := by
  induction ps generalizing m with
  | nil => simp [classify_primes]
  | cons p ps ih =>
    unfold classify_primes
    simp only
    by_cases h1 : p < 2
    · rw [if_pos h1]
      have hs : decide (3 ≤ p ∧ p ≤ lim) = false := decide_eq_false (by omega)
      have hm : decide (3 ≤ p ∧ ¬ p ≤ lim ∧ p ≤ config.segment_span / 2) = false :=
        decide_eq_false (by omega)
      have hl : decide (3 ≤ p ∧ ¬ p ≤ lim ∧ ¬ p ≤ config.segment_span / 2) = false :=
        decide_eq_false (by omega)
      simp only [List.filter_cons, hs, hm, hl]
      exact ih m
    · rw [if_neg h1]
      by_cases h2 : p = 2
      · rw [if_pos h2]
        have hs : decide (3 ≤ p ∧ p ≤ lim) = false := decide_eq_false (by omega)
        have hm : decide (3 ≤ p ∧ ¬ p ≤ lim ∧ p ≤ config.segment_span / 2) = false :=
          decide_eq_false (by omega)
        have hl : decide (3 ≤ p ∧ ¬ p ≤ lim ∧ ¬ p ≤ config.segment_span / 2) = false :=
          decide_eq_false (by omega)
        simp only [List.filter_cons, hs, hm, hl]
        exact ih m
      · rw [if_neg h2]
        have h3 : 3 ≤ p := by omega
        by_cases h4 : p ≤ lim
        · rw [if_pos h4]
          have hs : decide (3 ≤ p ∧ p ≤ lim) = true := decide_eq_true ⟨h3, h4⟩
          have hm : decide (3 ≤ p ∧ ¬ p ≤ lim ∧ p ≤ config.segment_span / 2) = false :=
            decide_eq_false (fun h => h.2.1 h4)
          have hl : decide (3 ≤ p ∧ ¬ p ≤ lim ∧ ¬ p ≤ config.segment_span / 2) = false :=
            decide_eq_false (fun h => h.2.1 h4)
          simp only [List.filter_cons, hs, hm, hl]
          obtain ⟨a1, a2, a3, a4, a5, a6⟩ := ih
            { m with
              small_primes := m.small_primes ++ [p]
              small_initial := m.small_initial ++ [first_hit p rb]
              small_prime_patterns := m.small_prime_patterns ++ [find_small_pattern wheel p] }
          rw [a1, a2, a3, a4, a5, a6]
          simp
        · rw [if_neg h4]
          by_cases h5 : p ≤ config.segment_span / 2
          · rw [if_pos h5]
            have hs : decide (3 ≤ p ∧ p ≤ lim) = false := decide_eq_false (fun h => h4 h.2)
            have hm : decide (3 ≤ p ∧ ¬ p ≤ lim ∧ p ≤ config.segment_span / 2) = true :=
              decide_eq_true ⟨h3, h4, h5⟩
            have hl : decide (3 ≤ p ∧ ¬ p ≤ lim ∧ ¬ p ≤ config.segment_span / 2) = false :=
              decide_eq_false (fun h => h.2.2 h5)
            simp only [List.filter_cons, hs, hm, hl]
            obtain ⟨a1, a2, a3, a4, a5, a6⟩ := ih
              { m with
                medium_primes := m.medium_primes ++ [p]
                medium_initial := m.medium_initial ++ [first_hit p rb] }
            rw [a1, a2, a3, a4, a5, a6]
            simp
          · rw [if_neg h5]
            have hs : decide (3 ≤ p ∧ p ≤ lim) = false := decide_eq_false (fun h => h4 h.2)
            have hm : decide (3 ≤ p ∧ ¬ p ≤ lim ∧ p ≤ config.segment_span / 2) = false :=
              decide_eq_false (fun h => h5 h.2.2)
            have hl : decide (3 ≤ p ∧ ¬ p ≤ lim ∧ ¬ p ≤ config.segment_span / 2) = true :=
              decide_eq_true ⟨h3, h4, h5⟩
            simp only [List.filter_cons, hs, hm, hl]
            obtain ⟨a1, a2, a3, a4, a5, a6⟩ := ih
              { m with
                large_primes_template := m.large_primes_template ++
                  [{ prime := p, stride := mul64 p 2, next_value := first_hit p rb }] }
            rw [a1, a2, a3, a4, a5, a6]
            simp

/-! ## The marker built from a list of primes -/

/-- The fields of a freshly built marker. -/
theorem mk_marker_lists (wheel : Wheel) (config : SegmentConfig) (rb re lim : Nat)
    (ps : List Nat) :
    (PrimeMarker.mk_marker wheel config rb re ps lim).small_primes =
        ps.filter (fun p => decide (3 ≤ p ∧ p ≤ lim)) ∧
      (PrimeMarker.mk_marker wheel config rb re ps lim).small_initial =
        (ps.filter (fun p => decide (3 ≤ p ∧ p ≤ lim))).map (fun p => first_hit p rb) ∧
      (PrimeMarker.mk_marker wheel config rb re ps lim).small_prime_patterns =
        (ps.filter (fun p => decide (3 ≤ p ∧ p ≤ lim))).map (find_small_pattern wheel) ∧
      (PrimeMarker.mk_marker wheel config rb re ps lim).medium_primes =
        ps.filter (fun p => decide (3 ≤ p ∧ ¬ p ≤ lim ∧ p ≤ config.segment_span / 2)) ∧
      (PrimeMarker.mk_marker wheel config rb re ps lim).medium_initial =
        (ps.filter (fun p => decide (3 ≤ p ∧ ¬ p ≤ lim ∧ p ≤ config.segment_span / 2))).map
          (fun p => first_hit p rb) ∧
      (PrimeMarker.mk_marker wheel config rb re ps lim).large_primes_template =
        (ps.filter (fun p => decide (3 ≤ p ∧ ¬ p ≤ lim ∧ ¬ p ≤ config.segment_span / 2))).map
          (fun p => LargePrimeState.mk p (first_hit p rb) (mul64 p 2)) := by
  unfold PrimeMarker.mk_marker
  have h := classify_primes_lists wheel config rb lim ps
    { wheel := wheel, config := config, range_begin := rb, range_end := re
      small_primes := [], small_initial := [], small_prime_patterns := []
      medium_primes := [], medium_initial := [], large_primes_template := [] }
  simp only [List.nil_append] at h
  exact h

/-- A marker built from odd primes below `2 ^ 32` (and possibly 2) with a well-formed
configuration is well formed, its cursors start at the first hits from `range_begin`, and
every sieving prime from 3 on is a small, a medium or a large prime of it. -/
theorem mk_marker_ok (ty : WheelType) (config : SegmentConfig) (rb re lim : Nat)
    (ps : List Nat) (hc : ConfigOK config)
    (hps : ∀ p ∈ ps, p < 2 ^ 32 ∧ (3 ≤ p → p % 2 = 1)) :
    MarkerOK ty (PrimeMarker.mk_marker (get_wheel ty) config rb re ps lim) ∧
      LargeOK (PrimeMarker.mk_marker (get_wheel ty) config rb re ps lim) ∧
      (PrimeMarker.mk_marker (get_wheel ty) config rb re ps lim).small_initial =
        (PrimeMarker.mk_marker (get_wheel ty) config rb re ps lim).small_primes.map
          (fun p => first_hit p rb) ∧
      (PrimeMarker.mk_marker (get_wheel ty) config rb re ps lim).medium_initial =
        (PrimeMarker.mk_marker (get_wheel ty) config rb re ps lim).medium_primes.map
          (fun p => first_hit p rb) ∧
      (∀ p, p ∈ ps → 3 ≤ p →
        (p ∈ (PrimeMarker.mk_marker (get_wheel ty) config rb re ps lim).small_primes ++
            (PrimeMarker.mk_marker (get_wheel ty) config rb re ps lim).medium_primes ∨
          ∃ lp ∈ (PrimeMarker.mk_marker (get_wheel ty) config rb re ps lim).large_primes_template,
            lp.prime = p)) ∧
      (∀ p, (p ∈ (PrimeMarker.mk_marker (get_wheel ty) config rb re ps lim).small_primes ++
            (PrimeMarker.mk_marker (get_wheel ty) config rb re ps lim).medium_primes ∨
          ∃ lp ∈ (PrimeMarker.mk_marker (get_wheel ty) config rb re ps lim).large_primes_template,
            lp.prime = p) → p ∈ ps ∧ 3 ≤ p) := by
  obtain ⟨a1, a2, a3, a4, a5, a6⟩ := mk_marker_lists (get_wheel ty) config rb re lim ps
  have hrb := mk_marker_range_begin (get_wheel ty) config rb re ps lim
  have hcfg := mk_marker_config (get_wheel ty) config rb re ps lim
  refine ⟨⟨mk_marker_wheel _ _ _ _ _ _, ?_, ?_, ?_, ?_⟩, ?_, ?_, ?_, ?_, ?_⟩
  · rw [hcfg]; exact hc
  · rw [a3, a1]
  · intro p hp
    rw [a1, List.mem_filter] at hp
    have h := of_decide_eq_true hp.2
    have h2 := hps p hp.1
    exact ⟨h.1, h2.2 h.1, h2.1⟩
  · intro p hp
    rw [a4, List.mem_filter] at hp
    have h := of_decide_eq_true hp.2
    have h2 := hps p hp.1
    exact ⟨h.1, h2.2 h.1, h2.1⟩
  · intro lp hlp
    rw [a6, List.mem_map] at hlp
    obtain ⟨p, hp, rfl⟩ := hlp
    rw [List.mem_filter] at hp
    have h := of_decide_eq_true hp.2
    have h2 := hps p hp.1
    rw [hcfg, hrb]
    refine ⟨⟨h.1, h2.2 h.1, h2.1⟩, mul64_two p h2.1, ?_, rfl⟩
    have := h.2.2
    show config.segment_span < 2 * p
    omega
  · rw [a2, a1]
  · rw [a5, a4]
  · intro p hp h3
    rw [a1, a4, a6]
    by_cases hs : p ≤ lim
    · left
      exact List.mem_append_left _ (List.mem_filter.2 ⟨hp, decide_eq_true ⟨h3, hs⟩⟩)
    · by_cases hm : p ≤ config.segment_span / 2
      · left
        exact List.mem_append_right _ (List.mem_filter.2 ⟨hp, decide_eq_true ⟨h3, hs, hm⟩⟩)
      · right
        exact ⟨_, List.mem_map.2 ⟨p, List.mem_filter.2 ⟨hp, decide_eq_true ⟨h3, hs, hm⟩⟩, rfl⟩,
          rfl⟩
  · intro p hp
    rw [a1, a4, a6] at hp
    rcases hp with hp | ⟨lp, hlp, rfl⟩
    · rcases List.mem_append.1 hp with h | h
      · have h1 := List.mem_filter.1 h
        exact ⟨h1.1, (of_decide_eq_true h1.2).1⟩
      · have h1 := List.mem_filter.1 h
        exact ⟨h1.1, (of_decide_eq_true h1.2).1⟩
    · obtain ⟨q, hq, rfl⟩ := List.mem_map.1 hlp
      have h1 := List.mem_filter.1 hq
      exact ⟨h1.1, (of_decide_eq_true h1.2).1⟩

/-! ## The entries scheduled for the large states -/

theorem filterMap_range_congr {β : Type} (f g : Nat → Option β) (n : Nat)
    (h : ∀ i, i < n → f i = g i) :
    (List.range n).filterMap f = (List.range n).filterMap g := by
  induction n with
  | zero => rfl
  | succ n ih =>
    rw [List.range_succ, List.filterMap_append, List.filterMap_append,
      ih (fun i hi => h i (by omega))]
    simp only [List.filterMap_cons, List.filterMap_nil, h n (by omega)]

/-- The image of `range n` under a partial map splits into the image of one index and the
image of the others. -/
theorem filterMap_range_split {β : Type} (f : Nat → Option β) (n o : Nat) (ho : o < n) :
    List.Perm ((List.range n).filterMap f)
      ((f o).toList ++ (List.range n).filterMap (fun i => if i = o then none else f i)) := by
  induction n with
  | zero => omega
  | succ n ih =>
    rw [List.range_succ, List.filterMap_append, List.filterMap_append]
    by_cases hn : o = n
    · subst hn
      have e1 : (List.range o).filterMap (fun i => if i = o then none else f i) =
          (List.range o).filterMap f :=
        filterMap_range_congr _ _ _ (fun i hi => by rw [if_neg (by omega)])
      rw [e1]
      simp only [List.filterMap_cons, List.filterMap_nil, if_true]
      cases hf : f o with
      | none => simp
      | some b =>
        simp only [Option.toList, List.append_nil]
        exact (List.perm_append_comm).trans (List.Perm.refl _)
    · have h1 := ih (by omega)
      have e2 : (if n = o then none else f n) = f n := by rw [if_neg (by omega)]
      simp only [List.filterMap_cons, List.filterMap_nil, e2]
      rw [← List.append_assoc]
      exact List.Perm.append_right _ h1

theorem set_next_value_length (l : List LargePrimeState) (o v : Nat) :
    (set_next_value l o v).length = l.length := by
  induction l generalizing o with
  | nil => rfl
  | cons a l ih =>
    cases o with
    | zero => rfl
    | succ o => simp [set_next_value, ih]

theorem set_next_value_get (l : List LargePrimeState) (o v i : Nat) :
    (set_next_value l o v)[i]? =
      if i = o then (l[i]?).map (fun lp => { lp with next_value := v }) else l[i]? := by
  induction l generalizing o i with
  | nil => simp [set_next_value]
  | cons a l ih =>
    cases o with
    | zero =>
      cases i with
      | zero => simp [set_next_value]
      | succ i => simp [set_next_value]
    | succ o =>
      cases i with
      | zero => simp [set_next_value]
      | succ i =>
        simp only [set_next_value, List.getElem?_cons_succ, ih]
        by_cases h : i = o
        · simp [h]
        · simp [h]

/-- A map that takes the replaced state to the image of the old one does not see the
replacement. -/
theorem set_next_value_map (l : List LargePrimeState) (o v : Nat)
    (f : LargePrimeState → LargePrimeState) (lp : LargePrimeState) (ho : l[o]? = some lp)
    (h1 : f { lp with next_value := v } = f lp) :
    (set_next_value l o v).map f = l.map f := by
  apply List.ext_getElem?
  intro i
  rw [List.getElem?_map, List.getElem?_map, set_next_value_get]
  by_cases h : i = o
  · subst h
    rw [if_pos rfl, ho]
    simp only [Option.map_some']
    rw [h1]
  · rw [if_neg h]

theorem entry_of_fields (m : PrimeMarker) (o : Nat) (lp : LargePrimeState) :
    (entry_of m o lp).owner = some o ∧ (entry_of m o lp).value = lp.next_value ∧
      (entry_of m o lp).prime = lp.prime ∧
      (entry_of m o lp).next_index = sub64 lp.next_value m.range_begin / m.config.segment_span ∧
      (schedule_entry m lp.prime lp.next_value (some o)).1 =
        sub64 lp.next_value m.range_begin / m.config.segment_span :=
  ⟨rfl, rfl, rfl, rfl, rfl⟩

theorem mem_scheduled (m : PrimeMarker) (large : List LargePrimeState) (e : BucketEntry) :
    e ∈ scheduled m large ↔
      ∃ o lp, large[o]? = some lp ∧ lp.next_value < m.range_end ∧ e = entry_of m o lp := by
  unfold scheduled
  rw [List.mem_filterMap]
  constructor
  · rintro ⟨o, ho, h⟩
    cases hl : large[o]? with
    | none => rw [hl] at h; simp at h
    | some lp =>
      rw [hl] at h
      simp only at h
      by_cases hlt : lp.next_value < m.range_end
      · rw [if_pos hlt] at h
        exact ⟨o, lp, hl, hlt, (Option.some.inj h).symm⟩
      · rw [if_neg hlt] at h
        simp at h
  · rintro ⟨o, lp, hl, hlt, rfl⟩
    refine ⟨o, ?_, ?_⟩
    · rw [List.mem_range]
      exact (List.getElem?_eq_some_iff.1 hl).1
    · rw [hl]
      simp only [if_pos hlt]

/-- The scheduled entries are that of the state at index `o`, when it is below the end of
the range, and those of the other states, which a new next value at `o` leaves alone. -/
theorem scheduled_split (m : PrimeMarker) (large : List LargePrimeState) (o : Nat)
    (lp : LargePrimeState) (ho : large[o]? = some lp) :
    ∃ rest, List.Perm (scheduled m large)
        ((if lp.next_value < m.range_end then [entry_of m o lp] else []) ++ rest) ∧
      ∀ v, List.Perm (scheduled m (set_next_value large o v))
        ((if v < m.range_end then [entry_of m o { lp with next_value := v }] else []) ++
          rest) := by
  have hlen : o < large.length := (List.getElem?_eq_some_iff.1 ho).1
  refine ⟨(List.range large.length).filterMap (fun i => if i = o then none else
    match large[i]? with
    | some lp => if lp.next_value < m.range_end then some (entry_of m i lp) else none
    | none => none), ?_, ?_⟩
  · have h := filterMap_range_split (fun o =>
      match large[o]? with
      | some lp => if lp.next_value < m.range_end then some (entry_of m o lp) else none
      | none => none) large.length o hlen
    simp only [ho] at h
    unfold scheduled
    by_cases hlt : lp.next_value < m.range_end
    · simp only [if_pos hlt, Option.toList] at h ⊢
      exact h
    · simp only [if_neg hlt, Option.toList] at h ⊢
      exact h
  · intro v
    have hlen2 : o < (set_next_value large o v).length := by
      rw [set_next_value_length]; exact hlen
    have h := filterMap_range_split (fun i =>
      match (set_next_value large o v)[i]? with
      | some lp => if lp.next_value < m.range_end then some (entry_of m i lp) else none
      | none => none) (set_next_value large o v).length o hlen2
    have hget : (set_next_value large o v)[o]? = some { lp with next_value := v } := by
      rw [set_next_value_get, if_pos rfl, ho]
      rfl
    simp only [hget] at h
    have hrest : (List.range (set_next_value large o v).length).filterMap
        (fun i => if i = o then none else
          match (set_next_value large o v)[i]? with
          | some lp => if lp.next_value < m.range_end then some (entry_of m i lp) else none
          | none => none) =
        (List.range large.length).filterMap (fun i => if i = o then none else
          match large[i]? with
          | some lp => if lp.next_value < m.range_end then some (entry_of m i lp) else none
          | none => none) := by
      rw [set_next_value_length]
      apply filterMap_range_congr
      intro i _
      by_cases hi : i = o
      · rw [if_pos hi, if_pos hi]
      · rw [if_neg hi, if_neg hi, set_next_value_get, if_neg hi]
    rw [hrest] at h
    unfold scheduled
    by_cases hlt : v < m.range_end
    · simp only [if_pos hlt, Option.toList] at h ⊢
      exact h
    · simp only [if_neg hlt, Option.toList] at h ⊢
      exact h

/-! ## The loop over the hits of a segment -/

theorem large_hits_loop_cons (m : PrimeMarker) (lo hi : Nat) (e : BucketEntry)
    (H : List BucketEntry) (R : BucketRing) (L : List LargePrimeState) (bits : List Nat)
    (o : Nat) (ho : e.owner = some o) :
    large_hits_loop m lo hi (e :: H) R L bits =
      if add64 e.value (L.getD o { prime := 0, next_value := 0, stride := 0 }).stride ≥
          m.range_end then
        large_hits_loop m lo hi H R
          (set_next_value L o
            (add64 e.value (L.getD o { prime := 0, next_value := 0, stride := 0 }).stride))
          (if e.value ≥ lo ∧ e.value < hi then set_bit bits (sub64 e.value lo >>> 1) else bits)
      else
        large_hits_loop m lo hi H
          (R.push
            (schedule_entry m (L.getD o { prime := 0, next_value := 0, stride := 0 }).prime
              (add64 e.value (L.getD o { prime := 0, next_value := 0, stride := 0 }).stride)
              (some o)).1
            (schedule_entry m (L.getD o { prime := 0, next_value := 0, stride := 0 }).prime
              (add64 e.value (L.getD o { prime := 0, next_value := 0, stride := 0 }).stride)
              (some o)).2)
          (set_next_value L o
            (add64 e.value (L.getD o { prime := 0, next_value := 0, stride := 0 }).stride))
          (if e.value ≥ lo ∧ e.value < hi then set_bit bits (sub64 e.value lo >>> 1)
            else bits) := by
  conv_lhs => unfold large_hits_loop
  simp only [ho]

/-- The segment index of a value of the range. -/
theorem segment_index_bounds (b span s v : Nat) (hspan : 0 < span) (hv : b ≤ v)
    (h : (v - b) / span = s) : b + s * span ≤ v ∧ v < b + s * span + span := by
  have h1 := Nat.div_add_mod (v - b) span
  have h2 := Nat.mod_lt (v - b) hspan
  rw [h, Nat.mul_comm] at h1
  omega

theorem segment_index_next (b span s v d : Nat) (hspan : 0 < span) (hv : b ≤ v)
    (h : (v - b) / span = s) (hd : span < d) : s < (v + d - b) / span := by
  have h1 := segment_index_bounds b span s v hspan hv h
  have h3 : (s + 1) * span ≤ v + d - b := by
    have e : (s + 1) * span = s * span + span := by ring
    omega
  exact (Nat.le_div_iff_mul_le hspan).2 h3

theorem segment_index_lt (b span v : Nat) (hspan : 2 ≤ span) (hb : 1 ≤ b)
    (hv : v ≤ 2 ^ 63) : (v - b) / span < 2 ^ 62 := by
  have h1 : (v - b) / span ≤ (v - b) / 2 := Nat.div_le_div_left hspan (by decide)
  have h2 : (v - b) / 2 < 2 ^ 62 := by omega
  omega

theorem set_next_value_mem (l : List LargePrimeState) (o v : Nat) (q : LargePrimeState)
    (hq : q ∈ set_next_value l o v) :
    q ∈ l ∨ ∃ lp, l[o]? = some lp ∧ q = { lp with next_value := v } := by
  obtain ⟨i, hi⟩ := List.mem_iff_getElem?.1 hq
  rw [set_next_value_get] at hi
  by_cases h : i = o
  · subst h
    rw [if_pos rfl] at hi
    cases hl : l[i]? with
    | none => rw [hl] at hi; simp at hi
    | some lp =>
      rw [hl] at hi
      simp only [Option.map_some', Option.some.injEq] at hi
      exact Or.inr ⟨lp, rfl, hi.symm⟩
  · rw [if_neg h] at hi
    exact Or.inl (List.mem_iff_getElem?.2 ⟨i, hi⟩)

/-- The loop over the hits of segment `s`: it sets the bit of every hit, moves every state
that is due in the segment on by its stride, and keeps in the ring one entry for every
state whose next value lies below the end of the range. -/
theorem large_hits_loop_spec (m : PrimeMarker) (s low high : Nat)
    (hspan : 2 ≤ m.config.segment_span) (hb : 1 ≤ m.range_begin)
    (hend : m.range_end ≤ 2 ^ 63 + 1)
    (hlow : low = m.range_begin + s * m.config.segment_span)
    (hhigh : high = Nat.min (low + m.config.segment_span) m.range_end)
    (H : List BucketEntry) (R : BucketRing) (L : List LargePrimeState) (bits : List Nat)
    (hR : RingOK R) (hJ : List.Perm (H ++ R.entries) (scheduled m L))
    (hH : ∀ e ∈ H, e.next_index = s) (hRs : ∀ e ∈ R.entries, e.next_index ≠ s)
    (hL : ∀ lp ∈ L, lp.stride < 2 ^ 33 ∧ m.config.segment_span < lp.stride ∧
      m.range_begin ≤ lp.next_value ∧ lp.next_value < 2 ^ 64) :
    RingOK (large_hits_loop m low high H R L bits).1 ∧
      List.Perm (large_hits_loop m low high H R L bits).1.entries
        (scheduled m (large_hits_loop m low high H R L bits).2.1) ∧
      (∀ e ∈ (large_hits_loop m low high H R L bits).1.entries, e.next_index ≠ s) ∧
      (large_hits_loop m low high H R L bits).2.1 = L.map (step_large m s) ∧
      (∀ idx, get_bit (large_hits_loop m low high H R L bits).2.2 idx = true ↔
        (get_bit bits idx = true ∨
          (idx / 64 < bits.length ∧ ∃ e ∈ H, (e.value - low) / 2 = idx))) := by
  induction H generalizing R L bits with
  | nil =>
    have e0 : large_hits_loop m low high [] R L bits = (R, L, bits) := by
      unfold large_hits_loop
      rfl
    rw [e0]
    simp only [List.nil_append] at hJ
    refine ⟨hR, hJ, hRs, ?_, ?_⟩
    · have hid : L.map (step_large m s) = L.map id := by
        apply List.map_congr_left
        intro lp hlp
        obtain ⟨o, ho⟩ := List.mem_iff_getElem?.1 hlp
        unfold step_large
        by_cases hc : lp.next_value < m.range_end ∧ (entry_of m 0 lp).next_index = s
        · exfalso
          have hmem : entry_of m o lp ∈ scheduled m L :=
            (mem_scheduled m L _).2 ⟨o, lp, ho, hc.1, rfl⟩
          exact hRs _ ((List.Perm.mem_iff hJ).2 hmem) hc.2
        · rw [if_neg hc]
          rfl
      rw [hid, List.map_id]
    · intro idx
      simp
  | cons e H ih =>
    have hemem : e ∈ scheduled m L :=
      (List.Perm.mem_iff hJ).1 (List.mem_append_left _ (List.mem_cons_self _ _))
    obtain ⟨o, lp, hget, hlt, he⟩ := (mem_scheduled m L e).1 hemem
    have hlpmem : lp ∈ L := List.mem_iff_getElem?.2 ⟨o, hget⟩
    obtain ⟨k1, k2, k3, k4⟩ := hL lp hlpmem
    have hseg0 := hH e (List.mem_cons_self _ _)
    have hval : e.value = lp.next_value := by rw [he]; rfl
    have hown : e.owner = some o := by rw [he]; rfl
    have hsub : sub64 lp.next_value m.range_begin = lp.next_value - m.range_begin :=
      sub64_eq k3 k4
    have hseg : (lp.next_value - m.range_begin) / m.config.segment_span = s := by
      rw [← hsub, ← hseg0, he]
      rfl
    obtain ⟨b1, b2⟩ := segment_index_bounds m.range_begin m.config.segment_span s
      lp.next_value (by omega) k3 hseg
    have hgetD : L.getD o { prime := 0, next_value := 0, stride := 0 } = lp := by
      rw [List.getD_eq_getElem?_getD, hget]
      rfl
    have hnext : add64 lp.next_value lp.stride = lp.next_value + lp.stride :=
      add64_eq (by omega)
    have hin : e.value ≥ low ∧ e.value < high := by
      rw [hval, hhigh, hlow]
      refine ⟨by omega, ?_⟩
      show lp.next_value < min _ _
      rw [← hlow]
      omega
    have hbit : sub64 e.value low >>> 1 = (e.value - low) / 2 := by
      rw [sub64_eq hin.1 (by rw [hval]; exact k4), Nat.shiftRight_eq_div_pow]
    have hsegn : s < (lp.next_value + lp.stride - m.range_begin) / m.config.segment_span :=
      segment_index_next _ _ _ _ _ (by omega) k3 hseg k2
    have hstep1 : step_large m s lp =
        { lp with next_value := lp.next_value + lp.stride } := by
      unfold step_large
      rw [if_pos ⟨hlt, by rw [← hseg0, he]; rfl⟩, hnext]
    have hstep2 : step_large m s { lp with next_value := lp.next_value + lp.stride } =
        { lp with next_value := lp.next_value + lp.stride } := by
      unfold step_large
      by_cases hc : lp.next_value + lp.stride < m.range_end
      · have hne : ¬ ((entry_of m 0
            { lp with next_value := lp.next_value + lp.stride }).next_index = s) := by
          have e1 : (entry_of m 0
              { lp with next_value := lp.next_value + lp.stride }).next_index =
              sub64 (lp.next_value + lp.stride) m.range_begin / m.config.segment_span := rfl
          rw [e1, sub64_eq (by omega) (by omega)]
          omega
        rw [if_neg (fun h => hne h.2)]
      · rw [if_neg (fun h => hc h.1)]
    obtain ⟨rest, hr1, hr2⟩ := scheduled_split m L o lp hget
    rw [if_pos hlt] at hr1
    have hrest : List.Perm (H ++ R.entries) rest := by
      have h1 : List.Perm (e :: (H ++ R.entries)) (e :: rest) := by
        have h2 : List.Perm ((e :: H) ++ R.entries) ([entry_of m o lp] ++ rest) :=
          hJ.trans hr1
        rw [← he] at h2
        exact h2
      exact List.Perm.cons_inv h1
    have hHs : ∀ x ∈ H, x.next_index = s := fun x hx => hH x (List.mem_cons_of_mem _ hx)
    have hL1 : ∀ q ∈ set_next_value L o (lp.next_value + lp.stride),
        q.stride < 2 ^ 33 ∧ m.config.segment_span < q.stride ∧
          m.range_begin ≤ q.next_value ∧ q.next_value < 2 ^ 64 := by
      intro q hq
      rcases set_next_value_mem _ _ _ _ hq with h | ⟨lp2, h1, h2⟩
      · exact hL q h
      · rw [hget] at h1
        have e1 : lp2 = lp := (Option.some.inj h1).symm
        subst e1
        rw [h2]
        exact ⟨k1, k2, by show m.range_begin ≤ lp2.next_value + lp2.stride; omega,
          by show lp2.next_value + lp2.stride < 2 ^ 64; omega⟩
    have hmap : (set_next_value L o (lp.next_value + lp.stride)).map (step_large m s) =
        L.map (step_large m s) :=
      set_next_value_map L o _ _ lp hget (by rw [hstep2, hstep1])
    rw [large_hits_loop_cons m low high e H R L bits o hown, hgetD, hval, hnext]
    rw [hval] at hin hbit
    rw [if_pos hin, hbit]
    have hbits : ∀ (B : List Nat) (idx : Nat),
        (get_bit B idx = true ↔
          (get_bit (set_bit bits ((lp.next_value - low) / 2)) idx = true ∨
            (idx / 64 < (set_bit bits ((lp.next_value - low) / 2)).length ∧
              ∃ x ∈ H, (x.value - low) / 2 = idx))) →
        (get_bit B idx = true ↔
          (get_bit bits idx = true ∨
            (idx / 64 < bits.length ∧ ∃ x ∈ e :: H, (x.value - low) / 2 = idx))) := by
      intro B idx hB
      rw [hB, get_bit_set_bit_iff, set_bit_length]
      constructor
      · rintro ((h | ⟨h1, h2⟩) | ⟨h1, x, hx, h2⟩)
        · exact Or.inl h
        · exact Or.inr ⟨by rw [h1]; exact h2, e, List.mem_cons_self _ _,
            by rw [hval, h1]⟩
        · exact Or.inr ⟨h1, x, List.mem_cons_of_mem _ hx, h2⟩
      · rintro (h | ⟨h1, x, hx, h2⟩)
        · exact Or.inl (Or.inl h)
        · rcases List.mem_cons.1 hx with h3 | h3
          · subst h3
            rw [hval] at h2
            exact Or.inl (Or.inr ⟨h2.symm, by rw [h2]; exact h1⟩)
          · exact Or.inr ⟨h1, x, h3, h2⟩
    by_cases hge : lp.next_value + lp.stride ≥ m.range_end
    · rw [if_pos hge]
      have hJ1 : List.Perm (H ++ R.entries)
          (scheduled m (set_next_value L o (lp.next_value + lp.stride))) := by
        have h3 := hr2 (lp.next_value + lp.stride)
        rw [if_neg (by omega)] at h3
        exact hrest.trans h3.symm
      obtain ⟨i1, i2, i3, i4, i5⟩ := ih R (set_next_value L o (lp.next_value + lp.stride))
        (set_bit bits ((lp.next_value - low) / 2)) hR hJ1 hHs hRs hL1
      exact ⟨i1, i2, i3, by rw [i4, hmap], fun idx => hbits _ idx (i5 idx)⟩
    · rw [if_neg hge]
      have hlt2 : lp.next_value + lp.stride < m.range_end := by omega
      have hpush := push_spec R
        (schedule_entry m lp.prime (lp.next_value + lp.stride) (some o)).1
        (schedule_entry m lp.prime (lp.next_value + lp.stride) (some o)).2 hR
        (by
          show sub64 (lp.next_value + lp.stride) m.range_begin / m.config.segment_span < 2 ^ 62
          rw [sub64_eq (by omega) (by omega)]
          exact segment_index_lt _ _ _ hspan hb (by omega)) rfl
      obtain ⟨p1, p2, _, _⟩ := hpush
      have hJ1 : List.Perm (H ++ (R.push
            (schedule_entry m lp.prime (lp.next_value + lp.stride) (some o)).1
            (schedule_entry m lp.prime (lp.next_value + lp.stride) (some o)).2).entries)
          (scheduled m (set_next_value L o (lp.next_value + lp.stride))) := by
        have h3 := hr2 (lp.next_value + lp.stride)
        rw [if_pos hlt2] at h3
        have h4 : List.Perm (H ++ (R.push
            (schedule_entry m lp.prime (lp.next_value + lp.stride) (some o)).1
            (schedule_entry m lp.prime (lp.next_value + lp.stride) (some o)).2).entries)
            ((schedule_entry m lp.prime (lp.next_value + lp.stride) (some o)).2 ::
              (H ++ R.entries)) :=
          (List.Perm.append_left H p2).trans List.perm_middle
        exact h4.trans ((List.Perm.cons _ hrest).trans h3.symm)
      have hRs1 : ∀ x ∈ (R.push
            (schedule_entry m lp.prime (lp.next_value + lp.stride) (some o)).1
            (schedule_entry m lp.prime (lp.next_value + lp.stride) (some o)).2).entries,
          x.next_index ≠ s := by
        intro x hx
        rcases List.mem_cons.1 ((List.Perm.mem_iff p2).1 hx) with h | h
        · rw [h]
          show sub64 (lp.next_value + lp.stride) m.range_begin / m.config.segment_span ≠ s
          rw [sub64_eq (by omega) (by omega)]
          omega
        · exact hRs x h
      obtain ⟨i1, i2, i3, i4, i5⟩ := ih _ (set_next_value L o (lp.next_value + lp.stride))
        (set_bit bits ((lp.next_value - low) / 2)) p1 hJ1 hHs hRs1 hL1
      exact ⟨i1, i2, i3, by rw [i4, hmap], fun idx => hbits _ idx (i5 idx)⟩

/-! ## `apply_large_primes` and `make_thread_state` -/

/-- On a worker whose ring holds the scheduled entries of its large states,
`apply_large_primes` for segment `s` sets the bits of the states that are due in the
segment, moves these states on, and leaves the ring with the scheduled entries again. -/
theorem apply_large_primes_spec (m : PrimeMarker) (s low high : Nat)
    (hspan : 2 ≤ m.config.segment_span) (hb : 1 ≤ m.range_begin)
    (hend : m.range_end ≤ 2 ^ 63 + 1) (hs : s < 2 ^ 62)
    (hlow : low = m.range_begin + s * m.config.segment_span)
    (hhigh : high = Nat.min (low + m.config.segment_span) m.range_end)
    (st : ThreadState) (bits : List Nat)
    (hR : RingOK st.bucket) (hJ : List.Perm st.bucket.entries (scheduled m st.large_states))
    (hL : ∀ lp ∈ st.large_states, lp.stride < 2 ^ 33 ∧ m.config.segment_span < lp.stride ∧
      m.range_begin ≤ lp.next_value ∧ lp.next_value < 2 ^ 64) :
    RingOK (apply_large_primes m st s low high bits).1.bucket ∧
      List.Perm (apply_large_primes m st s low high bits).1.bucket.entries
        (scheduled m (apply_large_primes m st s low high bits).1.large_states) ∧
      (apply_large_primes m st s low high bits).1.large_states =
        st.large_states.map (step_large m s) ∧
      (apply_large_primes m st s low high bits).1.small_positions = st.small_positions ∧
      (apply_large_primes m st s low high bits).1.medium_positions = st.medium_positions ∧
      (∀ idx, get_bit (apply_large_primes m st s low high bits).2 idx = true ↔
        (get_bit bits idx = true ∨
          (idx / 64 < bits.length ∧ ∃ lp ∈ st.large_states, lp.next_value < m.range_end ∧
            (entry_of m 0 lp).next_index = s ∧ (lp.next_value - low) / 2 = idx))) := by
  obtain ⟨t1, t2, t3, _, _, _⟩ := take_spec st.bucket s hR (by omega) (by omega)
  have tR := take_RingOK st.bucket s hR hs
  obtain ⟨f1, _⟩ := take_filter st.bucket s hR (by omega) (by omega)
  obtain ⟨l1, l2, _, l4, l5⟩ := large_hits_loop_spec m s low high hspan hb hend hlow hhigh
    (st.bucket.take s).2 (st.bucket.take s).1 st.large_states bits tR (t1.trans hJ) t2 t3 hL
  unfold apply_large_primes
  refine ⟨l1, l2, l4, rfl, rfl, ?_⟩
  intro idx
  simp only
  rw [l5 idx]
  constructor
  · rintro (h | ⟨h1, e, he, h2⟩)
    · exact Or.inl h
    · right
      refine ⟨h1, ?_⟩
      have he2 : e ∈ st.bucket.entries :=
        (List.Perm.mem_iff t1).1 (List.mem_append_left _ he)
      obtain ⟨o, lp, hg, hlt, rfl⟩ := (mem_scheduled m _ e).1 ((List.Perm.mem_iff hJ).1 he2)
      exact ⟨lp, List.mem_iff_getElem?.2 ⟨o, hg⟩, hlt, t2 (entry_of m o lp) he, h2⟩
  · rintro (h | ⟨h1, lp, hlp, hlt, hseg, h2⟩)
    · exact Or.inl h
    · right
      refine ⟨h1, ?_⟩
      obtain ⟨o, hg⟩ := List.mem_iff_getElem?.1 hlp
      have hmem : entry_of m o lp ∈ st.bucket.entries :=
        (List.Perm.mem_iff hJ).2 ((mem_scheduled m _ _).2 ⟨o, lp, hg, hlt, rfl⟩)
      have hhit : entry_of m o lp ∈ (st.bucket.take s).2 := by
        rw [List.Perm.mem_iff f1, List.mem_filter]
        exact ⟨hmem, decide_eq_true hseg⟩
      exact ⟨_, hhit, h2⟩

theorem scheduled_append (m : PrimeMarker) (L : List LargePrimeState) (lp : LargePrimeState) :
    scheduled m (L ++ [lp]) =
      scheduled m L ++
        (if lp.next_value < m.range_end then [entry_of m L.length lp] else []) := by
  unfold scheduled
  rw [List.length_append, List.length_singleton, List.range_succ, List.filterMap_append]
  congr 1
  · apply filterMap_range_congr
    intro i hi
    rw [List.getElem?_append_left hi]
  · simp only [List.filterMap_cons, List.filterMap_nil]
    rw [List.getElem?_append_right (le_refl _)]
    simp only [Nat.sub_self, List.getElem?_cons_zero]
    by_cases h : lp.next_value < m.range_end
    · simp only [if_pos h]
    · simp only [if_neg h]

/-- The loop of `make_thread_state` for a single worker appends the rest of the template to
the large states and keeps the ring filled with the scheduled entries. -/
theorem thread_state_loop_spec (m : PrimeMarker) (hspan : 2 ≤ m.config.segment_span)
    (hb : 1 ≤ m.range_begin) (hend : m.range_end ≤ 2 ^ 63 + 1)
    (rest : List LargePrimeState) (i : Nat) (st : ThreadState)
    (hrest : ∀ lp ∈ rest, m.range_begin ≤ lp.next_value ∧ lp.next_value < 2 ^ 64)
    (hR : RingOK st.bucket)
    (hJ : List.Perm st.bucket.entries (scheduled m st.large_states)) :
    RingOK (thread_state_loop m 0 1 rest i st).bucket ∧
      List.Perm (thread_state_loop m 0 1 rest i st).bucket.entries
        (scheduled m (thread_state_loop m 0 1 rest i st).large_states) ∧
      (thread_state_loop m 0 1 rest i st).large_states = st.large_states ++ rest ∧
      (thread_state_loop m 0 1 rest i st).small_positions = st.small_positions ∧
      (thread_state_loop m 0 1 rest i st).medium_positions = st.medium_positions := by
  induction rest generalizing i st with
  | nil =>
    unfold thread_state_loop
    exact ⟨hR, hJ, (List.append_nil _).symm, rfl, rfl⟩
  | cons lp rest ih =>
    unfold thread_state_loop
    have hmod : ¬ (i % 1 ≠ 0) := by omega
    rw [if_neg hmod]
    obtain ⟨k1, k2⟩ := hrest lp (List.mem_cons_self _ _)
    have hrest2 : ∀ q ∈ rest, m.range_begin ≤ q.next_value ∧ q.next_value < 2 ^ 64 :=
      fun q hq => hrest q (List.mem_cons_of_mem _ hq)
    simp only
    by_cases hge : lp.next_value ≥ m.range_end
    · rw [if_pos hge]
      have hJ1 : List.Perm st.bucket.entries (scheduled m (st.large_states ++ [lp])) := by
        rw [scheduled_append, if_neg (by omega), List.append_nil]
        exact hJ
      obtain ⟨i1, i2, i3, i4, i5⟩ := ih (i + 1)
        { st with large_states := st.large_states ++ [lp] } hrest2 hR hJ1
      refine ⟨i1, i2, ?_, i4, i5⟩
      rw [i3]
      simp
    · rw [if_neg hge]
      have hlt : lp.next_value < m.range_end := by omega
      obtain ⟨p1, p2, _, _⟩ := push_spec st.bucket
        (schedule_entry m lp.prime lp.next_value (some st.large_states.length)).1
        (schedule_entry m lp.prime lp.next_value (some st.large_states.length)).2 hR
        (by
          show sub64 lp.next_value m.range_begin / m.config.segment_span < 2 ^ 62
          rw [sub64_eq k1 k2]
          exact segment_index_lt _ _ _ hspan hb (by omega)) rfl
      have hJ1 : List.Perm (st.bucket.push
            (schedule_entry m lp.prime lp.next_value (some st.large_states.length)).1
            (schedule_entry m lp.prime lp.next_value
              (some st.large_states.length)).2).entries
          (scheduled m (st.large_states ++ [lp])) := by
        rw [scheduled_append, if_pos hlt]
        refine p2.trans ?_
        have h1 : List.Perm (entry_of m st.large_states.length lp :: st.bucket.entries)
            (st.bucket.entries ++ [entry_of m st.large_states.length lp]) :=
          (List.perm_append_singleton _ _).symm
        exact h1.trans (List.Perm.append_right _ hJ)
      obtain ⟨i1, i2, i3, i4, i5⟩ := ih (i + 1)
        { st with
          large_states := st.large_states ++ [lp]
          bucket := st.bucket.push
            (schedule_entry m lp.prime lp.next_value (some st.large_states.length)).1
            (schedule_entry m lp.prime lp.next_value (some st.large_states.length)).2 }
        hrest2 p1 hJ1
      refine ⟨i1, i2, ?_, i4, i5⟩
      rw [i3]
      simp

/-! ## The large states as first hits -/

theorem segment_index_eq (b span s v : Nat) (hspan : 0 < span) (h1 : b + s * span ≤ v)
    (h2 : v < b + s * span + span) : (v - b) / span = s := by
  apply Nat.div_eq_of_lt_le
  · omega
  · have e : (s + 1) * span = s * span + span := by ring
    omega

theorem mem_large_at (m : PrimeMarker) (x : Nat) (lp : LargePrimeState) :
    lp ∈ large_at m x ↔
      ∃ t ∈ m.large_primes_template,
        lp = { t with next_value := first_hit t.prime x } := by
  unfold large_at
  rw [List.mem_map]
  constructor
  · rintro ⟨t, ht, rfl⟩
    exact ⟨t, ht, rfl⟩
  · rintro ⟨t, ht, rfl⟩
    exact ⟨t, ht, rfl⟩

/-- The large states at the first hits from `x` meet what the loop over the hits asks. -/
theorem large_at_ok (m : PrimeMarker) (hl : LargeOK m) (x : Nat) (hx : m.range_begin ≤ x)
    (hx2 : x ≤ 2 ^ 63 + 1) :
    ∀ lp ∈ large_at m x, lp.stride < 2 ^ 33 ∧ m.config.segment_span < lp.stride ∧
      m.range_begin ≤ lp.next_value ∧ lp.next_value < 2 ^ 64 := by
  intro lp hlp
  obtain ⟨t, ht, rfl⟩ := (mem_large_at m x lp).1 hlp
  obtain ⟨a1, a2, a3, _⟩ := hl t ht
  obtain ⟨⟨_, _, _, f4, _⟩, f6⟩ := first_hit_spec t.prime x a1 hx2
  have := a1.2.2
  refine ⟨?_, ?_, ?_, ?_⟩
  · show t.stride < 2 ^ 33
    omega
  · show m.config.segment_span < t.stride
    omega
  · show m.range_begin ≤ first_hit t.prime x
    omega
  · show first_hit t.prime x < 2 ^ 64
    omega

theorem large_at_begin (m : PrimeMarker) (hl : LargeOK m) :
    large_at m m.range_begin = m.large_primes_template := by
  unfold large_at
  have h : m.large_primes_template.map
      (fun lp => { lp with next_value := first_hit lp.prime m.range_begin }) =
      m.large_primes_template.map id := by
    apply List.map_congr_left
    intro lp hlp
    obtain ⟨_, _, _, a4⟩ := hl lp hlp
    show { lp with next_value := first_hit lp.prime m.range_begin } = lp
    rw [← a4]
  rw [h, List.map_id]

/-- Sieving segment `s` takes the large states from the first hits from its low end to the
first hits from its high end. -/
theorem large_at_step (m : PrimeMarker) (hl : LargeOK m) (s low high : Nat)
    (hspan : 0 < m.config.segment_span) (hend : m.range_end ≤ 2 ^ 63 + 1)
    (hlow : low = m.range_begin + s * m.config.segment_span)
    (hhigh : high = Nat.min (low + m.config.segment_span) m.range_end)
    (hlt : low < m.range_end) :
    (large_at m low).map (step_large m s) = large_at m high := by
  have hh1 : high ≤ low + m.config.segment_span := by
    rw [hhigh]; exact Nat.min_le_left _ _
  have hh2 : high ≤ m.range_end := by
    rw [hhigh]; exact Nat.min_le_right _ _
  have hh3 : low ≤ high := by
    rw [hhigh]
    show low ≤ min _ _
    omega
  unfold large_at
  rw [List.map_map]
  apply List.map_congr_left
  intro t ht
  obtain ⟨a1, a2, a3, _⟩ := hl t ht
  obtain ⟨hf, hbound⟩ := first_hit_spec t.prime low a1 (by omega)
  obtain ⟨f1, f2, f3, f4, f5⟩ := hf
  have hp32 := a1.2.2
  show step_large m s { t with next_value := first_hit t.prime low } =
    { t with next_value := first_hit t.prime high }
  unfold step_large
  have hidx : (entry_of m 0 { t with next_value := first_hit t.prime low }).next_index =
      (first_hit t.prime low - m.range_begin) / m.config.segment_span := by
    show sub64 (first_hit t.prime low) m.range_begin / m.config.segment_span = _
    rw [sub64_eq (by omega) (by omega)]
  rw [hidx]
  by_cases hc : first_hit t.prime low < m.range_end ∧
      (first_hit t.prime low - m.range_begin) / m.config.segment_span = s
  · have hc2 : ({ t with next_value := first_hit t.prime low } : LargePrimeState).next_value
        < m.range_end ∧
        (first_hit t.prime low - m.range_begin) / m.config.segment_span = s := hc
    rw [if_pos hc2]
    obtain ⟨b1, b2⟩ := segment_index_bounds _ _ _ _ hspan (by omega) hc.2
    have hnext : add64 (first_hit t.prime low) t.stride = first_hit t.prime low + 2 * t.prime := by
      rw [a2, add64_eq (by omega)]
    have hvh : first_hit t.prime low < high := by
      have h1 := hc.1
      rw [hhigh]
      show _ < min _ _
      omega
    have hF : FirstHit t.prime high (first_hit t.prime low + 2 * t.prime) := by
      refine ⟨Dvd.dvd.add f1 (Dvd.intro_left 2 rfl), by omega, by omega, by omega, ?_⟩
      intro g g1 g2 g3 g4
      have hle := f5 g g1 g2 g3 (by omega)
      have hlt2 : first_hit t.prime low < g := by omega
      exact odd_multiple_gap t.prime _ g f1 g1 f2 g2 hlt2
    have := first_hit_eq t.prime high _ a1 (by omega) hF
    show { t with next_value := add64 (first_hit t.prime low) t.stride } =
      { t with next_value := first_hit t.prime high }
    rw [hnext, this]
  · have hc2 : ¬ (({ t with next_value := first_hit t.prime low } :
        LargePrimeState).next_value < m.range_end ∧
        (first_hit t.prime low - m.range_begin) / m.config.segment_span = s) := hc
    rw [if_neg hc2]
    have hhv : high ≤ first_hit t.prime low := by
      by_cases hlt3 : first_hit t.prime low < m.range_end
      · have hne : (first_hit t.prime low - m.range_begin) / m.config.segment_span ≠ s :=
          fun h => hc ⟨hlt3, h⟩
        by_contra hcon
        apply hne
        exact segment_index_eq _ _ _ _ hspan (by omega) (by omega)
      · omega
    have hF : FirstHit t.prime high (first_hit t.prime low) :=
      FirstHit_mono t.prime low high _ ⟨f1, f2, f3, f4, f5⟩ hh3 hhv
    have := first_hit_eq t.prime high _ a1 (by omega) hF
    rw [this]

/-- Within segment `s` the states that are due mark exactly the values that a large prime
strikes. -/
theorem large_at_bits (m : PrimeMarker) (hl : LargeOK m) (s low high idx : Nat)
    (hspan : 0 < m.config.segment_span) (hend : m.range_end ≤ 2 ^ 63 + 1)
    (hlow : low = m.range_begin + s * m.config.segment_span)
    (hhigh : high = Nat.min (low + m.config.segment_span) m.range_end)
    (hodd : low % 2 = 1) (hidx : low + 2 * idx < high) :
    (∃ lp ∈ large_at m low, lp.next_value < m.range_end ∧
        (entry_of m 0 lp).next_index = s ∧ (lp.next_value - low) / 2 = idx) ↔
      StruckL m (low + 2 * idx) := by
  have hh1 : high ≤ low + m.config.segment_span := by
    rw [hhigh]; exact Nat.min_le_left _ _
  have hh2 : high ≤ m.range_end := by
    rw [hhigh]; exact Nat.min_le_right _ _
  constructor
  · rintro ⟨lp, hlp, h1, h2, h3⟩
    obtain ⟨t, ht, rfl⟩ := (mem_large_at m low lp).1 hlp
    obtain ⟨a1, a2, a3, _⟩ := hl t ht
    obtain ⟨⟨f1, f2, f3, f4, f5⟩, hbound⟩ := first_hit_spec t.prime low a1 (by omega)
    have h3' : (first_hit t.prime low - low) / 2 = idx := h3
    have hv : first_hit t.prime low = low + 2 * idx := by omega
    exact ⟨t, ht, by rw [← hv]; exact f3, by rw [← hv]; exact f1⟩
  · rintro ⟨t, ht, h1, h2⟩
    obtain ⟨a1, a2, a3, _⟩ := hl t ht
    obtain ⟨⟨f1, f2, f3, f4, f5⟩, hbound⟩ := first_hit_spec t.prime low a1 (by omega)
    have hle := f5 (low + 2 * idx) h2 (by omega) h1 (by omega)
    have hv : first_hit t.prime low = low + 2 * idx := by
      by_contra hne
      have hlt2 : first_hit t.prime low < low + 2 * idx := by omega
      have := odd_multiple_gap t.prime _ _ f1 h2 f2 (by omega) hlt2
      omega
    refine ⟨{ t with next_value := first_hit t.prime low },
      (mem_large_at m low _).2 ⟨t, ht, rfl⟩, ?_, ?_, ?_⟩
    · show first_hit t.prime low < m.range_end
      omega
    · show sub64 (first_hit t.prime low) m.range_begin / m.config.segment_span = s
      rw [sub64_eq (by omega) (by omega)]
      exact segment_index_eq _ _ _ _ hspan (by omega) (by omega)
    · show (first_hit t.prime low - low) / 2 = idx
      omega

/-! ## One segment of the sieve -/

theorem advance_cursors_map (y x : Nat) (primes : List Nat)
    (hp : ∀ p ∈ primes, SievePrime p) (hxy : x ≤ y) (hy : y ≤ 2 ^ 63 + 1) :
    advance_cursors y primes (primes.map (fun p => first_hit p x)) =
      primes.map (fun p => first_hit p y) := by
  induction primes with
  | nil => rfl
  | cons p ps ih =>
    simp only [List.map_cons, advance_cursors]
    rw [advance_to_first_hit p x y (hp p (List.mem_cons_self _ _)) hxy hy,
      ih (fun q hq => hp q (List.mem_cons_of_mem _ hq))]

/-- The worker `make_thread_state(0, 1)` stands at `range_begin`. -/
theorem make_thread_state_at (m : PrimeMarker) (hl : LargeOK m)
    (hspan : 2 ≤ m.config.segment_span) (hb : 1 ≤ m.range_begin)
    (hend : m.range_end ≤ 2 ^ 63 + 1) (hbe : m.range_begin ≤ 2 ^ 63 + 1)
    (hs : m.small_initial = m.small_primes.map (fun p => first_hit p m.range_begin))
    (hmd : m.medium_initial = m.medium_primes.map (fun p => first_hit p m.range_begin)) :
    WorkerAt m (make_thread_state m 0 1) m.range_begin := by
  have hrest : ∀ lp ∈ m.large_primes_template,
      m.range_begin ≤ lp.next_value ∧ lp.next_value < 2 ^ 64 := by
    intro lp hlp
    have h := large_at_ok m hl m.range_begin (le_refl _) hbe lp
      (by rw [large_at_begin m hl]; exact hlp)
    exact ⟨h.2.2.1, h.2.2.2⟩
  obtain ⟨i1, i2, i3, i4, i5⟩ := thread_state_loop_spec m hspan hb hend
    m.large_primes_template 0
    { bucket := BucketRing.reset 0, small_positions := m.small_initial
      medium_positions := m.medium_initial, large_states := [] }
    hrest (RingOK_reset 0) (by
      show List.Perm (BucketRing.reset 0).entries (scheduled m [])
      exact List.Perm.refl _)
  unfold make_thread_state
  refine ⟨⟨?_, ?_⟩, i1, i2, ?_⟩
  · rw [i4]; exact hs
  · rw [i5]; exact hmd
  · rw [i3, large_at_begin m hl]
    rfl

/-- One segment: a worker that stands at the low end of segment `s` stands at its high end
afterwards, and a bit of the segment is set exactly when its value shares a factor with
the wheel modulus or is struck by a small, medium or large prime. -/
theorem sieve_segment_spec (ty : WheelType) (m : PrimeMarker) (hm : MarkerOK ty m)
    (hl : LargeOK m) (hb : m.range_begin % 2 = 1) (hend : m.range_end ≤ 2 ^ 63 + 1)
    (s low bc : Nat) (hs : s < 2 ^ 62) (hbc : 0 < bc)
    (hlow : low = m.range_begin + s * m.config.segment_span)
    (hhigh : low + 2 * bc = Nat.min (low + m.config.segment_span) m.range_end)
    (st : ThreadState) (hst : WorkerAt m st low) :
    WorkerAt m (sieve_segment m st s low (low + 2 * bc)).1 (low + 2 * bc) ∧
      (sieve_segment m st s low (low + 2 * bc)).2.length = (bc + 63) / 64 ∧
      ∀ idx, idx < bc →
        (get_bit (sieve_segment m st s low (low + 2 * bc)).2 idx = true ↔
          (Nat.gcd (low + 2 * idx) (get_wheel ty).modulus ≠ 1 ∨
            StruckSM m (low + 2 * idx) ∨ StruckL m (low + 2 * idx))) := by
  obtain ⟨hcur, hR, hJ, hLs⟩ := hst
  obtain ⟨hw, hc, _, hsp, hmp⟩ := hm
  have hm2 : MarkerOK ty m := ⟨hw, hc, by assumption, hsp, hmp⟩
  obtain ⟨htb0, htb64, hts, htsl, hs0, hs2, hsl⟩ := hc
  have hc2 : ConfigOK m.config := ⟨htb0, htb64, hts, htsl, hs0, hs2, hsl⟩
  have hh2 : low + 2 * bc ≤ m.range_end := by
    rw [hhigh]; exact Nat.min_le_right _ _
  have hhb : low + 2 * bc ≤ 2 ^ 63 + 1 := by omega
  have hlodd : low % 2 = 1 := by
    have : (s * m.config.segment_span) % 2 = 0 := by
      rw [Nat.mul_mod, hs2]
      simp
    omega
  have hbl : m.range_begin ≤ low := by omega
  have hL := large_at_ok m hl low hbl (by omega)
  rw [← hLs] at hL
  obtain ⟨g1, g2, g3, g4, g5, g6⟩ := apply_large_primes_spec m s low (low + 2 * bc)
    (by omega) (by omega) hend hs hlow hhigh st
    (apply_presieve m.wheel low bc (List.replicate ((bc + 63) / 64) 0)) hR hJ hL
  have hcurLG : CursorsAt m (apply_large_primes m st s low (low + 2 * bc)
      (apply_presieve m.wheel low bc (List.replicate ((bc + 63) / 64) 0))).1 low := by
    unfold CursorsAt
    rw [g4, g5]
    exact hcur
  have hfuel : bc - 0 ≤ (2 * bc / m.config.tile_span + 1) * m.config.tile_bits := by
    rw [hts, Nat.mul_div_mul_left _ _ (by decide : 0 < 2)]
    have := Nat.lt_mul_div_succ bc htb0
    rw [Nat.mul_comm] at this
    omega
  obtain ⟨t1, t2, t3, t4⟩ := tile_loop_spec ty m hm2 low bc hlodd hhb
    (2 * bc / m.config.tile_span + 1) 0 low hbc (by decide) (by omega) hfuel
    (apply_large_primes m st s low (low + 2 * bc)
      (apply_presieve m.wheel low bc (List.replicate ((bc + 63) / 64) 0))).1 hcurLG
    (apply_large_primes m st s low (low + 2 * bc)
      (apply_presieve m.wheel low bc (List.replicate ((bc + 63) / 64) 0))).2
  have hlen := (sieve_segment_presieve ty m hw hc2 st s low bc hbc hhb).1
  rw [sieve_segment_eq m st s low bc hbc hhb] at hlen ⊢
  refine ⟨⟨⟨?_, ?_⟩, ?_, ?_, ?_⟩, hlen, ?_⟩
  · show advance_cursors (low + 2 * bc) m.small_primes _ = _
    rw [t2.1]
    exact advance_cursors_map _ _ _ hsp (le_refl _) hhb
  · show advance_cursors (low + 2 * bc) m.medium_primes _ = _
    rw [t2.2]
    exact advance_cursors_map _ _ _ hmp (le_refl _) hhb
  · show RingOK (tile_loop _ _ _ _ _ _ _).1.bucket
    rw [t3]
    exact g1
  · show List.Perm (tile_loop _ _ _ _ _ _ _).1.bucket.entries
      (scheduled m (tile_loop _ _ _ _ _ _ _).1.large_states)
    rw [t3, t4]
    exact g2
  · show (tile_loop _ _ _ _ _ _ _).1.large_states = _
    rw [t4, g3, hLs]
    exact large_at_step m hl s low (low + 2 * bc) hs0 hend hlow hhigh (by omega)
  · intro idx hidx
    show get_bit (tile_loop _ _ _ _ _ _ _).2 idx = true ↔ _
    rw [t1 idx hidx, g6 idx, hw, apply_presieve_spec, get_bit_replicate_zero,
      apply_large_primes_length, apply_presieve_length, List.length_replicate, hLs]
    have hidx64 : idx / 64 < (bc + 63) / 64 := by omega
    have hlb := large_at_bits m hl s low (low + 2 * bc) idx hs0 hend hlow hhigh hlodd
      (by omega)
    rw [hlb]
    simp only [Bool.false_or, decide_eq_true_iff]
    constructor
    · rintro ((⟨_, _, h⟩ | ⟨_, h⟩) | ⟨_, _, h⟩)
      · exact Or.inl h
      · exact Or.inr (Or.inr h)
      · exact Or.inr (Or.inl h)
    · rintro (h | h | h)
      · exact Or.inl (Or.inl ⟨hidx, hidx64, h⟩)
      · exact Or.inr ⟨hidx64, Nat.zero_le _, h⟩
      · exact Or.inl (Or.inr ⟨hidx64, h⟩)

/-! ## The segments in order, and primality -/

/-- A value that a prime strikes from its square on is not prime. -/
theorem struck_not_prime (v p : Nat) (hp : Nat.Prime p) (hsq : p * p ≤ v) (hd : p ∣ v) :
    ¬ Nat.Prime v := fun hv => prime_not_marked v p hv hp hsq hd

/-- With all odd primes up to the square root of the end of the range among the primes of
the marker, a set bit means a composite value or a prime of the wheel. -/
theorem struck_iff_not_prime (ty : WheelType) (m : PrimeMarker) (re v : Nat)
    (hin : ∀ p, Nat.Prime p → 3 ≤ p → p ≤ Nat.sqrt re →
      (p ∈ m.small_primes ++ m.medium_primes ∨ ∃ lp ∈ m.large_primes_template, lp.prime = p))
    (hout : ∀ p, (p ∈ m.small_primes ++ m.medium_primes ∨
      ∃ lp ∈ m.large_primes_template, lp.prime = p) → Nat.Prime p)
    (hv3 : 3 ≤ v) (hodd : v % 2 = 1) (hvr : v < re) :
    (Nat.gcd v (get_wheel ty).modulus ≠ 1 ∨ StruckSM m v ∨ StruckL m v) ↔
      ¬ (Nat.Prime v ∧ ¬ v ∣ (get_wheel ty).modulus) := by
  constructor
  · rintro (h | ⟨p, hp, h1, h2⟩ | ⟨lp, hlp, h1, h2⟩)
    · rintro ⟨hv, hnd⟩
      rcases Nat.coprime_or_dvd_of_prime hv (get_wheel ty).modulus with hc | hc
      · exact h hc
      · exact hnd hc
    · rintro ⟨hv, _⟩
      exact struck_not_prime v p (hout p (Or.inl hp)) h1 h2 hv
    · rintro ⟨hv, _⟩
      exact struck_not_prime v lp.prime (hout lp.prime (Or.inr ⟨lp, hlp, rfl⟩)) h1 h2 hv
  · intro h
    by_cases hv : Nat.Prime v
    · have hd : v ∣ (get_wheel ty).modulus := by
        by_contra hnd
        exact h ⟨hv, hnd⟩
      left
      rw [Nat.gcd_eq_left hd]
      omega
    · right
      obtain ⟨i, hi1, hi2, hi3, hi4⟩ := odd_composite_factor v hodd hv3 hv
      have hle : 2 * i + 1 ≤ Nat.sqrt re := by
        rw [Nat.le_sqrt]
        omega
      rcases hin (2 * i + 1) hi2 (by omega) hle with h1 | ⟨lp, hlp, h1⟩
      · exact Or.inl ⟨2 * i + 1, h1, hi3, hi4⟩
      · right
        refine ⟨lp, hlp, ?_, ?_⟩
        · rw [h1]; exact hi3
        · rw [h1]; exact hi4

theorem sqrt_limit_lt (re : Nat) (h : re ≤ 2 ^ 63 + 1) : Nat.sqrt re + 1 < 2 ^ 32 := by
  have h1 : Nat.sqrt re < 2 ^ 32 - 1 := by
    rw [Nat.sqrt_lt]
    norm_num
    omega
  omega

/-- The marker the runner builds: well formed, and its primes are the odd primes up to
`floor(sqrt(range_end)) + 1`. -/
theorem runner_marker_ok (ty : WheelType) (config : SegmentConfig) (rb re : Nat)
    (hc : ConfigOK config) (hre : re ≤ 2 ^ 63 + 1) :
    MarkerOK ty (PrimeMarker.mk_marker (get_wheel ty) config rb re
        (simple_sieve (floor_sqrt re + 1)) (small_limit_of ty)) ∧
      LargeOK (PrimeMarker.mk_marker (get_wheel ty) config rb re
        (simple_sieve (floor_sqrt re + 1)) (small_limit_of ty)) ∧
      (PrimeMarker.mk_marker (get_wheel ty) config rb re
          (simple_sieve (floor_sqrt re + 1)) (small_limit_of ty)).small_initial =
        (PrimeMarker.mk_marker (get_wheel ty) config rb re
          (simple_sieve (floor_sqrt re + 1)) (small_limit_of ty)).small_primes.map
            (fun p => first_hit p rb) ∧
      (PrimeMarker.mk_marker (get_wheel ty) config rb re
          (simple_sieve (floor_sqrt re + 1)) (small_limit_of ty)).medium_initial =
        (PrimeMarker.mk_marker (get_wheel ty) config rb re
          (simple_sieve (floor_sqrt re + 1)) (small_limit_of ty)).medium_primes.map
            (fun p => first_hit p rb) ∧
      (∀ p, Nat.Prime p → 3 ≤ p → p ≤ Nat.sqrt re →
        (p ∈ (PrimeMarker.mk_marker (get_wheel ty) config rb re
              (simple_sieve (floor_sqrt re + 1)) (small_limit_of ty)).small_primes ++
            (PrimeMarker.mk_marker (get_wheel ty) config rb re
              (simple_sieve (floor_sqrt re + 1)) (small_limit_of ty)).medium_primes ∨
          ∃ lp ∈ (PrimeMarker.mk_marker (get_wheel ty) config rb re
              (simple_sieve (floor_sqrt re + 1)) (small_limit_of ty)).large_primes_template,
            lp.prime = p)) ∧
      (∀ p, (p ∈ (PrimeMarker.mk_marker (get_wheel ty) config rb re
              (simple_sieve (floor_sqrt re + 1)) (small_limit_of ty)).small_primes ++
            (PrimeMarker.mk_marker (get_wheel ty) config rb re
              (simple_sieve (floor_sqrt re + 1)) (small_limit_of ty)).medium_primes ∨
          ∃ lp ∈ (PrimeMarker.mk_marker (get_wheel ty) config rb re
              (simple_sieve (floor_sqrt re + 1)) (small_limit_of ty)).large_primes_template,
            lp.prime = p) → Nat.Prime p) := by
  have hfs : floor_sqrt re = Nat.sqrt re := floor_sqrt_eq re (by omega)
  have hlim := sqrt_limit_lt re hre
  have hss := (simple_sieve_spec (Nat.sqrt re + 1) hlim).1
  rw [hfs]
  have hps : ∀ p ∈ simple_sieve (Nat.sqrt re + 1), p < 2 ^ 32 ∧ (3 ≤ p → p % 2 = 1) := by
    intro p hp
    obtain ⟨h1, h2⟩ := (hss p).1 hp
    refine ⟨by omega, fun h3 => ?_⟩
    rcases Nat.Prime.eq_two_or_odd h1 with h | h
    · omega
    · exact h
  obtain ⟨a1, a2, a3, a4, a5, a6⟩ := mk_marker_ok ty config rb re (small_limit_of ty)
    (simple_sieve (Nat.sqrt re + 1)) hc hps
  refine ⟨a1, a2, a3, a4, ?_, ?_⟩
  · intro p hp h3 hle
    exact a5 p ((hss p).2 ⟨hp, by omega⟩) h3
  · intro p hp
    exact ((hss p).1 (a6 p hp).1).1

/-- The single worker stands at the low end of every segment it comes to. -/
theorem sieve_in_order_at (ty : WheelType) (m : PrimeMarker) (hm : MarkerOK ty m)
    (hl : LargeOK m)
    (hsi : m.small_initial = m.small_primes.map (fun p => first_hit p m.range_begin))
    (hmi : m.medium_initial = m.medium_primes.map (fun p => first_hit p m.range_begin))
    (hbo : m.range_begin % 2 = 1) (hend : m.range_end ≤ 2 ^ 63 + 1) (k : Nat)
    (hk : k * m.config.segment_span < m.range_end - m.range_begin) :
    WorkerAt m (sieve_in_order m k) (m.range_begin + k * m.config.segment_span) := by
  have hc := hm.2.1
  obtain ⟨_, _, _, _, hs0, hs2, hsl⟩ := hc
  induction k with
  | zero =>
    have h := make_thread_state_at m hl (by omega) (by omega) hend (by omega) hsi hmi
    simpa [sieve_in_order] using h
  | succ k ih =>
    have e1 : (k + 1) * m.config.segment_span =
        k * m.config.segment_span + m.config.segment_span := by ring
    have hk0 : k * m.config.segment_span < m.range_end - m.range_begin := by omega
    have hq := queue_next_eq { begin_ := m.range_begin, end_ := m.range_end } m.config k
      hm.2.1 (by show m.range_begin ≤ m.range_end; omega) hend
    simp only [if_pos hk0] at hq
    have e2 : Nat.min (m.range_end - m.range_begin)
        (k * m.config.segment_span + m.config.segment_span) =
        k * m.config.segment_span + m.config.segment_span := natmin_right (by omega)
    rw [e2] at hq
    have e3 : m.range_begin + (k * m.config.segment_span + m.config.segment_span) =
        m.range_begin + k * m.config.segment_span + 2 * (m.config.segment_span / 2) := by
      omega
    rw [e3] at hq
    have hks : k < 2 ^ 62 := by
      by_contra hge
      have h1 : 2 ^ 62 * 2 ≤ k * m.config.segment_span :=
        Nat.mul_le_mul (by omega) (by omega)
      omega
    have hspec := sieve_segment_spec ty m hm hl hbo hend k
      (m.range_begin + k * m.config.segment_span) (m.config.segment_span / 2) hks
      (by omega) rfl
      (by
        have : Nat.min (m.range_begin + k * m.config.segment_span + m.config.segment_span)
            m.range_end =
            m.range_begin + k * m.config.segment_span + m.config.segment_span :=
          natmin_left (by omega)
        rw [this]
        omega)
      (sieve_in_order m k) (ih hk0)
    have e4 : m.range_begin + (k + 1) * m.config.segment_span =
        m.range_begin + k * m.config.segment_span + 2 * (m.config.segment_span / 2) := by
      omega
    rw [e4]
    have e5 : sieve_in_order m (k + 1) =
        (sieve_segment m (sieve_in_order m k) k
          (m.range_begin + k * m.config.segment_span)
          (m.range_begin + k * m.config.segment_span +
            2 * (m.config.segment_span / 2))).1 := by
      conv_lhs => unfold sieve_in_order
      rw [hq]
    rw [e5]
    exact hspec.1

/-- The bits of every segment the single worker sieves in order: a bit is set exactly when
its value shares a factor with the wheel modulus or is struck by a prime of the marker. -/
theorem sieve_in_order_struck (ty : WheelType) (m : PrimeMarker) (hm : MarkerOK ty m)
    (hl : LargeOK m)
    (hsi : m.small_initial = m.small_primes.map (fun p => first_hit p m.range_begin))
    (hmi : m.medium_initial = m.medium_primes.map (fun p => first_hit p m.range_begin))
    (hbo : m.range_begin % 2 = 1) (heo : m.range_end % 2 = 1)
    (hend : m.range_end ≤ 2 ^ 63 + 1) (k id lo hi : Nat)
    (hq : queue_next { begin_ := m.range_begin, end_ := m.range_end } m.config k =
      some (id, lo, hi)) (i : Nat) (hi2 : i < (hi - lo) / 2) :
    m.range_begin ≤ lo + 2 * i ∧ lo + 2 * i < m.range_end ∧ (lo + 2 * i) % 2 = 1 ∧
      (get_bit (sieve_segment m (sieve_in_order m k) id lo hi).2 i = true ↔
        (Nat.gcd (lo + 2 * i) (get_wheel ty).modulus ≠ 1 ∨
          StruckSM m (lo + 2 * i) ∨ StruckL m (lo + 2 * i))) := by
  have hc := hm.2.1
  obtain ⟨_, _, _, _, hs0, hs2, hsl⟩ := hc
  by_cases hbe : m.range_begin ≤ m.range_end
  · have hq2 := queue_next_eq { begin_ := m.range_begin, end_ := m.range_end } m.config k
      hm.2.1 hbe hend
    rw [hq] at hq2
    by_cases hk0 : k * m.config.segment_span < m.range_end - m.range_begin
    · simp only [if_pos hk0] at hq2
      have h3 := Option.some.inj hq2
      simp only [Prod.mk.injEq] at h3
      obtain ⟨rfl, rfl, rfl⟩ := h3
      have hks : id < 2 ^ 62 := by
        by_contra hge
        have h1 : 2 ^ 62 * 2 ≤ id * m.config.segment_span :=
          Nat.mul_le_mul (by omega) (by omega)
        omega
      have hkm : (id * m.config.segment_span) % 2 = 0 := by
        rw [Nat.mul_mod, hs2]
        simp
      have hmin : Nat.min (m.range_end - m.range_begin)
          (id * m.config.segment_span + m.config.segment_span) ≤
            m.range_end - m.range_begin := Nat.min_le_left _ _
      have hmin2 : Nat.min (m.range_end - m.range_begin)
          (id * m.config.segment_span + m.config.segment_span) ≤
            id * m.config.segment_span + m.config.segment_span := Nat.min_le_right _ _
      have hmin3 : (Nat.min (m.range_end - m.range_begin)
          (id * m.config.segment_span + m.config.segment_span)) % 2 = 0 := by
        rcases Nat.le_total (m.range_end - m.range_begin)
          (id * m.config.segment_span + m.config.segment_span) with h | h
        · rw [natmin_left h]; omega
        · rw [natmin_right h]; omega
      have hmin4 : id * m.config.segment_span < Nat.min (m.range_end - m.range_begin)
          (id * m.config.segment_span + m.config.segment_span) := by
        show _ < min _ _
        omega
      generalize hM : Nat.min (m.range_end - m.range_begin)
          (id * m.config.segment_span + m.config.segment_span) = M at *
      have ehi : m.range_begin + M = m.range_begin + id * m.config.segment_span +
          2 * ((m.range_begin + M - (m.range_begin + id * m.config.segment_span)) / 2) := by
        omega
      have hspec := sieve_segment_spec ty m hm hl hbo hend id
        (m.range_begin + id * m.config.segment_span)
        ((m.range_begin + M - (m.range_begin + id * m.config.segment_span)) / 2) hks
        (by omega) rfl
        (by
          rw [← ehi, ← hM]
          rcases Nat.le_total (m.range_end - m.range_begin)
            (id * m.config.segment_span + m.config.segment_span) with h | h
          · rw [natmin_left h, natmin_right (by omega)]
            omega
          · rw [natmin_right h, natmin_left (by omega)]
            omega)
        (sieve_in_order m id)
        (sieve_in_order_at ty m hm hl hsi hmi hbo hend id hk0)
      rw [← ehi] at hspec
      refine ⟨by omega, by omega, by omega, hspec.2.2 i hi2⟩
    · simp only [if_neg hk0] at hq2
      exact absurd hq2 (by simp)
  · exfalso
    have hnone : queue_next { begin_ := m.range_begin, end_ := m.range_end } m.config k
        = none := by
      unfold queue_next
      have h0 : ¬ (m.range_end > m.range_begin) := by omega
      simp only [if_neg h0]
      by_cases hx : m.config.segment_span ≠ 0 ∧
          mul64 k m.config.segment_span / m.config.segment_span ≠ k
      · rw [if_pos hx]
      · rw [if_neg hx, if_pos (Nat.zero_le _)]
    rw [hnone] at hq
    exact absurd hq (by simp)

/-! ## Round-robin ownership of the large primes -/

/-- The loop of `make_thread_state` appends the states of `rest` whose template index is
`thread_index` modulo `thread_count`, and leaves the cursors alone. -/
theorem thread_state_loop_owned (m : PrimeMarker) (t T : Nat) (rest : List LargePrimeState)
    (i : Nat) (st : ThreadState) :
    (thread_state_loop m t T rest i st).large_states =
        st.large_states ++ (List.range rest.length).filterMap
          (fun j => if (i + j) % T = t then rest[j]? else none) ∧
      (thread_state_loop m t T rest i st).small_positions = st.small_positions ∧
      (thread_state_loop m t T rest i st).medium_positions = st.medium_positions := by
  induction rest generalizing i st with
  | nil =>
    unfold thread_state_loop
    simp
  | cons lp rest ih =>
    have hr : (List.range (lp :: rest).length).filterMap
        (fun j => if (i + j) % T = t then (lp :: rest)[j]? else none) =
        (if i % T = t then [lp] else []) ++ (List.range rest.length).filterMap
          (fun j => if (i + 1 + j) % T = t then rest[j]? else none) := by
      rw [List.length_cons, List.range_succ_eq_map, List.filterMap_cons]
      simp only [Nat.add_zero, List.getElem?_cons_zero, List.filterMap_map]
      have e : ((fun j => if (i + j) % T = t then (lp :: rest)[j]? else none) ∘ Nat.succ) =
          (fun j => if (i + 1 + j) % T = t then rest[j]? else none) := by
        funext j
        simp only [Function.comp, Nat.succ_eq_add_one, List.getElem?_cons_succ]
        rw [show i + (j + 1) = i + 1 + j by omega]
      rw [e]
      by_cases h : i % T = t
      · simp only [if_pos h]
        rfl
      · simp only [if_neg h]
        rfl
    rw [hr]
    unfold thread_state_loop
    by_cases h : i % T ≠ t
    · rw [if_pos h]
      have h2 : ¬ (i % T = t) := h
      rw [if_neg h2, List.nil_append]
      exact ih (i + 1) st
    · rw [if_neg h]
      have h2 : i % T = t := by
        by_contra hc
        exact h hc
      rw [if_pos h2]
      simp only
      by_cases hge : lp.next_value ≥ m.range_end
      · rw [if_pos hge]
        obtain ⟨i1, i2, i3⟩ := ih (i + 1) { st with large_states := st.large_states ++ [lp] }
        refine ⟨?_, i2, i3⟩
        rw [i1]
        simp
      · rw [if_neg hge]
        obtain ⟨i1, i2, i3⟩ := ih (i + 1)
          { st with
            large_states := st.large_states ++ [lp]
            bucket := st.bucket.push
              (schedule_entry m lp.prime lp.next_value (some st.large_states.length)).1
              (schedule_entry m lp.prime lp.next_value (some st.large_states.length)).2 }
        refine ⟨?_, i2, i3⟩
        rw [i1]
        simp

/-- Worker `t` of `T` owns the template states whose index is `t` modulo `T`, in template
order, and starts from the initial cursors of the marker. -/
theorem make_thread_state_owned (m : PrimeMarker) (t T : Nat) :
    (make_thread_state m t T).large_states =
        (List.range m.large_primes_template.length).filterMap
          (fun i => if i % T = t then m.large_primes_template[i]? else none) ∧
      (make_thread_state m t T).small_positions = m.small_initial ∧
      (make_thread_state m t T).medium_positions = m.medium_initial := by
  unfold make_thread_state
  obtain ⟨i1, i2, i3⟩ := thread_state_loop_owned m t T m.large_primes_template 0
    { bucket := BucketRing.reset 0, small_positions := m.small_initial
      medium_positions := m.medium_initial, large_states := [] }
  refine ⟨?_, i2, i3⟩
  rw [i1]
  simp

/-! ## Large primes hit a segment at most once -/

/-- Two distinct odd multiples of an odd `p` with `p > span / 2` are more than `span`
apart. -/
theorem large_gap (p span a b : Nat) (hp : p % 2 = 1) (hl : span / 2 < p) (ha : p ∣ a)
    (hb : p ∣ b) (ha2 : a % 2 = 1) (hb2 : b % 2 = 1) (hab : a < b) : span < b - a := by
  have := odd_multiple_gap p a b ha hb ha2 hb2 hab
  omega

/-! ## The phases of the small-prime patterns -/

/-- For the primes of the table: the start phase of bit `b` selects the residues of `b`,
and the phase after `r` selects the residues 64 positions further on. -/
theorem phase_arith : ∀ p ∈ kSmallPrimes, ∀ b j r : Nat, r < p →
    ((p ∣ (p - (2 * b) % p) % p + 2 * j) ↔ j % p = b % p) ∧
      ((p - (2 * b) % p) % p < p) ∧ ((r + 128 % p) % p < p) ∧
      ((p ∣ (r + 128 % p) % p + 2 * j) ↔ (p ∣ r + 2 * ((j + 64) % p))) ∧
      ((j + 64) % p < 64) ∧
      (∀ j2, (j + 64) % p = j2 % p → ((p ∣ r + 2 * j2) ↔ (p ∣ r + 2 * ((j + 64) % p)))) := by
  intro p hp b j r hr
  simp only [kSmallPrimes, List.mem_cons, List.mem_singleton, List.not_mem_nil, or_false] at hp
  rcases hp with h | h | h | h | h | h | h | h | h | h | h | h | h | h <;> subst h <;>
    refine ⟨by omega, by omega, by omega, by omega, by omega, fun j2 hj => by omega⟩

/-- The three properties of a built pattern. -/
theorem build_small_pattern_phases (p : Nat) (hp : p ∈ kSmallPrimes) (b : Nat) (hb : b < 64) :
    (build_small_pattern p).start_phase.getD b 0 = (p - (2 * b) % p) % p ∧
      (∀ j, j < 64 →
        (((build_small_pattern p).masks.getD
            ((build_small_pattern p).start_phase.getD b 0) 0).testBit j = true ↔
          j % p = b % p)) ∧
      (∀ r, r < p → ∀ j, j < 64 →
        (((build_small_pattern p).masks.getD
            ((build_small_pattern p).next_phase.getD r 0) 0).testBit j = true ↔
          ∃ j2, j2 < 64 ∧ ((build_small_pattern p).masks.getD r 0).testBit j2 = true ∧
            (j + 64) % p = j2 % p)) := by
  have hsp : (build_small_pattern p).start_phase.getD b 0 = (p - (2 * b) % p) % p := by
    rw [pattern_start_phase p b hb, start_phase_eq p hp b hb]
  have hp0 : 0 < p := (kSmallPrimes_bounds p hp).1.trans_lt' (by decide)
  refine ⟨hsp, ?_, ?_⟩
  · intro j hj
    obtain ⟨a1, a2, _⟩ := phase_arith p hp b j 0 hp0
    rw [hsp, pattern_masks p _ a2, mask_entry_bits p hp _ a2 j hj, decide_eq_true_iff]
    exact a1
  · intro r hr j hj
    obtain ⟨_, _, a3, a4, a5, a6⟩ := phase_arith p hp b j r hr
    rw [pattern_next_phase p r hr, pattern_masks p _ a3, mask_entry_bits p hp _ a3 j hj,
      decide_eq_true_iff, a4, pattern_masks p r hr]
    constructor
    · intro h
      refine ⟨(j + 64) % p, a5, ?_, (Nat.mod_mod _ _).symm⟩
      rw [mask_entry_bits p hp r hr _ a5, decide_eq_true_iff]
      exact h
    · rintro ⟨j2, hj2, h1, h2⟩
      rw [mask_entry_bits p hp r hr j2 hj2, decide_eq_true_iff] at h1
      exact (a6 j2 h2).1 h1

/-! ## `rehash` for every new size -/

/-- A positive number that has no bit in common with its predecessor is a power of two. -/
theorem pow_two_of_and_pred (n : Nat) (h1 : 1 ≤ n) (h : n &&& (n - 1) = 0) :
    ∃ j, n = 2 ^ j := by
  induction n using Nat.strong_induction_on with
  | _ n ih =>
    by_cases hn1 : n = 1
    · exact ⟨0, hn1⟩
    · have hdiv : (n &&& (n - 1)) / 2 = n / 2 &&& (n - 1) / 2 := Nat.and_div_two
      rw [h] at hdiv
      rcases Nat.mod_two_eq_zero_or_one n with he | ho
      · have e1 : (n - 1) / 2 = n / 2 - 1 := by omega
        rw [e1] at hdiv
        obtain ⟨j, hj⟩ := ih (n / 2) (by omega) (by omega) hdiv.symm
        refine ⟨j + 1, ?_⟩
        rw [pow_succ, ← hj]
        omega
      · exfalso
        have e1 : (n - 1) / 2 = n / 2 := by omega
        rw [e1, Nat.and_self] at hdiv
        omega

/-- The rounding loop of `rehash` returns the least power of two that is not below the new
size. -/
theorem pow2_loop_spec (n : Nat) (hn : n ≤ 2 ^ 63) (fuel i : Nat) (hi : i ≤ 63)
    (hf : 64 ≤ fuel + i) :
    ∃ j, i ≤ j ∧ j ≤ 63 ∧ pow2_loop n fuel (2 ^ i) = 2 ^ j ∧ n ≤ 2 ^ j := by
  induction fuel generalizing i with
  | zero => omega
  | succ fuel ih =>
    unfold pow2_loop
    by_cases hlt : 2 ^ i < n
    · rw [if_pos hlt]
      have hi2 : i < 63 := by
        by_contra hc
        have : 2 ^ 63 ≤ 2 ^ i := Nat.pow_le_pow_right (by decide) (by omega)
        omega
      have hp : 2 ^ (i + 1) < 2 ^ 64 := Nat.pow_lt_pow_right (by decide) (by omega)
      have e : shl64 (2 ^ i) 1 = 2 ^ (i + 1) := by
        unfold shl64
        rw [Nat.shiftLeft_eq, pow_one, ← pow_succ, Nat.mod_eq_of_lt hp]
      rw [e]
      obtain ⟨j, a, b, c, d⟩ := ih (i + 1) (by omega) (by omega)
      exact ⟨j, by omega, b, c, d⟩
    · rw [if_neg hlt]
      exact ⟨i, le_refl _, hi, rfl, by omega⟩

/-- `rehash(new_size)` for `1 ≤ new_size ≤ 2 ^ 63`: the capacity becomes the least power of
two not below `new_size`, the mask one less, every entry lies in the slot of its segment
index, and the entries are the same up to order. -/
theorem rehash_general (ring : BucketRing) (n : Nat) (h1 : 1 ≤ n) (h2 : n ≤ 2 ^ 63) :
    ∃ j, j ≤ 63 ∧ n ≤ 2 ^ j ∧ (ring.rehash n).buckets.length = 2 ^ j ∧
      (ring.rehash n).mask = 2 ^ j - 1 ∧
      (ring.rehash n).base_segment = ring.base_segment ∧
      List.Perm (ring.rehash n).entries ring.entries ∧
      SlotsAt (ring.rehash n).mask (ring.rehash n).buckets := by
  have hsub : sub64 n 1 = n - 1 := sub64_eq h1 (by omega)
  have hsize : ∃ j, j ≤ 63 ∧ n ≤ 2 ^ j ∧
      (if n &&& (sub64 n 1) ≠ 0 then pow2_loop n 64 1 else n) = 2 ^ j := by
    by_cases ht : n &&& (sub64 n 1) ≠ 0
    · rw [if_pos ht]
      have := pow2_loop_spec n h2 64 0 (by omega) (by omega)
      rw [pow_zero] at this
      obtain ⟨j, _, b, c, d⟩ := this
      exact ⟨j, b, d, c⟩
    · rw [if_neg ht]
      have h0 : n &&& (n - 1) = 0 := by
        rw [hsub] at ht
        by_contra hc
        exact ht hc
      obtain ⟨j, hj⟩ := pow_two_of_and_pred n h1 h0
      refine ⟨j, ?_, by omega, hj⟩
      by_contra hc
      have : 2 ^ 64 ≤ 2 ^ j := Nat.pow_le_pow_right (by decide) (by omega)
      omega
  obtain ⟨j, hj, hnj, hs⟩ := hsize
  have hpow : 2 ^ j < 2 ^ 64 := Nat.pow_lt_pow_right (by decide) (by omega)
  have hpos : 0 < 2 ^ j := by positivity
  have e2 : sub64 (2 ^ j) 1 = 2 ^ j - 1 := sub64_eq (by omega) hpow
  refine ⟨j, hj, hnj, ?_⟩
  unfold BucketRing.rehash BucketRing.entries
  simp only [hs, e2]
  rw [foldl_foldl_flatten]
  obtain ⟨r1, r2, r3⟩ := rehash_fold (2 ^ j - 1) ring.buckets.flatten
    (List.replicate (2 ^ j) [])
    (fun e _ => by rw [List.length_replicate]; exact and_mask_lt _ _)
    (SlotsAt_replicate _ _)
  refine ⟨by rw [r1, List.length_replicate], trivial, trivial, ?_, r3⟩
  rw [flatten_replicate_nil, List.nil_append] at r2
  exact r2

/-! ## The schedule of the large primes along the segments -/

theorem take_length (ring : BucketRing) (seg : Nat) :
    (ring.take seg).1.buckets.length = (ring.ensure_capacity seg).buckets.length := by
  unfold BucketRing.take
  simp only
  split
  · rfl
  · simp only
    split <;> exact slot_set_length _ _ _

/-- The scheduled entries are pairwise distinct: they differ in their owner. -/
theorem scheduled_nodup (m : PrimeMarker) (large : List LargePrimeState) :
    (scheduled m large).Nodup := by
  unfold scheduled
  apply List.Nodup.filterMap _ (List.nodup_range _)
  intro a a2 b hb hb2
  have key : ∀ (i : Nat) (e : BucketEntry),
      e ∈ (match large[i]? with
        | some lp => if lp.next_value < m.range_end then some (entry_of m i lp) else none
        | none => none) → e.owner = some i := by
    intro i e he
    cases hl : large[i]? with
    | none => rw [hl] at he; simp at he
    | some lp =>
      rw [hl] at he
      simp only at he
      by_cases hlt : lp.next_value < m.range_end
      · rw [if_pos hlt] at he
        have : e = entry_of m i lp := by simpa using he.symm
        rw [this]
        rfl
      · rw [if_neg hlt] at he
        simp at he
  have h1 := key a b hb
  have h2 := key a2 b hb2
  rw [h1] at h2
  exact Option.some.inj h2

/-- Before every segment, and after the last, the single worker stands at the low end of
the segment it comes to, or at the end of the range. -/
theorem sieve_in_order_at_all (ty : WheelType) (m : PrimeMarker) (hm : MarkerOK ty m)
    (hl : LargeOK m)
    (hsi : m.small_initial = m.small_primes.map (fun p => first_hit p m.range_begin))
    (hmi : m.medium_initial = m.medium_primes.map (fun p => first_hit p m.range_begin))
    (hbo : m.range_begin % 2 = 1) (heo : m.range_end % 2 = 1)
    (hend : m.range_end ≤ 2 ^ 63 + 1) (hbe : m.range_begin ≤ m.range_end) (k : Nat) :
    WorkerAt m (sieve_in_order m k)
      (Nat.min (m.range_begin + k * m.config.segment_span) m.range_end) := by
  have hc := hm.2.1
  obtain ⟨_, _, _, _, hs0, hs2, hsl⟩ := hc
  induction k with
  | zero =>
    have h := make_thread_state_at m hl (by omega) (by omega) hend (by omega) hsi hmi
    have e : Nat.min (m.range_begin + 0 * m.config.segment_span) m.range_end =
        m.range_begin := by
      rw [Nat.zero_mul, Nat.add_zero]
      exact natmin_left hbe
    rw [e]
    exact h
  | succ k ih =>
    have e1 : (k + 1) * m.config.segment_span =
        k * m.config.segment_span + m.config.segment_span := by ring
    have hq := queue_next_eq { begin_ := m.range_begin, end_ := m.range_end } m.config k
      hm.2.1 hbe hend
    by_cases hk0 : k * m.config.segment_span < m.range_end - m.range_begin
    · simp only [if_pos hk0] at hq
      have elo : Nat.min (m.range_begin + k * m.config.segment_span) m.range_end =
          m.range_begin + k * m.config.segment_span := natmin_left (by omega)
      rw [elo] at ih
      have hks : k < 2 ^ 62 := by
        by_contra hge
        have h1 : 2 ^ 62 * 2 ≤ k * m.config.segment_span :=
          Nat.mul_le_mul (by omega) (by omega)
        omega
      have hkm : (k * m.config.segment_span) % 2 = 0 := by
        rw [Nat.mul_mod, hs2]
        simp
      have ehi : m.range_begin + Nat.min (m.range_end - m.range_begin)
          (k * m.config.segment_span + m.config.segment_span) =
          Nat.min (m.range_begin + (k + 1) * m.config.segment_span) m.range_end := by
        rw [e1]
        rcases Nat.le_total (m.range_end - m.range_begin)
          (k * m.config.segment_span + m.config.segment_span) with h | h
        · rw [natmin_left h, natmin_right (by omega)]
          omega
        · rw [natmin_right h, natmin_left (by omega)]
      rw [ehi] at hq
      have hmin1 : Nat.min (m.range_begin + (k + 1) * m.config.segment_span) m.range_end
          ≤ m.range_end := Nat.min_le_right _ _
      have hmin2 : Nat.min (m.range_begin + (k + 1) * m.config.segment_span) m.range_end
          ≤ m.range_begin + (k + 1) * m.config.segment_span := Nat.min_le_left _ _
      have hmin3 : (Nat.min (m.range_begin + (k + 1) * m.config.segment_span)
          m.range_end) % 2 = 1 := by
        rcases Nat.le_total (m.range_begin + (k + 1) * m.config.segment_span)
          m.range_end with h | h
        · rw [natmin_left h]; omega
        · rw [natmin_right h]; exact heo
      have hmin4 : m.range_begin + k * m.config.segment_span <
          Nat.min (m.range_begin + (k + 1) * m.config.segment_span) m.range_end := by
        show _ < min _ _
        omega
      have hmin5 : Nat.min (m.range_begin + (k + 1) * m.config.segment_span) m.range_end =
          Nat.min (m.range_begin + k * m.config.segment_span + m.config.segment_span)
            m.range_end := by
        rw [e1, Nat.add_assoc]
      generalize hM : Nat.min (m.range_begin + (k + 1) * m.config.segment_span)
          m.range_end = M at *
      have ehi2 : M = m.range_begin + k * m.config.segment_span +
          2 * ((M - (m.range_begin + k * m.config.segment_span)) / 2) := by
        omega
      have hspec := sieve_segment_spec ty m hm hl hbo hend k
        (m.range_begin + k * m.config.segment_span)
        ((M - (m.range_begin + k * m.config.segment_span)) / 2) hks
        (by omega) rfl
        (by rw [← ehi2, hmin5])
        (sieve_in_order m k) ih
      rw [← ehi2] at hspec
      have e5 : sieve_in_order m (k + 1) =
          (sieve_segment m (sieve_in_order m k) k
            (m.range_begin + k * m.config.segment_span) M).1 := by
        conv_lhs => unfold sieve_in_order
        rw [hq]
      rw [e5]
      exact hspec.1
    · simp only [if_neg hk0] at hq
      have e5 : sieve_in_order m (k + 1) = sieve_in_order m k := by
        conv_lhs => unfold sieve_in_order
        rw [hq]
      rw [e5]
      have e6 : Nat.min (m.range_begin + k * m.config.segment_span) m.range_end =
          m.range_end := natmin_right (by omega)
      have e7 : Nat.min (m.range_begin + (k + 1) * m.config.segment_span) m.range_end =
          m.range_end := natmin_right (by rw [e1]; omega)
      rw [e7]
      rw [e6] at ih
      exact ih

/-- What the ring of a worker that stands at `x` holds: one entry for every large state that
is still due, none for the others. -/
theorem worker_schedule (m : PrimeMarker) (st : ThreadState) (x : Nat)
    (hw : WorkerAt m st x) (hl : LargeOK m) (hx : m.range_begin ≤ x)
    (hx2 : x ≤ 2 ^ 63 + 1) :
    (∀ o lp, st.large_states[o]? = some lp → lp.next_value < m.range_end →
      st.bucket.entries.count (entry_of m o lp) = 1 ∧
      (∀ e ∈ st.bucket.entries, e.owner = some o → e = entry_of m o lp) ∧
      (entry_of m o lp).value = lp.next_value ∧
      (entry_of m o lp).next_index =
        (lp.next_value - m.range_begin) / m.config.segment_span ∧
      x ≤ lp.next_value) ∧
    (∀ o lp, st.large_states[o]? = some lp → m.range_end ≤ lp.next_value →
      ∀ e ∈ st.bucket.entries, e.owner ≠ some o) := by
  obtain ⟨_, _, hperm, hlarge⟩ := hw
  have hnd := scheduled_nodup m st.large_states
  have hok := large_at_ok m hl x hx hx2
  constructor
  · intro o lp ho hlt
    have hmem : lp ∈ large_at m x := by
      rw [← hlarge]
      exact List.getElem?_mem ho
    obtain ⟨_, _, b3, b4⟩ := hok lp hmem
    obtain ⟨t, ht, rfl⟩ := (mem_large_at m x lp).1 hmem
    obtain ⟨a1, _, _, _⟩ := hl t ht
    obtain ⟨⟨_, _, _, f4, _⟩, _⟩ := first_hit_spec t.prime x a1 hx2
    have hin : entry_of m o { t with next_value := first_hit t.prime x } ∈
        scheduled m st.large_states :=
      (mem_scheduled m st.large_states _).2 ⟨o, _, ho, hlt, rfl⟩
    refine ⟨?_, ?_, rfl, ?_, f4⟩
    · rw [hperm.count_eq]
      exact List.count_eq_one_of_mem hnd hin
    · intro e he heo
      have he2 := (hperm.mem_iff).1 he
      obtain ⟨o2, lp2, ho2, _, rfl⟩ := (mem_scheduled m st.large_states e).1 he2
      have e1 : o2 = o := Option.some.inj heo
      subst e1
      rw [ho] at ho2
      rw [← Option.some.inj ho2]
    · show sub64 _ m.range_begin / _ = _
      rw [sub64_eq b3 b4]
  · intro o lp ho hge e he heo
    have he2 := (hperm.mem_iff).1 he
    obtain ⟨o2, lp2, ho2, hlt2, rfl⟩ := (mem_scheduled m st.large_states e).1 he2
    have e1 : o2 = o := Option.some.inj heo
    subst e1
    rw [ho] at ho2
    have e2 := Option.some.inj ho2
    subst e2
    omega

/-! ## The cursors of the small and medium primes across a segment, from any start -/

/-- Advancing a cursor that is a first hit from some `z ≤ hi` to a bound `y ≤ hi` gives a
first hit from some value up to `hi`. -/
theorem advance_to_below (p hi y c : Nat) (hp : SievePrime p) (hhi : hi ≤ 2 ^ 63 + 1)
    (hy : y ≤ hi) (h : ∃ z, z ≤ hi ∧ FirstHit p z c) :
    (∃ z, z ≤ hi ∧ FirstHit p z (advance_to c y (mul64 p 2))) ∧
      y ≤ advance_to c y (mul64 p 2) := by
  obtain ⟨z, hz, hf⟩ := h
  by_cases hlt : c < y
  · have hzc : z ≤ c := hf.2.2.2.1
    have h2 := advance_to_spec p z y c hp hf (by omega) (by omega) (by omega)
    exact ⟨⟨y, hy, h2⟩, h2.2.2.2.1⟩
  · unfold advance_to
    rw [if_neg hlt]
    exact ⟨⟨z, hz, hf⟩, by omega⟩

/-- Advancing a cursor that is a first hit from some `z ≤ hi` to `hi` gives the first hit
from `hi`. -/
theorem advance_to_reach (p hi c : Nat) (hp : SievePrime p) (hhi : hi ≤ 2 ^ 63 + 1)
    (h : ∃ z, z ≤ hi ∧ FirstHit p z c) :
    FirstHit p hi (advance_to c hi (mul64 p 2)) := by
  obtain ⟨z, hz, hf⟩ := h
  by_cases hlt : c < hi
  · have hzc : z ≤ c := hf.2.2.2.1
    exact advance_to_spec p z hi c hp hf hz hhi (by omega)
  · unfold advance_to
    rw [if_neg hlt]
    exact FirstHit_mono p z hi c hf hz (by omega)

theorem scalar_marks_done (tile : TileView) (tile_end step fuel pos : Nat) (bits : List Nat)
    (h : tile_end ≤ pos) : scalar_marks tile tile_end step fuel pos bits = (bits, pos) := by
  cases fuel with
  | zero => rfl
  | succ fuel =>
    unfold scalar_marks
    rw [if_neg (by omega)]

/-- The scalar loop leaves a cursor that is a first hit from some value up to `hi`. -/
theorem scalar_marks_below (tile : TileView) (tile_end p hi : Nat) (hp : SievePrime p)
    (hhi : hi ≤ 2 ^ 63 + 1) (hte : tile_end ≤ hi) (fuel pos : Nat) (bits : List Nat)
    (h : ∃ z, z ≤ hi ∧ FirstHit p z pos) (hfuel : tile_end ≤ pos + 2 * p * fuel) :
    ∃ z, z ≤ hi ∧ FirstHit p z (scalar_marks tile tile_end (2 * p) fuel pos bits).2 := by
  obtain ⟨z, hz, hf⟩ := h
  by_cases hlt : pos < tile_end
  · have hzc : z ≤ pos := hf.2.2.2.1
    exact ⟨tile_end, hte, scalar_marks_cursor tile tile_end p z hp (by omega) (by omega)
      fuel pos bits hf hfuel⟩
  · rw [scalar_marks_done tile tile_end (2 * p) fuel pos bits (by omega)]
    exact ⟨z, hz, hf⟩

/-- The step of `apply_small_primes` for one prime, with or without pattern, leaves a
cursor that is a first hit from some value up to `hi`. -/
theorem small_prime_step_below (tile : TileView) (p hi : Nat)
    (pattern : Option SmallPrimePattern) (hp : SievePrime p) (hhi : hi ≤ 2 ^ 63 + 1)
    (hts : tile.start_value + 2 * tile.bit_count ≤ hi) (c : Nat) (bits : List Nat)
    (h : ∃ z, z ≤ hi ∧ FirstHit p z c) :
    ∃ z, z ≤ hi ∧ FirstHit p z (small_prime_step tile p pattern c bits).2 := by
  have hp32 := hp.2.2
  have e1 : mul64 tile.bit_count 2 = tile.bit_count * 2 := mul64_eq (by omega)
  have e2 : add64 tile.start_value (tile.bit_count * 2) =
      tile.start_value + 2 * tile.bit_count := by
    rw [add64_eq (by omega)]; ring
  obtain ⟨h1, h0⟩ := advance_to_below p hi tile.start_value c hp hhi (by omega) h
  unfold small_prime_step
  simp only [e1, e2]
  generalize advance_to c tile.start_value (mul64 p 2) = pos at h1 h0
  by_cases hge : pos ≥ tile.start_value + 2 * tile.bit_count
  · rw [if_pos hge]
    exact h1
  · rw [if_neg hge]
    cases pattern with
    | some pat =>
      simp only
      have h2 := (advance_to_below p hi (tile.start_value + 2 * tile.bit_count) pos hp hhi
        hts h1).1
      unfold advance_to at h2
      rw [if_pos (by omega)] at h2
      exact h2
    | none =>
      simp only
      rw [mul64_two p hp32]
      apply scalar_marks_below tile _ p hi hp hhi hts _ pos bits h1
      have : 2 * tile.bit_count ≤ 2 * p * (tile.bit_count + 1) := by
        have h3 : 1 * (tile.bit_count + 1) ≤ p * (tile.bit_count + 1) :=
          Nat.mul_le_mul_right _ (by have := hp.1; omega)
        calc 2 * tile.bit_count ≤ 2 * (1 * (tile.bit_count + 1)) := by omega
          _ ≤ 2 * (p * (tile.bit_count + 1)) := Nat.mul_le_mul_left _ h3
          _ = 2 * p * (tile.bit_count + 1) := by ring
      omega

/-- The step of `apply_medium_primes` for one prime leaves a cursor that is a first hit from
some value up to `hi`. -/
theorem medium_prime_step_below (tile : TileView) (p hi : Nat) (hp : SievePrime p)
    (hhi : hi ≤ 2 ^ 63 + 1) (hts : tile.start_value + 2 * tile.bit_count ≤ hi) (c : Nat)
    (bits : List Nat) (h : ∃ z, z ≤ hi ∧ FirstHit p z c) :
    ∃ z, z ≤ hi ∧ FirstHit p z (medium_prime_step tile p c bits).2 := by
  have hp32 := hp.2.2
  have e1 : mul64 tile.bit_count 2 = tile.bit_count * 2 := mul64_eq (by omega)
  have e2 : add64 tile.start_value (tile.bit_count * 2) =
      tile.start_value + 2 * tile.bit_count := by
    rw [add64_eq (by omega)]; ring
  obtain ⟨h1, h0⟩ := advance_to_below p hi tile.start_value c hp hhi (by omega) h
  unfold medium_prime_step
  simp only [e1, e2]
  generalize advance_to c tile.start_value (mul64 p 2) = pos at h1 h0
  rw [mul64_two p hp32]
  apply scalar_marks_below tile _ p hi hp hhi hts _ pos bits h1
  have : 2 * tile.bit_count ≤ 2 * p * (tile.bit_count + 1) := by
    have h3 : 1 * (tile.bit_count + 1) ≤ p * (tile.bit_count + 1) :=
      Nat.mul_le_mul_right _ (by have := hp.1; omega)
    calc 2 * tile.bit_count ≤ 2 * (1 * (tile.bit_count + 1)) := by omega
      _ ≤ 2 * (p * (tile.bit_count + 1)) := Nat.mul_le_mul_left _ h3
      _ = 2 * p * (tile.bit_count + 1) := by ring
  omega

/-- The loop over the small primes: the cursor at every index stays a first hit from some
value up to `hi`. -/
theorem small_primes_loop_below (tile : TileView) (hi : Nat) (hhi : hi ≤ 2 ^ 63 + 1)
    (hts : tile.start_value + 2 * tile.bit_count ≤ hi) (p : Nat) (hp : SievePrime p)
    (primes : List Nat) (patterns : List (Option SmallPrimePattern)) (positions : List Nat)
    (bits : List Nat) (i c : Nat) (h1 : primes[i]? = some p) (h2 : positions[i]? = some c)
    (h : ∃ z, z ≤ hi ∧ FirstHit p z c) :
    ∃ c2, (small_primes_loop tile primes patterns positions bits).2[i]? = some c2 ∧
      ∃ z, z ≤ hi ∧ FirstHit p z c2 := by
  induction primes generalizing patterns positions bits i with
  | nil => simp at h1
  | cons q qs ih =>
    cases patterns with
    | nil =>
      unfold small_primes_loop
      exact ⟨c, h2, h⟩
    | cons pat pats =>
      cases positions with
      | nil => simp at h2
      | cons pos rest =>
        unfold small_primes_loop
        simp only
        cases i with
        | zero =>
          simp only [List.getElem?_cons_zero, Option.some.injEq] at h1 h2 ⊢
          subst h1 h2
          exact ⟨_, rfl, small_prime_step_below tile q hi pat hp hhi hts pos bits h⟩
        | succ i =>
          simp only [List.getElem?_cons_succ] at h1 h2 ⊢
          exact ih pats rest _ i h1 h2

/-- The loop over the medium primes: the cursor at every index stays a first hit from some
value up to `hi`. -/
theorem medium_primes_loop_below (tile : TileView) (hi : Nat) (hhi : hi ≤ 2 ^ 63 + 1)
    (hts : tile.start_value + 2 * tile.bit_count ≤ hi) (p : Nat) (hp : SievePrime p)
    (primes : List Nat) (positions : List Nat)
    (bits : List Nat) (i c : Nat) (h1 : primes[i]? = some p) (h2 : positions[i]? = some c)
    (h : ∃ z, z ≤ hi ∧ FirstHit p z c) :
    ∃ c2, (medium_primes_loop tile primes positions bits).2[i]? = some c2 ∧
      ∃ z, z ≤ hi ∧ FirstHit p z c2 := by
  induction primes generalizing positions bits i with
  | nil => simp at h1
  | cons q qs ih =>
    cases positions with
    | nil => simp at h2
    | cons pos rest =>
      unfold medium_primes_loop
      simp only
      cases i with
      | zero =>
        simp only [List.getElem?_cons_zero, Option.some.injEq] at h1 h2 ⊢
        subst h1 h2
        exact ⟨_, rfl, medium_prime_step_below tile q hi hp hhi hts pos bits h⟩
      | succ i =>
        simp only [List.getElem?_cons_succ] at h1 h2 ⊢
        exact ih rest _ i h1 h2

/-- The closing loop moves the cursor at every index on to the segment end. -/
theorem advance_cursors_get (hi : Nat) (primes positions : List Nat) (i p c : Nat)
    (h1 : primes[i]? = some p) (h2 : positions[i]? = some c) :
    (advance_cursors hi primes positions)[i]? = some (advance_to c hi (mul64 p 2)) := by
  induction primes generalizing positions i with
  | nil => simp at h1
  | cons q qs ih =>
    cases positions with
    | nil => simp at h2
    | cons pos rest =>
      unfold advance_cursors
      cases i with
      | zero =>
        simp only [List.getElem?_cons_zero, Option.some.injEq] at h1 h2 ⊢
        subst h1 h2
        rfl
      | succ i =>
        simp only [List.getElem?_cons_succ] at h1 h2 ⊢
        exact ih rest i h1 h2

theorem apply_small_primes_below (m : PrimeMarker) (tile : TileView) (hi : Nat)
    (hhi : hi ≤ 2 ^ 63 + 1) (hts : tile.start_value + 2 * tile.bit_count ≤ hi)
    (p : Nat) (hp : SievePrime p) (positions bits : List Nat) (i c : Nat)
    (h1 : m.small_primes[i]? = some p) (h2 : positions[i]? = some c)
    (h : ∃ z, z ≤ hi ∧ FirstHit p z c) :
    ∃ c2, (apply_small_primes m positions tile bits).2[i]? = some c2 ∧
      ∃ z, z ≤ hi ∧ FirstHit p z c2 := by
  unfold apply_small_primes
  by_cases h0 : tile.bit_count = 0
  · rw [if_pos h0]
    exact ⟨c, h2, h⟩
  · rw [if_neg h0]
    exact small_primes_loop_below tile hi hhi hts p hp _ _ _ _ i c h1 h2 h

theorem apply_medium_primes_below (m : PrimeMarker) (tile : TileView) (hi : Nat)
    (hhi : hi ≤ 2 ^ 63 + 1) (hts : tile.start_value + 2 * tile.bit_count ≤ hi)
    (p : Nat) (hp : SievePrime p) (positions bits : List Nat) (i c : Nat)
    (h1 : m.medium_primes[i]? = some p) (h2 : positions[i]? = some c)
    (h : ∃ z, z ≤ hi ∧ FirstHit p z c) :
    ∃ c2, (apply_medium_primes m positions tile bits).2[i]? = some c2 ∧
      ∃ z, z ≤ hi ∧ FirstHit p z c2 := by
  unfold apply_medium_primes
  by_cases h0 : tile.bit_count = 0
  · rw [if_pos h0]
    exact ⟨c, h2, h⟩
  · rw [if_neg h0]
    exact medium_primes_loop_below tile hi hhi hts p hp _ _ _ i c h1 h2 h

/-- The tile loop keeps every small and medium cursor a first hit from some value up to the
segment end. -/
theorem tile_loop_below (m : PrimeMarker) (hc : ConfigOK m.config) (hi : Nat)
    (hhi : hi ≤ 2 ^ 63 + 1) (p : Nat) (hp : SievePrime p) (i : Nat)
    (fuel tile_low bit_offset : Nat) (st : ThreadState) (bits : List Nat) :
    (∀ c, m.small_primes[i]? = some p → st.small_positions[i]? = some c →
      (∃ z, z ≤ hi ∧ FirstHit p z c) →
      ∃ c2, (tile_loop m hi fuel tile_low bit_offset st bits).1.small_positions[i]? = some c2 ∧
        ∃ z, z ≤ hi ∧ FirstHit p z c2) ∧
    (∀ c, m.medium_primes[i]? = some p → st.medium_positions[i]? = some c →
      (∃ z, z ≤ hi ∧ FirstHit p z c) →
      ∃ c2, (tile_loop m hi fuel tile_low bit_offset st bits).1.medium_positions[i]? = some c2 ∧
        ∃ z, z ≤ hi ∧ FirstHit p z c2) := by
  obtain ⟨_, _, _, hts, _, _, _⟩ := hc
  induction fuel generalizing tile_low bit_offset st bits with
  | zero =>
    unfold tile_loop
    exact ⟨fun c _ h2 h => ⟨c, h2, h⟩, fun c _ h2 h => ⟨c, h2, h⟩⟩
  | succ fuel ih =>
    unfold tile_loop
    by_cases hlt : tile_low < hi
    · rw [if_pos hlt]
      simp only
      have e1 : add64 tile_low m.config.tile_span = tile_low + m.config.tile_span :=
        add64_eq (by omega)
      rw [e1]
      have hmin1 : Nat.min hi (tile_low + m.config.tile_span) ≤ hi := Nat.min_le_left _ _
      have hmin2 : tile_low ≤ Nat.min hi (tile_low + m.config.tile_span) := by
        show _ ≤ min _ _
        omega
      generalize Nat.min hi (tile_low + m.config.tile_span) = th at hmin1 hmin2
      have e2 : sub64 th tile_low >>> 1 = (th - tile_low) / 2 := by
        rw [sub64_eq hmin2 (by omega), Nat.shiftRight_eq_div_pow]
      rw [e2]
      have hte : tile_low + 2 * ((th - tile_low) / 2) ≤ hi := by omega
      obtain ⟨ih1, ih2⟩ := ih th (add64 bit_offset ((th - tile_low) / 2))
        { st with
          small_positions := (apply_small_primes m st.small_positions
            { start_value := tile_low, bit_offset := bit_offset,
              bit_count := (th - tile_low) / 2, word_base := bit_offset / 64,
              word_count := words_for_bits ((th - tile_low) / 2) } bits).2,
          medium_positions := (apply_medium_primes m st.medium_positions
            { start_value := tile_low, bit_offset := bit_offset,
              bit_count := (th - tile_low) / 2, word_base := bit_offset / 64,
              word_count := words_for_bits ((th - tile_low) / 2) }
            (apply_small_primes m st.small_positions
              { start_value := tile_low, bit_offset := bit_offset,
                bit_count := (th - tile_low) / 2, word_base := bit_offset / 64,
                word_count := words_for_bits ((th - tile_low) / 2) } bits).1).2 }
        (if (th - tile_low) / 2 % 64 ≠ 0 ∧ words_for_bits ((th - tile_low) / 2) > 0 then
          and_word (apply_medium_primes m st.medium_positions
            { start_value := tile_low, bit_offset := bit_offset,
              bit_count := (th - tile_low) / 2, word_base := bit_offset / 64,
              word_count := words_for_bits ((th - tile_low) / 2) }
            (apply_small_primes m st.small_positions
              { start_value := tile_low, bit_offset := bit_offset,
                bit_count := (th - tile_low) / 2, word_base := bit_offset / 64,
                word_count := words_for_bits ((th - tile_low) / 2) } bits).1).1
            (bit_offset / 64 + (words_for_bits ((th - tile_low) / 2) - 1))
            (sub64 (shl64 1 ((th - tile_low) / 2 % 64)) 1)
        else (apply_medium_primes m st.medium_positions
            { start_value := tile_low, bit_offset := bit_offset,
              bit_count := (th - tile_low) / 2, word_base := bit_offset / 64,
              word_count := words_for_bits ((th - tile_low) / 2) }
            (apply_small_primes m st.small_positions
              { start_value := tile_low, bit_offset := bit_offset,
                bit_count := (th - tile_low) / 2, word_base := bit_offset / 64,
                word_count := words_for_bits ((th - tile_low) / 2) } bits).1).1)
      constructor
      · intro c h1 h2 h
        obtain ⟨c1, g1, g2⟩ := apply_small_primes_below m
          { start_value := tile_low, bit_offset := bit_offset,
            bit_count := (th - tile_low) / 2, word_base := bit_offset / 64,
            word_count := words_for_bits ((th - tile_low) / 2) } hi hhi hte p hp
          st.small_positions bits i c h1 h2 h
        exact ih1 c1 h1 g1 g2
      · intro c h1 h2 h
        obtain ⟨c1, g1, g2⟩ := apply_medium_primes_below m
          { start_value := tile_low, bit_offset := bit_offset,
            bit_count := (th - tile_low) / 2, word_base := bit_offset / 64,
            word_count := words_for_bits ((th - tile_low) / 2) } hi hhi hte p hp
          st.medium_positions
          (apply_small_primes m st.small_positions
            { start_value := tile_low, bit_offset := bit_offset,
              bit_count := (th - tile_low) / 2, word_base := bit_offset / 64,
              word_count := words_for_bits ((th - tile_low) / 2) } bits).1 i c h1 h2 h
        exact ih2 c1 h1 g1 g2
    · rw [if_neg hlt]
      exact ⟨fun c _ h2 h => ⟨c, h2, h⟩, fun c _ h2 h => ⟨c, h2, h⟩⟩

/-- The cursors across `sieve_segment`: a small or medium cursor that is a first hit from
some `x ≤ segment_high` is afterwards the first hit from `segment_high`. -/
theorem sieve_segment_cursor (m : PrimeMarker) (hc : ConfigOK m.config) (st : ThreadState)
    (id low high : Nat) (hlh : low + 2 ≤ high) (hhigh : high ≤ 2 ^ 63 + 1)
    (p : Nat) (hp : SievePrime p) (i c x : Nat) (hx : x ≤ high) (h : FirstHit p x c) :
    (m.small_primes[i]? = some p → st.small_positions[i]? = some c →
      ∃ c2, (sieve_segment m st id low high).1.small_positions[i]? = some c2 ∧
        FirstHit p high c2) ∧
    (m.medium_primes[i]? = some p → st.medium_positions[i]? = some c →
      ∃ c2, (sieve_segment m st id low high).1.medium_positions[i]? = some c2 ∧
        FirstHit p high c2) := by
  have hb : ¬ ((high - low) >>> 1 = 0) := by
    rw [Nat.shiftRight_eq_div_pow]
    have : 1 ≤ (high - low) / 2 ^ 1 := by
      rw [Nat.le_div_iff_mul_le (by norm_num)]
      omega
    omega
  unfold sieve_segment
  rw [if_neg (by omega)]
  simp only [if_neg hb]
  obtain ⟨t1, t2⟩ := tile_loop_below m hc high hhigh p hp i
    ((high - low) / m.config.tile_span + 1) low 0
    (apply_large_primes m st id low high
      (apply_presieve m.wheel low ((high - low) >>> 1)
        (List.replicate (words_for_bits ((high - low) >>> 1)) 0))).1
    (apply_large_primes m st id low high
      (apply_presieve m.wheel low ((high - low) >>> 1)
        (List.replicate (words_for_bits ((high - low) >>> 1)) 0))).2
  constructor
  · intro h1 h2
    obtain ⟨c1, g1, g2⟩ := t1 c h1 h2 ⟨x, hx, h⟩
    exact ⟨_, advance_cursors_get high _ _ i p c1 h1 g1, advance_to_reach p high c1 hp hhigh g2⟩
  · intro h1 h2
    obtain ⟨c1, g1, g2⟩ := t2 c h1 h2 ⟨x, hx, h⟩
    exact ⟨_, advance_cursors_get high _ _ i p c1 h1 g1, advance_to_reach p high c1 hp hhigh g2⟩

/-! ## The pattern path and the scalar path of `apply_small_primes`, for any cursor -/

/-- The scalar loop sets, from the bit of the cursor on, every `p`-th bit of the tile. -/
theorem scalar_marks_rel (tile : TileView) (p bc : Nat) (hp3 : 3 ≤ p) (hp32 : p < 2 ^ 32)
    (hend : tile.start_value + 2 * bc ≤ 2 ^ 63 + 1) (fuel pos : Nat) (bits : List Nat)
    (hge : tile.start_value ≤ pos) (hpos : pos < 2 ^ 64)
    (hfuel : tile.start_value + 2 * bc ≤ pos + 2 * p * fuel) (idx : Nat) :
    get_bit (scalar_marks tile (tile.start_value + 2 * bc) (2 * p) fuel pos bits).1 idx
        = true ↔
      (get_bit bits idx = true ∨
        (idx / 64 < bits.length ∧ 64 * tile.word_base + (pos - tile.start_value) / 2 ≤ idx ∧
          idx < 64 * tile.word_base + bc ∧
          p ∣ idx - (64 * tile.word_base + (pos - tile.start_value) / 2))) := by
  induction fuel generalizing pos bits with
  | zero =>
    unfold scalar_marks
    constructor
    · intro h; exact Or.inl h
    · rintro (h | ⟨_, h1, h2, _⟩)
      · exact h
      · omega
  | succ fuel ih =>
    unfold scalar_marks
    by_cases hlt : pos < tile.start_value + 2 * bc
    · simp only [if_pos hlt]
      have hstore : or_word bits
          (tile.word_base + (sub64 pos tile.start_value >>> 1) / 64)
          (shl64 1 ((sub64 pos tile.start_value >>> 1) % 64)) =
          set_bit bits (64 * tile.word_base + (pos - tile.start_value) / 2) := by
        unfold set_bit
        rw [sub64_eq hge hpos, Nat.shiftRight_eq_div_pow]
        have e1 : tile.word_base + (pos - tile.start_value) / 2 ^ 1 / 64 =
            (64 * tile.word_base + (pos - tile.start_value) / 2) / 64 := by omega
        have e2 : (pos - tile.start_value) / 2 ^ 1 % 64 =
            (64 * tile.word_base + (pos - tile.start_value) / 2) % 64 := by omega
        rw [e1, e2]
      rw [hstore, add64_eq (by omega)]
      have hf : tile.start_value + 2 * bc ≤ pos + 2 * p + 2 * p * fuel := by
        have e : 2 * p * (fuel + 1) = 2 * p * fuel + 2 * p := by ring
        omega
      rw [ih (pos + 2 * p) _ (by omega) (by omega) hf, get_bit_set_bit_iff, set_bit_length]
      have e3 : (pos + 2 * p - tile.start_value) / 2 = (pos - tile.start_value) / 2 + p := by
        omega
      rw [e3]
      constructor
      · rintro ((h | ⟨h1, h2⟩) | ⟨h1, h2, h3, j, hj⟩)
        · exact Or.inl h
        · right
          refine ⟨by rw [h1]; exact h2, by omega, by omega, ⟨0, by omega⟩⟩
        · right
          refine ⟨h1, by omega, h3, ⟨j + 1, ?_⟩⟩
          have e : p * (j + 1) = p * j + p := by ring
          omega
      · rintro (h | ⟨h1, h2, h3, j, hj⟩)
        · exact Or.inl (Or.inl h)
        · by_cases hj0 : j = 0
          · left; right
            subst hj0
            have : idx = 64 * tile.word_base + (pos - tile.start_value) / 2 := by omega
            exact ⟨this, by rw [← this]; exact h1⟩
          · right
            obtain ⟨j1, rfl⟩ : ∃ j1, j = j1 + 1 := ⟨j - 1, by omega⟩
            have e : p * (j1 + 1) = p * j1 + p := by ring
            exact ⟨h1, by omega, h3, ⟨j1, by omega⟩⟩
    · simp only [if_neg hlt]
      constructor
      · intro h; exact Or.inl h
      · rintro (h | ⟨_, h1, h2, _⟩)
        · exact h
        · omega

/-- The scalar loop leaves the cursor where the cursor advance of the pattern path puts
it. -/
theorem scalar_marks_cursor_eq (tile : TileView) (te p : Nat) (hp3 : 3 ≤ p)
    (hp32 : p < 2 ^ 32) (hend : te ≤ 2 ^ 63 + 1) (fuel pos : Nat) (bits : List Nat)
    (hpos : pos < 2 ^ 64) (hfuel : te ≤ pos + 2 * p * fuel) :
    (scalar_marks tile te (2 * p) fuel pos bits).2 = advance_to pos te (2 * p) := by
  induction fuel generalizing pos bits with
  | zero =>
    unfold scalar_marks advance_to
    rw [if_neg (by omega)]
  | succ fuel ih =>
    unfold scalar_marks
    by_cases hlt : pos < te
    · simp only [if_pos hlt]
      rw [add64_eq (by omega)]
      have hf : te ≤ pos + 2 * p + 2 * p * fuel := by
        have e : 2 * p * (fuel + 1) = 2 * p * fuel + 2 * p := by ring
        omega
      rw [ih (pos + 2 * p) _ (by omega) hf]
      unfold advance_to
      rw [if_pos hlt]
      have e1 : sub64 te pos = te - pos := sub64_eq (by omega) (by omega)
      have e2 : add64 (te - pos) (2 * p) = te - pos + 2 * p := add64_eq (by omega)
      have e3 : sub64 (te - pos + 2 * p) 1 = te - pos + 2 * p - 1 :=
        sub64_eq (by omega) (by omega)
      rw [e1, e2, e3]
      by_cases hlt2 : pos + 2 * p < te
      · rw [if_pos hlt2]
        have f1 : sub64 te (pos + 2 * p) = te - (pos + 2 * p) :=
          sub64_eq (by omega) (by omega)
        have f2 : add64 (te - (pos + 2 * p)) (2 * p) = te - (pos + 2 * p) + 2 * p :=
          add64_eq (by omega)
        have f3 : sub64 (te - (pos + 2 * p) + 2 * p) 1 = te - (pos + 2 * p) + 2 * p - 1 :=
          sub64_eq (by omega) (by omega)
        rw [f1, f2, f3]
        have g1 : te - pos + 2 * p - 1 = (te - (pos + 2 * p) + 2 * p - 1) + 2 * p := by omega
        rw [g1, Nat.add_div_right _ (by omega : 0 < 2 * p)]
        have hq : (te - (pos + 2 * p) + 2 * p - 1) / (2 * p) * (2 * p) ≤
            te - (pos + 2 * p) + 2 * p - 1 := Nat.div_mul_le_self _ _
        have g2 : ((te - (pos + 2 * p) + 2 * p - 1) / (2 * p) + 1) * (2 * p) =
            (te - (pos + 2 * p) + 2 * p - 1) / (2 * p) * (2 * p) + 2 * p := by ring
        have m1 : mul64 ((te - (pos + 2 * p) + 2 * p - 1) / (2 * p)) (2 * p) =
            (te - (pos + 2 * p) + 2 * p - 1) / (2 * p) * (2 * p) := mul64_eq (by omega)
        have m2 : mul64 ((te - (pos + 2 * p) + 2 * p - 1) / (2 * p) + 1) (2 * p) =
            ((te - (pos + 2 * p) + 2 * p - 1) / (2 * p) + 1) * (2 * p) :=
          mul64_eq (by rw [g2]; omega)
        rw [m1, m2, g2]
        generalize (te - (pos + 2 * p) + 2 * p - 1) / (2 * p) * (2 * p) = q at hq
        rw [add64_eq (by omega), add64_eq (by omega)]
        omega
      · rw [if_neg hlt2]
        have g1 : (te - pos + 2 * p - 1) / (2 * p) = 1 := by
          apply Nat.div_eq_of_lt_le
          · omega
          · omega
        rw [g1, mul64_eq (by omega), Nat.one_mul, add64_eq (by omega)]
    · simp only [if_neg hlt]
      unfold advance_to
      rw [if_neg hlt]

/-- The word loop of the pattern path reads of the tile only where its words are. -/
theorem pattern_words_congr (pat : SmallPrimePattern) (t1 t2 : TileView)
    (h1 : t1.word_count = t2.word_count) (h2 : t1.word_base = t2.word_base)
    (fuel w phase : Nat) (bits : List Nat) :
    pattern_words pat t1 fuel w phase bits = pattern_words pat t2 fuel w phase bits := by
  induction fuel generalizing w phase bits with
  | zero => rfl
  | succ fuel ih =>
    unfold pattern_words
    rw [h1, h2, ih]

theorem odd_dvd_two_mul (p x : Nat) (h : p % 2 = 1) : p ∣ 2 * x ↔ p ∣ x := by
  constructor
  · intro hd
    have cop : Nat.Coprime p 2 := by
      unfold Nat.Coprime
      rw [Nat.gcd_comm, Nat.gcd_rec, h]
      rfl
    exact cop.dvd_of_dvd_mul_left hd
  · intro hd
    exact Dvd.dvd.mul_left hd 2

theorem dvd_shift (p c0 low idx : Nat) (hodd : p % 2 = 1) (hl : low + 2 * c0 = 2 * (c0 * p))
    (h : c0 ≤ idx) : p ∣ low + 2 * idx ↔ p ∣ idx - c0 := by
  have e : low + 2 * idx = p * (2 * c0) + 2 * (idx - c0) := by
    have : p * (2 * c0) = 2 * (c0 * p) := by ring
    omega
  rw [e, Nat.dvd_add_right (Dvd.intro _ rfl), odd_dvd_two_mul p _ hodd]

/-- The pattern path sets, from the bit `k0` of the cursor on, every `p`-th bit in the words
of the tile. -/
theorem pattern_path_rel (p : Nat) (hk : p ∈ kSmallPrimes) (tile : TileView) (bc : Nat)
    (hwc : tile.word_count = (bc + 63) / 64) (k0 : Nat) (hk0 : k0 < bc) (bits : List Nat)
    (idx : Nat) :
    get_bit (pattern_words (build_small_pattern p) tile tile.word_count (k0 / 64 + 1)
        ((build_small_pattern p).next_phase.getD
          ((build_small_pattern p).start_phase.getD (k0 % 64) 0) 0)
        (or_word bits (tile.word_base + k0 / 64)
          (if k0 % 64 ≠ 0 then
            (build_small_pattern p).masks.getD
              ((build_small_pattern p).start_phase.getD (k0 % 64) 0) 0 &&&
              shl64 (2 ^ 64 - 1) (k0 % 64)
          else (build_small_pattern p).masks.getD
              ((build_small_pattern p).start_phase.getD (k0 % 64) 0) 0))) idx = true ↔
      (get_bit bits idx = true ∨
        (idx / 64 < bits.length ∧ 64 * tile.word_base + k0 ≤ idx ∧
          idx / 64 < tile.word_base + (bc + 63) / 64 ∧
          p ∣ idx - (64 * tile.word_base + k0))) := by
  obtain ⟨hp3, hp2, hp64⟩ := kSmallPrimes_bounds p hk
  obtain ⟨low, hl⟩ : ∃ low, low + 2 * (64 * tile.word_base + k0) =
      2 * ((64 * tile.word_base + k0) * p) := by
    obtain ⟨q, rfl⟩ : ∃ q, p = q + 1 := ⟨p - 1, by omega⟩
    exact ⟨2 * ((64 * tile.word_base + k0) * q), by ring⟩
  have hbiw : k0 % 64 < 64 := Nat.mod_lt _ (by decide)
  have hdvd0 : p ∣ low + 2 * (64 * tile.word_base + 64 * (k0 / 64)) + 2 * (k0 % 64) := by
    have e : low + 2 * (64 * tile.word_base + 64 * (k0 / 64)) + 2 * (k0 % 64) =
        low + 2 * (64 * tile.word_base + k0) := by omega
    rw [e, hl]
    exact Dvd.dvd.mul_left (Dvd.intro_left _ rfl) 2
  have hph0 : (build_small_pattern p).start_phase.getD (k0 % 64) 0 =
      (low + 2 * (64 * tile.word_base + 64 * (k0 / 64))) % p := by
    rw [pattern_start_phase p _ hbiw, start_phase_eq p hk _ hbiw]
    symm
    exact start_phase_value p _ _ (by omega) hdvd0
  have hph0lt : (build_small_pattern p).start_phase.getD (k0 % 64) 0 < p := by
    rw [hph0]; exact Nat.mod_lt _ (by omega)
  have hnext : (build_small_pattern p).next_phase.getD
      ((build_small_pattern p).start_phase.getD (k0 % 64) 0) 0 =
      (low + 2 * (64 * tile.word_base + 64 * (k0 / 64 + 1))) % p := by
    rw [pattern_next_phase p _ hph0lt, hph0, ← Nat.add_mod]
    congr 1
  have hmask : ∀ j, j < 64 →
      ((if k0 % 64 ≠ 0 then
        (build_small_pattern p).masks.getD
          ((build_small_pattern p).start_phase.getD (k0 % 64) 0) 0 &&&
          shl64 (2 ^ 64 - 1) (k0 % 64)
      else (build_small_pattern p).masks.getD
          ((build_small_pattern p).start_phase.getD (k0 % 64) 0) 0).testBit j = true ↔
        (p ∣ low + 2 * (64 * tile.word_base + 64 * (k0 / 64)) + 2 * j ∧ k0 % 64 ≤ j)) := by
    intro j hj
    rw [first_mask_testBit _ _ j hj, pattern_masks p _ hph0lt,
      mask_entry_bits p hk _ hph0lt j hj, Bool.and_eq_true, decide_eq_true_iff,
      decide_eq_true_iff, hph0, dvd_mod_add]
  have hcongr := pattern_words_congr (build_small_pattern p) tile
    (tile_view low (64 * tile.word_base) bc) hwc
    (show tile.word_base = 64 * tile.word_base / 64 by omega)
  rw [hcongr, hwc]
  have hspec := pattern_words_spec p hk low (64 * tile.word_base) bc (by omega)
    ((bc + 63) / 64) (k0 / 64 + 1) _
    (or_word bits (tile.word_base + k0 / 64)
      (if k0 % 64 ≠ 0 then
        (build_small_pattern p).masks.getD
          ((build_small_pattern p).start_phase.getD (k0 % 64) 0) 0 &&&
          shl64 (2 ^ 64 - 1) (k0 % 64)
      else (build_small_pattern p).masks.getD
          ((build_small_pattern p).start_phase.getD (k0 % 64) 0) 0))
    hnext (by omega) idx
  rw [hspec, get_bit_or_word_iff, or_word_length, hmask _ (Nat.mod_lt _ (by decide))]
  have hwb : 64 * tile.word_base / 64 = tile.word_base := by omega
  rw [hwb]
  constructor
  · rintro ((h | ⟨h1, h2, h3, h4⟩) | ⟨h1, h2, h3, h4⟩)
    · exact Or.inl h
    · right
      have e : low + 2 * (64 * tile.word_base + 64 * (k0 / 64)) + 2 * (idx % 64) =
          low + 2 * idx := by omega
      rw [e] at h3
      have hge : 64 * tile.word_base + k0 ≤ idx := by omega
      exact ⟨by omega, hge, by omega, (dvd_shift p _ low idx hp2 hl hge).1 h3⟩
    · have hge : 64 * tile.word_base + k0 ≤ idx := by omega
      exact Or.inr ⟨h1, hge, h3, (dvd_shift p _ low idx hp2 hl hge).1 h4⟩
  · rintro (h | ⟨h1, h2, h3, h4⟩)
    · exact Or.inl (Or.inl h)
    · have h5 := (dvd_shift p _ low idx hp2 hl h2).2 h4
      by_cases hw : idx / 64 = tile.word_base + k0 / 64
      · left; right
        have e : low + 2 * (64 * tile.word_base + 64 * (k0 / 64)) + 2 * (idx % 64) =
            low + 2 * idx := by omega
        rw [e]
        exact ⟨hw, by omega, h5, by omega⟩
      · right
        exact ⟨h1, by omega, h3, h5⟩

/-- The cursor advance reaches the target and stays below `2 ^ 64`. -/
theorem advance_to_bounds (pos y p : Nat) (hp3 : 3 ≤ p) (hp32 : p < 2 ^ 32)
    (hy : y ≤ 2 ^ 63 + 1) (hpos : pos < 2 ^ 64) :
    y ≤ advance_to pos y (2 * p) ∧ advance_to pos y (2 * p) < 2 ^ 64 := by
  unfold advance_to
  by_cases hlt : pos < y
  · rw [if_pos hlt]
    have e1 : sub64 y pos = y - pos := sub64_eq (by omega) (by omega)
    have e2 : add64 (y - pos) (2 * p) = y - pos + 2 * p := add64_eq (by omega)
    have e3 : sub64 (y - pos + 2 * p) 1 = y - pos + 2 * p - 1 :=
      sub64_eq (by omega) (by omega)
    rw [e1, e2, e3]
    have hdm := Nat.div_add_mod (y - pos + 2 * p - 1) (2 * p)
    have hr : (y - pos + 2 * p - 1) % (2 * p) < 2 * p := Nat.mod_lt _ (by omega)
    have hc : (y - pos + 2 * p - 1) / (2 * p) * (2 * p) =
        2 * p * ((y - pos + 2 * p - 1) / (2 * p)) := Nat.mul_comm _ _
    rw [mul64_eq (by rw [hc]; omega), add64_eq (by rw [hc]; omega), hc]
    omega
  · rw [if_neg hlt]
    omega

/-- For a prime of the table, a tile with its words and any cursor, the pattern path and the
scalar path leave the same cursor and the same bits up to the end of the tile. -/
theorem small_prime_step_paths (p : Nat) (hk : p ∈ kSmallPrimes) (tile : TileView)
    (hwc : tile.word_count = words_for_bits tile.bit_count)
    (hend : tile.start_value + 2 * tile.bit_count ≤ 2 ^ 63 + 1) (pos0 : Nat)
    (hpos0 : pos0 < 2 ^ 64) (bits : List Nat) :
    (small_prime_step tile p (some (build_small_pattern p)) pos0 bits).2 =
        (small_prime_step tile p none pos0 bits).2 ∧
      ∀ idx, idx < 64 * tile.word_base + tile.bit_count →
        get_bit (small_prime_step tile p (some (build_small_pattern p)) pos0 bits).1 idx =
          get_bit (small_prime_step tile p none pos0 bits).1 idx := by
  obtain ⟨hp3, hp2, hp64⟩ := kSmallPrimes_bounds p hk
  have hp32 : p < 2 ^ 32 := by omega
  have hwc2 : tile.word_count = (tile.bit_count + 63) / 64 := by
    rw [hwc]
    unfold words_for_bits
    rw [add64_eq (by omega)]
  have e1 : mul64 tile.bit_count 2 = tile.bit_count * 2 := mul64_eq (by omega)
  have e2 : add64 tile.start_value (tile.bit_count * 2) =
      tile.start_value + 2 * tile.bit_count := by
    rw [add64_eq (by omega)]; ring
  obtain ⟨b1, b2⟩ := advance_to_bounds pos0 tile.start_value p hp3 hp32 (by omega) hpos0
  unfold small_prime_step
  simp only [e1, e2, mul64_two p hp32]
  generalize advance_to pos0 tile.start_value (2 * p) = pos at b1 b2
  by_cases hge : pos ≥ tile.start_value + 2 * tile.bit_count
  · simp only [if_pos hge]
    exact ⟨trivial, fun _ _ => trivial⟩
  · simp only [if_neg hge]
    have e3 : sub64 pos tile.start_value >>> 1 = (pos - tile.start_value) / 2 := by
      rw [sub64_eq b1 b2, Nat.shiftRight_eq_div_pow]
    rw [e3]
    have hk0 : (pos - tile.start_value) / 2 < tile.bit_count := by omega
    have hw : (pos - tile.start_value) / 2 / 64 < tile.word_count := by
      rw [hwc2]; omega
    simp only [if_pos hw]
    have hfuel : tile.start_value + 2 * tile.bit_count ≤
        pos + 2 * p * (tile.bit_count + 1) := by
      have h3 : 1 * (tile.bit_count + 1) ≤ p * (tile.bit_count + 1) :=
        Nat.mul_le_mul_right _ (by omega)
      have h4 : 2 * p * (tile.bit_count + 1) = 2 * (p * (tile.bit_count + 1)) := by ring
      omega
    constructor
    · rw [scalar_marks_cursor_eq tile _ p hp3 hp32 hend _ pos bits b2 hfuel]
      unfold advance_to
      rw [if_pos (by omega)]
    · intro idx hidx
      rw [Bool.eq_iff_iff,
        pattern_path_rel p hk tile tile.bit_count hwc2 _ hk0 bits idx,
        scalar_marks_rel tile p tile.bit_count hp3 hp32 hend _ pos bits b1 b2 hfuel idx]
      constructor
      · rintro (h | ⟨h1, h2, h3, h4⟩)
        · exact Or.inl h
        · exact Or.inr ⟨h1, h2, hidx, h4⟩
      · rintro (h | ⟨h1, h2, h3, h4⟩)
        · exact Or.inl h
        · exact Or.inr ⟨h1, h2, by omega, h4⟩

/-! ## `phi`: the recurrences, the count, and the memo table -/

theorem phi_zero (primes : List Nat) (x : Nat) : phi primes x 0 = x := rfl

theorem phi_one (primes : List Nat) (x : Nat) : phi primes x 1 = (add64 x 1) >>> 1 := rfl

theorem phi_succ (primes : List Nat) (x s : Nat) (h2 : 2 ≤ s) (hs : s ≤ primes.length) :
    phi primes x s =
      sub64 (phi primes x (s - 1)) (phi primes (x / primes.getD (s - 1) 0) (s - 1)) := by
  obtain ⟨t, rfl⟩ : ∃ t, s = t + 2 := ⟨s - 2, by omega⟩
  show phi_fuel primes (t + 2 + 2) x (t + 2) = _
  unfold phi_fuel
  rw [if_neg (by omega), if_neg (by omega), if_neg (by omega)]
  rfl

theorem phi_reference_zero (primes : List Nat) (x : Nat) : phi_reference primes x 0 = x := by
  unfold phi_reference
  simp

theorem odd_count (x : Nat) : ((Finset.Icc 1 x).filter (fun n => ¬ 2 ∣ n)).card = (x + 1) / 2 := by
  induction x with
  | zero => rfl
  | succ x ih =>
    have e : Finset.Icc 1 (x + 1) = insert (x + 1) (Finset.Icc 1 x) := by
      ext n
      simp only [Finset.mem_Icc, Finset.mem_insert]
      omega
    rw [e, Finset.filter_insert]
    by_cases h : 2 ∣ x + 1
    · rw [if_neg (not_not.2 h), ih]
      omega
    · rw [if_pos h, Finset.card_insert_of_not_mem, ih]
      · omega
      · simp

theorem phi_reference_one (primes : List Nat) (x : Nat) (h : primes[0]? = some 2) :
    phi_reference primes x 1 = (x + 1) / 2 := by
  unfold phi_reference
  have e : primes.take 1 = [2] := by
    cases primes with
    | nil => simp at h
    | cons a as =>
      simp only [List.getElem?_cons_zero, Option.some.injEq] at h
      subst h
      rfl
  rw [e, ← odd_count x]
  congr 1
  ext n
  simp

/-- The step of Legendre for the count: the integers that the first `s` primes leave are
those that the first `s + 1` leave and the multiples `p * k` of the next prime `p` with `k`
left by the first `s`. -/
theorem phi_reference_succ (primes : List Nat) (x s p : Nat) (hp : primes[s]? = some p)
    (hprime : Nat.Prime p) (hother : ∀ q ∈ primes.take s, Nat.Prime q ∧ q ≠ p) :
    phi_reference primes x s =
      phi_reference primes x (s + 1) + phi_reference primes (x / p) s := by
  unfold phi_reference
  have hp0 : 0 < p := hprime.pos
  have etake : primes.take (s + 1) = primes.take s ++ [p] := by
    rw [List.take_succ, hp]
    rfl
  rw [etake]
  have hsplit := Finset.filter_card_add_filter_neg_card_eq_card
    (s := (Finset.Icc 1 x).filter (fun n => ∀ q ∈ primes.take s, ¬ q ∣ n))
    (fun n => ¬ p ∣ n)
  rw [← hsplit]
  congr 1
  · congr 1
    ext n
    simp only [Finset.mem_filter, Finset.mem_Icc, List.mem_append, List.mem_singleton]
    constructor
    · rintro ⟨⟨h1, h2⟩, h3⟩
      refine ⟨h1, ?_⟩
      rintro q (hq | rfl)
      · exact h2 q hq
      · exact h3
    · rintro ⟨h1, h2⟩
      exact ⟨⟨h1, fun q hq => h2 q (Or.inl hq)⟩, h2 p (Or.inr rfl)⟩
  · have himg : ((Finset.Icc 1 x).filter (fun n => ∀ q ∈ primes.take s, ¬ q ∣ n)).filter
        (fun n => ¬ ¬ p ∣ n) =
        (((Finset.Icc 1 (x / p)).filter (fun n => ∀ q ∈ primes.take s, ¬ q ∣ n)).image
          (fun k => p * k)) := by
      ext n
      simp only [Finset.mem_filter, Finset.mem_Icc, Finset.mem_image, not_not]
      constructor
      · rintro ⟨⟨⟨h1, h2⟩, h3⟩, k, rfl⟩
        refine ⟨k, ⟨⟨?_, ?_⟩, ?_⟩, rfl⟩
        · rcases Nat.eq_zero_or_pos k with h0 | h0
          · subst h0; simp at h1
          · exact h0
        · rw [Nat.le_div_iff_mul_le hp0, Nat.mul_comm]
          exact h2
        · intro q hq hd
          exact h3 q hq (Dvd.dvd.mul_left hd p)
      · rintro ⟨k, ⟨⟨h1, h2⟩, h3⟩, rfl⟩
        refine ⟨⟨⟨Nat.mul_pos hp0 h1, ?_⟩, ?_⟩, Dvd.intro _ rfl⟩
        · have := (Nat.le_div_iff_mul_le hp0).1 h2
          rw [Nat.mul_comm]
          exact this
        · intro q hq hd
          obtain ⟨hqp, hne⟩ := hother q hq
          rcases (Nat.Prime.dvd_mul hqp).1 hd with h | h
          · exact hne ((Nat.prime_dvd_prime_iff_eq hqp hprime).1 h)
          · exact h3 q hq h
    rw [himg, Finset.card_image_of_injective]
    intro a b hab
    exact Nat.eq_of_mul_eq_mul_left hp0 hab

theorem phi_reference_le (primes : List Nat) (x s : Nat) : phi_reference primes x s ≤ x := by
  unfold phi_reference
  calc _ ≤ (Finset.Icc 1 x).card := Finset.card_filter_le _ _
    _ = x := by simp

/-- The primes before index `s` of an increasing list of primes are primes other than the
one at index `s`. -/
theorem take_other (primes : List Nat) (hprime : ∀ p ∈ primes, Nat.Prime p)
    (hinc : primes.Pairwise (fun a b => a < b)) (s p : Nat) (hp : primes[s]? = some p) :
    ∀ q ∈ primes.take s, Nat.Prime q ∧ q ≠ p := by
  intro q hq
  refine ⟨hprime q (List.mem_of_mem_take hq), ?_⟩
  have hsplit : primes.take s ++ primes.drop s = primes := List.take_append_drop s primes
  rw [← hsplit, List.pairwise_append] at hinc
  have hmem : p ∈ primes.drop s := by
    apply List.getElem?_mem (n := 0)
    rw [List.getElem?_drop]
    exact hp
  have := hinc.2.2 q hq p hmem
  omega

/-- On an increasing list of primes that starts with 2, `phi(x, s)` is the count, for
every `x` below `2 ^ 64 - 1`. -/
theorem phi_eq_reference (primes : List Nat) (hprime : ∀ p ∈ primes, Nat.Prime p)
    (hinc : primes.Pairwise (fun a b => a < b)) (hfirst : ∀ q, primes[0]? = some q → q = 2)
    (s : Nat) (hs : s ≤ primes.length) (x : Nat) (hx : x + 1 < 2 ^ 64) :
    phi primes x s = phi_reference primes x s := by
  induction s generalizing x with
  | zero => rw [phi_zero, phi_reference_zero]
  | succ t ih =>
    cases t with
    | zero =>
      have h0 : primes[0]? = some 2 := by
        cases primes with
        | nil => simp at hs
        | cons a as =>
          have := hfirst a (List.getElem?_cons_zero)
          subst this
          exact List.getElem?_cons_zero
      rw [phi_one, phi_reference_one primes x h0, add64_eq hx, Nat.shiftRight_eq_div_pow]
    | succ t =>
      have hlt : t + 1 < primes.length := by omega
      have hp : primes[t + 1]? = some (primes[t + 1]) := List.getElem?_eq_getElem hlt
      have hpp : Nat.Prime (primes[t + 1]) := hprime _ (List.getElem_mem _)
      have hgd : primes.getD (t + 1) 0 = primes[t + 1] := by
        rw [List.getD_eq_getElem?_getD, hp]
        rfl
      rw [phi_succ primes x (t + 1 + 1) (by omega) hs]
      have e1 : t + 1 + 1 - 1 = t + 1 := by omega
      rw [e1, hgd]
      have hdiv : x / primes[t + 1] ≤ x := Nat.div_le_self _ _
      rw [ih (by omega) x hx, ih (by omega) (x / primes[t + 1]) (by omega)]
      have hstep := phi_reference_succ primes x (t + 1) _ hp hpp
        (take_other primes hprime hinc (t + 1) _ hp)
      have hle := phi_reference_le primes x (t + 1)
      rw [sub64_eq (by omega) (by omega)]
      omega

theorem lookup_emplace (cache : List ((Nat × Nat) × Nat)) (key key2 : Nat × Nat)
    (result v : Nat) (h : (cache_emplace cache key result).lookup key2 = some v) :
    cache.lookup key2 = some v ∨ (key2 = key ∧ v = result) := by
  unfold cache_emplace at h
  by_cases hpres : (cache.lookup key).isSome = true
  · rw [if_pos hpres] at h
    exact Or.inl h
  · rw [if_neg hpres, List.lookup_cons] at h
    by_cases hk : key2 = key
    · subst hk
      simp only [beq_self_eq_true] at h
      exact Or.inr ⟨rfl, (Option.some.inj h).symm⟩
    · have hb : (key2 == key) = false := by simpa using hk
      rw [hb] at h
      exact Or.inl h

/-- The memo table does not change the value of `phi`: on a table that holds values of
`phi` the memoised function returns the value of `phi` and leaves such a table. -/
theorem phi_memo_spec (primes : List Nat) (s : Nat) (hs : s ≤ primes.length)
    (cache : List ((Nat × Nat) × Nat)) (hc : CacheOK primes cache) (x : Nat) :
    (phi_memo primes cache x s).1 = phi primes x s ∧
      CacheOK primes (phi_memo primes cache x s).2 := by
  induction s generalizing x cache with
  | zero => exact ⟨rfl, hc⟩
  | succ t ih =>
    cases t with
    | zero => exact ⟨rfl, hc⟩
    | succ t =>
      have hkey : phi_memo primes cache x (t + 1 + 1) =
          match cache.lookup (x, t + 1 + 1) with
          | some v => (v, cache)
          | none =>
            (sub64 (phi_memo primes cache x (t + 1)).1
                (phi_memo primes (phi_memo primes cache x (t + 1)).2
                  (x / primes.getD (t + 1) 0) (t + 1)).1,
              cache_emplace (phi_memo primes (phi_memo primes cache x (t + 1)).2
                  (x / primes.getD (t + 1) 0) (t + 1)).2 (x, t + 1 + 1)
                (sub64 (phi_memo primes cache x (t + 1)).1
                  (phi_memo primes (phi_memo primes cache x (t + 1)).2
                    (x / primes.getD (t + 1) 0) (t + 1)).1)) := by
        show phi_memo_fuel primes (t + 1 + 1 + 2) cache x (t + 1 + 1) = _
        unfold phi_memo_fuel
        rw [if_neg (by omega), if_neg (by omega), if_neg (by omega)]
        rfl
      rw [hkey]
      cases hl : cache.lookup (x, t + 1 + 1) with
      | some v =>
        simp only
        exact ⟨hc _ _ hl, hc⟩
      | none =>
        simp only
        obtain ⟨a1, a2⟩ := ih (by omega) cache hc x
        obtain ⟨b1, b2⟩ := ih (by omega) (phi_memo primes cache x (t + 1)).2 a2
          (x / primes.getD (t + 1) 0)
        have hval : sub64 (phi_memo primes cache x (t + 1)).1
            (phi_memo primes (phi_memo primes cache x (t + 1)).2
              (x / primes.getD (t + 1) 0) (t + 1)).1 = phi primes x (t + 1 + 1) := by
          rw [a1, b1, phi_succ primes x (t + 1 + 1) (by omega) hs]
          rfl
        rw [hval]
        refine ⟨rfl, ?_⟩
        intro key v hv
        rcases lookup_emplace _ _ _ _ _ hv with h | ⟨rfl, rfl⟩
        · exact b2 key v h
        · rfl

/-! ## `simple_sieve` with the bounds of `is_composite` checked -/

/-- A requested tile size from 1 to 8064 is rounded up to the next multiple of 128 and not
raised further: the tile has at least 128 bytes, at least the requested size, and fewer than
the requested size plus 128. -/
theorem finish_segment_config_small_tile (chosen cap rt l1 : Nat) (h0 : 0 < rt)
    (h1 : rt ≤ 8064) :
    128 ≤ (finish_segment_config chosen cap rt l1).tile_bytes ∧
      rt ≤ (finish_segment_config chosen cap rt l1).tile_bytes ∧
      (finish_segment_config chosen cap rt l1).tile_bytes < rt + 128 ∧
      (finish_segment_config chosen cap rt l1).tile_bytes = align_to rt 128 := by
  have ha : 128 ≤ align_to rt 128 ∧ rt ≤ align_to rt 128 ∧ align_to rt 128 < rt + 128 ∧
      align_to rt 128 ≤ 8192 := by
    unfold align_to
    simp only [show ¬ (128 = 0) by decide, if_false]
    split
    · omega
    · split
      · omega
      · omega
  have hseg : 8192 ≤ (finish_segment_config chosen cap rt l1).segment_bytes := by
    unfold finish_segment_config
    simp only
    split_ifs <;> omega
  have htile : (finish_segment_config chosen cap rt l1).tile_bytes =
      Nat.min (if rt = 0 then align_to (Nat.max l1 (8 * 1024)) 128 else align_to rt 128)
        (finish_segment_config chosen cap rt l1).segment_bytes := rfl
  rw [htile, if_neg (by omega), natmin_left (by omega)]
  exact ⟨ha.1, ha.2.1, ha.2.2.1, rfl⟩

/-! ## The claims -/

/-- C1: a counting run over `[8, 9)` with wheel 30 and one worker reports one prime, although
no integer in `[8, 9)` is prime: the odd range is reset to start at 3 and 7 is counted. -/
theorem C1_count_from_8_to_9 :
    (calcprime_run_range { path := SimdPath.scalar, builtin := true }
        (choose_segment_config_requested 8192 8192) (fun _ => 0)
        { from_ := 8, to_ := 9, threads := 1, wheel := WheelType.Mod30, nth_index := 0,
          collect_primes := false, use_meissel := false }).map (fun r => r.total_count) = some 1 ∧
      ∀ p, 8 ≤ p → p < 9 → ¬ Nat.Prime p := by
  refine ⟨by decide, ?_⟩
  intro p h1 h2
  have : p = 8 := by omega
  subst this
  norm_num

/-- C3: with the sieving primes `simple_sieve(floor(sqrt(5)) + 1)`, `meissel_count(0, 5)`
returns 3, while the primes below 5 are 2 and 3 only. -/
theorem C3_meissel_count_0_5 :
    meissel_count 0 5 (simple_sieve (floor_sqrt 5 + 1)) = 3 ∧
      ∀ p, p < 5 → (Nat.Prime p ↔ (p = 2 ∨ p = 3)) := by
  refine ⟨by decide, ?_⟩
  intro p hp
  interval_cases p <;> norm_num

/-- C4: `miller_rabin_is_prime` answers `false` on the prime 16000000000000000001, which
lies above `2 ^ 63`. -/
theorem C4_miller_rabin_rejects_prime :
    miller_rabin_is_prime 16000000000000000001 = false ∧
      Nat.Prime 16000000000000000001 ∧ 2 ^ 63 < 16000000000000000001 ∧
      16000000000000000001 < 2 ^ 64 :=
  ⟨by decide, prime_16e18, by norm_num, by norm_num⟩

/-- C5: asked for the first prime of `[8, 9)` with wheel 30, the run reports success and
the value 7, although `[8, 9)` holds no prime at all. -/
theorem C5_nth_from_8_to_9 :
    (calcprime_run_range { path := SimdPath.scalar, builtin := true }
        (choose_segment_config_requested 8192 8192) (fun _ => 0)
        { from_ := 8, to_ := 9, threads := 1, wheel := WheelType.Mod30, nth_index := 1,
          collect_primes := false, use_meissel := false }).map (fun r => r.status) =
      some Status.SUCCESS ∧
    (calcprime_run_range { path := SimdPath.scalar, builtin := true }
        (choose_segment_config_requested 8192 8192) (fun _ => 0)
        { from_ := 8, to_ := 9, threads := 1, wheel := WheelType.Mod30, nth_index := 1,
          collect_primes := false, use_meissel := false }).map (fun r => r.nth_found) = some true ∧
    (calcprime_run_range { path := SimdPath.scalar, builtin := true }
        (choose_segment_config_requested 8192 8192) (fun _ => 0)
        { from_ := 8, to_ := 9, threads := 1, wheel := WheelType.Mod30, nth_index := 1,
          collect_primes := false, use_meissel := false }).map (fun r => r.nth_value) = some 7 := by
  decide

/-- C8: over `[8, 9)` with the same configuration and one worker, wheel 30 emits the chunk
`[7]` and wheel 210 emits nothing. -/
theorem C8_wheels_differ_from_8_to_9 :
    (calcprime_run_range { path := SimdPath.scalar, builtin := true }
        (choose_segment_config_requested 8192 8192) (fun _ => 0)
        { from_ := 8, to_ := 9, threads := 1, wheel := WheelType.Mod30, nth_index := 0,
          collect_primes := true, use_meissel := false }).map (fun r => r.prime_chunks) =
      some [[7]] ∧
    (calcprime_run_range { path := SimdPath.scalar, builtin := true }
        (choose_segment_config_requested 8192 8192) (fun _ => 0)
        { from_ := 8, to_ := 9, threads := 1, wheel := WheelType.Mod210, nth_index := 0,
          collect_primes := true, use_meissel := false }).map (fun r => r.prime_chunks) =
      some [] := by
  decide

/-- C10: on every build, `count_zero_bits` equals the number of positions below `bit_count`
whose bit is zero, and a buffer that agrees on those positions gives the same count. -/
theorem C10_count_zero_bits (path : SimdPath) (builtin : Bool) (bits : List Nat)
    (bit_count : Nat) (hwords : ∀ w ∈ bits, w < 2 ^ 64) (_hlen : bit_count ≤ 64 * bits.length)
    (hsize : bit_count < 2 ^ 64) :
    count_zero_bits path builtin bits bit_count =
        (List.range bit_count).countP (fun i => !get_bit bits i) ∧
      count_zero_bits path builtin bits bit_count +
        (List.range bit_count).countP (fun i => get_bit bits i) = bit_count ∧
      ∀ other : List Nat, (∀ w ∈ other, w < 2 ^ 64) →
        (∀ i, i < bit_count → get_bit other i = get_bit bits i) →
        count_zero_bits path builtin other bit_count =
          count_zero_bits path builtin bits bit_count := by
  have h1 := count_zero_bits_eq path builtin bits bit_count hwords hsize
  refine ⟨h1, ?_, ?_⟩
  · rw [h1]
    unfold zero_count
    have := List.length_eq_countP_add_countP (fun i => get_bit bits i) (List.range bit_count)
    simp only [List.length_range] at this
    have e : (List.range bit_count).countP (fun i => !get_bit bits i) =
        (List.range bit_count).countP (fun a => decide (¬ get_bit bits a = true)) := by
      apply List.countP_congr
      intro i _
      simp
    omega
  · intro other ho hagree
    rw [h1, count_zero_bits_eq path builtin other bit_count ho hsize]
    unfold zero_count
    apply List.countP_congr
    intro i hi
    rw [hagree i (List.mem_range.1 hi)]

/-- C10 on the one-word buffer `[5]` with three bits in use. -/
theorem C10_count_zero_bits_witness :
    (∀ w ∈ [5], w < 2 ^ 64) ∧ (3 ≤ 64 * [5].length) ∧ (3 < 2 ^ 64) ∧
      (count_zero_bits SimdPath.avx2 false [5] 3 =
          (List.range 3).countP (fun i => !get_bit [5] i) ∧
        count_zero_bits SimdPath.avx2 false [5] 3 +
          (List.range 3).countP (fun i => get_bit [5] i) = 3 ∧
        ∀ other : List Nat, (∀ w ∈ other, w < 2 ^ 64) →
          (∀ i, i < 3 → get_bit other i = get_bit [5] i) →
          count_zero_bits SimdPath.avx2 false other 3 =
            count_zero_bits SimdPath.avx2 false [5] 3) :=
  ⟨by simp, by simp, by norm_num,
    C10_count_zero_bits SimdPath.avx2 false [5] 3 (by simp) (by simp) (by norm_num)⟩

/-- C11: for every 64-bit word, `popcount_u64` on either branch equals the number of set
bits among the 64, and the portable mask, shift and multiply computation equals the
bit-by-bit population count. -/
theorem C11_popcount_u64 (builtin : Bool) (x : Nat) (hx : x < 2 ^ 64) :
    popcount_u64 builtin x = (List.range 64).countP (fun i => x.testBit i) ∧
      popcount_swar x = popBits 64 x := by
  refine ⟨?_, popcount_swar_eq x hx⟩
  rw [popcount_u64_eq builtin x hx, popBits_eq_countP]

/-- C11 on the word 5 with the portable branch. -/
theorem C11_popcount_u64_witness :
    (5 < 2 ^ 64) ∧ (popcount_u64 false 5 = (List.range 64).countP (fun i => (5).testBit i) ∧
      popcount_swar 5 = popBits 64 5) :=
  ⟨by norm_num, C11_popcount_u64 false 5 (by norm_num)⟩

/-- C12: on the build for MSVC on Windows, `write_segment` in Binary format writes the one
value 1 as the bytes `00 00 00 00 00 00 00 01`, which read back as a little-endian word give
`2 ^ 56`, not 1. -/
theorem C12_binary_msvc_swapped :
    write_segment true ByteOrderBuild.msvc_windows PrimeOutputFormat.Binary 0 [1] =
        some ([0, 0, 0, 0, 0, 0, 0, 1], 0) ∧
      read_le_words [0, 0, 0, 0, 0, 0, 0, 1] = [2 ^ 56] ∧ [2 ^ 56] ≠ [1] := by
  decide

/-- C13: on the build for MSVC on Windows, one writer in ZstdDelta format handed the single
chunk `[1]` writes the bytes `00 00 00 00 00 00 00 01`; decoded as little-endian words and
summed up from 0 they give `[2 ^ 56]`, not the chunk. -/
theorem C13_delta_msvc_swapped :
    write_segments ByteOrderBuild.msvc_windows PrimeOutputFormat.ZstdDelta 0 [[1]] =
        some ([0, 0, 0, 0, 0, 0, 0, 1], 1) ∧
      running_sums 0 (read_le_words [0, 0, 0, 0, 0, 0, 0, 1]) = [2 ^ 56] ∧
      [2 ^ 56] ≠ [[1]].flatten := by
  decide

/-- C14: in ZstdDelta format `encode_deltas` with previous value `v` throws exactly when
`v, values[0], values[1], ...` is not non-decreasing; when it returns, the previous value is
the last element of `values` (`v` for an empty list) and the output has 8 bytes per value.
`encode_delta_value` throws exactly when the value is below `v`, and otherwise returns 8
bytes and makes the value the previous one. -/
theorem C14_encode_deltas (build : ByteOrderBuild) (v : Nat) (values : List Nat) :
    (encode_deltas build PrimeOutputFormat.ZstdDelta v values = none ↔
        ¬ List.Chain (fun a b => a ≤ b) v values) ∧
      (∀ bytes last, encode_deltas build PrimeOutputFormat.ZstdDelta v values =
          some (bytes, last) →
        last = values.getLastD v ∧ bytes.length = 8 * values.length) ∧
      (∀ value, (encode_delta_value build PrimeOutputFormat.ZstdDelta v value = none ↔
          value < v) ∧
        ∀ bytes last, encode_delta_value build PrimeOutputFormat.ZstdDelta v value =
            some (bytes, last) → last = value ∧ bytes.length = 8) := by
  have hf : ¬ (PrimeOutputFormat.ZstdDelta ≠ PrimeOutputFormat.ZstdDelta) := fun h => h rfl
  refine ⟨?_, ?_, ?_⟩
  · unfold encode_deltas
    rw [if_neg hf]
    exact encode_deltas_loop_none build v values
  · intro bytes last h
    unfold encode_deltas at h
    rw [if_neg hf] at h
    exact encode_deltas_loop_some build v values bytes last h
  · intro value
    unfold encode_delta_value
    rw [if_neg hf]
    by_cases hlt : value < v
    · rw [if_pos hlt]
      exact ⟨⟨fun _ => hlt, fun _ => rfl⟩, fun _ _ h => absurd h (by simp)⟩
    · rw [if_neg hlt]
      refine ⟨⟨fun h => absurd h (by simp), fun h => absurd h hlt⟩, ?_⟩
      intro bytes last h
      simp only [Option.some.injEq, Prod.mk.injEq] at h
      obtain ⟨h1, h2⟩ := h
      subst h1 h2
      exact ⟨rfl, object_bytes_length _ _⟩

/-- C15: the runner answers `INVALID_ARGUMENT` with the message `invalid range` exactly when
`to <= from` or `to < 2`; it then returns at once, with `total_count`, `segments_total` and
`completed` all zero. -/
theorem C15_invalid_range (build : Build) (config : SegmentConfig) (draw : Nat → Nat)
    (opts : RangeOptions) :
    ((opts.to_ ≤ opts.from_ ∨ opts.to_ < 2) →
        calcprime_run_range build config draw opts =
          some (initial_result Status.INVALID_ARGUMENT "invalid range")) ∧
      (initial_result Status.INVALID_ARGUMENT "invalid range").total_count = 0 ∧
      (initial_result Status.INVALID_ARGUMENT "invalid range").segments_total = 0 ∧
      (initial_result Status.INVALID_ARGUMENT "invalid range").segments_processed = 0 ∧
      (initial_result Status.INVALID_ARGUMENT "invalid range").completed = false ∧
      (∀ r, calcprime_run_range build config draw opts = some r →
        ((r.status = Status.INVALID_ARGUMENT ∧ r.error_message = "invalid range") ↔
          (opts.to_ ≤ opts.from_ ∨ opts.to_ < 2))) := by
  refine ⟨run_invalid_range build config draw opts, rfl, rfl, rfl, rfl, ?_⟩
  intro r hr
  constructor
  · intro h
    by_contra hv
    exact run_valid_range_status build config draw opts hv r hr h
  · intro hv
    rw [run_invalid_range build config draw opts hv] at hr
    simp only [Option.some.injEq] at hr
    subst hr
    exact ⟨rfl, rfl⟩

/-- C17: on a ring whose entries all sit in the slot of their segment, `take(s)` returns,
up to order, exactly the stored entries with `next_index = s`, and leaves stored, up to
order, exactly the entries with another `next_index`, each still in its slot. -/
theorem C17_take_returns_segment (ring : BucketRing) (s : Nat) (hr : RingOK ring)
    (hs : s < 2 ^ 64) (hd : s - ring.base_segment < 2 ^ 63) :
    List.Perm (ring.take s).2 (ring.entries.filter (fun e => decide (e.next_index = s))) ∧
      List.Perm (ring.take s).1.entries
        (ring.entries.filter (fun e => decide (e.next_index ≠ s))) ∧
      SlotsAt (ring.take s).1.mask (ring.take s).1.buckets :=
  ⟨(take_filter ring s hr hs hd).1, (take_filter ring s hr hs hd).2,
    (take_spec ring s hr hs hd).2.2.2.1⟩

/-- C17 on the ring that holds one entry of segment 3, taken at segment 3. -/
theorem C17_take_returns_segment_witness :
    RingOK ((BucketRing.reset 0).push 3
        (BucketEntry.mk 7 3 0 9 none)) ∧
      (3 < 2 ^ 64) ∧
      (3 - ((BucketRing.reset 0).push 3
        (BucketEntry.mk 7 3 0 9 none)).base_segment
          < 2 ^ 63) ∧
      (List.Perm (((BucketRing.reset 0).push 3
            (BucketEntry.mk 7 3 0 9 none)).take 3).2
          (((BucketRing.reset 0).push 3
            (BucketEntry.mk 7 3 0 9 none)).entries.filter (fun e => decide (e.next_index = 3))) ∧
        List.Perm (((BucketRing.reset 0).push 3
            (BucketEntry.mk 7 3 0 9 none)).take 3).1.entries
          (((BucketRing.reset 0).push 3
            (BucketEntry.mk 7 3 0 9 none)).entries.filter (fun e => decide (e.next_index ≠ 3))) ∧
        SlotsAt (((BucketRing.reset 0).push 3
            (BucketEntry.mk 7 3 0 9 none)).take 3).1.mask
          (((BucketRing.reset 0).push 3
            (BucketEntry.mk 7 3 0 9 none)).take 3).1.buckets) :=
  ⟨(push_spec _ 3 _ (RingOK_reset 0) (by norm_num) rfl).1, by norm_num, by decide,
    C17_take_returns_segment _ 3 (push_spec _ 3 _ (RingOK_reset 0) (by norm_num) rfl).1
      (by norm_num) (by decide)⟩

/-- C18 as stated fails at the last segment id: on a fresh ring, `take(2 ^ 64 - 1)` leaves
`base_segment = 0`, the increment having wrapped. -/
theorem C18_take_last_segment_wraps :
    ((BucketRing.reset 0).take (2 ^ 64 - 1)).1.base_segment = 0 ∧
      ¬ (2 ^ 64 - 1 < ((BucketRing.reset 0).take (2 ^ 64 - 1)).1.base_segment) := by
  decide

/-- C18: on a well-formed ring, for a segment id `s` below `2 ^ 64 - 1` that lies less than
`2 ^ 63` past the base, `base_segment` exceeds `s` after `take(s)`. -/
theorem C18_take_advances_base (ring : BucketRing) (s : Nat) (hr : RingOK ring)
    (hs : s < 2 ^ 64 - 1) (hd : s - ring.base_segment < 2 ^ 63) :
    s < (ring.take s).1.base_segment := by
  have h := (take_spec ring s hr (by omega) hd).2.2.2.2.2
  rw [h]
  split
  · rw [add64_eq (by omega)]
    omega
  · omega

/-- C18 on a fresh ring at segment 5. -/
theorem C18_take_advances_base_witness :
    RingOK (BucketRing.reset 0) ∧ (5 < 2 ^ 64 - 1) ∧
      (5 - (BucketRing.reset 0).base_segment < 2 ^ 63) ∧
      5 < ((BucketRing.reset 0).take 5).1.base_segment :=
  ⟨RingOK_reset 0, by norm_num, by decide,
    C18_take_advances_base (BucketRing.reset 0) 5 (RingOK_reset 0) (by norm_num) (by decide)⟩

/-- C19 as stated fails when a segment is skipped: after `reset(0)`, a push for segment 3 and
`take(5)`, the entry of segment 3 is still stored. -/
theorem C19_skipped_entry_stays :
    (BucketEntry.mk 7 3 0 9 none) ∈
        (((BucketRing.reset 0).push 3
          (BucketEntry.mk 7 3 0 9 none)).take 5).1.entries ∧
      (BucketEntry.mk 7 3 0 9 none).next_index ≤ 5 := by
  decide

/-- C19: on a well-formed ring that stores no entry of a segment before `s`, no stored entry
has `next_index ≤ s` after `take(s)`. -/
theorem C19_take_leaves_later (ring : BucketRing) (s : Nat) (hr : RingOK ring)
    (hs : s < 2 ^ 64) (hd : s - ring.base_segment < 2 ^ 63)
    (hall : ∀ e ∈ ring.entries, s ≤ e.next_index) :
    ∀ e ∈ (ring.take s).1.entries, s < e.next_index := by
  intro e he
  obtain ⟨t1, _, t3, _⟩ := take_spec ring s hr hs hd
  have hmem : e ∈ ring.entries :=
    (List.Perm.mem_iff t1).1 (List.mem_append_right _ he)
  have h1 := hall e hmem
  have h2 := t3 e he
  omega

/-- C19 on the ring that holds one entry of segment 3, taken at segment 3. -/
theorem C19_take_leaves_later_witness :
    RingOK ((BucketRing.reset 0).push 3
        (BucketEntry.mk 7 3 0 9 none)) ∧
      (3 < 2 ^ 64) ∧
      (3 - ((BucketRing.reset 0).push 3
        (BucketEntry.mk 7 3 0 9 none)).base_segment
          < 2 ^ 63) ∧
      (∀ e ∈ ((BucketRing.reset 0).push 3
        (BucketEntry.mk 7 3 0 9 none)).entries,
          3 ≤ e.next_index) ∧
      ∀ e ∈ (((BucketRing.reset 0).push 3
        (BucketEntry.mk 7 3 0 9 none)).take 3).1.entries, 3 < e.next_index :=
  ⟨(push_spec _ 3 _ (RingOK_reset 0) (by norm_num) rfl).1, by norm_num, by decide, by decide,
    C19_take_leaves_later _ 3 (push_spec _ 3 _ (RingOK_reset 0) (by norm_num) rfl).1
      (by norm_num) (by decide) (by decide)⟩

/-- C20: a push for segment 5000 on a fresh ring leaves the capacity at 1024 with
`base_segment = 0`, so the segment lies 5000 past the base, beyond the capacity. -/
theorem C20_first_push_capacity :
    ((BucketRing.reset 0).push 5000
        (BucketEntry.mk 7 5000 0 9 none)).buckets.length = 1024 ∧
      ((BucketRing.reset 0).push 5000
        (BucketEntry.mk 7 5000 0 9 none)).base_segment = 0 ∧
      ¬ (5000 - ((BucketRing.reset 0).push 5000
        (BucketEntry.mk 7 5000 0 9 none)).base_segment <
        ((BucketRing.reset 0).push 5000
          (BucketEntry.mk 7 5000 0 9 none)).buckets.length) := by
  decide

/-- C21 fails at the runner's `num_segments`: over the odd range of `[0, 2^64 - 1)` with
segments of 8192 bytes the queue hands out segment 0, while `length + segment_span - 1`
wraps and the runner computes `num_segments = 0`. -/
theorem C21_num_segments_wraps :
    queue_next (odd_range 0 (2 ^ 64 - 1)) (choose_segment_config_requested 8192 8192) 0 =
        some (0, 3, 131075) ∧
      num_segments ((odd_range 0 (2 ^ 64 - 1)).end_ - (odd_range 0 (2 ^ 64 - 1)).begin_)
        (choose_segment_config_requested 8192 8192).segment_span = 0 := by
  decide

/-- C22 as stated fails for a small requested tile: with 8192 requested segment bytes and
128 requested tile bytes the tile has 128 bytes, fewer than 8192. -/
theorem C22_small_requested_tile :
    (choose_segment_config_requested 8192 128).tile_bytes = 128 ∧
      (choose_segment_config_requested 8192 128).segment_bytes = 8192 := by
  decide

/-- C23 fails for a hexadecimal digit `e`: `parse_u64("0x1e2")` takes the `e` for the
exponent marker and returns `1 * 10 ^ 2 = 100`, not the hexadecimal value 482. -/
theorem C23_hex_digit_e_is_exponent :
    parse_u64 "0x1e2".toList = Parsed.value 100 ∧ (0x1e2 : Nat) = 482 := by
  decide

/-- C24 as stated fails for an exponent that `long long` cannot hold: `0e9223372036854775808`
is rejected as an invalid integer although `0 * 10 ^ e = 0`, and `1e9223372036854775808` is
rejected as an invalid integer, not as too large. -/
theorem C24_exponent_beyond_long_long :
    parse_u64 "0e9223372036854775808".toList = Parsed.invalid_integer ∧
      parse_u64 "1e9223372036854775808".toList = Parsed.invalid_integer := by
  decide

/-- C24: for a decimal numeral `ms` of value `m < 2 ^ 64` and decimal digits `es` of value
`e`, `parse_u64` of `m`, `e`, `e`-digits returns `m * 10 ^ e` when `e < 2 ^ 63` and the
product is below `2 ^ 64`, fails with `integer too large` when `e < 2 ^ 63` and it is not,
and rejects the text as an invalid integer when `e ≥ 2 ^ 63`; a negative exponent, an empty
mantissa and an empty exponent are rejected as an invalid integer. -/
theorem C24_parse_u64_exponent (ms es : List Nat) (hm : Numeral ms)
    (hmv : decimal_value ms < 2 ^ 64) (hne : es ≠ []) (hd : ∀ d ∈ es, d < 10) :
    (decimal_value es < 2 ^ 63 →
        parse_u64 (ms.map digit_char ++ 'e' :: es.map digit_char) =
          if decimal_value ms * 10 ^ decimal_value es < 2 ^ 64 then
            Parsed.value (decimal_value ms * 10 ^ decimal_value es)
          else Parsed.integer_too_large) ∧
      (2 ^ 63 ≤ decimal_value es →
        parse_u64 (ms.map digit_char ++ 'e' :: es.map digit_char) =
          Parsed.invalid_integer) ∧
      (0 < decimal_value es →
        parse_u64 (ms.map digit_char ++ 'e' :: '-' :: es.map digit_char) =
          Parsed.invalid_integer) ∧
      parse_u64 ('e' :: es.map digit_char) = Parsed.invalid_integer ∧
      parse_u64 (ms.map digit_char ++ ['e']) = Parsed.invalid_integer :=
  ⟨parse_u64_exponent ms es hm hmv hne hd, parse_u64_exponent_large ms es hm hmv hne hd,
    parse_u64_exponent_negative ms es hm.2.1 hne hd, parse_u64_empty_mantissa _,
    parse_u64_empty_exponent ms hm.2.1⟩

/-- C24 on the text `12e3`. -/
theorem C24_parse_u64_exponent_witness :
    Numeral [1, 2] ∧ decimal_value [1, 2] < 2 ^ 64 ∧ ([3] : List Nat) ≠ [] ∧
      (∀ d ∈ ([3] : List Nat), d < 10) ∧
      parse_u64 ([1, 2].map digit_char ++ 'e' :: [3].map digit_char) = Parsed.value 12000 :=
  ⟨⟨by decide, by decide, by decide⟩, by decide, by decide, by decide,
    ((C24_parse_u64_exponent [1, 2] [3] ⟨by decide, by decide, by decide⟩ (by decide)
      (by decide) (by decide)).1 (by decide)).trans (by decide)⟩

/-- C25: the final status is that of the latched failure when there is one (`IO_ERROR` for
the writer, `INTERNAL_ERROR` for a callback), with the text of the stored exception;
otherwise `CANCELLED` when a cancellation flag is set, with the message of the prime
callback before that of the progress callback before that of the external token;
otherwise `SUCCESS`, turned into `INTERNAL_ERROR` when `nth_index != 0` and no nth prime
was found; and `stats.cancelled` is set exactly when one of the three flags is. -/
theorem C25_final_status (kind : FailureKind) (text : String)
    (external progress callback : Bool) (nth_index : Nat) (nth_found : Bool) :
    (final_status kind text external progress callback nth_index nth_found).1 =
        (if kind = FailureKind.Writer then Status.IO_ERROR
          else if kind ≠ FailureKind.None then Status.INTERNAL_ERROR
          else if external = true ∨ progress = true ∨ callback = true then Status.CANCELLED
          else if nth_index ≠ 0 ∧ nth_found = false then Status.INTERNAL_ERROR
          else Status.SUCCESS) ∧
      (final_status kind text external progress callback nth_index nth_found).2.1 =
        (if kind ≠ FailureKind.None then text
          else if callback = true then "prime callback requested cancellation"
          else if progress = true then "progress callback requested cancellation"
          else if external = true then "operation cancelled"
          else if nth_index ≠ 0 ∧ nth_found = false then "nth prime not found within range"
          else "") ∧
      ((final_status kind text external progress callback nth_index nth_found).2.2 = true ↔
        (external = true ∨ progress = true ∨ callback = true)) := by
  by_cases hn : nth_index = 0
  · subst hn
    cases kind <;> cases external <;> cases progress <;> cases callback <;>
      cases nth_found <;> simp [final_status]
  · cases kind <;> cases external <;> cases progress <;> cases callback <;>
      cases nth_found <;> simp [final_status, hn]

/-- C26: the prefix chunk is strictly increasing, and its members are the primes of
`[from, to)` that are 2 or divide the wheel modulus: 2 and the basis primes of the wheel. -/
theorem C26_prefix_primes (from_ to_ : Nat) (ty : WheelType) :
    List.Sorted (fun a b => a < b) (prefix_primes from_ to_ ty) ∧
      (∀ p, p ∈ prefix_primes from_ to_ ty ↔
        (Nat.Prime p ∧ (p = 2 ∨ p ∣ (get_wheel ty).modulus) ∧ from_ ≤ p ∧ p < to_)) ∧
      (∀ p, p ∈ wheel_primes ty ↔ (Nat.Prime p ∧ p ≠ 2 ∧ p ∣ (get_wheel ty).modulus)) := by
  refine ⟨(prefix_primes_sorted from_ to_ ty).1, fun p => ?_, fun p => ?_⟩
  · rw [prefix_primes_mem, wheel_primes_spec]
    tauto
  · have h := wheel_primes_spec ty p
    constructor
    · intro hp
      have h3 := wheel_primes_ge ty p hp
      obtain ⟨a, b⟩ := h.1 (Or.inr hp)
      rcases b with b | b
      · omega
      · exact ⟨a, by omega, b⟩
    · rintro ⟨a, b, c⟩
      rcases h.2 ⟨a, Or.inr c⟩ with h1 | h1
      · exact absurd h1 b
      · exact h1

/-- C27: let the marker be built for an odd `range_begin ≥ 3` and an odd `range_end` up to
`2 ^ 63 + 1` with the primes `simple_sieve(floor(sqrt(range_end)) + 1)`, the small limit of
the wheel and a well-formed configuration, and let the single worker `make_thread_state(0,
1)` sieve the segments of the queue in the order 0, 1, 2, .... Then for every segment `[lo,
hi)` the queue hands out and every `i < (hi - lo) / 2`, bit `i` of the buffer that
`sieve_segment` leaves is 0 exactly when `lo + 2 * i` is a prime that does not divide the
wheel modulus. -/
theorem C27_sieve_segment_bits (ty : WheelType) (config : SegmentConfig)
    (range_begin range_end : Nat) (hc : ConfigOK config) (hb3 : 3 ≤ range_begin)
    (hbo : range_begin % 2 = 1) (heo : range_end % 2 = 1) (hend : range_end ≤ 2 ^ 63 + 1)
    (k id lo hi : Nat)
    (hq : queue_next { begin_ := range_begin, end_ := range_end } config k =
      some (id, lo, hi))
    (i : Nat) (hi2 : i < (hi - lo) / 2) :
    get_bit (sieve_segment
        (PrimeMarker.mk_marker (get_wheel ty) config range_begin range_end
          (simple_sieve (floor_sqrt range_end + 1)) (small_limit_of ty))
        (sieve_in_order
          (PrimeMarker.mk_marker (get_wheel ty) config range_begin range_end
            (simple_sieve (floor_sqrt range_end + 1)) (small_limit_of ty)) k)
        id lo hi).2 i = false ↔
      (Nat.Prime (lo + 2 * i) ∧ ¬ (lo + 2 * i) ∣ (get_wheel ty).modulus) := by
  obtain ⟨a1, a2, a3, a4, a5, a6⟩ := runner_marker_ok ty config range_begin range_end hc hend
  have eb := mk_marker_range_begin (get_wheel ty) config range_begin range_end
    (simple_sieve (floor_sqrt range_end + 1)) (small_limit_of ty)
  have ee := mk_marker_range_end (get_wheel ty) config range_begin range_end
    (simple_sieve (floor_sqrt range_end + 1)) (small_limit_of ty)
  have ec := mk_marker_config (get_wheel ty) config range_begin range_end
    (simple_sieve (floor_sqrt range_end + 1)) (small_limit_of ty)
  generalize PrimeMarker.mk_marker (get_wheel ty) config range_begin range_end
    (simple_sieve (floor_sqrt range_end + 1)) (small_limit_of ty) = m at *
  subst eb ee ec
  obtain ⟨s1, s2, s3, s4⟩ := sieve_in_order_struck ty m a1 a2 a3 a4 hbo heo hend k id lo hi
    hq i hi2
  have h5 := struck_iff_not_prime ty m m.range_end (lo + 2 * i) a5 a6 (by omega) s3 s2
  rw [h5] at s4
  constructor
  · intro hf
    by_contra hn
    have := s4.2 hn
    rw [hf] at this
    exact absurd this (by decide)
  · intro hp
    cases hg : get_bit (sieve_segment m (sieve_in_order m k) id lo hi).2 i with
    | false => rfl
    | true => exact absurd hp (s4.1 hg)

/-- C27 for the wheel 30, segments of 8192 bytes and the range `[3, 101)`: bit 2 of segment
0 stands for the value 7. -/
theorem C27_sieve_segment_bits_witness :
    ConfigOK (choose_segment_config_requested 8192 8192) ∧ (3 ≤ 3) ∧ (3 % 2 = 1) ∧
      (101 % 2 = 1) ∧ (101 ≤ 2 ^ 63 + 1) ∧
      queue_next { begin_ := 3, end_ := 101 } (choose_segment_config_requested 8192 8192) 0 =
        some (0, 3, 101) ∧
      (2 < (101 - 3) / 2) ∧
      (get_bit (sieve_segment
          (PrimeMarker.mk_marker (get_wheel WheelType.Mod30)
            (choose_segment_config_requested 8192 8192) 3 101
            (simple_sieve (floor_sqrt 101 + 1)) (small_limit_of WheelType.Mod30))
          (sieve_in_order
            (PrimeMarker.mk_marker (get_wheel WheelType.Mod30)
              (choose_segment_config_requested 8192 8192) 3 101
              (simple_sieve (floor_sqrt 101 + 1)) (small_limit_of WheelType.Mod30)) 0)
          0 3 101).2 2 = false ↔
        (Nat.Prime (3 + 2 * 2) ∧ ¬ (3 + 2 * 2) ∣ (get_wheel WheelType.Mod30).modulus)) :=
  ⟨choose_segment_config_requested_ok 8192 8192 (by norm_num) (by norm_num), by decide,
    by decide, by decide, by norm_num, by decide, by decide,
    C27_sieve_segment_bits WheelType.Mod30 (choose_segment_config_requested 8192 8192) 3 101
      (choose_segment_config_requested_ok 8192 8192 (by norm_num) (by norm_num)) (by decide)
      (by decide) (by decide) (by norm_num) 0 0 3 101 (by decide) 2 (by decide)⟩

/-- C28 fails for an even `from` directly below `to`: for `from = 8`, `to = 9` the runner
resets `odd_begin` to 3 and sieves `[3, 9)`, so `odd_begin` is below `max(from, 3) = 8` and
the odd range holds 3, 5 and 7, none of which lies in `[8, 9)`. -/
theorem C28_odd_range_8_9 :
    odd_range 8 9 = { begin_ := 3, end_ := 9 } ∧ ¬ (Nat.max 8 3 ≤ (odd_range 8 9).begin_) := by
  decide

/-- C29: after `apply_presieve` a bit is set exactly when it was set before or its
position `idx` lies below `bit_count`, inside the buffer, and `start_value + 2 * idx` shares
a factor with the modulus; so on a zeroed buffer that holds `bit_count` bits the bit `idx <
bit_count` is set exactly when `gcd(start_value + 2 * idx, modulus) ≠ 1`, bits are only
set, and no bit from `bit_count` on changes. -/
theorem C29_apply_presieve (ty : WheelType) (start bit_count : Nat) :
    (∀ (bits : List Nat) (idx : Nat),
        get_bit (apply_presieve (get_wheel ty) start bit_count bits) idx =
          (get_bit bits idx || decide (idx < bit_count ∧ idx / 64 < bits.length ∧
            Nat.gcd (start + 2 * idx) (get_wheel ty).modulus ≠ 1))) ∧
      (∀ (n idx : Nat), idx < bit_count → bit_count ≤ 64 * n →
        (get_bit (apply_presieve (get_wheel ty) start bit_count (List.replicate n 0)) idx
            = true ↔
          Nat.gcd (start + 2 * idx) (get_wheel ty).modulus ≠ 1)) ∧
      (∀ (bits : List Nat) (idx : Nat), bit_count ≤ idx →
        get_bit (apply_presieve (get_wheel ty) start bit_count bits) idx =
          get_bit bits idx) ∧
      (∀ (bits : List Nat),
        (apply_presieve (get_wheel ty) start bit_count bits).length = bits.length) := by
  refine ⟨fun bits idx => apply_presieve_spec ty start bit_count bits idx, ?_, ?_,
    fun bits => apply_presieve_length _ _ _ _⟩
  · intro n idx h1 h2
    rw [apply_presieve_spec]
    have hz : get_bit (List.replicate n 0) idx = false := by
      unfold get_bit
      rw [List.getD_eq_getElem?_getD]
      by_cases hi : idx / 64 < n
      · rw [List.getElem?_replicate_of_lt hi]
        simp
      · rw [List.getElem?_eq_none (by rw [List.length_replicate]; omega)]
        simp
    rw [hz, Bool.false_or, decide_eq_true_iff, List.length_replicate]
    constructor
    · exact fun h => h.2.2
    · exact fun h => ⟨h1, by omega, h⟩
  · intro bits idx h
    rw [apply_presieve_spec]
    have : ¬ (idx < bit_count ∧ idx / 64 < bits.length ∧
        Nat.gcd (start + 2 * idx) (get_wheel ty).modulus ≠ 1) := by
      intro ⟨a, _, _⟩
      omega
    rw [decide_eq_false this, Bool.or_false]

/-- C30: for every odd `p` with `3 ≤ p < 2 ^ 32`, so for every odd prime below `2 ^ 32`,
and every `start`, there is a smallest odd multiple `f` of `p` with `f ≥ p * p` and `f ≥
start`, and `first_hit(p, start)` returns it whenever it is below `2 ^ 64`. -/
theorem C30_first_hit (p start : Nat) (hp : 3 ≤ p) (hodd : p % 2 = 1) (h32 : p < 2 ^ 32) :
    ∃ f, (p ∣ f ∧ f % 2 = 1 ∧ p * p ≤ f ∧ start ≤ f ∧
        ∀ g, p ∣ g → g % 2 = 1 → p * p ≤ g → start ≤ g → f ≤ g) ∧
      (f < 2 ^ 64 → first_hit p start = f) := by
  obtain ⟨f, hf⟩ := FirstHit_exists p start hodd
  exact ⟨f, hf, fun hlt => first_hit_exact p start f ⟨hp, hodd, h32⟩ hf hlt⟩

/-- C30 for `p = 7`, `start = 100`. -/
theorem C30_first_hit_witness :
    (3 ≤ 7) ∧ (7 % 2 = 1) ∧ (7 < 2 ^ 32) ∧
      ∃ f, (7 ∣ f ∧ f % 2 = 1 ∧ 7 * 7 ≤ f ∧ 100 ≤ f ∧
          ∀ g, 7 ∣ g → g % 2 = 1 → 7 * 7 ≤ g → 100 ≤ g → f ≤ g) ∧
        (f < 2 ^ 64 → first_hit 7 100 = f) :=
  ⟨by decide, by decide, by norm_num, C30_first_hit 7 100 (by decide) (by decide) (by norm_num)⟩

/-- C31: for every `thread_count ≥ 1`, the large states of worker `t` are the states of the
template at the indices `i` with `i mod thread_count = t`, in template order, so that the
state at index `i` goes to worker `i mod thread_count`, which is below `thread_count`, and
to no other; the small and medium cursors of every worker are the initial ones of the
marker. -/
theorem C31_make_thread_state_partition (m : PrimeMarker) (t T : Nat) (hT : 1 ≤ T) :
    (make_thread_state m t T).large_states =
        (List.range m.large_primes_template.length).filterMap
          (fun i => if i % T = t then m.large_primes_template[i]? else none) ∧
      (∀ i, i % T < T) ∧
      (make_thread_state m t T).small_positions = m.small_initial ∧
      (make_thread_state m t T).medium_positions = m.medium_initial := by
  obtain ⟨h1, h2, h3⟩ := make_thread_state_owned m t T
  exact ⟨h1, fun i => Nat.mod_lt _ (by omega), h2, h3⟩

/-- C31 for a marker with three large states and worker 1 of 2. -/
theorem C31_make_thread_state_partition_witness :
    (1 ≤ 2) ∧
      (make_thread_state
          (PrimeMarker.mk (get_wheel WheelType.Mod30)
            (choose_segment_config_requested 8192 8192) 3 101 [3] [9] [none] [] []
            [LargePrimeState.mk 7 49 14, LargePrimeState.mk 11 121 22,
              LargePrimeState.mk 13 169 26]) 1 2).large_states =
        [LargePrimeState.mk 11 121 22] :=
  ⟨by decide,
    (C31_make_thread_state_partition
      (PrimeMarker.mk (get_wheel WheelType.Mod30)
        (choose_segment_config_requested 8192 8192) 3 101 [3] [9] [none] [] []
        [LargePrimeState.mk 7 49 14, LargePrimeState.mk 11 121 22,
          LargePrimeState.mk 13 169 26]) 1 2 (by decide)).1.trans (by decide)⟩

/-- C35: the constructor classifies as large only primes `p` with `p > segment_span / 2`;
two distinct odd multiples of such a prime are more than `segment_span` apart, so no
segment holds two of them; and for a value `v` of segment `s` the entry scheduled for
`v + 2 * p` has a segment index above `s`. -/
theorem C35_large_prime_one_hit (wheel : Wheel) (config : SegmentConfig) (rb re lim : Nat)
    (ps : List Nat) (hspan : 0 < config.segment_span)
    (hps : ∀ p ∈ ps, p < 2 ^ 32 ∧ (3 ≤ p → p % 2 = 1)) :
    ∀ lp ∈ (PrimeMarker.mk_marker wheel config rb re ps lim).large_primes_template,
      config.segment_span / 2 < lp.prime ∧ lp.stride = 2 * lp.prime ∧
      (∀ a b, lp.prime ∣ a → lp.prime ∣ b → a % 2 = 1 → b % 2 = 1 → a < b →
        config.segment_span < b - a) ∧
      (∀ s v o, rb + s * config.segment_span ≤ v →
        v < rb + s * config.segment_span + config.segment_span →
        v + lp.stride < 2 ^ 64 →
        (schedule_entry (PrimeMarker.mk_marker wheel config rb re ps lim) lp.prime v o).1 = s ∧
        s < (schedule_entry (PrimeMarker.mk_marker wheel config rb re ps lim) lp.prime
          (add64 v lp.stride) o).1) := by
  intro lp hlp
  have hrb := mk_marker_range_begin wheel config rb re ps lim
  have hcfg := mk_marker_config wheel config rb re ps lim
  obtain ⟨_, _, _, _, _, a6⟩ := mk_marker_lists wheel config rb re lim ps
  rw [a6, List.mem_map] at hlp
  obtain ⟨p, hp, rfl⟩ := hlp
  rw [List.mem_filter] at hp
  have h := of_decide_eq_true hp.2
  have h2 := hps p hp.1
  have hodd := h2.2 h.1
  have hl : config.segment_span / 2 < p := by omega
  have hstride : mul64 p 2 = 2 * p := mul64_two p h2.1
  refine ⟨hl, hstride, fun a b ha hb ha2 hb2 hab =>
    large_gap p config.segment_span a b hodd hl ha hb ha2 hb2 hab, ?_⟩
  intro s v o hv1 hv2 hv3
  have hv3' : v + 2 * p < 2 ^ 64 := by
    have : v + mul64 p 2 < 2 ^ 64 := hv3
    omega
  have e1 : (schedule_entry (PrimeMarker.mk_marker wheel config rb re ps lim) p v o).1 =
      (v - rb) / config.segment_span := by
    show sub64 v (PrimeMarker.mk_marker wheel config rb re ps lim).range_begin /
      (PrimeMarker.mk_marker wheel config rb re ps lim).config.segment_span = _
    rw [hrb, hcfg, sub64_eq (by omega) (by omega)]
  have e2 : (schedule_entry (PrimeMarker.mk_marker wheel config rb re ps lim) p
      (add64 v (mul64 p 2)) o).1 = (v + 2 * p - rb) / config.segment_span := by
    show sub64 (add64 v (mul64 p 2))
      (PrimeMarker.mk_marker wheel config rb re ps lim).range_begin /
      (PrimeMarker.mk_marker wheel config rb re ps lim).config.segment_span = _
    rw [hrb, hcfg, hstride, add64_eq hv3', sub64_eq (by omega) hv3']
  have hs : (v - rb) / config.segment_span = s :=
    segment_index_eq rb config.segment_span s v hspan hv1 hv2
  show (schedule_entry (PrimeMarker.mk_marker wheel config rb re ps lim) p v o).1 = s ∧
    s < (schedule_entry (PrimeMarker.mk_marker wheel config rb re ps lim) p
      (add64 v (mul64 p 2)) o).1
  rw [e1, e2]
  exact ⟨hs, segment_index_next rb config.segment_span s v (2 * p) hspan (by omega) hs
    (by omega)⟩

/-- C35 for the primes 5 and 7 with a segment span of 8: 5 and 7 are large. -/
theorem C35_large_prime_one_hit_witness :
    (0 < (SegmentConfig.mk 1 1 4 4 8 8).segment_span) ∧
      (∀ p ∈ [2, 3, 5, 7], p < 2 ^ 32 ∧ (3 ≤ p → p % 2 = 1)) ∧
      ∀ lp ∈ (PrimeMarker.mk_marker (get_wheel WheelType.Mod30) (SegmentConfig.mk 1 1 4 4 8 8)
          3 101 [2, 3, 5, 7] 3).large_primes_template,
        (SegmentConfig.mk 1 1 4 4 8 8).segment_span / 2 < lp.prime :=
  ⟨by decide, by decide, fun lp hlp =>
    (C35_large_prime_one_hit (get_wheel WheelType.Mod30) (SegmentConfig.mk 1 1 4 4 8 8) 3 101 3
      [2, 3, 5, 7] (by decide) (by decide) lp hlp).1⟩

/-- C39 fails at `limit = 2`: `is_composite` has size 1, the marking loop runs for `i = 1`
and reads `is_composite[1]`, so the bounds-checked sieve takes its out-of-bounds branch;
and 2 is the limit the runner passes for `to = 2` and for `to = 3`. -/
theorem C39_simple_sieve_2_out_of_bounds :
    simple_sieve_checked 2 = none ∧ add64 (floor_sqrt 2) 1 = 2 ∧ add64 (floor_sqrt 3) 1 = 2 := by
  decide

/-- C40 fails for a modulus above `2 ^ 63`: with `m = 2 ^ 63 + 1`, `mul_mod(2 ^ 63, 2, m)`
returns 0 because `a << 1` wraps, while `2 ^ 63 * 2 mod m = 2 ^ 63 - 1`; and `mod_pow(2, 64,
m)` returns 0, while `2 ^ 64 mod m = 2 ^ 63 - 1`. -/
theorem C40_mul_mod_wraps :
    mul_mod (2 ^ 63) 2 (2 ^ 63 + 1) = 0 ∧ (2 ^ 63 * 2) % (2 ^ 63 + 1) = 2 ^ 63 - 1 ∧
      mod_pow 2 64 (2 ^ 63 + 1) = 0 ∧ 2 ^ 64 % (2 ^ 63 + 1) = 2 ^ 63 - 1 := by
  decide

/-- C32: for every small prime `p` of the table 3, 5, ..., 47 and every bit `b < 64`,
`start_phase[b] = (p - (2 * b mod p)) mod p`, the mask `masks[start_phase[b]]` has bit
`j < 64` set exactly when `j` is congruent to `b` modulo `p`, and for every phase `r < p`
the mask `masks[next_phase[r]]` has bit `j` set exactly when `j + 64` is congruent modulo
`p` to a set position of `masks[r]`. -/
theorem C32_build_small_pattern (p : Nat) (hp : p ∈ kSmallPrimes) (b : Nat) (hb : b < 64) :
    (build_small_pattern p).start_phase.getD b 0 = (p - (2 * b) % p) % p ∧
      (∀ j, j < 64 →
        (((build_small_pattern p).masks.getD
            ((build_small_pattern p).start_phase.getD b 0) 0).testBit j = true ↔
          j % p = b % p)) ∧
      (∀ r, r < p → ∀ j, j < 64 →
        (((build_small_pattern p).masks.getD
            ((build_small_pattern p).next_phase.getD r 0) 0).testBit j = true ↔
          ∃ j2, j2 < 64 ∧ ((build_small_pattern p).masks.getD r 0).testBit j2 = true ∧
            (j + 64) % p = j2 % p)) :=
  build_small_pattern_phases p hp b hb

/-- C32 for the prime 7 and bit 5: the start phase is `(7 - 10 mod 7) mod 7 = 4`. -/
theorem C32_build_small_pattern_witness :
    7 ∈ kSmallPrimes ∧ 5 < 64 ∧
      (build_small_pattern 7).start_phase.getD 5 0 = (7 - (2 * 5) % 7) % 7 :=
  ⟨by decide, by decide, (C32_build_small_pattern 7 (by decide) 5 (by decide)).1⟩

/-- C34: for every ring the marker builds, that is a ring that is unallocated with base 0
(as after `reset(0)`, the only reset of the source) or of power-of-two capacity `mask + 1`,
with every entry `e` in slot `e.next_index & mask`: `rehash(n)` with `1 ≤ n ≤ 2 ^ 63` leaves
every entry in its slot for the new mask, a power-of-two capacity at least `n`, and the same
entries up to order; `ensure_capacity`, `push(e.next_index, e)` and `take` leave every entry
in its slot and a power-of-two capacity, `ensure_capacity` keeps the entries up to order and
`push` adds `e`; and `push` and `take` leave a ring of this kind again. -/
theorem C34_ring_growth (ring : BucketRing) (hr : RingOK ring)
    (hbase : ring.buckets = [] → ring.base_segment = 0) :
    (∀ n, 1 ≤ n → n ≤ 2 ^ 63 →
      SlotsAt (ring.rehash n).mask (ring.rehash n).buckets ∧
      (∃ j, n ≤ 2 ^ j ∧ (ring.rehash n).buckets.length = 2 ^ j ∧
        (ring.rehash n).mask = 2 ^ j - 1) ∧
      List.Perm (ring.rehash n).entries ring.entries) ∧
    (∀ seg, seg < 2 ^ 64 → seg - ring.base_segment < 2 ^ 63 →
      SlotsAt (ring.ensure_capacity seg).mask (ring.ensure_capacity seg).buckets ∧
      List.Perm (ring.ensure_capacity seg).entries ring.entries ∧
      (∃ j, (ring.ensure_capacity seg).buckets.length = 2 ^ j ∧
        (ring.ensure_capacity seg).mask = 2 ^ j - 1)) ∧
    (∀ seg e, seg < 2 ^ 62 → e.next_index = seg →
      SlotsAt (ring.push seg e).mask (ring.push seg e).buckets ∧
      (∃ j, (ring.push seg e).buckets.length = 2 ^ j ∧ (ring.push seg e).mask = 2 ^ j - 1) ∧
      List.Perm (ring.push seg e).entries (e :: ring.entries) ∧
      RingOK (ring.push seg e) ∧
      ((ring.push seg e).buckets = [] → (ring.push seg e).base_segment = 0)) ∧
    (∀ seg, seg < 2 ^ 64 → seg - ring.base_segment < 2 ^ 63 →
      SlotsAt (ring.take seg).1.mask (ring.take seg).1.buckets ∧
      (∃ j, (ring.take seg).1.buckets.length = 2 ^ j ∧
        (ring.take seg).1.mask = 2 ^ j - 1) ∧
      (seg < 2 ^ 62 → RingOK (ring.take seg).1) ∧
      ((ring.take seg).1.buckets = [] → (ring.take seg).1.base_segment = 0)) := by
  have hne : ∀ seg, seg < 2 ^ 64 → seg - ring.base_segment < 2 ^ 63 →
      (ring.ensure_capacity seg).buckets ≠ [] := by
    intro seg h1 h2
    obtain ⟨_, _, _, _, c5⟩ := ensure_capacity_spec ring seg hr h1 h2
    by_cases hlt : seg < ring.base_segment
    · have hb : ring.buckets ≠ [] := by
        intro h
        have := hbase h
        omega
      unfold BucketRing.ensure_capacity
      rw [if_pos hlt]
      exact hb
    · exact c5 (by omega)
  refine ⟨?_, ?_, ?_, ?_⟩
  · intro n h1 h2
    obtain ⟨j, _, j2, j3, j4, _, j6, j7⟩ := rehash_general ring n h1 h2
    exact ⟨j7, ⟨j, j2, j3, j4⟩, j6⟩
  · intro seg h1 h2
    obtain ⟨_, c2, c3, c4, _⟩ := ensure_capacity_spec ring seg hr h1 h2
    refine ⟨c3, c2, ?_⟩
    rcases c4 with h | ⟨j, _, j2, j3, _⟩
    · exact absurd h (hne seg h1 h2)
    · exact ⟨j, j2, j3⟩
  · intro seg e h1 h2
    obtain ⟨p0, p3, _, p5⟩ := push_spec ring seg e hr h1 h2
    refine ⟨p0.2, ?_, p3, p0, fun h => absurd h p5⟩
    rcases p0.1 with h | ⟨j, _, j2, j3⟩
    · exact absurd h p5
    · exact ⟨j, j2, j3⟩
  · intro seg h1 h2
    obtain ⟨_, _, _, t4, t5, _⟩ := take_spec ring seg hr h1 h2
    have hl := take_length ring seg
    have hne2 : (ring.take seg).1.buckets ≠ [] := by
      intro h
      rw [h] at hl
      exact hne seg h1 h2 (List.length_eq_zero.1 hl.symm)
    refine ⟨t4, ?_, fun h62 => take_RingOK ring seg hr h62, fun h => absurd h hne2⟩
    rcases t5 with h | ⟨j, _, j2, j3, _⟩
    · exact absurd h hne2
    · exact ⟨j, j2, j3⟩

/-- C34 for the fresh ring `reset(0)` and `take(3)`: the ring is allocated with a
power-of-two capacity. -/
theorem C34_ring_growth_witness :
    RingOK (BucketRing.reset 0) ∧
      ((BucketRing.reset 0).buckets = [] → (BucketRing.reset 0).base_segment = 0) ∧
      (∃ j, ((BucketRing.reset 0).take 3).1.buckets.length = 2 ^ j ∧
        ((BucketRing.reset 0).take 3).1.mask = 2 ^ j - 1) :=
  ⟨RingOK_reset 0, fun _ => rfl,
    ((C34_ring_growth (BucketRing.reset 0) (RingOK_reset 0) (fun _ => rfl)).2.2.2 3
      (by decide) (by decide)).2.1⟩

/-- C37: let the runner's marker over the odd range `[range_begin, range_end)` with
`range_end ≤ 2 ^ 63 + 1` and a well-formed configuration be sieved by the single worker
`make_thread_state(0, 1)` in the order 0, 1, 2, .... Before segment `s` (and after the last
one) the worker owns every large prime of the template, with `next_value` the first hit
from the low end of segment `s` on (`large_at`); for every large state with `next_value < range_end`
the ring holds exactly one entry of that owner, with `value = next_value` and `next_index =
(next_value - range_begin) / segment_span ≥ s`; for a large state with `next_value ≥
range_end` it holds no entry; and the state before segment `s + 1` is the one
`sieve_segment` leaves for segment `s`. -/
theorem C37_large_schedule (ty : WheelType) (config : SegmentConfig)
    (range_begin range_end : Nat) (m : PrimeMarker)
    (hm : m = PrimeMarker.mk_marker (get_wheel ty) config range_begin range_end
      (simple_sieve (floor_sqrt range_end + 1)) (small_limit_of ty))
    (hc : ConfigOK config)
    (hbo : range_begin % 2 = 1) (heo : range_end % 2 = 1) (hend : range_end ≤ 2 ^ 63 + 1)
    (hbe : range_begin ≤ range_end) (s : Nat) :
    (sieve_in_order m s).large_states =
        large_at m (Nat.min (range_begin + s * config.segment_span) range_end) ∧
      (∀ o lp, (sieve_in_order m s).large_states[o]? = some lp →
        lp.next_value < range_end →
        (sieve_in_order m s).bucket.entries.count (entry_of m o lp) = 1 ∧
        (∀ e ∈ (sieve_in_order m s).bucket.entries, e.owner = some o → e = entry_of m o lp) ∧
        (entry_of m o lp).value = lp.next_value ∧
        (entry_of m o lp).next_index = (lp.next_value - range_begin) / config.segment_span ∧
        s ≤ (lp.next_value - range_begin) / config.segment_span) ∧
      (∀ o lp, (sieve_in_order m s).large_states[o]? = some lp →
        range_end ≤ lp.next_value →
        ∀ e ∈ (sieve_in_order m s).bucket.entries, e.owner ≠ some o) ∧
      (∀ id lo hi,
        queue_next { begin_ := range_begin, end_ := range_end } config s = some (id, lo, hi) →
        id = s ∧
        sieve_in_order m (s + 1) = (sieve_segment m (sieve_in_order m s) id lo hi).1) := by
  obtain ⟨a1, a2, a3, a4, _, _⟩ := runner_marker_ok ty config range_begin range_end hc hend
  have eb := mk_marker_range_begin (get_wheel ty) config range_begin range_end
    (simple_sieve (floor_sqrt range_end + 1)) (small_limit_of ty)
  have ee := mk_marker_range_end (get_wheel ty) config range_begin range_end
    (simple_sieve (floor_sqrt range_end + 1)) (small_limit_of ty)
  have ec := mk_marker_config (get_wheel ty) config range_begin range_end
    (simple_sieve (floor_sqrt range_end + 1)) (small_limit_of ty)
  rw [← hm] at a1 a2 a3 a4 eb ee ec
  subst eb ee ec
  have hw := sieve_in_order_at_all ty m a1 a2 a3 a4 hbo heo hend hbe s
  have hmin1 : m.range_begin ≤ Nat.min (m.range_begin + s * m.config.segment_span)
      m.range_end := by
    show _ ≤ min _ _
    omega
  have hmin2 : Nat.min (m.range_begin + s * m.config.segment_span) m.range_end ≤
      2 ^ 63 + 1 := (Nat.min_le_right _ _).trans hend
  obtain ⟨w1, w2⟩ := worker_schedule m _ _ hw a2 hmin1 hmin2
  refine ⟨hw.2.2.2, ?_, w2, ?_⟩
  · intro o lp ho hlt
    obtain ⟨b1, b2, b3, b4, b5⟩ := w1 o lp ho hlt
    refine ⟨b1, b2, b3, b4, ?_⟩
    have hs0 : 0 < m.config.segment_span := hc.2.2.2.2.1
    rw [Nat.le_div_iff_mul_le hs0]
    have : m.range_begin + s * m.config.segment_span ≤ lp.next_value := by
      rcases Nat.le_total (m.range_begin + s * m.config.segment_span) m.range_end with h | h
      · rw [natmin_left h] at b5
        exact b5
      · rw [natmin_right h] at b5
        omega
    omega
  · intro id lo hi hq
    have hq2 := queue_next_eq { begin_ := m.range_begin, end_ := m.range_end } m.config s
      hc hbe hend
    rw [hq] at hq2
    by_cases hk : s * m.config.segment_span < m.range_end - m.range_begin
    · rw [if_pos hk] at hq2
      have e1 := (Prod.mk.inj (Option.some.inj hq2)).1
      refine ⟨e1, ?_⟩
      conv_lhs => unfold sieve_in_order
      rw [hq]
    · rw [if_neg hk] at hq2
      exact absurd hq2 (by simp)

/-- C37 for the wheel 30 over `[3, 4491)` with segments of 64 bits (span 128), where 67 is a
large prime (`67 > 128 / 2`) with first hit `67 * 67 = 4489`: before segment 1 the ring holds
its entry exactly once, for segment `(4489 - 3) / 128 = 35`. -/
theorem C37_large_schedule_witness :
    ConfigOK (SegmentConfig.mk 8 8 64 64 128 128) ∧ (3 % 2 = 1) ∧ (4491 % 2 = 1) ∧
      (4491 ≤ 2 ^ 63 + 1) ∧ (3 ≤ 4491) ∧
      (sieve_in_order
        (PrimeMarker.mk_marker (get_wheel WheelType.Mod30) (SegmentConfig.mk 8 8 64 64 128 128)
          3 4491 (simple_sieve (floor_sqrt 4491 + 1)) (small_limit_of WheelType.Mod30))
        1).large_states[0]? = some (LargePrimeState.mk 67 4489 134) ∧
      (sieve_in_order
        (PrimeMarker.mk_marker (get_wheel WheelType.Mod30) (SegmentConfig.mk 8 8 64 64 128 128)
          3 4491 (simple_sieve (floor_sqrt 4491 + 1)) (small_limit_of WheelType.Mod30))
        1).bucket.entries =
        [BucketEntry.mk 67 35 3 4489 (some 0)] ∧
      ((sieve_in_order
          (PrimeMarker.mk_marker (get_wheel WheelType.Mod30)
            (SegmentConfig.mk 8 8 64 64 128 128)
            3 4491 (simple_sieve (floor_sqrt 4491 + 1)) (small_limit_of WheelType.Mod30))
          1).bucket.entries.count
          (entry_of
            (PrimeMarker.mk_marker (get_wheel WheelType.Mod30)
              (SegmentConfig.mk 8 8 64 64 128 128)
              3 4491 (simple_sieve (floor_sqrt 4491 + 1)) (small_limit_of WheelType.Mod30))
            0 (LargePrimeState.mk 67 4489 134)) = 1 ∧
        (entry_of
            (PrimeMarker.mk_marker (get_wheel WheelType.Mod30)
              (SegmentConfig.mk 8 8 64 64 128 128)
              3 4491 (simple_sieve (floor_sqrt 4491 + 1)) (small_limit_of WheelType.Mod30))
            0 (LargePrimeState.mk 67 4489 134)).next_index = (4489 - 3) / 128 ∧
        1 ≤ (4489 - 3) / 128) :=
  ⟨⟨by decide, by decide, by decide, by decide, by decide, by decide, by decide⟩,
    by decide, by decide, by norm_num, by decide, by decide, by decide,
    ⟨((C37_large_schedule WheelType.Mod30 (SegmentConfig.mk 8 8 64 64 128 128) 3 4491 _ rfl
        ⟨by decide, by decide, by decide, by decide, by decide, by decide, by decide⟩
        (by decide) (by decide) (by norm_num) (by decide) 1).2.1 0
        (LargePrimeState.mk 67 4489 134) (by decide) (by decide)).1,
      ((C37_large_schedule WheelType.Mod30 (SegmentConfig.mk 8 8 64 64 128 128) 3 4491 _ rfl
        ⟨by decide, by decide, by decide, by decide, by decide, by decide, by decide⟩
        (by decide) (by decide) (by norm_num) (by decide) 1).2.1 0
        (LargePrimeState.mk 67 4489 134) (by decide) (by decide)).2.2.2.1,
      ((C37_large_schedule WheelType.Mod30 (SegmentConfig.mk 8 8 64 64 128 128) 3 4491 _ rfl
        ⟨by decide, by decide, by decide, by decide, by decide, by decide, by decide⟩
        (by decide) (by decide) (by norm_num) (by decide) 1).2.1 0
        (LargePrimeState.mk 67 4489 134) (by decide) (by decide)).2.2.2.2⟩⟩

/-- C36: let `sieve_segment` run on a segment `[segment_low, segment_high)` with at least
one bit (`segment_low + 2 ≤ segment_high`, as every segment the queue hands out has) and
`segment_high ≤ 2 ^ 63 + 1`, under a well-formed configuration, and let `p`, odd with
`3 ≤ p < 2 ^ 32`, stand at index `i` of the small (or medium) primes. If on entry the cursor
at index `i` is the smallest odd multiple of `p` that is at least `max(p * p, x)` for some
`x ≤ segment_high`, then afterwards the cursor at index `i` is the smallest odd multiple of
`p` that is at least `max(p * p, segment_high)`. Nothing is asked of `x` and `segment_low`,
so segments may have been skipped. -/
theorem C36_cursor_invariant (m : PrimeMarker) (hc : ConfigOK m.config) (st : ThreadState)
    (id low high : Nat) (hlh : low + 2 ≤ high) (hhigh : high ≤ 2 ^ 63 + 1)
    (p : Nat) (hp : SievePrime p) (i c x : Nat) (hx : x ≤ high) (h : FirstHit p x c) :
    (m.small_primes[i]? = some p → st.small_positions[i]? = some c →
      ∃ c2, (sieve_segment m st id low high).1.small_positions[i]? = some c2 ∧
        FirstHit p high c2) ∧
    (m.medium_primes[i]? = some p → st.medium_positions[i]? = some c →
      ∃ c2, (sieve_segment m st id low high).1.medium_positions[i]? = some c2 ∧
        FirstHit p high c2) :=
  sieve_segment_cursor m hc st id low high hlh hhigh p hp i c x hx h

/-- C36 for the small prime 3 of the wheel-30 marker over `[3, 401)`, with cursor 9, on the
segment `[201, 401)` although the segment `[3, 201)` was not sieved. -/
theorem C36_cursor_invariant_witness :
    ConfigOK (PrimeMarker.mk_marker (get_wheel WheelType.Mod30)
        (choose_segment_config_requested 8192 8192) 3 401
        (simple_sieve (floor_sqrt 401 + 1)) (small_limit_of WheelType.Mod30)).config ∧
      (201 + 2 ≤ 401) ∧ (401 ≤ 2 ^ 63 + 1) ∧ SievePrime 3 ∧ (3 ≤ 401) ∧ FirstHit 3 3 9 ∧
      ∃ c2, (sieve_segment
          (PrimeMarker.mk_marker (get_wheel WheelType.Mod30)
            (choose_segment_config_requested 8192 8192) 3 401
            (simple_sieve (floor_sqrt 401 + 1)) (small_limit_of WheelType.Mod30))
          (make_thread_state
            (PrimeMarker.mk_marker (get_wheel WheelType.Mod30)
              (choose_segment_config_requested 8192 8192) 3 401
              (simple_sieve (floor_sqrt 401 + 1)) (small_limit_of WheelType.Mod30))
            0 1)
          0 201 401).1.small_positions[0]? = some c2 ∧ FirstHit 3 401 c2 :=
  ⟨(mk_marker_config _ _ _ _ _ _).symm ▸
      choose_segment_config_requested_ok 8192 8192 (by norm_num) (by norm_num),
    by decide, by norm_num, ⟨by decide, by decide, by norm_num⟩, by decide,
    ⟨⟨3, rfl⟩, by decide, by decide, by decide, fun _ _ _ g3 _ => g3⟩,
    (C36_cursor_invariant _
      ((mk_marker_config _ _ _ _ _ _).symm ▸
        choose_segment_config_requested_ok 8192 8192 (by norm_num) (by norm_num))
      _ 0 201 401 (by decide) (by norm_num) 3 ⟨by decide, by decide, by norm_num⟩ 0 9 3
      (by decide) ⟨⟨3, rfl⟩, by decide, by decide, by decide, fun _ _ _ g3 _ => g3⟩).1
      (by decide) (by decide)⟩

/-- C38 fails at the top of the 64-bit range: for the prime 7, the tile of 64 bits that
starts at `2 ^ 64 - 129` (so that `tile_end = 2 ^ 64 - 1`) and the cursor `2 ^ 64 - 9`, an
odd multiple of 7, the pattern path sets bit 60 and leaves the cursor `2 ^ 64 - 9 + 14`
wrapped to 5; the scalar loop, after the same store, stands at the wrapped cursor 5, which
is below `tile_end`, so it goes on: its next store is for word 1, past the one word of the
tile, and it does not end with the cursor 5. -/
theorem C38_top_of_range :
    (2 ^ 64 - 9) % 7 = 0 ∧
      small_prime_step
          { start_value := 2 ^ 64 - 129, bit_offset := 0, bit_count := 64, word_base := 0,
            word_count := words_for_bits 64 }
          7 (some (build_small_pattern 7)) (2 ^ 64 - 9) [0] = ([2 ^ 60], 5) ∧
      scalar_marks
          { start_value := 2 ^ 64 - 129, bit_offset := 0, bit_count := 64, word_base := 0,
            word_count := words_for_bits 64 }
          (2 ^ 64 - 1) 14 1 (2 ^ 64 - 9) [0] = ([2 ^ 60], 5) ∧
      5 < 2 ^ 64 - 1 ∧ (sub64 5 (2 ^ 64 - 129) >>> 1) / 64 = 1 ∧ words_for_bits 64 = 1 ∧
      (small_prime_step
          { start_value := 2 ^ 64 - 129, bit_offset := 0, bit_count := 64, word_base := 0,
            word_count := words_for_bits 64 }
          7 none (2 ^ 64 - 9) [0]).2 ≠ 5 := by
  decide

/-- C38, amended: for every prime `p` of the table of small primes (3, 5, ..., 47), every
tile with `word_count = words_for_bits(bit_count)` that ends at or below `2 ^ 63 + 1`, every
64-bit cursor and every buffer, the pattern path with the pattern built for `p` and the
scalar path of `apply_small_primes` leave the same cursor, and the same bit at every
position below the end of the tile (`64 * word_base + bit_count`), so in particular among
the first `bit_count` bits of the tile. -/
theorem C38_pattern_equals_scalar (p : Nat) (hk : p ∈ kSmallPrimes) (tile : TileView)
    (hwc : tile.word_count = words_for_bits tile.bit_count)
    (hend : tile.start_value + 2 * tile.bit_count ≤ 2 ^ 63 + 1) (pos0 : Nat)
    (hpos0 : pos0 < 2 ^ 64) (bits : List Nat) :
    (small_prime_step tile p (some (build_small_pattern p)) pos0 bits).2 =
        (small_prime_step tile p none pos0 bits).2 ∧
      ∀ idx, idx < 64 * tile.word_base + tile.bit_count →
        get_bit (small_prime_step tile p (some (build_small_pattern p)) pos0 bits).1 idx =
          get_bit (small_prime_step tile p none pos0 bits).1 idx :=
  small_prime_step_paths p hk tile hwc hend pos0 hpos0 bits

/-- C38 for the prime 7, the tile of 64 bits from the value 3 on and the cursor 49. -/
theorem C38_pattern_equals_scalar_witness :
    7 ∈ kSmallPrimes ∧ (1 = words_for_bits 64) ∧ (3 + 2 * 64 ≤ 2 ^ 63 + 1) ∧
      (49 < 2 ^ 64) ∧
      (small_prime_step
          { start_value := 3, bit_offset := 0, bit_count := 64, word_base := 0,
            word_count := 1 }
          7 (some (build_small_pattern 7)) 49 [0]).2 =
        (small_prime_step
          { start_value := 3, bit_offset := 0, bit_count := 64, word_base := 0,
            word_count := 1 }
          7 none 49 [0]).2 :=
  ⟨by decide, by decide, by norm_num, by norm_num,
    (C38_pattern_equals_scalar 7 (by decide)
      { start_value := 3, bit_offset := 0, bit_count := 64, word_base := 0, word_count := 1 }
      (by decide) (by norm_num) 49 (by norm_num) [0]).1⟩

/-- C33 fails for `x = 2 ^ 64 - 1`: `phi(x, 1)` is `(x + 1) >> 1` in 64 bits, and `x + 1`
wraps to 0, so `phi(2 ^ 64 - 1, 1) = 0`, while `2 ^ 63` integers of `[1, 2 ^ 64 - 1]` are
odd (and `floor((x + 1) / 2) = 2 ^ 63`). -/
theorem C33_phi_wraps_at_max :
    phi [2, 3, 5] (2 ^ 64 - 1) 1 = 0 ∧ phi_reference [2, 3, 5] (2 ^ 64 - 1) 1 = 2 ^ 63 ∧
      (2 ^ 64 - 1 + 1) / 2 = 2 ^ 63 := by
  refine ⟨by decide, ?_, by norm_num⟩
  rw [phi_reference_one [2, 3, 5] (2 ^ 64 - 1) rfl]
  norm_num

/-- C33, amended: for an increasing list of primes that starts with 2 (as the list of the
first primes does), every `s ≤ length(primes_)` and every `x < 2 ^ 64 - 1`, `phi(x, s)` is
the number of integers in `[1, x]` that none of the first `s` primes divides; `phi(x, 0) =
x`, `phi(x, 1) = floor((x + 1) / 2)`, and for `s ≥ 2` `phi(x, s) = phi(x, s - 1) -
phi(floor(x / p_s), s - 1)` with no borrow; and on every memo table that holds values of
`phi` (the empty one, and every one `phi` has filled) the memoised `phi` returns the same
value and leaves such a table. -/
theorem C33_phi_counts (primes : List Nat) (hprime : ∀ p ∈ primes, Nat.Prime p)
    (hinc : primes.Pairwise (fun a b => a < b)) (hfirst : ∀ q, primes[0]? = some q → q = 2)
    (s : Nat) (hs : s ≤ primes.length) (x : Nat) (hx : x + 1 < 2 ^ 64) :
    phi primes x s = phi_reference primes x s ∧
      phi primes x 0 = x ∧ phi primes x 1 = (x + 1) / 2 ∧
      (2 ≤ s →
        phi primes (x / primes.getD (s - 1) 0) (s - 1) ≤ phi primes x (s - 1) ∧
        phi primes x s =
          phi primes x (s - 1) - phi primes (x / primes.getD (s - 1) 0) (s - 1)) ∧
      (∀ cache, CacheOK primes cache →
        (phi_memo primes cache x s).1 = phi primes x s ∧
        CacheOK primes (phi_memo primes cache x s).2) ∧
      CacheOK primes [] := by
  refine ⟨phi_eq_reference primes hprime hinc hfirst s hs x hx, rfl, ?_, ?_,
    fun cache hc => phi_memo_spec primes s hs cache hc x, ?_⟩
  · rw [phi_one, add64_eq hx, Nat.shiftRight_eq_div_pow]
  · intro h2
    have hlt : s - 1 < primes.length := by omega
    have hp : primes[s - 1]? = some (primes[s - 1]) := List.getElem?_eq_getElem hlt
    have hpp : Nat.Prime (primes[s - 1]) := hprime _ (List.getElem_mem _)
    have hgd : primes.getD (s - 1) 0 = primes[s - 1] := by
      rw [List.getD_eq_getElem?_getD, hp]
      rfl
    have hdiv : x / primes[s - 1] ≤ x := Nat.div_le_self _ _
    have e1 := phi_eq_reference primes hprime hinc hfirst (s - 1) (by omega) x hx
    have e2 := phi_eq_reference primes hprime hinc hfirst (s - 1) (by omega)
      (x / primes[s - 1]) (by omega)
    have hstep := phi_reference_succ primes x (s - 1) _ hp hpp
      (take_other primes hprime hinc (s - 1) _ hp)
    have hle := phi_reference_le primes x (s - 1)
    rw [phi_succ primes x s h2 hs, hgd, e1, e2]
    refine ⟨by omega, ?_⟩
    rw [sub64_eq (by omega) (by omega)]
  · intro key v hv
    simp at hv

/-- C33 for the primes 2, 3, 5 and `phi(30, 3)`: 8 integers of `[1, 30]` are prime to 30. -/
theorem C33_phi_counts_witness :
    (∀ p ∈ [2, 3, 5], Nat.Prime p) ∧ [2, 3, 5].Pairwise (fun a b => a < b) ∧
      (∀ q, [2, 3, 5][0]? = some q → q = 2) ∧ 3 ≤ [2, 3, 5].length ∧ 30 + 1 < 2 ^ 64 ∧
      phi [2, 3, 5] 30 3 = phi_reference [2, 3, 5] 30 3 ∧ phi [2, 3, 5] 30 3 = 8 :=
  ⟨by decide, by decide, by decide, by decide, by norm_num,
    (C33_phi_counts [2, 3, 5] (by decide) (by decide) (by decide) 3 (by decide) 30
      (by norm_num)).1, by decide⟩

/-- C22, amended: whatever size the heuristic or the request chooses for the segment,
whatever cap, requested tile size and L1 size, `choose_segment_config` returns `tile_bytes ≤
segment_bytes`, `segment_bytes ≥ 8192`, both multiples of 128, and `tile_bytes ≥ 8192` when
no tile size is requested or the requested one exceeds 8064; a requested tile size from 1 to
8064 is rounded up to the next multiple of 128 and no further: `tile_bytes` is at least 128,
at least the requested size and less than the requested size plus 128. -/
theorem C22_config_sizes (chosen cap rt l1 : Nat) (h1 : chosen < 2 ^ 64)
    (h3 : rt < 2 ^ 64) (h4 : l1 < 2 ^ 64) :
    (finish_segment_config chosen cap rt l1).tile_bytes ≤
        (finish_segment_config chosen cap rt l1).segment_bytes ∧
      8192 ≤ (finish_segment_config chosen cap rt l1).segment_bytes ∧
      (finish_segment_config chosen cap rt l1).segment_bytes % 128 = 0 ∧
      (finish_segment_config chosen cap rt l1).tile_bytes % 128 = 0 ∧
      (rt = 0 ∨ 8064 < rt → 8192 ≤ (finish_segment_config chosen cap rt l1).tile_bytes) ∧
      (0 < rt → rt ≤ 8064 →
        128 ≤ (finish_segment_config chosen cap rt l1).tile_bytes ∧
        rt ≤ (finish_segment_config chosen cap rt l1).tile_bytes ∧
        (finish_segment_config chosen cap rt l1).tile_bytes < rt + 128) := by
  obtain ⟨a1, a2, a3, a4, a5⟩ := finish_segment_config_sizes chosen cap rt l1 h1 h3 h4
  refine ⟨a1, a2, a3, a4, a5, ?_⟩
  intro h0 h8
  obtain ⟨b1, b2, b3, _⟩ := finish_segment_config_small_tile chosen cap rt l1 h0 h8
  exact ⟨b1, b2, b3⟩

/-- C22 for a heuristic size of 100000 bytes under a cap of 65536, a requested tile of 100
bytes and 32768 bytes of L1: the tile has 128 bytes. -/
theorem C22_config_sizes_witness :
    (100000 < 2 ^ 64) ∧ (100 < 2 ^ 64) ∧ (32768 < 2 ^ 64) ∧
      (finish_segment_config 100000 65536 100 32768).tile_bytes = 128 ∧
      128 ≤ (finish_segment_config 100000 65536 100 32768).tile_bytes ∧
      (finish_segment_config 100000 65536 100 32768).tile_bytes ≤
        (finish_segment_config 100000 65536 100 32768).segment_bytes :=
  ⟨by norm_num, by norm_num, by norm_num, by decide,
    ((C22_config_sizes 100000 65536 100 32768 (by norm_num) (by norm_num)
      (by norm_num)).2.2.2.2.2 (by decide) (by decide)).1,
    (C22_config_sizes 100000 65536 100 32768 (by norm_num) (by norm_num) (by norm_num)).1⟩

end calcprime
